import Mathlib

/-!
# QmlJS interpreter: value graph, scope chain and C++ type registry

A shallow embedding of `src/libs/qmljs/qmljsinterpreter.cpp`.

* Pointers to engine-owned values are addresses (`Nat`) into a store; a pointer that the
  source tests against null is an `Option`.
* `QString` is `String`; `QHash`/`QMap` are association lists (`QMap` keeps its keys sorted).
* Recursion that the source does not bound (prototype walks, reference resolution, the
  prototype-linking loop of `CppQmlTypes::load`) takes a fuel argument; the result `none`
  means that the fuel did not suffice.
-/

namespace QmlJS

/-! ## Values -/

/-- The kinds of `Value`. The seven primitive kinds are singletons of an engine; object
values (`ObjectValue` and its subclasses) and references have identity, given by their
address. -/
inductive Value where
  | nullValue
  | undefinedValue
  | numberValue
  | booleanValue
  | stringValue
  | colorValue
  | anchorLineValue
  | objectValue (address : Nat)
  | reference (address : Nat)
  deriving DecidableEq, Repr

/-- `value_cast<const ObjectValue *>(v)` for a possibly null `v`: the address when `v` is an
object value, null otherwise (`Value::asObjectValue` returns 0 for every other kind). -/
def Value.asObjectValue : Option Value → Option Nat
  | some (.objectValue a) => some a
  | _ => none

/-- `value_cast<const Reference *>(v)` for a possibly null `v`. -/
def Value.asReference : Option Value → Option Nat
  | some (.reference r) => some r
  | _ => none

/-- The callback of a `MemberProcessor` through which a member is reported. -/
inductive MemberKind where
  | property
  | enumerator
  | signal
  | slot
  | generatedSlot
  deriving DecidableEq, Repr

/-- `ImportInfo::Type`, as far as `TypeEnvironment::lookupMember` tells the enumerators
apart: file imports are matched by class name, every other import by its members. -/
inductive ImportType where
  | InvalidImport
  | FileImport
  | LibraryImport
  deriving DecidableEq, Repr

/-- `ImportInfo`: `id` is the text of the import's `as` alias, empty when there is none. -/
structure ImportInfo where
  type : ImportType
  name : String
  id : String
  deriving DecidableEq, Repr

/-- Which class an object value is an instance of, as far as member lookup can tell.
* `plain`: an `ObjectValue` backed by its property map only;
* `synthesized reported`: a subclass overriding `processMembers` (`QmlObjectValue`,
  `ASTObjectValue`), which reports the members `reported` to the processor, without looking at
  what the processor answers, and then calls `ObjectValue::processMembers`;
* `typeEnvironment imports`: a `TypeEnvironment`, which overrides `lookupMember`; `imports`
  is `_imports` in iteration order. -/
inductive ObjectKind where
  | plain
  | synthesized (reported : List (MemberKind × String × Value))
  | typeEnvironment (imports : List (Nat × ImportInfo))
  deriving DecidableEq, Repr

/-- What the `dynamic_cast`s of `Context::defaultPropertyName` find in an object value: an
`ASTObjectValue` (a script-declared object), a `QmlObjectValue` (an externally described
component type), each with the result of its own `defaultPropertyName()`, or another class. -/
inductive DynamicClass where
  | otherObjectValue
  | astObjectValue (defaultPropertyName : String)
  | qmlObjectValue (defaultPropertyName : String)
  deriving DecidableEq, Repr

/-- The classes of the function values, as the virtual `invoke` and `property` tell them
apart: `functionValue` stands for `FunctionValue` itself and for the subclasses that inherit
its `invoke` (`ASTFunctionValue`), `function` for `Function` itself; the eight constructors are
subclasses of `Function`. -/
inductive FunctionClass where
  | functionValue
  | metaFunction
  | function
  | objectCtor
  | functionCtor
  | arrayCtor
  | stringCtor
  | booleanCtor
  | numberCtor
  | dateCtor
  | regExpCtor
  deriving DecidableEq, Repr

/-- What a `FunctionValue` adds to an `ObjectValue`: its class and, for a `Function`,
`_returnValue` (null when `none`) and `_arguments`. -/
structure FunctionState where
  functionClass : FunctionClass := .functionValue
  _returnValue : Option Value := none
  _arguments : List Value := []
  deriving DecidableEq, Repr

/-- The state of an `ObjectValue`: `_className`, `_members` (a `QHash<QString, const Value *>`
in iteration order; the stored pointers are engine-owned values, never null) and `_prototype`
(null when `none`); `dynamicClass` tells which subclass the object is an instance of, and
`asFunctionValue` is the function part of an object that is a `FunctionValue` (none for an
object that is not one, as `Value::asFunctionValue` answers null). -/
structure ObjectValue where
  className : String := ""
  _members : List (String × Value) := []
  _prototype : Option Value := none
  kind : ObjectKind := .plain
  dynamicClass : DynamicClass := .otherObjectValue
  asFunctionValue : Option FunctionState := none
  deriving DecidableEq, Repr

instance : Inhabited ObjectValue := ⟨{}⟩

/-- The body of `Reference::value(context)`, seen from the reference stack of the context:
the body either returns a (possibly null) value, or asks the context to resolve another
reference with `Context::lookupReference` and goes on with the answer. The base class returns
`undefinedValue`. -/
inductive ReferenceBody where
  | ret (v : Option Value)
  | lookupReference (r : Nat) (next : Option Value → ReferenceBody)

instance : Inhabited ReferenceBody := ⟨.ret (some .undefinedValue)⟩

/-- The values owned by an engine: object values and references, each addressed by its
position. -/
structure Heap where
  objects : List ObjectValue := []
  references : List ReferenceBody := []

/-- Dereference an object pointer. -/
def Heap.obj (h : Heap) (a : Nat) : ObjectValue := h.objects.getD a default

/-- Dereference a reference pointer. -/
def Heap.ref (h : Heap) (r : Nat) : ReferenceBody := h.references.getD r default

/-! ## Scope chain and context -/

/-- What the scope chain reads from a document: its file name and, through its bind
collaborator, the root object value and the id environment (both may be null). -/
structure Document where
  fileName : String := ""
  rootObjectValue : Option Nat := none
  idEnvironment : Option Nat := none
  deriving DecidableEq, Repr

/-- `ScopeChain::QmlComponentChain`: the chains of the instantiating components and the
document of the component (null when `none`). -/
inductive QmlComponentChain where
  | mk (instantiatingComponents : List QmlComponentChain) (document : Option Document)

mutual
/-- `ScopeChain::QmlComponentChain::collect`. -/
def QmlComponentChain.collect : QmlComponentChain → List Nat → List Nat
  | .mk parents document, list =>
    let list := QmlComponentChain.collectParents parents list
    match document with
    | none => list
    | some doc =>
      let list := match doc.rootObjectValue with
        | some root => list ++ [root]
        | none => list
      match doc.idEnvironment with
      | some ids => list ++ [ids]
      | none => list
/-- The `foreach` over the instantiating components, each collected in turn. -/
def QmlComponentChain.collectParents : List QmlComponentChain → List Nat → List Nat
  | [], list => list
  | parent :: rest, list => QmlComponentChain.collectParents rest (parent.collect list)
end

/-- `QmlComponentChain::instantiatingComponents`. -/
def QmlComponentChain.instantiatingComponents : QmlComponentChain → List QmlComponentChain
  | .mk parents _ => parents

/-- `QmlComponentChain::document`. -/
def QmlComponentChain.document : QmlComponentChain → Option Document
  | .mk _ document => document

/-- `ScopeChain`. `globalScope` is appended and dereferenced unchecked by the source, so it is
a plain pointer; `qmlComponentScope` and `qmlTypes` are tested against null. -/
structure ScopeChain where
  globalScope : Nat := 0
  qmlComponentScope : Option QmlComponentChain := none
  qmlScopeObjects : List Nat := []
  qmlTypes : Option Nat := none
  jsScopes : List Nat := []
  all : List Nat := []

/-- `ScopeChain::update`. -/
def ScopeChain.update (sc : ScopeChain) : ScopeChain :=
  let all : List Nat := []
  let all := all ++ [sc.globalScope]
  -- the root scope in js files doesn't see instantiating components
  let all :=
    if sc.jsScopes.length ≠ 1 ∨ ¬ sc.qmlScopeObjects.isEmpty then
      match sc.qmlComponentScope with
      | some scope => QmlComponentChain.collectParents scope.instantiatingComponents all
      | none => all
    else all
  let doc : Option Document := sc.qmlComponentScope.bind QmlComponentChain.document
  let root : Option Nat := doc.bind Document.rootObjectValue
  let ids : Option Nat := doc.bind Document.idEnvironment
  let all := match root with
    | some r => if sc.qmlScopeObjects.contains r then all else all ++ [r]
    | none => all
  let all := all ++ sc.qmlScopeObjects
  let all := match ids with
    | some i => all ++ [i]
    | none => all
  let all := match sc.qmlTypes with
    | some t => all ++ [t]
    | none => all
  let all := all ++ sc.jsScopes
  { sc with all := all }

/-- `Context`: the scope chain, the per-document type environments (keyed by file name), the
per-object computed properties and the stack of the references under resolution, which is
the one member that the `const` lookups change. -/
structure Context where
  scopeChain : ScopeChain := {}
  typeEnvironments : List (String × Nat) := []
  properties : List (Nat × List (String × Value)) := []
  referenceStack : List Nat := []

/-- Run the body of a reference; `resolve` is `Context::lookupReference` of the context. -/
def ReferenceBody.run (resolve : Nat → Context → Option (Option Value × Context)) :
    ReferenceBody → Context → Option (Option Value × Context)
  | .ret v, ctx => some (v, ctx)
  | .lookupReference r next, ctx =>
    match resolve r ctx with
    | none => none
    | some (v, ctx1) => (next v).run resolve ctx1

/-- `Context::lookupReference`. A reference that is on the stack resolves to null; any other
is pushed, evaluated and popped. One unit of fuel pays for one level of nested resolution. -/
def Context.lookupReference (h : Heap) :
    Nat → Nat → Context → Option (Option Value × Context)
  | 0, reference, ctx =>
    if ctx.referenceStack.contains reference then some (none, ctx) else none
  | fuel + 1, reference, ctx =>
    if ctx.referenceStack.contains reference then some (none, ctx)
    else
      match (h.ref reference).run (Context.lookupReference h fuel)
          { ctx with referenceStack := ctx.referenceStack ++ [reference] } with
      | none => none
      | some (v, ctx1) => some (v, { ctx1 with referenceStack := ctx1.referenceStack.dropLast })

/-! ## Member lookup -/

/-- `QHash::value(name)` on a property map: the stored value, null when the key is absent. -/
def findMember (name : String) : List (String × Value) → Option Value
  | [] => none
  | (key, value) :: rest => if key = name then some value else findMember name rest

/-- `LookupMember::process`: the state is `_value`; the answer tells the caller whether to
go on. Every callback of `LookupMember` forwards to it. -/
def LookupMember.process (_name : String) (_value : Option Value) (name : String)
    (value : Value) : Option Value × Bool :=
  if _value.isSome then (_value, false)
  else if name = _name then (some value, false)
  else (_value, true)

/-- `ObjectValue::processMembers` with a `LookupMember` processor: the property map is
enumerated until the processor answers false. -/
def ObjectValue.processOwnMembers (_name : String) :
    List (String × Value) → Option Value → Option Value
  | [], _value => _value
  | (key, value) :: rest, _value =>
    let (_value, goOn) := LookupMember.process _name _value key value
    if goOn then ObjectValue.processOwnMembers _name rest _value else _value

/-- The members that an overriding `processMembers` reports to a `LookupMember` processor
before the property map; the answers of the processor are not looked at. -/
def ObjectValue.processReported (_name : String) :
    List (MemberKind × String × Value) → Option Value → Option Value
  | [], _value => _value
  | (_, key, value) :: rest, _value =>
    ObjectValue.processReported _name rest (LookupMember.process _name _value key value).1

/-- The virtual `processMembers` of an object that inherits `ObjectValue::lookupMember`, run
with a fresh `LookupMember slowLookup(name)`; the result is `slowLookup.value()`. -/
def ObjectValue.slowLookup (o : ObjectValue) (name : String) : Option Value :=
  match o.kind with
  | .synthesized reported =>
    ObjectValue.processOwnMembers name o._members (ObjectValue.processReported name reported none)
  | _ => ObjectValue.processOwnMembers name o._members none

/-- `ObjectValue::prototype(context)`: the stored prototype when it is an object value;
when it is a reference, what the context resolves it to, narrowed to an object value. -/
def ObjectValue.prototype (h : Heap) (fuel : Nat) (o : ObjectValue) (ctx : Context) :
    Option (Option Nat × Context) :=
  match Value.asObjectValue o._prototype with
  | some prototypeObject => some (some prototypeObject, ctx)
  | none =>
    match Value.asReference o._prototype with
    | some prototypeReference =>
      match Context.lookupReference h fuel prototypeReference ctx with
      | none => none
      | some (v, ctx1) => some (Value.asObjectValue v, ctx1)
    | none => some (none, ctx)

/-- The loop of `TypeEnvironment::lookupMember` over the imports; `property` is
`import->property(name, context)`, which is the virtual `lookupMember` of the import. -/
def TypeEnvironment.lookupImports (h : Heap)
    (property : Nat → Context → Option (Option Value × Context)) (name : String) :
    List (Nat × ImportInfo) → Context → Option (Option Value × Context)
  | [], ctx => some (none, ctx)
  | (imp, info) :: rest, ctx =>
    if info.id ≠ "" then
      if info.id = name then some (some (.objectValue imp), ctx)
      else TypeEnvironment.lookupImports h property name rest ctx
    else if info.type = .FileImport then
      if (h.obj imp).className = name then some (some (.objectValue imp), ctx)
      else TypeEnvironment.lookupImports h property name rest ctx
    else
      match property imp ctx with
      | none => none
      | some (some v, ctx1) => some (some v, ctx1)
      | some (none, ctx1) => TypeEnvironment.lookupImports h property name rest ctx1

/-- The virtual `lookupMember(name, context, examinePrototypes)` of the object at `address`:
`ObjectValue::lookupMember`, or `TypeEnvironment::lookupMember` for a type environment.
The result is the member (null when there is none) and the context after the call. One
unit of fuel pays for one call. -/
def ObjectValue.lookupMember (h : Heap) :
    Nat → Nat → String → Context → Bool → Option (Option Value × Context)
  | 0, _, _, _, _ => none
  | fuel + 1, address, name, ctx, examinePrototypes =>
    match (h.obj address).kind with
    | .typeEnvironment imports =>
      TypeEnvironment.lookupImports h
        (fun imp c => ObjectValue.lookupMember h fuel imp name c true) name imports ctx
    | _ =>
      match findMember name (h.obj address)._members with
      | some m => some (some m, ctx)
      | none =>
        match (h.obj address).slowLookup name with
        | some m => some (some m, ctx)
        | none =>
          if examinePrototypes then
            match (h.obj address).prototype h fuel ctx with
            | none => none
            | some (none, ctx1) => some (none, ctx1)
            | some (some prototypeObject, ctx1) =>
              match ObjectValue.lookupMember h fuel prototypeObject name ctx1 true with
              | none => none
              | some (some m, ctx2) => some (some m, ctx2)
              | some (none, ctx2) => some (none, ctx2)
          else some (none, ctx)

/-- The loop of `Context::lookup`, written over the scopes still to visit, innermost
first. -/
def Context.lookupScopes (h : Heap) (fuel : Nat) (name : String) :
    List Nat → Context → Option ((Value × Option Nat) × Context)
  | [], ctx => some ((.undefinedValue, none), ctx)
  | scope :: rest, ctx =>
    match ObjectValue.lookupMember h fuel scope name ctx true with
    | none => none
    | some (some member, ctx1) => some ((member, some scope), ctx1)
    | some (none, ctx1) => Context.lookupScopes h fuel name rest ctx1

/-- `Context::lookup(name, foundInScope)`: the scopes of `_scopeChain.all()` are visited from
the last index down to index 0. The result is the returned value together with
`*foundInScope`. -/
def Context.lookup (h : Heap) (fuel : Nat) (ctx : Context) (name : String) :
    Option ((Value × Option Nat) × Context) :=
  Context.lookupScopes h fuel name ctx.scopeChain.all.reverse ctx

/-- The number of references of the heap that are not on the stack: a bound on the depth
of nested resolution. -/
def Context.unresolved (h : Heap) (stack : List Nat) : Nat :=
  ((List.range h.references.length).filter (fun a => !stack.contains a)).length

/-! ## Scenarios of the value graph -/

/-- The scope precedence scenario: the global scope (address 0) holds `x = G`, the outer js
scope (address 1) holds `x = O` and the inner js scope (address 2) holds `x = I`; `G`, `O` and
`I` are the number, string and boolean values. -/
def scopeScenarioHeap : Heap :=
  { objects := [{ _members := [("x", .numberValue)] }, { _members := [("x", .stringValue)] },
      { _members := [("x", .booleanValue)] }] }

/-- The context of the scope precedence scenario, its scope chain flattened by `update`. -/
def scopeScenarioContext : Context :=
  { scopeChain := ScopeChain.update { globalScope := 0, jsScopes := [1, 2] } }

/-- Whether `chain` is the prototype chain of its first object, made of plain object values
only and ending without a cycle: each object of the list is a plain `ObjectValue` whose
`prototype(context)` (a direct object, or a reference resolved with fuel `fuel`) is the next
object of the list, and the last object has no prototype object. -/
def isPlainChain (h : Heap) (fuel : Nat) (ctx : Context) : List Nat → Bool
  | [] => false
  | [o] =>
    decide ((h.obj o).kind = .plain)
      && decide (((h.obj o).prototype h fuel ctx).map Prod.fst = some none)
  | o :: p :: rest =>
    decide ((h.obj o).kind = .plain)
      && decide (((h.obj o).prototype h fuel ctx).map Prod.fst = some (some p))
      && isPlainChain h fuel ctx (p :: rest)

/-- The manual walk of the specification over the objects `o`, `prototype(o)`,
`prototype(prototype(o))`, ...: the first own-property-map entry for `name`, not found
(`none`) when no object of the chain has one. -/
def manualWalk (h : Heap) (name : String) : List Nat → Option Value
  | [] => none
  | o :: rest =>
    match findMember name (h.obj o)._members with
    | some v => some v
    | none => manualWalk h name rest

/-- A chain of three plain objects: address 0 holds `a`, its prototype 1 holds `a` and `b`,
and the prototype of that, given by reference 0, is the object 2, which holds `c`. -/
def chainScenarioHeap : Heap :=
  { objects := [
      { _members := [("a", .numberValue)], _prototype := some (.objectValue 1) },
      { _members := [("a", .stringValue), ("b", .booleanValue)],
        _prototype := some (.reference 0) },
      { _members := [("c", .nullValue)] }],
    references := [.ret (some (.objectValue 2))] }

/-- The prototype cycle: two plain objects without members, `A` at address 0 and `B` at
address 1, after `A.setPrototype(B)` and `B.setPrototype(A)`. -/
def cycleScenarioHeap : Heap :=
  { objects := [{ _prototype := some (.objectValue 1) }, { _prototype := some (.objectValue 0) }] }

/-- Two references that resolve each other: the body of reference 0 resolves reference 1
and returns what it gets; the body of reference 1 resolves reference 0 and returns the number
value when that yields no value. -/
def referenceScenarioHeap : Heap :=
  { references := [
      .lookupReference 1 (fun v => .ret v),
      .lookupReference 0 (fun v => .ret (if v.isNone then some .numberValue else v))] }

/-! ## Component versions and synthetic meta-objects -/

/-- Modelled from the spec: `QmlJS::ComponentVersion` is declared outside
`qmljsinterpreter.cpp`. A version is a major and a minor number ("a bare integer major
version or `major.minor`"); a part that is missing is `NoVersion`. -/
structure ComponentVersion where
  majorVersion : Int
  minorVersion : Int
  deriving DecidableEq, Repr

/-- Modelled from the spec: the constant `ComponentVersion::NoVersion`, the number that
stands for a missing part of a version. -/
def ComponentVersion.NoVersion : Int := -1

/-- Modelled from the spec: the default constructor `ComponentVersion()`, the version of an
export that has no version. -/
def ComponentVersion.noVersion : ComponentVersion :=
  ⟨ComponentVersion.NoVersion, ComponentVersion.NoVersion⟩

instance : Inhabited ComponentVersion := ⟨ComponentVersion.noVersion⟩

/-- Modelled from the spec: `operator<` of `ComponentVersion`, by major number, then by minor
number ("higher version wins"). -/
instance : LT ComponentVersion :=
  ⟨fun a b => a.majorVersion < b.majorVersion
    ∨ (a.majorVersion = b.majorVersion ∧ a.minorVersion < b.minorVersion)⟩

/-- Modelled from the spec: `operator<=` of `ComponentVersion` ("version ≤ requested"). -/
instance : LE ComponentVersion :=
  ⟨fun a b => a.majorVersion < b.majorVersion
    ∨ (a.majorVersion = b.majorVersion ∧ a.minorVersion ≤ b.minorVersion)⟩

instance (a b : ComponentVersion) : Decidable (a < b) :=
  inferInstanceAs (Decidable (a.majorVersion < b.majorVersion
    ∨ (a.majorVersion = b.majorVersion ∧ a.minorVersion < b.minorVersion)))

instance (a b : ComponentVersion) : Decidable (a ≤ b) :=
  inferInstanceAs (Decidable (a.majorVersion < b.majorVersion
    ∨ (a.majorVersion = b.majorVersion ∧ a.minorVersion ≤ b.minorVersion)))

/-- `FakeMetaEnum`. -/
structure FakeMetaEnum where
  m_name : String
  m_keys : List String := []
  m_values : List Int := []
  deriving DecidableEq, Repr

/-- `FakeMetaMethod`; `m_methodTy` is `Signal` (0), `Slot` (1) or `Method` (2) and
`m_methodAccess` is `Private` (0), `Protected` (1) or `Public` (2). -/
structure FakeMetaMethod where
  m_name : String
  m_returnType : String := ""
  m_paramNames : List String := []
  m_paramTypes : List String := []
  m_methodTy : Nat := 2
  m_methodAccess : Nat := 2
  deriving DecidableEq, Repr

/-- `FakeMetaProperty`. -/
structure FakeMetaProperty where
  m_propertyName : String
  m_type : String
  m_isList : Bool
  deriving DecidableEq, Repr

/-- `FakeMetaObject::Export`. -/
structure Export where
  package : String
  type : String
  version : ComponentVersion
  packageNameVersion : String
  deriving DecidableEq, Repr

/-- `FakeMetaObject`. `m_super` is a pointer to another meta-object (its address in the table
of meta-objects), null when `none`. -/
structure FakeMetaObject where
  m_exports : List Export := []
  m_super : Option Nat := none
  m_superName : String := ""
  m_enums : List FakeMetaEnum := []
  m_enumNameToIndex : List (String × Nat) := []
  m_props : List FakeMetaProperty := []
  m_propNameToIdx : List (String × Nat) := []
  m_methods : List FakeMetaMethod := []
  m_defaultPropertyName : String := ""
  deriving DecidableEq, Repr

instance : Inhabited FakeMetaObject := ⟨{}⟩

/-- `QString::number(int)`. -/
def QString.number (n : Int) : String := toString n

/-- `QString("%1.%2 %3.%4").arg(package, name, major, minor)`: the four place markers are
replaced in one pass. -/
def formatPackageNameVersion (package name : String) (version : ComponentVersion) : String :=
  package ++ "." ++ name ++ " " ++ QString.number version.majorVersion ++ "."
    ++ QString.number version.minorVersion

/-- `FakeMetaObject::addExport`. -/
def FakeMetaObject.addExport (m : FakeMetaObject) (name package : String)
    (version : ComponentVersion) : FakeMetaObject :=
  { m with m_exports := m.m_exports ++
      [{ type := name, package := package, version := version,
         packageNameVersion := formatPackageNameVersion package name version }] }

/-- `FakeMetaObject::exports`. -/
def FakeMetaObject.exports (m : FakeMetaObject) : List Export := m.m_exports

/-- `FakeMetaObject::superClass`. -/
def FakeMetaObject.superClass (m : FakeMetaObject) : Option Nat := m.m_super

/-- `FakeMetaObject::superclassName`. -/
def FakeMetaObject.superclassName (m : FakeMetaObject) : String := m.m_superName

/-- `FakeMetaObject::setSuperclassName`. -/
def FakeMetaObject.setSuperclassName (m : FakeMetaObject) (superclass : String) :
    FakeMetaObject :=
  { m with m_superName := superclass }

/-- `FakeMetaObject::setSuperclass`. -/
def FakeMetaObject.setSuperclass (m : FakeMetaObject) (superClass : Nat) : FakeMetaObject :=
  { m with m_super := some superClass }

/-- Dereference a meta-object pointer in the table of meta-objects. -/
def metaAt (metas : List FakeMetaObject) (a : Nat) : FakeMetaObject := metas.getD a default

/-! ## Hashes and maps keyed by strings -/

/-- `QHash::value(key)`: the stored value, none when the key is absent. -/
def QHash.value {β : Type} : List (String × β) → String → Option β
  | [], _ => none
  | (k, v) :: rest, key => if k = key then some v else QHash.value rest key

/-- `QHash::contains(key)`. -/
def QHash.contains {β : Type} (m : List (String × β)) (key : String) : Bool :=
  (QHash.value m key).isSome

/-- `QHash::insert(key, value)` and `hash[key] = value`: the value of an existing key is
replaced. -/
def QHash.insert {β : Type} : List (String × β) → String → β → List (String × β)
  | [], key, value => [(key, value)]
  | (k, v) :: rest, key, value =>
    if k = key then (k, value) :: rest else (k, v) :: QHash.insert rest key value

/-- `QMap::value(key)`. -/
def QMap.value {β : Type} : List (String × β) → String → Option β
  | [], _ => none
  | (k, v) :: rest, key => if k = key then some v else QMap.value rest key

/-- `QMap::insert(key, value)`: the keys are kept in ascending order and the value of an
existing key is replaced. The order of the keys is the lexicographic order of `String`,
which is that of `QString` for the characters of the basic plane. -/
def QMap.insert {β : Type} : List (String × β) → String → β → List (String × β)
  | [], key, value => [(key, value)]
  | (k, v) :: rest, key, value =>
    if k = key then (k, value) :: rest
    else if key < k then (key, value) :: (k, v) :: rest
    else (k, v) :: QMap.insert rest key value

/-- `QMap::values()`: the values in ascending order of their keys. -/
def QMap.values {β : Type} (m : List (String × β)) : List β := m.map Prod.snd

/-! ## The registry of C++ types -/

/-- The state that `QmlObjectValue` adds to `ObjectValue`, with the class name, the
prototype and the property map `_members` of the latter. The prototype is set by
`CppQmlTypes::load` only, to another `QmlObjectValue`. `_metaSignature` is the mutable
`QHash<int, const Value *>` of the signatures created so far: it maps the index of a method
to the address of its `MetaFunction` in the heap. -/
structure QmlObjectValue where
  _metaObject : Nat := 0
  className : String := ""
  _packageName : String := ""
  _componentVersion : ComponentVersion := default
  _prototype : Option Nat := none
  _members : List (String × Value) := []
  _metaSignature : List (Nat × Nat) := []
  deriving DecidableEq, Repr

instance : Inhabited QmlObjectValue := ⟨{}⟩

/-- `CppQmlTypes`, together with the `QmlObjectValue`s that it has created and registered
with the engine (`objectValues`, each addressed by its position). -/
structure CppQmlTypes where
  objectValues : List QmlObjectValue := []
  _typesByPackage : List (String × List Nat) := []
  _typesByFullyQualifiedName : List (String × Nat) := []
  deriving DecidableEq, Repr

/-- Dereference a `QmlObjectValue` pointer. -/
def CppQmlTypes.obj (t : CppQmlTypes) (a : Nat) : QmlObjectValue := t.objectValues.getD a default

/-- `new QmlObjectValue(metaObject, className, packageName, version, engine)`: the new value
and its address. -/
def CppQmlTypes.newQmlObjectValue (t : CppQmlTypes) (metaObject : Nat)
    (className packageName : String) (version : ComponentVersion) : CppQmlTypes × Nat :=
  ({ t with objectValues := t.objectValues ++
      [{ _metaObject := metaObject, className := className, _packageName := packageName,
         _componentVersion := version }] },
   t.objectValues.length)

/-- `v->setPrototype(superValue)`. -/
def CppQmlTypes.setPrototype (t : CppQmlTypes) (v superValue : Nat) : CppQmlTypes :=
  { t with objectValues :=
      t.objectValues.set v { t.obj v with _prototype := some superValue } }

/-- `CppQmlTypes::qualifiedName`. -/
def CppQmlTypes.qualifiedName (package type : String) (version : ComponentVersion) : String :=
  package ++ "." ++ type ++ " " ++ QString.number version.majorVersion ++ "."
    ++ QString.number version.minorVersion

/-- `CppQmlTypes::typeByQualifiedName(name)`. -/
def CppQmlTypes.typeByQualifiedName (t : CppQmlTypes) (name : String) : Option Nat :=
  QHash.value t._typesByFullyQualifiedName name

/-- The body of the first loop of `CppQmlTypes::load` for one export of `metaObject`. -/
def CppQmlTypes.loadExport (metaObject : Nat) (t : CppQmlTypes) (exp : Export) : CppQmlTypes :=
  -- make sure we're not loading duplicate objects
  if QHash.contains t._typesByFullyQualifiedName exp.packageNameVersion then t
  else
    let (t1, objectValue) := t.newQmlObjectValue metaObject exp.type exp.package exp.version
    { t1 with
      _typesByPackage := QHash.insert t1._typesByPackage exp.package
        ((QHash.value t1._typesByPackage exp.package).getD [] ++ [objectValue])
      _typesByFullyQualifiedName :=
        QHash.insert t1._typesByFullyQualifiedName exp.packageNameVersion objectValue }

/-- The first loop of `CppQmlTypes::load`. -/
def CppQmlTypes.loadExports (metas : List FakeMetaObject) (t : CppQmlTypes)
    (objects : List Nat) : CppQmlTypes :=
  objects.foldl
    (fun t metaObject =>
      (metaAt metas metaObject).exports.foldl (CppQmlTypes.loadExport metaObject) t)
    t

/-- The name and the version that `getOrCreate` takes from the first export of the
meta-object in `package`; `cppName` without version when there is no such export. -/
def CppQmlTypes.exportedAs (package cppName : String) :
    List Export → String × ComponentVersion
  | [] => (cppName, ComponentVersion.noVersion)
  | exp :: rest =>
    if exp.package = package then (exp.type, exp.version)
    else CppQmlTypes.exportedAs package cppName rest

/-- `CppQmlTypes::getOrCreate`: the registry after the call, the returned value and
`*created`. -/
def CppQmlTypes.getOrCreate (metas : List FakeMetaObject) (t : CppQmlTypes)
    (package cppName : String) (metaObject : Nat) : CppQmlTypes × Nat × Bool :=
  let (typeName, version) :=
    CppQmlTypes.exportedAs package cppName (metaAt metas metaObject).exports
  let qName := CppQmlTypes.qualifiedName package typeName version
  match t.typeByQualifiedName qName with
  | none =>
    let (t1, value) :=
      t.newQmlObjectValue metaObject typeName package ComponentVersion.noVersion
    ({ t1 with
       _typesByFullyQualifiedName := QHash.insert t1._typesByFullyQualifiedName qName value },
     value, true)
  | some value => (t, value, false)

/-- The `while (created && fmo->superClass())` loop of `CppQmlTypes::load`, entered with
`created` true; one unit of fuel pays for one test of the loop condition. -/
def CppQmlTypes.linkChain (metas : List FakeMetaObject) (package : String) :
    Nat → CppQmlTypes → Nat → Nat → Option CppQmlTypes
  | 0, _, _, _ => none
  | fuel + 1, t, v, fmo =>
    match (metaAt metas fmo).superClass with
    | none => some t
    | some superClass =>
      match CppQmlTypes.getOrCreate metas t package (metaAt metas fmo).superclassName
          superClass with
      | (t1, superValue, created) =>
        let t2 := t1.setPrototype v superValue
        if created then CppQmlTypes.linkChain metas package fuel t2 superValue superClass
        else some t2

/-- The body of the second loop of `CppQmlTypes::load` for one export of `metaObject`. -/
def CppQmlTypes.linkExport (metas : List FakeMetaObject) (fuel : Nat) (metaObject : Nat)
    (t : CppQmlTypes) (exp : Export) : Option CppQmlTypes :=
  match QHash.value t._typesByFullyQualifiedName exp.packageNameVersion with
  | none => some t
  | some objectValue =>
    if (metaAt metas metaObject).superClass.isNone then some t
    else CppQmlTypes.linkChain metas exp.package fuel t objectValue metaObject

/-- The inner `foreach` of the second loop of `CppQmlTypes::load`, over the exports of
`metaObject`. -/
def CppQmlTypes.linkExportsOf (metas : List FakeMetaObject) (fuel : Nat) (metaObject : Nat) :
    CppQmlTypes → List Export → Option CppQmlTypes
  | t, [] => some t
  | t, exp :: rest =>
    match CppQmlTypes.linkExport metas fuel metaObject t exp with
    | none => none
    | some t1 => CppQmlTypes.linkExportsOf metas fuel metaObject t1 rest

/-- The second loop of `CppQmlTypes::load`. -/
def CppQmlTypes.linkExports (metas : List FakeMetaObject) (fuel : Nat) :
    CppQmlTypes → List Nat → Option CppQmlTypes
  | t, [] => some t
  | t, metaObject :: rest =>
    match CppQmlTypes.linkExportsOf metas fuel metaObject t (metaAt metas metaObject).exports with
    | none => none
    | some t1 => CppQmlTypes.linkExports metas fuel t1 rest

/-- `CppQmlTypes::load(engine, objects)`; `metas` is the memory that holds the meta-objects
and `objects` lists their addresses. -/
def CppQmlTypes.load (metas : List FakeMetaObject) (fuel : Nat) (t : CppQmlTypes)
    (objects : List Nat) : Option CppQmlTypes :=
  CppQmlTypes.linkExports metas fuel (CppQmlTypes.loadExports metas t objects) objects

/-- The body of the loop of `CppQmlTypes::typesForImport`. -/
def CppQmlTypes.typesForImportStep (t : CppQmlTypes) (version : ComponentVersion)
    (objectValuesByName : List (String × Nat)) (qmlObjectValue : Nat) : List (String × Nat) :=
  if (t.obj qmlObjectValue)._componentVersion ≤ version then
    -- we got a candidate.
    let typeName := (t.obj qmlObjectValue).className
    match QMap.value objectValuesByName typeName with
    | some previousCandidate =>
      -- check if our new candidate is newer than the one we found previously
      if (t.obj previousCandidate)._componentVersion < (t.obj qmlObjectValue)._componentVersion
      then QMap.insert objectValuesByName typeName qmlObjectValue
      else objectValuesByName
    | none => QMap.insert objectValuesByName typeName qmlObjectValue
  else objectValuesByName

/-- `CppQmlTypes::typesForImport`. -/
def CppQmlTypes.typesForImport (t : CppQmlTypes) (packageName : String)
    (version : ComponentVersion) : List Nat :=
  QMap.values
    (((QHash.value t._typesByPackage packageName).getD []).foldl
      (CppQmlTypes.typesForImportStep t version) [])

/-- `QString::indexOf(c)`, none for -1. -/
def QString.indexOf : List Char → Char → Option Nat
  | [], _ => none
  | x :: rest, c => if x = c then some 0 else (QString.indexOf rest c).map (· + 1)

/-- `QString::lastIndexOf(c)`, none for -1. -/
def QString.lastIndexOf : List Char → Char → Option Nat
  | [], _ => none
  | x :: rest, c =>
    match QString.lastIndexOf rest c with
    | some i => some (i + 1)
    | none => if x = c then some 0 else none

/-- `QString::left(n)`. -/
def QString.left (s : String) (n : Nat) : String := String.mk (s.data.take n)

/-- `QString::mid(n)`. -/
def QString.mid (s : String) (n : Nat) : String := String.mk (s.data.drop n)

/-- The body of the loop of `CppQmlTypes::typeForImport`. -/
def CppQmlTypes.typeForImportStep (t : CppQmlTypes) (name : String)
    (previousCandidate : Option Nat) (qmlObjectValue : Nat) : Option Nat :=
  if (t.obj qmlObjectValue).className ≠ name then previousCandidate
  else
    match previousCandidate with
    | some previous =>
      if (t.obj previous)._componentVersion < (t.obj qmlObjectValue)._componentVersion
      then some qmlObjectValue
      else some previous
    | none => some qmlObjectValue

/-- The first lines of `CppQmlTypes::typeForImport`: the package name and the type name that
the qualified name is taken apart into, at the index that `indexOf` finds. -/
def CppQmlTypes.typeForImportSplit (qualifiedName : String) : String × String :=
  match QString.indexOf qualifiedName.data '.' with
  | some dotIdx => (QString.left qualifiedName dotIdx, QString.mid qualifiedName (dotIdx + 1))
  | none => ("", qualifiedName)

/-- `CppQmlTypes::typeForImport`. -/
def CppQmlTypes.typeForImport (t : CppQmlTypes) (qualifiedName : String) : Option Nat :=
  let (packageName, name) := CppQmlTypes.typeForImportSplit qualifiedName
  ((QHash.value t._typesByPackage packageName).getD []).foldl
    (CppQmlTypes.typeForImportStep t name) none

/-- `QmlXmlReader::split`: the package name and the class name of a dotted name. -/
def QmlXmlReader.split (name : String) : String × String :=
  match QString.lastIndexOf name.data '.' with
  | some dotIdx => (QString.left name dotIdx, QString.mid name (dotIdx + 1))
  | none => ("", name)

/-! ## Scenarios of the registry -/

/-- The version scenario: a type whose name `name` is exported in package `M` at versions
1.0 and 2.0; the reader adds the export without package. -/
def versionScenarioMeta (name : String) : FakeMetaObject :=
  ((({} : FakeMetaObject).addExport name "M" ⟨1, 0⟩).addExport name "M" ⟨2, 0⟩).addExport
    name "" ComponentVersion.noVersion

/-- The dotted package scenario: the type `Foo`, exported in package `Qt.labs` at 1.0. -/
def dottedScenarioMetas : List FakeMetaObject :=
  [(({} : FakeMetaObject).addExport "Foo" "Qt.labs" ⟨1, 0⟩).addExport
    "Foo" "" ComponentVersion.noVersion]

/-- The meta-object `Base` of the superclass synthesis scenario (address 0), exported only
as `Core` 1.0. -/
def synthesisBase : FakeMetaObject :=
  (({} : FakeMetaObject).addExport "Base" "Core" ⟨1, 0⟩).addExport
    "Base" "" ComponentVersion.noVersion

/-- The meta-object `Derived` of the superclass synthesis scenario (address 1): it extends
`Base` and is exported as `UI` 1.0. -/
def synthesisDerived : FakeMetaObject :=
  (((({} : FakeMetaObject).setSuperclassName "Base").addExport "Derived" "UI" ⟨1, 0⟩).addExport
    "Derived" "" ComponentVersion.noVersion).setSuperclass 0

/-- The table of meta-objects of the superclass synthesis scenario. -/
def synthesisScenarioMetas : List FakeMetaObject := [synthesisBase, synthesisDerived]

/-- The registry of the version scenario for the type name `T`, as `load` leaves it. -/
def versionScenarioRegistry : CppQmlTypes :=
  (CppQmlTypes.load [versionScenarioMeta "T"] 1 {} [0]).getD {}

/-- The example of the comment in `CppQmlTypes::load`: `QObject` (address 0) is exported in
`Qt` and `QtQuick`, `Positioner` (address 1) extends it and is not exported, and `Column`
(address 2) extends `Positioner` and is exported in `Qt` and `QtQuick`. -/
def positionerScenarioMetas : List FakeMetaObject :=
  [((({} : FakeMetaObject).addExport "QtObject" "Qt" ⟨4, 7⟩).addExport
      "QtObject" "QtQuick" ⟨1, 0⟩).addExport "QObject" "" ComponentVersion.noVersion,
   ((({} : FakeMetaObject).setSuperclassName "QObject").addExport
      "Positioner" "" ComponentVersion.noVersion).setSuperclass 0,
   ((((({} : FakeMetaObject).setSuperclassName "Positioner").addExport
      "Column" "Qt" ⟨4, 7⟩).addExport "Column" "QtQuick" ⟨1, 0⟩).addExport
      "Column" "" ComponentVersion.noVersion).setSuperclass 1]

/-! ## Notions used to state the properties of `CppQmlTypes::load` -/

/-- The pairs of a meta-object and one of its exports, in the order in which both loops of
`CppQmlTypes::load` visit them. -/
def CppQmlTypes.exportPairs (metas : List FakeMetaObject) : List Nat → List (Nat × Export)
  | [] => []
  | metaObject :: rest =>
    (metaAt metas metaObject).exports.map (fun exp => (metaObject, exp))
      ++ CppQmlTypes.exportPairs metas rest

/-- The qualified name under which `getOrCreate(package, fmo->superclassName(),
fmo->superClass())` looks up, and files, the value of the superclass of `fmo`. -/
def CppQmlTypes.superKey (metas : List FakeMetaObject) (package : String)
    (fmo superClass : Nat) : String :=
  CppQmlTypes.qualifiedName package
    (CppQmlTypes.exportedAs package (metaAt metas fmo).superclassName
      (metaAt metas superClass).exports).1
    (CppQmlTypes.exportedAs package (metaAt metas fmo).superclassName
      (metaAt metas superClass).exports).2

/-- The registry after `getOrCreate` has created the stand-in for `superClass` in
`package`: the new value is filed under its qualified name only. -/
def CppQmlTypes.withStandIn (metas : List FakeMetaObject) (t : CppQmlTypes) (package : String)
    (fmo superClass : Nat) : CppQmlTypes :=
  { objectValues := t.objectValues ++
      [{ _metaObject := superClass,
         className := (CppQmlTypes.exportedAs package (metaAt metas fmo).superclassName
            (metaAt metas superClass).exports).1,
         _packageName := package,
         _componentVersion := ComponentVersion.noVersion }],
    _typesByPackage := t._typesByPackage,
    _typesByFullyQualifiedName :=
      QHash.insert t._typesByFullyQualifiedName (CppQmlTypes.superKey metas package fmo superClass)
        t.objectValues.length }

/-- The package-qualified names that `load` computes for a batch, each with the package and
the type that it stands for: the key of every export, with the package of the export and
the exporting type; and, for every package of an export and every type with a superclass,
the key under which the superclass is looked up in that package, with that package and the
superclass. -/
def CppQmlTypes.keyTable (metas : List FakeMetaObject) (objects : List Nat) :
    List (String × String × Nat) :=
  (CppQmlTypes.exportPairs metas objects).map
      (fun p => (p.2.packageNameVersion, p.2.package, p.1))
    ++ (CppQmlTypes.exportPairs metas objects).flatMap (fun p =>
      (List.range metas.length).filterMap (fun fmo =>
        (metaAt metas fmo).superClass.map
          (fun s => (CppQmlTypes.superKey metas p.2.package fmo s, p.2.package, s))))

/-- No two distinct types share a package-qualified name: a key of the table stands for one
type in one package. -/
def CppQmlTypes.NoSharedName (metas : List FakeMetaObject) (objects : List Nat) : Prop :=
  ∀ x ∈ CppQmlTypes.keyTable metas objects, ∀ y ∈ CppQmlTypes.keyTable metas objects,
    x.1 = y.1 → x.2 = y.2

instance (metas : List FakeMetaObject) (objects : List Nat) :
    Decidable (CppQmlTypes.NoSharedName metas objects) := by
  unfold CppQmlTypes.NoSharedName
  infer_instance

/-- The superclass reached from `metaObject` by `k` steps along the `superClass` links. -/
def superClassAt (metas : List FakeMetaObject) : Nat → Nat → Option Nat
  | 0, metaObject => some metaObject
  | k + 1, metaObject =>
    (superClassAt metas k metaObject).bind (fun a => (metaAt metas a).superClass)

/-- The value reached from `v` by `k` steps along the prototype links. -/
def CppQmlTypes.prototypeAt (t : CppQmlTypes) : Nat → Nat → Option Nat
  | 0, v => some v
  | k + 1, v => (CppQmlTypes.prototypeAt t k v).bind (fun a => (t.obj a)._prototype)

/-- Every value that the by-qualified-name index points to is a value of the store. -/
def CppQmlTypes.WellFormed (t : CppQmlTypes) : Prop :=
  ∀ key a, QHash.value t._typesByFullyQualifiedName key = some a → a < t.objectValues.length

/-- The number of types whose superclass has no value yet under its qualified name in
`package`: a bound on the number of values that the linking loop can still create. -/
def CppQmlTypes.missingSupers (metas : List FakeMetaObject) (package : String)
    (t : CppQmlTypes) : Nat :=
  ((List.range metas.length).filter (fun fmo =>
    match (metaAt metas fmo).superClass with
    | some s =>
      !QHash.contains t._typesByFullyQualifiedName (CppQmlTypes.superKey metas package fmo s)
    | none => false)).length

/-- The registry after the first loop of `load` has materialized the export `exp` of
`metaObject`. -/
def CppQmlTypes.withExport (t : CppQmlTypes) (metaObject : Nat) (exp : Export) : CppQmlTypes :=
  { objectValues := t.objectValues ++
      [{ _metaObject := metaObject, className := exp.type, _packageName := exp.package,
         _componentVersion := exp.version }],
    _typesByPackage := QHash.insert t._typesByPackage exp.package
      ((QHash.value t._typesByPackage exp.package).getD [] ++ [t.objectValues.length]),
    _typesByFullyQualifiedName :=
      QHash.insert t._typesByFullyQualifiedName exp.packageNameVersion t.objectValues.length }

/-- The first loop of `load`, over the pairs of a meta-object and an export. -/
def CppQmlTypes.loadPairs (t : CppQmlTypes) (pairs : List (Nat × Export)) : CppQmlTypes :=
  pairs.foldl (fun t p => CppQmlTypes.loadExport p.1 t p.2) t

/-- The second loop of `load`, over the pairs of a meta-object and an export. -/
def CppQmlTypes.linkPairs (metas : List FakeMetaObject) (fuel : Nat) :
    CppQmlTypes → List (Nat × Export) → Option CppQmlTypes
  | t, [] => some t
  | t, p :: rest =>
    match CppQmlTypes.linkExport metas fuel p.1 t p.2 with
    | none => none
    | some t1 => CppQmlTypes.linkPairs metas fuel t1 rest

/-- The values that the index points to agree with the table of qualified names: a value
filed under a key is in the package, and wraps the type, that the key stands for. -/
def CppQmlTypes.KeysAgree (metas : List FakeMetaObject) (objects : List Nat)
    (t : CppQmlTypes) : Prop :=
  ∀ key a, QHash.value t._typesByFullyQualifiedName key = some a →
    ∀ package metaObject, (key, package, metaObject) ∈ CppQmlTypes.keyTable metas objects →
      (t.obj a)._packageName = package ∧ (t.obj a)._metaObject = metaObject

/-- The value at `a` is linked: when its type has a superclass, its prototype is a value of
the store that is in the same package and wraps the superclass. -/
def CppQmlTypes.Linked (metas : List FakeMetaObject) (t : CppQmlTypes) (a : Nat) : Prop :=
  ∀ s, (metaAt metas (t.obj a)._metaObject).superClass = some s →
    ∃ p, (t.obj a)._prototype = some p ∧ p < t.objectValues.length ∧
      (t.obj p)._packageName = (t.obj a)._packageName ∧ (t.obj p)._metaObject = s

/-- The value at `a` is still to be linked: it is the value of an export that the second
loop has not visited yet. -/
def CppQmlTypes.Pending (t : CppQmlTypes) (pairs : List (Nat × Export)) (a : Nat) : Prop :=
  ∃ p ∈ pairs, QHash.value t._typesByFullyQualifiedName p.2.packageNameVersion = some a

/-- The first `v->setPrototype(superValue)` that the second loop of `load` makes for the
pair `p`, read off the by-qualified-name index `index`: `v` is the value of the export and
`superValue` the value filed for the superclass in the package of the export. -/
def CppQmlTypes.assignmentOf (metas : List FakeMetaObject) (index : List (String × Nat))
    (p : Nat × Export) : Option (Nat × Nat) :=
  match QHash.value index p.2.packageNameVersion, (metaAt metas p.1).superClass with
  | some v, some s =>
    (QHash.value index (CppQmlTypes.superKey metas p.2.package p.1 s)).map (fun x => (v, x))
  | _, _ => none

/-- The prototype of the value at `a` after the assignment of the pair `p`, when it was
`current` before. -/
def CppQmlTypes.prototypeStep (metas : List FakeMetaObject) (index : List (String × Nat))
    (a : Nat) (current : Option Nat) (p : Nat × Export) : Option Nat :=
  match CppQmlTypes.assignmentOf metas index p with
  | some (v, x) => if v = a then some x else current
  | none => current

/-- The prototype of the value at `a` after the assignments of the pairs, made in order,
when it was `current` before. -/
def CppQmlTypes.prototypeAfter (metas : List FakeMetaObject) (index : List (String × Nat))
    (a : Nat) : Option Nat → List (Nat × Export) → Option Nat
  | current, [] => current
  | current, p :: rest =>
    CppQmlTypes.prototypeAfter metas index a
      (CppQmlTypes.prototypeStep metas index a current p) rest

/-- The reading of "no two distinct types share a package-qualified name" that looks at the
exports only: two exports of the batch with the same key are exports of the same type. -/
def CppQmlTypes.NoSharedExportName (metas : List FakeMetaObject) (objects : List Nat) : Prop :=
  ∀ p ∈ CppQmlTypes.exportPairs metas objects, ∀ q ∈ CppQmlTypes.exportPairs metas objects,
    p.2.packageNameVersion = q.2.packageNameVersion → p.1 = q.1

instance (metas : List FakeMetaObject) (objects : List Nat) :
    Decidable (CppQmlTypes.NoSharedExportName metas objects) := by
  unfold CppQmlTypes.NoSharedExportName
  infer_instance

/-- The name clash scenario: `Base` (address 0) is exported only as `Core` 1.0, `Derived`
(address 1) extends `Base` and is exported as `UI` 1.0, and a third type `U` (address 2) is
exported in `UI` under the name `Base` by an export element without version attribute. -/
def clashScenarioMetas : List FakeMetaObject :=
  [synthesisBase, synthesisDerived,
    (({} : FakeMetaObject).addExport "Base" "UI" ComponentVersion.noVersion).addExport
      "U" "" ComponentVersion.noVersion]

/-- What the loop of `typesForImport` keeps true: after the values `processed`, the map is
sorted, every entry is a processed candidate filed under its class name with the greatest
version among the processed candidates of that name, and every processed candidate has an
entry for its name. -/
def CppQmlTypes.ImportInvariant (t : CppQmlTypes) (version : ComponentVersion)
    (processed : List Nat) (m : List (String × Nat)) : Prop :=
  (m.map Prod.fst).Pairwise (· < ·) ∧
  (∀ n q, QMap.value m n = some q →
    q ∈ processed ∧ (t.obj q)._componentVersion ≤ version ∧ (t.obj q).className = n ∧
    ∀ q1 ∈ processed, (t.obj q1)._componentVersion ≤ version → (t.obj q1).className = n →
      (t.obj q1)._componentVersion ≤ (t.obj q)._componentVersion) ∧
  (∀ q ∈ processed, (t.obj q)._componentVersion ≤ version →
    (QMap.value m (t.obj q).className).isSome)

/-! ## Meta-objects: enums, properties, methods -/

instance : Inhabited FakeMetaEnum := ⟨{ m_name := "" }⟩

instance : Inhabited FakeMetaProperty := ⟨{ m_propertyName := "", m_type := "", m_isList := false }⟩

/-- `FakeMetaEnum::name`. -/
def FakeMetaEnum.name (e : FakeMetaEnum) : String := e.m_name

/-- `FakeMetaEnum::addKey`. -/
def FakeMetaEnum.addKey (e : FakeMetaEnum) (key : String) (value : Int) : FakeMetaEnum :=
  { e with m_keys := e.m_keys ++ [key], m_values := e.m_values ++ [value] }

/-- `FakeMetaEnum::key`. -/
def FakeMetaEnum.key (e : FakeMetaEnum) (index : Nat) : String := e.m_keys.getD index ""

/-- `FakeMetaEnum::keyCount`. -/
def FakeMetaEnum.keyCount (e : FakeMetaEnum) : Nat := e.m_keys.length

/-- `FakeMetaEnum::keys`. -/
def FakeMetaEnum.keys (e : FakeMetaEnum) : List String := e.m_keys

/-- `FakeMetaMethod::Signal`. -/
def FakeMetaMethod.Signal : Nat := 0

/-- `FakeMetaMethod::Slot`. -/
def FakeMetaMethod.Slot : Nat := 1

/-- `FakeMetaMethod::addParameter`. -/
def FakeMetaMethod.addParameter (m : FakeMetaMethod) (name type : String) : FakeMetaMethod :=
  { m with m_paramNames := m.m_paramNames ++ [name], m_paramTypes := m.m_paramTypes ++ [type] }

/-- `FakeMetaMethod::setMethodType`. -/
def FakeMetaMethod.setMethodType (m : FakeMetaMethod) (methodType : Nat) : FakeMetaMethod :=
  { m with m_methodTy := methodType }

/-- `FakeMetaObject::addEnum`. -/
def FakeMetaObject.addEnum (m : FakeMetaObject) (fakeEnum : FakeMetaEnum) : FakeMetaObject :=
  { m with
    m_enumNameToIndex := QHash.insert m.m_enumNameToIndex fakeEnum.name m.m_enums.length,
    m_enums := m.m_enums ++ [fakeEnum] }

/-- `FakeMetaObject::enumerator`. -/
def FakeMetaObject.enumerator (m : FakeMetaObject) (index : Int) : FakeMetaEnum :=
  m.m_enums.getD index.toNat default

/-- `FakeMetaObject::enumeratorIndex`: the index stored for the name, -1 when there is
none. -/
def FakeMetaObject.enumeratorIndex (m : FakeMetaObject) (name : String) : Int :=
  match QHash.value m.m_enumNameToIndex name with
  | some index => (index : Int)
  | none => -1

/-- `FakeMetaObject::addProperty`. -/
def FakeMetaObject.addProperty (m : FakeMetaObject) (property : FakeMetaProperty) :
    FakeMetaObject :=
  { m with
    m_propNameToIdx := QHash.insert m.m_propNameToIdx property.m_propertyName m.m_props.length,
    m_props := m.m_props ++ [property] }

/-- `FakeMetaObject::property`. -/
def FakeMetaObject.property (m : FakeMetaObject) (index : Int) : FakeMetaProperty :=
  m.m_props.getD index.toNat default

/-- `FakeMetaObject::propertyIndex`. -/
def FakeMetaObject.propertyIndex (m : FakeMetaObject) (name : String) : Int :=
  match QHash.value m.m_propNameToIdx name with
  | some index => (index : Int)
  | none => -1

/-- `FakeMetaObject::addMethod`. -/
def FakeMetaObject.addMethod (m : FakeMetaObject) (method : FakeMetaMethod) : FakeMetaObject :=
  { m with m_methods := m.m_methods ++ [method] }

/-- `FakeMetaObject::defaultPropertyName`. -/
def FakeMetaObject.defaultPropertyName (m : FakeMetaObject) : String := m.m_defaultPropertyName

/-- `FakeMetaObject::setDefaultPropertyName`. -/
def FakeMetaObject.setDefaultPropertyName (m : FakeMetaObject) (defaultPropertyName : String) :
    FakeMetaObject :=
  { m with m_defaultPropertyName := defaultPropertyName }

/-! ## The XML stream

`QmlXmlReader` reads its input through a `QXmlStreamReader`. The stream is given here by what
the stream reader delivers: the start elements with their attributes, nested as in the
document, up to the place (if any) where the input stops being well-formed XML. Text,
comments and end elements carry no information for `QmlXmlReader`. -/

/-- A node of the XML stream: an element with its attributes in document order and its
content, or the place where the input is not well-formed, with the error string that the stream
reader reports there; nothing of the stream is delivered after such a place. -/
inductive XmlNode where
  | element (name : String) (attributes : List (String × String)) (children : List XmlNode)
  | notWellFormed (errorString : String)

mutual
/-- The first place, in document order, where a node is not well-formed. -/
def XmlNode.firstError : XmlNode → Option String
  | .element _ _ children => XmlNode.firstErrorIn children
  | .notWellFormed errorString => some errorString
/-- The first place, in document order, where a list of nodes is not well-formed. -/
def XmlNode.firstErrorIn : List XmlNode → Option String
  | [] => none
  | node :: rest =>
    match XmlNode.firstError node with
    | some errorString => some errorString
    | none => XmlNode.firstErrorIn rest
end

/-- The state of a `QmlXmlReader` while it reads: `error` is the error of the stream reader
`_xml` with its error string (none while `_xml.error()` is `NoError`), `_objects` is the table
`*_objects` that the caller handed in (a `QMap`, its keys ascending) and `metas` is the memory
of the meta-objects that the table points to, each addressed by its position. -/
structure QmlXmlReader where
  error : Option String := none
  metas : List FakeMetaObject := []
  _objects : List (String × Nat) := []
  deriving DecidableEq, Repr

/-- `QXmlStreamReader::raiseError`: the stream is in error from now on and `errorString()` is
the message raised last. -/
def QmlXmlReader.raiseError (r : QmlXmlReader) (message : String) : QmlXmlReader :=
  { r with error := some message }

/-- `QmlXmlReader::errorMessage`. -/
def QmlXmlReader.errorMessage (r : QmlXmlReader) : String := r.error.getD ""

/-- `QmlXmlReader::unexpectedElement`. -/
def QmlXmlReader.unexpectedElement (r : QmlXmlReader) (child parent : String) : QmlXmlReader :=
  r.raiseError ("Unexpected element <" ++ child ++ "> in <" ++ parent ++ ">")

/-- `QmlXmlReader::invalidAttr`. -/
def QmlXmlReader.invalidAttr (r : QmlXmlReader) (value attrName tag : String) : QmlXmlReader :=
  r.raiseError ("invalid value '" ++ value ++ "' for attribute " ++ attrName ++ " in <" ++ tag
    ++ ">")

/-- `QmlXmlReader::noValidAttr`. -/
def QmlXmlReader.noValidAttr (r : QmlXmlReader) (attrName tag : String) : QmlXmlReader :=
  r.raiseError ("<" ++ tag ++ "> has no valid " ++ attrName ++ " attribute")

/-- The loop `while (_xml.readNextStartElement()) body` over the content of the current
element. `readNextStartElement` answers false as soon as the stream is in error, and puts it
in error where the input is not well-formed; otherwise the body runs at the next child
element, and leaves the stream at the end of that element or in error. The local variables
that the body changes are the second component of the state. -/
def QmlXmlReader.whileReadNextStartElement {α : Type}
    (body : String → List (String × String) → List XmlNode → QmlXmlReader × α →
      QmlXmlReader × α) :
    List XmlNode → QmlXmlReader × α → QmlXmlReader × α
  | [], s => s
  | node :: rest, s =>
    if s.1.error.isSome then s
    else
      match node with
      | .element name attributes children =>
        QmlXmlReader.whileReadNextStartElement body rest (body name attributes children s)
      | .notWellFormed errorString => (s.1.raiseError errorString, s.2)

/-- `QXmlStreamReader::skipCurrentElement` at the start of an element with the given content:
the content is read through, which puts the stream in error where the content is not
well-formed; a stream in error reads nothing. -/
def QmlXmlReader.skipCurrentElement (r : QmlXmlReader) (children : List XmlNode) :
    QmlXmlReader :=
  if r.error.isSome then r
  else
    match XmlNode.firstErrorIn children with
    | some errorString => r.raiseError errorString
    | none => r

/-- The body `unexpectedElement(_xml.name(), tag)` of the loops over the content of an element
that has no child elements. -/
def QmlXmlReader.unexpectedChild {α : Type} (tag : String) (name : String)
    (_attributes : List (String × String)) (_children : List XmlNode)
    (s : QmlXmlReader × α) : QmlXmlReader × α :=
  (s.1.unexpectedElement name tag, s.2)

/-! ## The reader of type descriptions

The functions of `QmlXmlReader`, each at the start element that it asserts, given by the
attributes and the content of that element. `QString::toInt` is a parameter: it answers the
number, none when `ok` is set to false. -/

/-- The local variables of `QmlXmlReader::readProperty`. -/
structure PropertyLocals where
  name : String := ""
  type : String := ""
  isList : Bool := false
  deriving DecidableEq, Repr

/-- The loop over the attributes in `QmlXmlReader::readProperty`; `Except.error` is the
`return` after an invalid `isList`. -/
def QmlXmlReader.readPropertyAttributes :
    List (String × String) → QmlXmlReader × PropertyLocals →
      Except QmlXmlReader (QmlXmlReader × PropertyLocals)
  | [], s => .ok s
  | attr :: rest, s =>
    if attr.1 = "name" then
      QmlXmlReader.readPropertyAttributes rest (s.1, { s.2 with name := attr.2 })
    else if attr.1 = "type" then
      QmlXmlReader.readPropertyAttributes rest (s.1, { s.2 with type := attr.2 })
    else if attr.1 = "isList" then
      if attr.2 = "true" then
        QmlXmlReader.readPropertyAttributes rest (s.1, { s.2 with isList := true })
      else if attr.2 = "false" then
        QmlXmlReader.readPropertyAttributes rest (s.1, { s.2 with isList := false })
      else .error (s.1.invalidAttr attr.2 "idList" "property")
    else QmlXmlReader.readPropertyAttributes rest s

/-- `QmlXmlReader::readProperty` with `createProperty`. -/
def QmlXmlReader.readProperty (attributes : List (String × String)) (children : List XmlNode)
    (s : QmlXmlReader × FakeMetaObject) : QmlXmlReader × FakeMetaObject :=
  match QmlXmlReader.readPropertyAttributes attributes (s.1, {}) with
  | .error r => (r, s.2)
  | .ok (r, l) =>
    QmlXmlReader.whileReadNextStartElement (QmlXmlReader.unexpectedChild "property") children
      (if l.name = "" then (r.noValidAttr "name" "property", s.2)
       else if l.type = "" then (r.noValidAttr "type" "property", s.2)
       else (r, s.2.addProperty
          { m_propertyName := l.name, m_type := l.type, m_isList := l.isList }))

/-- The local variables of `QmlXmlReader::readEnumerator`. -/
structure EnumeratorLocals where
  name : String := ""
  value : Int := 0
  deriving DecidableEq, Repr

/-- The body of the loop over the attributes in `QmlXmlReader::readEnumerator`; `toInt`
answers 0 when it fails. -/
def QmlXmlReader.readEnumeratorAttr (toInt : String → Option Int)
    (s : QmlXmlReader × EnumeratorLocals) (attr : String × String) :
    QmlXmlReader × EnumeratorLocals :=
  if attr.1 = "name" then (s.1, { s.2 with name := attr.2 })
  else if attr.1 = "value" then
    match toInt attr.2 with
    | some value => (s.1, { s.2 with value := value })
    | none => (s.1.invalidAttr attr.2 "value" "enumerator", { s.2 with value := 0 })
  else s

/-- `QmlXmlReader::readEnumerator`. -/
def QmlXmlReader.readEnumerator (toInt : String → Option Int)
    (attributes : List (String × String)) (children : List XmlNode)
    (s : QmlXmlReader × FakeMetaEnum) : QmlXmlReader × FakeMetaEnum :=
  let a := attributes.foldl (QmlXmlReader.readEnumeratorAttr toInt) (s.1, {})
  QmlXmlReader.whileReadNextStartElement (QmlXmlReader.unexpectedChild "enumerator") children
    (if a.2.name = "" then (a.1.noValidAttr "name" "enumerator", s.2)
     else (a.1, s.2.addKey a.2.name a.2.value))

/-- The body of the loops over the attributes that read the `name` only. -/
def QmlXmlReader.readNameAttr (name : String) (attr : String × String) : String :=
  if attr.1 = "name" then attr.2 else name

/-- The body of the loop over the content in `QmlXmlReader::readEnum`. -/
def QmlXmlReader.readEnumChild (toInt : String → Option Int) (name : String)
    (attributes : List (String × String)) (children : List XmlNode)
    (s : QmlXmlReader × FakeMetaEnum) : QmlXmlReader × FakeMetaEnum :=
  if name = "enumerator" then QmlXmlReader.readEnumerator toInt attributes children s
  else (s.1.unexpectedElement name "enum", s.2)

/-- `QmlXmlReader::readEnum`. -/
def QmlXmlReader.readEnum (toInt : String → Option Int) (attributes : List (String × String))
    (children : List XmlNode) (s : QmlXmlReader × FakeMetaObject) :
    QmlXmlReader × FakeMetaObject :=
  let name := attributes.foldl QmlXmlReader.readNameAttr ""
  if name = "" then (s.1.noValidAttr "name" "enum", s.2)
  else
    let e := QmlXmlReader.whileReadNextStartElement (QmlXmlReader.readEnumChild toInt) children
      (s.1, ({ m_name := name } : FakeMetaEnum))
    (e.1, s.2.addEnum e.2)

/-- The body of the loops over the attributes that read `name` and `type`. -/
def QmlXmlReader.readNameTypeAttr (s : String × String) (attr : String × String) :
    String × String :=
  if attr.1 = "name" then (attr.2, s.2)
  else if attr.1 = "type" then (s.1, attr.2)
  else s

/-- `QmlXmlReader::readParam`. -/
def QmlXmlReader.readParam (attributes : List (String × String)) (children : List XmlNode)
    (s : QmlXmlReader × FakeMetaMethod) : QmlXmlReader × FakeMetaMethod :=
  let a := attributes.foldl QmlXmlReader.readNameTypeAttr ("", "")
  QmlXmlReader.whileReadNextStartElement (QmlXmlReader.unexpectedChild "param") children
    (if a.2 = "" then s.1.noValidAttr "type" "param" else s.1, s.2.addParameter a.1 a.2)

/-- The body of the loop over the content in `QmlXmlReader::readSignal` and in
`QmlXmlReader::readMethod`, whose tag is `tag`. -/
def QmlXmlReader.readParamChild (tag : String) (name : String)
    (attributes : List (String × String)) (children : List XmlNode)
    (s : QmlXmlReader × FakeMetaMethod) : QmlXmlReader × FakeMetaMethod :=
  if name = "param" then QmlXmlReader.readParam attributes children s
  else (s.1.unexpectedElement name tag, s.2)

/-- `QmlXmlReader::readSignal`. -/
def QmlXmlReader.readSignal (attributes : List (String × String)) (children : List XmlNode)
    (s : QmlXmlReader × FakeMetaObject) : QmlXmlReader × FakeMetaObject :=
  let name := attributes.foldl QmlXmlReader.readNameAttr ""
  if name = "" then (s.1.noValidAttr "name" "signal", s.2)
  else
    let m := QmlXmlReader.whileReadNextStartElement (QmlXmlReader.readParamChild "signal")
      children
      (s.1, FakeMetaMethod.setMethodType { m_name := name } FakeMetaMethod.Signal)
    (m.1, s.2.addMethod m.2)

/-- `QmlXmlReader::readMethod`. -/
def QmlXmlReader.readMethod (attributes : List (String × String)) (children : List XmlNode)
    (s : QmlXmlReader × FakeMetaObject) : QmlXmlReader × FakeMetaObject :=
  let a := attributes.foldl QmlXmlReader.readNameTypeAttr ("", "")
  if a.1 = "" then (s.1.noValidAttr "name" "method", s.2)
  else
    let m := QmlXmlReader.whileReadNextStartElement (QmlXmlReader.readParamChild "method")
      children
      (s.1, FakeMetaMethod.setMethodType { m_name := a.1, m_returnType := a.2 }
        FakeMetaMethod.Slot)
    (m.1, s.2.addMethod m.2)

/-- The local variables of the body of the loop in `QmlXmlReader::readExports`; a
default-constructed `ComponentVersion` has no version. -/
structure ExportLocals where
  type : String := ""
  package : String := ""
  version : ComponentVersion := ComponentVersion.noVersion
  deriving DecidableEq, Repr

/-- The branch of the `version` attribute in `QmlXmlReader::readExports`: the version that
the string stands for, none where the code calls `invalidAttr`. -/
def QmlXmlReader.readVersion (toInt : String → Option Int) (versionStr : String) :
    Option ComponentVersion :=
  match QString.indexOf versionStr.data '.' with
  | none =>
    match toInt versionStr with
    | none => none
    | some major => some ⟨major, ComponentVersion.NoVersion⟩
  | some dotIdx =>
    match toInt (QString.left versionStr dotIdx) with
    | none => none
    | some major =>
      match toInt (QString.mid versionStr (dotIdx + 1)) with
      | none => none
      | some minor => some ⟨major, minor⟩

/-- The body of the loop over the attributes of an `export` element in
`QmlXmlReader::readExports`. After `invalidAttr` the `continue` goes on with the next
attribute. -/
def QmlXmlReader.readExportAttr (toInt : String → Option Int)
    (s : QmlXmlReader × ExportLocals) (attr : String × String) : QmlXmlReader × ExportLocals :=
  if attr.1 = "module" then (s.1, { s.2 with package := attr.2 })
  else if attr.1 = "type" then (s.1, { s.2 with type := attr.2 })
  else if attr.1 = "version" then
    match QmlXmlReader.readVersion toInt attr.2 with
    | none => (s.1.invalidAttr attr.2 "version" "export", s.2)
    | some version => (s.1, { s.2 with version := version })
  else s

/-- The body of the loop over the content in `QmlXmlReader::readExports`. -/
def QmlXmlReader.readExportsChild (toInt : String → Option Int) (name : String)
    (attributes : List (String × String)) (children : List XmlNode)
    (s : QmlXmlReader × FakeMetaObject) : QmlXmlReader × FakeMetaObject :=
  if name = "export" then
    let a := attributes.foldl (QmlXmlReader.readExportAttr toInt) (s.1, {})
    (a.1.skipCurrentElement children, s.2.addExport a.2.type a.2.package a.2.version)
  else ((s.1.unexpectedElement name "export").skipCurrentElement children, s.2)

/-- `QmlXmlReader::readExports`. -/
def QmlXmlReader.readExports (toInt : String → Option Int) (children : List XmlNode)
    (s : QmlXmlReader × FakeMetaObject) : QmlXmlReader × FakeMetaObject :=
  QmlXmlReader.whileReadNextStartElement (QmlXmlReader.readExportsChild toInt) children s

/-- The local variables of `QmlXmlReader::readType` that the loop over the attributes
works on. No statement of `readType` assigns to `name`. -/
structure TypeLocals where
  doInsert : Bool := true
  name : String := ""
  defaultPropertyName : String := ""
  extends_ : String := ""
  id : String := ""
  deriving DecidableEq, Repr

/-- The loop over the attributes in `QmlXmlReader::readType`; `Except.error` is the `return`
after an empty `name` attribute. -/
def QmlXmlReader.readTypeAttributes :
    List (String × String) → QmlXmlReader × TypeLocals →
      Except QmlXmlReader (QmlXmlReader × TypeLocals)
  | [], s => .ok s
  | attr :: rest, s =>
    if attr.1 = "name" then
      if attr.2 = "" then .error (s.1.invalidAttr s.2.name "name" "type")
      else QmlXmlReader.readTypeAttributes rest (s.1, { s.2 with id := attr.2 })
    else if attr.1 = "defaultProperty" then
      QmlXmlReader.readTypeAttributes rest (s.1, { s.2 with defaultPropertyName := attr.2 })
    else if attr.1 = "extends" then
      let extends_ := if attr.2 ≠ "" then attr.2 else s.2.extends_
      if extends_ = s.2.name then
        QmlXmlReader.readTypeAttributes rest
          (s.1.invalidAttr extends_ "extends" "type",
            { s.2 with extends_ := extends_, doInsert := false })
      else QmlXmlReader.readTypeAttributes rest (s.1, { s.2 with extends_ := extends_ })
    else QmlXmlReader.readTypeAttributes rest s

/-- The body of the loop over the content in `QmlXmlReader::readType`. -/
def QmlXmlReader.readTypeChild (toInt : String → Option Int) (name : String)
    (attributes : List (String × String)) (children : List XmlNode)
    (s : QmlXmlReader × FakeMetaObject) : QmlXmlReader × FakeMetaObject :=
  if name = "property" then QmlXmlReader.readProperty attributes children s
  else if name = "enum" then QmlXmlReader.readEnum toInt attributes children s
  else if name = "signal" then QmlXmlReader.readSignal attributes children s
  else if name = "method" then QmlXmlReader.readMethod attributes children s
  else if name = "exports" then QmlXmlReader.readExports toInt children s
  else (s.1.unexpectedElement name "type", s.2)

/-- The meta-object that `QmlXmlReader::readType` creates after the loop over the
attributes. -/
def QmlXmlReader.newMetaObject (l : TypeLocals) : FakeMetaObject :=
  let metaObject : FakeMetaObject := {}
  let metaObject :=
    if l.extends_ ≠ "" then metaObject.setSuperclassName l.extends_ else metaObject
  if l.defaultPropertyName ≠ "" then metaObject.setDefaultPropertyName l.defaultPropertyName
  else metaObject

/-- `_objects->insert(id, metaObject)`: the meta-object takes the next place of the memory
and the table points to it. -/
def QmlXmlReader.insert (r : QmlXmlReader) (id : String) (metaObject : FakeMetaObject) :
    QmlXmlReader :=
  { r with
    metas := r.metas ++ [metaObject],
    _objects := QMap.insert r._objects id r.metas.length }

/-- `QmlXmlReader::readType`. A meta-object that is deleted leaves no trace. -/
def QmlXmlReader.readType (toInt : String → Option Int) (attributes : List (String × String))
    (children : List XmlNode) (r : QmlXmlReader) : QmlXmlReader :=
  match QmlXmlReader.readTypeAttributes attributes (r, {}) with
  | .error r1 => r1
  | .ok (r1, l) =>
    let s := QmlXmlReader.whileReadNextStartElement (QmlXmlReader.readTypeChild toInt) children
      (r1, QmlXmlReader.newMetaObject l)
    let metaObject := s.2.addExport l.id "" ComponentVersion.noVersion
    if l.doInsert then s.1.insert l.id metaObject else s.1

/-- The body of the loop over the content in `QmlXmlReader::readModule`. -/
def QmlXmlReader.readModuleChild (toInt : String → Option Int) (name : String)
    (attributes : List (String × String)) (children : List XmlNode)
    (s : QmlXmlReader × Unit) : QmlXmlReader × Unit :=
  if name = "type" then (QmlXmlReader.readType toInt attributes children s.1, ())
  else (s.1.unexpectedElement name "module", ())

/-- `QmlXmlReader::readModule`. -/
def QmlXmlReader.readModule (toInt : String → Option Int) (children : List XmlNode)
    (r : QmlXmlReader) : QmlXmlReader :=
  (QmlXmlReader.whileReadNextStartElement (QmlXmlReader.readModuleChild toInt) children
    (r, ())).1

/-- `QmlXmlReader::operator()` on a fresh reader of the document, for the table `objects`
whose meta-objects are in `metas`: the answer of the call together with the reader
afterwards, which holds the table and the error message. The document is its root element, or
`notWellFormed` when the stream reader finds no root element (as in an empty file). -/
def QmlXmlReader.call (toInt : String → Option Int) (document : XmlNode)
    (metas : List FakeMetaObject) (objects : List (String × Nat)) : Bool × QmlXmlReader :=
  let r : QmlXmlReader := { metas := metas, _objects := objects }
  let r1 :=
    match document with
    | .element name _ children =>
      if name = "module" then QmlXmlReader.readModule toInt children r
      else r.raiseError "The file is not module file."
    | .notWellFormed errorString => r.raiseError errorString
  (!r1.error.isSome, r1)

/-! ## The loader of type descriptions -/

/-- The body of the loop of `CppQmlTypesLoader::setSuperClasses` at one entry of the table;
`newObjects->value(superName)` is null when the table has no such key. -/
def CppQmlTypesLoader.setSuperClassesStep (newObjects : List (String × Nat))
    (metas : List FakeMetaObject) (entry : String × Nat) : List FakeMetaObject :=
  let obj := entry.2
  let superName := (metaAt metas obj).superclassName
  if superName ≠ "" then
    match QMap.value newObjects superName with
    | some superClass => metas.set obj ((metaAt metas obj).setSuperclass superClass)
    | none => metas
  else metas

/-- `CppQmlTypesLoader::setSuperClasses`: the table itself is not changed, the meta-objects
that it points to are. -/
def CppQmlTypesLoader.setSuperClasses (metas : List FakeMetaObject)
    (newObjects : List (String × Nat)) : List FakeMetaObject :=
  newObjects.foldl (CppQmlTypesLoader.setSuperClassesStep newObjects) metas

/-- A file handed to the loader: its path and what `QFile::open` gives, the document or the
error string of the file that cannot be opened. -/
structure XmlFile where
  absoluteFilePath : String
  contents : Except String XmlNode

/-- The static state of `CppQmlTypesLoader`: the list `builtinObjects` of pointers to
meta-objects, and the memory `metas` of the meta-objects. -/
structure CppQmlTypesLoader where
  metas : List FakeMetaObject := []
  builtinObjects : List Nat := []
  deriving DecidableEq, Repr

/-- The local variables of `CppQmlTypesLoader::load`, with the memory of the meta-objects. -/
structure LoadLocals where
  metas : List FakeMetaObject := []
  newObjects : List (String × Nat) := []
  errorMsgs : List String := []
  deriving DecidableEq, Repr

/-- The body of the loop over the files in `CppQmlTypesLoader::load`. -/
def CppQmlTypesLoader.loadFile (toInt : String → Option Int) (s : LoadLocals)
    (xmlFile : XmlFile) : LoadLocals :=
  match xmlFile.contents with
  | .ok document =>
    let read := QmlXmlReader.call toInt document s.metas s.newObjects
    { metas := read.2.metas,
      newObjects := read.2._objects,
      errorMsgs := if !read.1 then s.errorMsgs ++ [read.2.errorMessage] else s.errorMsgs }
  | .error errorString =>
    { s with errorMsgs := s.errorMsgs ++ [xmlFile.absoluteFilePath ++ ": " ++ errorString] }

/-- `CppQmlTypesLoader::load`: the error messages that it returns and the state of the loader
afterwards. -/
def CppQmlTypesLoader.load (toInt : String → Option Int) (loader : CppQmlTypesLoader)
    (xmlFiles : List XmlFile) : List String × CppQmlTypesLoader :=
  let s := xmlFiles.foldl (CppQmlTypesLoader.loadFile toInt)
    { metas := loader.metas, newObjects := [], errorMsgs := [] }
  if s.errorMsgs = [] then
    (s.errorMsgs,
      { metas := CppQmlTypesLoader.setSuperClasses s.metas s.newObjects,
        builtinObjects := loader.builtinObjects ++ QMap.values s.newObjects })
  else (s.errorMsgs, { loader with metas := s.metas })

/-- `CppQmlTypesLoader::parseQmlTypeXml`: the message that it returns, the table and the
memory of the meta-objects afterwards. -/
def CppQmlTypesLoader.parseQmlTypeXml (toInt : String → Option Int) (xml : XmlNode)
    (metas : List FakeMetaObject) (newObjects : List (String × Nat)) :
    String × List FakeMetaObject × List (String × Nat) :=
  let reader := QmlXmlReader.call toInt xml metas newObjects
  if !reader.1 then
    if reader.2.errorMessage = "" then ("unknown error", reader.2.metas, reader.2._objects)
    else (reader.2.errorMessage, reader.2.metas, reader.2._objects)
  else
    ("", CppQmlTypesLoader.setSuperClasses reader.2.metas reader.2._objects, reader.2._objects)

/-! ## Property types and enums of a `QmlObjectValue` -/

/-- The members of the engine: the registry of the C++ types, the `QmlEnumValue`s registered
with the engine (each with its copy of the enum and addressed by its position), and the
pointers to the built-in prototypes, constructors and objects, which are null until
`initializePrototypes` sets them. The object values themselves are in the heap. -/
structure Engine where
  _cppQmlTypes : CppQmlTypes := {}
  qmlEnumValues : List FakeMetaEnum := []
  _objectPrototype : Option Nat := none
  _functionPrototype : Option Nat := none
  _numberPrototype : Option Nat := none
  _booleanPrototype : Option Nat := none
  _stringPrototype : Option Nat := none
  _arrayPrototype : Option Nat := none
  _datePrototype : Option Nat := none
  _regexpPrototype : Option Nat := none
  _objectCtor : Option Nat := none
  _functionCtor : Option Nat := none
  _arrayCtor : Option Nat := none
  _stringCtor : Option Nat := none
  _booleanCtor : Option Nat := none
  _numberCtor : Option Nat := none
  _dateCtor : Option Nat := none
  _regexpCtor : Option Nat := none
  _globalObject : Option Nat := none
  _mathObject : Option Nat := none
  _qtObject : Option Nat := none
  _qmlKeysObject : Option Nat := none
  _qmlFontObject : Option Nat := none
  _qmlPointObject : Option Nat := none
  _qmlSizeObject : Option Nat := none
  _qmlRectObject : Option Nat := none
  _qmlVector3DObject : Option Nat := none
  deriving DecidableEq, Repr

/-- The values that `QmlObjectValue::propertyValue` answers: a `QmlObjectValue` of the
registry, one of the values that the engine owns, named by the accessor of the engine, or a
`QmlEnumValue`. -/
inductive PropertyValue where
  | qmlObjectValue (objectValue : Nat)
  | undefinedValue
  | stringValue
  | booleanValue
  | numberValue
  | qmlFontObject
  | qmlPointObject
  | qmlSizeObject
  | qmlRectObject
  | qmlVector3DObject
  | colorValue
  | anchorLineValue
  | qmlEnumValue (enumValue : Nat)
  deriving DecidableEq, Repr

/-- The `if` chain of `QmlObjectValue::propertyValue` over the built-in type names, which
starts from `undefinedValue`. -/
def QmlObjectValue.builtinValue (typeName : String) : PropertyValue :=
  if typeName = "QByteArray" ∨ typeName = "string" ∨ typeName = "QString"
      ∨ typeName = "QUrl" then .stringValue
  else if typeName = "bool" then .booleanValue
  else if typeName = "int" ∨ typeName = "float" ∨ typeName = "double" ∨ typeName = "qreal"
      ∨ typeName = "long" then .numberValue
  else if typeName = "QFont" then .qmlFontObject
  else if typeName = "QPoint" ∨ typeName = "QPointF" ∨ typeName = "QVector2D" then
    .qmlPointObject
  else if typeName = "QSize" ∨ typeName = "QSizeF" then .qmlSizeObject
  else if typeName = "QRect" ∨ typeName = "QRectF" then .qmlRectObject
  else if typeName = "QVector3D" then .qmlVector3DObject
  else if typeName = "QColor" then .colorValue
  else if typeName = "QDeclarativeAnchorLine" then .anchorLineValue
  else .undefinedValue

/-- `QmlObjectValue::propertyValue`: the value and the engine afterwards; `metas` is the
memory of the meta-objects. -/
def QmlObjectValue.propertyValue (metas : List FakeMetaObject) (engine : Engine)
    (v : QmlObjectValue) (prop : FakeMetaProperty) : PropertyValue × Engine :=
  let typeName := prop.m_type
  match engine._cppQmlTypes.typeForImport typeName with
  | some objectValue => (.qmlObjectValue objectValue, engine)
  | none =>
    let value := QmlObjectValue.builtinValue typeName
    let enumIndex := (metaAt metas v._metaObject).enumeratorIndex prop.m_type
    if enumIndex ≠ -1 then
      let metaEnum := (metaAt metas v._metaObject).enumerator enumIndex
      (.qmlEnumValue engine.qmlEnumValues.length,
        { engine with qmlEnumValues := engine.qmlEnumValues ++ [metaEnum] })
    else (value, engine)

/-- `QmlObjectValue::isEnum`. -/
def QmlObjectValue.isEnum (metas : List FakeMetaObject) (v : QmlObjectValue)
    (typeName : String) : Bool :=
  (metaAt metas v._metaObject).enumeratorIndex typeName != -1

/-- `QmlObjectValue::enumContainsKey`. -/
def QmlObjectValue.enumContainsKey (metas : List FakeMetaObject) (v : QmlObjectValue)
    (enumName enumKeyName : String) : Bool :=
  let idx := (metaAt metas v._metaObject).enumeratorIndex enumName
  if idx = -1 then false
  else
    let fme := (metaAt metas v._metaObject).enumerator idx
    (List.range fme.keyCount).any (fun i => fme.key i == enumKeyName)

/-! ## The default property -/

/-- `Context::defaultPropertyName`; `object` is null when `none`. -/
def Context.defaultPropertyName (h : Heap) :
    Nat → Context → Option Nat → Option (String × Context)
  | 0, _, _ => none
  | _ + 1, ctx, none => some ("", ctx)
  | fuel + 1, ctx, some o =>
    match (h.obj o).dynamicClass with
    | .astObjectValue defaultProperty =>
      if defaultProperty ≠ "" then some (defaultProperty, ctx)
      else
        match (h.obj o).prototype h fuel ctx with
        | none => none
        | some (p, ctx1) => Context.defaultPropertyName h fuel ctx1 p
    | .qmlObjectValue defaultProperty => some (defaultProperty, ctx)
    | .otherObjectValue =>
      match (h.obj o).prototype h fuel ctx with
      | none => none
      | some (p, ctx1) => Context.defaultPropertyName h fuel ctx1 p

/-! ## Scenarios of the reader and of the loader -/

/-- A reading of `QString::toInt` for the scenarios: the decimal numerals without a sign. -/
def decimalToInt (s : String) : Option Int :=
  if s.data = [] ∨ ¬ s.data.all Char.isDigit then none
  else some (Int.ofNat (s.data.foldl (fun n c => 10 * n + (c.toNat - 48)) 0))

/-- The reader `t` holds the table and the meta-objects of the reader `r`: the two differ in
the error of the stream at most. -/
def QmlXmlReader.SameTable (r t : QmlXmlReader) : Prop :=
  t.metas = r.metas ∧ t._objects = r._objects

/-- The meta-object `n` has the superclass, the superclass name and the default property of
the meta-object `m`. -/
def FakeMetaObject.SameLinks (m n : FakeMetaObject) : Prop :=
  n.m_super = m.m_super ∧ n.m_superName = m.m_superName
    ∧ n.m_defaultPropertyName = m.m_defaultPropertyName

/-- The value of the attribute `name` among the attributes of an element, empty when the
element has no such attribute (of several, the last one). -/
def XmlNode.attributeValue (attributes : List (String × String)) (name : String) : String :=
  attributes.foldl (fun value attr => if attr.1 = name then attr.2 else value) ""

/-- The `export` elements among the nodes, each given by its attributes, in document
order. -/
def XmlNode.exportsOf : List XmlNode → List (List (String × String))
  | [] => []
  | .element name attributes _ :: rest =>
    if name = "export" then attributes :: XmlNode.exportsOf rest else XmlNode.exportsOf rest
  | .notWellFormed _ :: rest => XmlNode.exportsOf rest

/-- The explicit export elements of a `type` element with the given content: the `export`
elements of its `exports` elements, each given by its attributes, in document order. -/
def XmlNode.exportElements : List XmlNode → List (List (String × String))
  | [] => []
  | .element name _ children :: rest =>
    if name = "exports" then XmlNode.exportsOf children ++ XmlNode.exportElements rest
    else XmlNode.exportElements rest
  | .notWellFormed _ :: rest => XmlNode.exportElements rest

/-- The version that the attributes of an `export` element give: the one that its `version`
attribute stands for (of several, the last one that stands for a version), no version when
there is none. -/
def XmlNode.versionValue (toInt : String → Option Int) (attributes : List (String × String)) :
    ComponentVersion :=
  attributes.foldl
    (fun version attr =>
      if attr.1 = "version" then (QmlXmlReader.readVersion toInt attr.2).getD version
      else version)
    ComponentVersion.noVersion

/-- The export record of package, exported type name and version. -/
def Export.record (package type : String) (version : ComponentVersion) : Export :=
  { package := package, type := type, version := version,
    packageNameVersion := formatPackageNameVersion package type version }

/-- The export record that the specification gives an `export` element: the package of its
`module` attribute, the exported type name of its `type` attribute and the version of its
`version` attribute. -/
def XmlNode.exportRecord (toInt : String → Option Int) (attributes : List (String × String)) :
    Export :=
  Export.record (XmlNode.attributeValue attributes "module")
    (XmlNode.attributeValue attributes "type") (XmlNode.versionValue toInt attributes)

/-- The content of a `type` element with a property and two explicit exports. -/
def exportsScenarioContent : List XmlNode :=
  [.element "property" [("name", "width"), ("type", "int")] [],
   .element "exports" []
     [.element "export" [("module", "Qt"), ("type", "Item"), ("version", "4.7")] [],
      .element "export" [("module", "QtQuick"), ("type", "Item"), ("version", "1")] []]]

/-- The `export` element of the scenarios whose version is malformed. -/
def malformedScenarioExport : XmlNode :=
  .element "export" [("module", "Qt"), ("type", "Item"), ("version", "x.7")] []

/-- The content of a `type` element whose second `export` element of three has a malformed
version. -/
def malformedScenarioContent : List XmlNode :=
  [.element "property" [("name", "width"), ("type", "int")] []] ++
  [.element "exports" []
     ([.element "export" [("module", "Qt"), ("type", "Item"), ("version", "4.7")] []] ++
       .element "export" [("module", "Qt"), ("type", "Item"), ("version", "x.7")] [] ::
      [.element "export" [("module", "QtQuick"), ("type", "Item"), ("version", "1")] []])] ++
  []

/-- A module document with the well-formed `type` element `Item` and a `type` element that
has no `name` attribute. -/
def namelessScenarioDocument : XmlNode :=
  .element "module" []
    [.element "type" [("name", "Item")] [.element "property" [("name", "x"), ("type", "int")] []],
     .element "type" [("defaultProperty", "data")] []]

/-- The module document with the same two `type` elements in the other order. -/
def namelessFirstScenarioDocument : XmlNode :=
  .element "module" []
    [.element "type" [("defaultProperty", "data")] [],
     .element "type" [("name", "Item")] [.element "property" [("name", "x"), ("type", "int")] []]]

/-- A file is malformed for the loader when it cannot be opened or when
`QmlXmlReader::operator()` answers false on its document. -/
def XmlFile.malformed (toInt : String → Option Int) (xmlFile : XmlFile) : Bool :=
  match xmlFile.contents with
  | .error _ => true
  | .ok document => !(QmlXmlReader.call toInt document [] []).1

/-- A well-formed file with the one type `Item`. -/
def batchScenarioGood : XmlFile :=
  { absoluteFilePath := "/types/good.xml",
    contents := .ok (.element "module" [] [.element "type" [("name", "Item")] []]) }

/-- A file whose root element is not `module`. -/
def batchScenarioBad : XmlFile :=
  { absoluteFilePath := "/types/bad.xml",
    contents := .ok (.element "types" [] [.element "type" [("name", "Text")] []]) }

/-- The meta-object `m` as `setSuperClasses` leaves it for the table `newObjects`: with the
entry of its superclass name as the superclass, when it has a superclass name and the table
has that entry, and as it is otherwise. -/
def CppQmlTypesLoader.linked (newObjects : List (String × Nat)) (m : FakeMetaObject) :
    FakeMetaObject :=
  if m.superclassName ≠ "" then
    match QMap.value newObjects m.superclassName with
    | some superClass => m.setSuperclass superClass
    | none => m
  else m

/-- The table and the meta-objects of three parsed types: `Item`, `Rectangle` that extends
`Item`, and `Orphan` that extends `Missing`, which the table does not have. -/
def superScenarioTable : List (String × Nat) := [("Item", 0), ("Orphan", 2), ("Rectangle", 1)]

/-- The meta-objects of `superScenarioTable`. -/
def superScenarioMetas : List FakeMetaObject :=
  [FakeMetaObject.addExport {} "Item" "" ComponentVersion.noVersion,
   FakeMetaObject.addExport (FakeMetaObject.setSuperclassName {} "Item") "Rectangle" ""
     ComponentVersion.noVersion,
   FakeMetaObject.addExport (FakeMetaObject.setSuperclassName {} "Missing") "Orphan" ""
     ComponentVersion.noVersion]

/-- A module document of two types that extend each other. -/
def mutualScenarioDocument : XmlNode :=
  .element "module" []
    [.element "type" [("name", "A"), ("extends", "B")] [],
     .element "type" [("name", "B"), ("extends", "A")] []]

/-- The file of `mutualScenarioDocument`. -/
def mutualScenarioFile : XmlFile :=
  { absoluteFilePath := "/types/mutual.xml", contents := .ok mutualScenarioDocument }

/-- The meta-objects of `A` and `B`, each with the other as its superclass. -/
def mutualScenarioLinked : List FakeMetaObject :=
  [FakeMetaObject.setSuperclass
     (FakeMetaObject.addExport (FakeMetaObject.setSuperclassName {} "B") "A" ""
       ComponentVersion.noVersion) 1,
   FakeMetaObject.setSuperclass
     (FakeMetaObject.addExport (FakeMetaObject.setSuperclassName {} "A") "B" ""
       ComponentVersion.noVersion) 0]

/-! ## Scenarios of the property types, of the enums and of the default property -/

/-- The meta-object of a type that declares an enum named `int`. -/
def enumScenarioMetas : List FakeMetaObject :=
  [FakeMetaObject.addEnum {}
    (FakeMetaEnum.addKey (FakeMetaEnum.addKey { m_name := "int" } "Small" 0) "Large" 1)]

/-- The content of a `type` element that declares the enum `Mode` with the keys `A` = 0 and
`B` = 1. -/
def modeScenarioContent : List XmlNode :=
  [.element "enum" [("name", "Mode")]
    [.element "enumerator" [("name", "A"), ("value", "0")] [],
     .element "enumerator" [("name", "B"), ("value", "1")] []]]

/-- The enum `Mode` with the keys `A` = 0 and `B` = 1. -/
def modeScenarioEnum : FakeMetaEnum :=
  FakeMetaEnum.addKey (FakeMetaEnum.addKey { m_name := "Mode" } "A" 0) "B" 1

/-- Two externally described component types: the object 0 declares no default property and
has the object 1 as its prototype, which declares the default property `data`. -/
def defaultScenarioHeap : Heap :=
  { objects := [
      { className := "Rectangle", _prototype := some (.objectValue 1),
        kind := .synthesized [], dynamicClass := .qmlObjectValue "" },
      { className := "Item", kind := .synthesized [], dynamicClass := .qmlObjectValue "data" }] }

/-- A script-declared object without a default property, the object 0, whose prototype is the
component type of the object 1, which declares the default property `data`. -/
def defaultAstScenarioHeap : Heap :=
  { objects := [
      { className := "", _prototype := some (.objectValue 1),
        kind := .synthesized [], dynamicClass := .astObjectValue "" },
      { className := "Item", kind := .synthesized [], dynamicClass := .qmlObjectValue "data" }] }

/-! ## Object values of the heap: setters and creation -/

/-- Write through an object pointer: the object at `object` is replaced by `f` of it. -/
def Heap.modify (h : Heap) (object : Nat) (f : ObjectValue → ObjectValue) : Heap :=
  { h with objects := h.objects.set object (f (h.obj object)) }

/-- `new ObjectValue(engine)` and the `new` of its subclasses: the object is stored at the
next free address, which is the pointer returned. -/
def Heap.new (h : Heap) (o : ObjectValue) : Nat × Heap :=
  (h.objects.length, { h with objects := h.objects ++ [o] })

/-- `ObjectValue::setClassName`. -/
def ObjectValue.setClassName (h : Heap) (object : Nat) (className : String) : Heap :=
  h.modify object (fun o => { o with className := className })

/-- `ObjectValue::setPrototype`; `prototype` is null when `none`. -/
def ObjectValue.setPrototype (h : Heap) (object : Nat) (prototype : Option Value) : Heap :=
  h.modify object (fun o => { o with _prototype := prototype })

/-- `ObjectValue::setProperty`: `_members[name] = value`. -/
def ObjectValue.setProperty (h : Heap) (object : Nat) (name : String) (value : Value) : Heap :=
  h.modify object (fun o => { o with _members := QHash.insert o._members name value })

/-- `Function::setReturnValue`; on an object that is no function value nothing is there to
set. -/
def Function.setReturnValue (h : Heap) (function : Nat) (returnValue : Option Value) : Heap :=
  h.modify function (fun o =>
    { o with asFunctionValue := o.asFunctionValue.map (fun f =>
        { f with _returnValue := returnValue }) })

/-- `Function::addArgument`. -/
def Function.addArgument (h : Heap) (function : Nat) (argument : Value) : Heap :=
  h.modify function (fun o =>
    { o with asFunctionValue := o.asFunctionValue.map (fun f =>
        { f with _arguments := f._arguments ++ [argument] }) })

/-- The constructor `Function::Function(engine)`, which the eight constructor classes
inherit: `_returnValue` is null and the class name is `Function`. -/
def Function.new (h : Heap) (functionClass : FunctionClass) : Nat × Heap :=
  h.new { className := "Function", asFunctionValue := some { functionClass := functionClass } }

/-- `Engine::newObject(prototype)`; `prototype` is null when `none`. -/
def Engine.newObjectWith (h : Heap) (prototype : Option Nat) : Nat × Heap :=
  let (object, h) := h.new {}
  (object, ObjectValue.setPrototype h object (prototype.map Value.objectValue))

/-- `Engine::newObject()`. -/
def Engine.newObject (e : Engine) (h : Heap) : Nat × Heap :=
  Engine.newObjectWith h e._objectPrototype

/-- `Engine::newFunction`. -/
def Engine.newFunction (e : Engine) (h : Heap) : Nat × Heap :=
  let (function, h) := Function.new h .function
  (function, ObjectValue.setPrototype h function (e._functionPrototype.map Value.objectValue))

/-- The loop `for (int i = 0; i < argumentCount; ++i) function->addArgument(undefinedValue())`
of `Engine::addFunction`. -/
def Engine.addArguments (h : Heap) (function : Nat) : Nat → Heap
  | 0 => h
  | argumentCount + 1 =>
    Function.addArgument (Engine.addArguments h function argumentCount) function .undefinedValue

/-- `Engine::addFunction(object, name, result, argumentCount)`. -/
def Engine.addFunctionReturning (e : Engine) (h : Heap) (object : Nat) (name : String)
    (result : Option Value) (argumentCount : Nat) : Heap :=
  let (function, h) := e.newFunction h
  let h := Function.setReturnValue h function result
  let h := Engine.addArguments h function argumentCount
  ObjectValue.setProperty h object name (.objectValue function)

/-- `Engine::addFunction(object, name, argumentCount)`. -/
def Engine.addFunction (e : Engine) (h : Heap) (object : Nat) (name : String)
    (argumentCount : Nat) : Heap :=
  let (function, h) := e.newFunction h
  let h := Engine.addArguments h function argumentCount
  ObjectValue.setProperty h object name (.objectValue function)

/-! ## Calling function values -/

/-- `Activation`: `_thisObject` (null when `none`), `_calledAsFunction` and `_arguments`,
with the initial values of the constructor. -/
structure Activation where
  _thisObject : Option Nat := none
  _calledAsFunction : Bool := true
  _arguments : List Value := []
  deriving DecidableEq, Repr

/-- `Activation::setCalledAsConstructor`. -/
def Activation.setCalledAsConstructor (a : Activation) (calledAsConstructor : Bool) :
    Activation :=
  { a with _calledAsFunction := !calledAsConstructor }

/-- `Activation::setCalledAsFunction`. -/
def Activation.setCalledAsFunction (a : Activation) (calledAsFunction : Bool) : Activation :=
  { a with _calledAsFunction := calledAsFunction }

/-- `Activation::setThisObject`. -/
def Activation.setThisObject (a : Activation) (thisObject : Option Nat) : Activation :=
  { a with _thisObject := thisObject }

/-- `Activation::setArguments`. -/
def Activation.setArguments (a : Activation) (arguments : List Value) : Activation :=
  { a with _arguments := arguments }

/-- The type of `Engine::convertToString` and its siblings: from the heap and a possibly null
value to the possibly null result and the heap afterwards; `none` when the fuel did not
suffice or a null pointer was dereferenced. -/
abbrev Conversion := Heap → Option Value → Option (Option Value × Heap)

/-- The common end of the `invoke` of the constructor classes: the class name, the prototype
and the properties of `thisObject` are set and `thisObject` is returned. -/
def Function.initialize (h : Heap) (thisObject : Option Nat) (className : String)
    (prototype : Option Nat) (properties : List (String × Value)) :
    Option (Option Value × Heap) :=
  match thisObject with
  | none => none
  | some object =>
    let h := ObjectValue.setClassName h object className
    let h := ObjectValue.setPrototype h object (prototype.map Value.objectValue)
    let h := properties.foldl (fun h p => ObjectValue.setProperty h object p.1 p.2) h
    some (some (.objectValue object), h)

/-- The `thisObject` of the `invoke` of `ObjectCtor`, `FunctionCtor`, `ArrayCtor` and
`RegExpCtor`: that of the activation, and a new object when called as a function. -/
def Function.thisObject (e : Engine) (h : Heap) (activation : Activation) : Option Nat × Heap :=
  if activation._calledAsFunction then
    let (object, h) := e.newObject h
    (some object, h)
  else (activation._thisObject, h)

/-- The virtual `invoke(activation)` of the function value at `function`, by its class;
`convertToString` and `convertToNumber` are those of the engine. -/
def FunctionValue.invoke (e : Engine) (convertToString convertToNumber : Conversion)
    (h : Heap) (function : Nat) (activation : Activation) : Option (Option Value × Heap) :=
  match (h.obj function).asFunctionValue with
  | none => none
  | some f =>
    match f.functionClass with
    | .functionValue => some (activation._thisObject.map Value.objectValue, h)
    | .function => some (activation._thisObject.map Value.objectValue, h)
    | .metaFunction => some (some .undefinedValue, h)
    | .objectCtor =>
      let (thisObject, h) := Function.thisObject e h activation
      Function.initialize h thisObject "Object" e._objectPrototype [("length", .numberValue)]
    | .functionCtor =>
      let (thisObject, h) := Function.thisObject e h activation
      Function.initialize h thisObject "Function" e._functionPrototype
        [("length", .numberValue)]
    | .arrayCtor =>
      let (thisObject, h) := Function.thisObject e h activation
      Function.initialize h thisObject "Array" e._arrayPrototype [("length", .numberValue)]
    | .stringCtor =>
      if activation._calledAsFunction then
        convertToString h (activation._thisObject.map Value.objectValue)
      else
        Function.initialize h activation._thisObject "String" e._stringPrototype
          [("length", .numberValue)]
    | .booleanCtor =>
      if activation._calledAsFunction then
        convertToNumber h (activation._thisObject.map Value.objectValue)
      else Function.initialize h activation._thisObject "Boolean" e._booleanPrototype []
    | .numberCtor =>
      if activation._calledAsFunction then
        convertToNumber h (activation._thisObject.map Value.objectValue)
      else Function.initialize h activation._thisObject "Number" e._numberPrototype []
    | .dateCtor =>
      if activation._calledAsFunction then some (some .stringValue, h)
      else Function.initialize h activation._thisObject "Date" e._datePrototype []
    | .regExpCtor =>
      let (thisObject, h) := Function.thisObject e h activation
      Function.initialize h thisObject "RegExp" e._regexpPrototype
        [("source", .stringValue), ("global", .booleanValue), ("ignoreCase", .booleanValue),
         ("multiline", .booleanValue), ("lastIndex", .numberValue)]

/-- `FunctionValue::construct(actuals)`. -/
def FunctionValue.construct (e : Engine) (convertToString convertToNumber : Conversion)
    (h : Heap) (function : Nat) (actuals : List Value) : Option (Option Value × Heap) :=
  let activation : Activation := {}
  let activation := activation.setCalledAsConstructor true
  let (object, h) := e.newObject h
  let activation := activation.setThisObject (some object)
  let activation := activation.setArguments actuals
  FunctionValue.invoke e convertToString convertToNumber h function activation

/-- `FunctionValue::call(actuals)`: the global object is `this`. -/
def FunctionValue.callGlobal (e : Engine) (convertToString convertToNumber : Conversion)
    (h : Heap) (function : Nat) (actuals : List Value) : Option (Option Value × Heap) :=
  let activation : Activation := {}
  let activation := activation.setCalledAsFunction true
  let activation := activation.setThisObject e._globalObject
  let activation := activation.setArguments actuals
  FunctionValue.invoke e convertToString convertToNumber h function activation

/-- `FunctionValue::call(thisObject, actuals)`. -/
def FunctionValue.call (e : Engine) (convertToString convertToNumber : Conversion)
    (h : Heap) (function : Nat) (thisObject : Option Nat) (actuals : List Value) :
    Option (Option Value × Heap) :=
  let activation : Activation := {}
  let activation := activation.setCalledAsFunction true
  let activation := activation.setThisObject thisObject
  let activation := activation.setArguments actuals
  FunctionValue.invoke e convertToString convertToNumber h function activation

/-! ## Conversions -/

/-- `value_cast<const FunctionValue *>(v)` for a possibly null `v`: the address when `v` is
an object value that is a function value. -/
def Value.asFunctionValue (h : Heap) : Option Value → Option Nat
  | some (.objectValue a) => if (h.obj a).asFunctionValue.isSome then some a else none
  | _ => none

/-- `value_cast<const NumberValue *>(v)` for a possibly null `v`. -/
def Value.asNumberValue : Option Value → Option Value
  | some .numberValue => some .numberValue
  | _ => none

/-- `value_cast<const StringValue *>(v)` for a possibly null `v`. -/
def Value.asStringValue : Option Value → Option Value
  | some .stringValue => some .stringValue
  | _ => none

/-- `ObjectValue::prototype(context)` called with the null context, as the conversions call
it: the stored prototype when it is an object value, null when it is neither an object value
nor a reference. When the stored prototype is a reference, the source calls
`lookupReference` through the null pointer: the call does not return (`none`). -/
def ObjectValue.prototypeNullContext (o : ObjectValue) : Option (Option Nat) :=
  match Value.asObjectValue o._prototype with
  | some prototypeObject => some (some prototypeObject)
  | none =>
    match Value.asReference o._prototype with
    | some _ => none
    | none => some none

/-- The loop of `TypeEnvironment::lookupMember` over the imports, called with the null
context; `property` is `import->property(name, 0)`, which is the virtual `lookupMember` of
the import. -/
def TypeEnvironment.lookupImportsNullContext (h : Heap)
    (property : Nat → Option (Option Value)) (name : String) :
    List (Nat × ImportInfo) → Option (Option Value)
  | [] => some none
  | (imp, info) :: rest =>
    if info.id ≠ "" then
      if info.id = name then some (some (.objectValue imp))
      else TypeEnvironment.lookupImportsNullContext h property name rest
    else if info.type = .FileImport then
      if (h.obj imp).className = name then some (some (.objectValue imp))
      else TypeEnvironment.lookupImportsNullContext h property name rest
    else
      match property imp with
      | none => none
      | some (some v) => some (some v)
      | some none => TypeEnvironment.lookupImportsNullContext h property name rest

/-- The virtual `lookupMember(name, 0, examinePrototypes)` of the object at `address`: the
lookup with the null context. It is `ObjectValue::lookupMember`, or
`TypeEnvironment::lookupMember` for a type environment, in which the context is handed on
and is dereferenced only by `ObjectValue::prototype`, for a prototype that is a reference;
there the lookup does not return. The result is the member, null when there is none. One
unit of fuel pays for one call. -/
def ObjectValue.lookupMemberNullContext (h : Heap) :
    Nat → Nat → String → Bool → Option (Option Value)
  | 0, _, _, _ => none
  | fuel + 1, address, name, examinePrototypes =>
    match (h.obj address).kind with
    | .typeEnvironment imports =>
      TypeEnvironment.lookupImportsNullContext h
        (fun imp => ObjectValue.lookupMemberNullContext h fuel imp name true) name imports
    | _ =>
      match findMember name (h.obj address)._members with
      | some m => some (some m)
      | none =>
        match (h.obj address).slowLookup name with
        | some m => some (some m)
        | none =>
          if examinePrototypes then
            match (h.obj address).prototypeNullContext with
            | none => none
            | some none => some none
            | some (some prototypeObject) =>
              match ObjectValue.lookupMemberNullContext h fuel prototypeObject name true with
              | none => none
              | some (some m) => some (some m)
              | some none => some none
          else some none

/-- The `visit` of `ConvertToNumber` and of `ConvertToString` at an `ObjectValue` and at a
`FunctionValue`, which are the same up to the name of the member and the cast of the
result: the member `name` of the object is looked up with the null context
(`object->lookupMember(name, 0)`); when it is a function value, the result is what that
function answers when called on the object, narrowed by `cast`; otherwise the result stays
null. The visit does not return when the lookup does not. -/
def ConvertTo.visitObject (e : Engine) (convertToString convertToNumber : Conversion)
    (fuel : Nat) (name : String) (cast : Option Value → Option Value) (h : Heap)
    (object : Nat) : Option (Option Value × Heap) :=
  match ObjectValue.lookupMemberNullContext h fuel object name true with
  | none => none
  | some member =>
    match Value.asFunctionValue h member with
    | some valueOfMember =>
      match FunctionValue.call e convertToString convertToNumber h valueOfMember
          (some object) [] with
      | none => none
      | some (result, h1) => some (cast result, h1)
    | none => some (none, h)

/-- `ConvertToNumber::operator()`: the result starts as null and the value, unless null,
is visited. `ValueVisitor::visit` does nothing for the kinds that `ConvertToNumber` does not
override (references, colors, anchor lines). -/
def ConvertToNumber.call (e : Engine) (convertToString convertToNumber : Conversion)
    (fuel : Nat) (h : Heap) (value : Option Value) : Option (Option Value × Heap) :=
  match value with
  | none => some (none, h)
  | some .nullValue => some (some .numberValue, h)
  | some .undefinedValue => some (some .numberValue, h)
  | some .numberValue => some (some .numberValue, h)
  | some .booleanValue => some (some .numberValue, h)
  | some .stringValue => some (some .numberValue, h)
  | some (.objectValue object) =>
    ConvertTo.visitObject e convertToString convertToNumber fuel "valueOf" Value.asNumberValue
      h object
  | some .colorValue => some (none, h)
  | some .anchorLineValue => some (none, h)
  | some (.reference _) => some (none, h)

/-- `ConvertToString::operator()`. -/
def ConvertToString.call (e : Engine) (convertToString convertToNumber : Conversion)
    (fuel : Nat) (h : Heap) (value : Option Value) : Option (Option Value × Heap) :=
  match value with
  | none => some (none, h)
  | some .nullValue => some (some .stringValue, h)
  | some .undefinedValue => some (some .stringValue, h)
  | some .numberValue => some (some .stringValue, h)
  | some .booleanValue => some (some .stringValue, h)
  | some .stringValue => some (some .stringValue, h)
  | some (.objectValue object) =>
    ConvertTo.visitObject e convertToString convertToNumber fuel "toString" Value.asStringValue
      h object
  | some .colorValue => some (none, h)
  | some .anchorLineValue => some (none, h)
  | some (.reference _) => some (none, h)

/-- `Engine::convertToString` (`toString` true) and `Engine::convertToNumber` (`toString`
false), which call each other through the `invoke` of the constructors called as functions.
One unit of fuel pays for one nested conversion and for one step of a member lookup. -/
def Engine.convertTo (e : Engine) : Nat → Bool → Conversion
  | 0, toString, h, value =>
    if toString then ConvertToString.call e (fun _ _ => none) (fun _ _ => none) 0 h value
    else ConvertToNumber.call e (fun _ _ => none) (fun _ _ => none) 0 h value
  | fuel + 1, toString, h, value =>
    if toString then
      ConvertToString.call e (Engine.convertTo e fuel true) (Engine.convertTo e fuel false)
        (fuel + 1) h value
    else
      ConvertToNumber.call e (Engine.convertTo e fuel true) (Engine.convertTo e fuel false)
        (fuel + 1) h value

/-- `Engine::convertToString`. -/
def Engine.convertToString (e : Engine) (fuel : Nat) : Conversion := e.convertTo fuel true

/-- `Engine::convertToNumber`. -/
def Engine.convertToNumber (e : Engine) (fuel : Nat) : Conversion := e.convertTo fuel false

/-- `Engine::convertToBoolean`, which converts to a number. -/
def Engine.convertToBoolean (e : Engine) (fuel : Nat) : Conversion := e.convertToNumber fuel

/-- `ConvertToObject::operator()`, which is `Engine::convertToObject`: `ValueVisitor::visit`
does nothing for references, colors and anchor lines, so the result stays null for them. -/
def Engine.convertToObject (e : Engine) (fuel : Nat) (h : Heap) (value : Option Value) :
    Option (Option Value × Heap) :=
  match value with
  | none => some (none, h)
  | some .nullValue => some (some .nullValue, h)
  | some .undefinedValue => some (some .nullValue, h)
  | some .numberValue =>
    match e._numberCtor with
    | none => none
    | some numberCtor =>
      FunctionValue.construct e (e.convertToString fuel) (e.convertToNumber fuel) h numberCtor
        [.numberValue]
  | some .booleanValue =>
    match e._booleanCtor with
    | none => none
    | some booleanCtor =>
      FunctionValue.construct e (e.convertToString fuel) (e.convertToNumber fuel) h booleanCtor
        [.booleanValue]
  | some .stringValue =>
    match e._stringCtor with
    | none => none
    | some stringCtor =>
      FunctionValue.construct e (e.convertToString fuel) (e.convertToNumber fuel) h stringCtor
        [.stringValue]
  | some (.objectValue object) => some (some (.objectValue object), h)
  | some .colorValue => some (none, h)
  | some .anchorLineValue => some (none, h)
  | some (.reference _) => some (none, h)

/-- `Engine::newArray`: `arrayCtor()->construct()`. -/
def Engine.newArray (e : Engine) (fuel : Nat) (h : Heap) : Option (Option Value × Heap) :=
  match e._arrayCtor with
  | none => none
  | some arrayCtor =>
    FunctionValue.construct e (e.convertToString fuel) (e.convertToNumber fuel) h arrayCtor []

/-- `TypeId::operator()`, which is `Engine::typeId`: the result starts as `unknown` and the
value, unless null, is visited; `TypeId` does not override the visit of a reference. An object
value that is a function value is visited as a `FunctionValue`. -/
def Engine.typeId (h : Heap) (value : Option Value) : String :=
  match value with
  | none => "unknown"
  | some .nullValue => "null"
  | some .undefinedValue => "undefined"
  | some .numberValue => "number"
  | some .booleanValue => "boolean"
  | some .stringValue => "string"
  | some (.objectValue object) =>
    if (h.obj object).asFunctionValue.isSome then
      if (h.obj object).className = "" then "Function" else (h.obj object).className
    else
      if (h.obj object).className = "" then "object" else (h.obj object).className
  | some .colorValue => "string"
  | some .anchorLineValue => "AnchorLine"
  | some (.reference _) => "unknown"

/-! ## Type lookup, the property cache and the package relation -/

/-- `Context::typeEnvironment`; `doc` is null when `none`. -/
def Context.typeEnvironment (ctx : Context) (doc : Option Document) : Option Nat :=
  match doc with
  | none => none
  | some d => QHash.value ctx.typeEnvironments d.fileName

/-- Whether a function value is a `Function`: `Function` itself or one of the constructors,
which derive from it. -/
def FunctionClass.isFunction : FunctionClass → Bool
  | .functionValue => false
  | .metaFunction => false
  | _ => true

/-- The virtual `property(name, context)` of the object at `object`: `Function::property`
for a `Function`, `ObjectValue::property` for every other object. -/
def ObjectValue.property (h : Heap) (fuel : Nat) (object : Nat) (name : String)
    (ctx : Context) : Option (Option Value × Context) :=
  match (h.obj object).asFunctionValue with
  | some f =>
    if f.functionClass.isFunction ∧ name = "length" then some (some .numberValue, ctx)
    else ObjectValue.lookupMember h fuel object name ctx true
  | none => ObjectValue.lookupMember h fuel object name ctx true

/-- The `foreach` of `Context::lookupType(doc, const QStringList &)` with the `return` after
it; `objectValue` is the local of that name. -/
def Context.lookupTypeLoop (h : Heap) (fuel : Nat) :
    List String → Option Nat → Context → Option (Option Nat × Context)
  | [], objectValue, ctx => some (objectValue, ctx)
  | name :: rest, objectValue, ctx =>
    match objectValue with
    | none => some (none, ctx)
    | some object =>
      match ObjectValue.property h fuel object name ctx with
      | none => none
      | some (none, ctx1) => some (none, ctx1)
      | some (some value, ctx1) =>
        Context.lookupTypeLoop h fuel rest (Value.asObjectValue (some value)) ctx1

/-- `Context::lookupType(doc, const QStringList &qmlTypeName)`: the object found, null when
`none`, and the context afterwards. -/
def Context.lookupType (h : Heap) (fuel : Nat) (ctx : Context) (doc : Option Document)
    (qmlTypeName : List String) : Option (Option Nat × Context) :=
  Context.lookupTypeLoop h fuel qmlTypeName (ctx.typeEnvironment doc) ctx

/-- `_properties.value(object)`: the properties stored for the object, a default-constructed
(empty) hash when there are none. -/
def Context.propertiesOf : List (Nat × List (String × Value)) → Nat → List (String × Value)
  | [], _ => []
  | (key, properties) :: rest, object =>
    if key = object then properties else Context.propertiesOf rest object

/-- `_properties[object].insert(name, value)`: `operator[]` inserts an empty hash for an object
that has none yet. -/
def Context.insertProperty :
    List (Nat × List (String × Value)) → Nat → String → Value →
      List (Nat × List (String × Value))
  | [], object, name, value => [(object, QHash.insert [] name value)]
  | (key, properties) :: rest, object, name, value =>
    if key = object then (key, QHash.insert properties name value) :: rest
    else (key, properties) :: Context.insertProperty rest object name value

/-- `Context::property`. -/
def Context.property (ctx : Context) (object : Nat) (name : String) : Value :=
  let properties := Context.propertiesOf ctx.properties object
  (QHash.value properties name).getD .undefinedValue

/-- `Context::setProperty`. -/
def Context.setProperty (ctx : Context) (object : Nat) (name : String) (value : Value) :
    Context :=
  { ctx with properties := Context.insertProperty ctx.properties object name value }

/-- The loop `for (iter = start; iter; iter = iter->superClass()) if (iter == target) return
true;` with the `return false` that follows it in `QmlObjectValue::isDerivedFrom`, and which
`QmlObjectValue::hasChildInPackage` runs for each type; `iter` and `target` are null when
`none`. One unit of fuel pays for one test of the loop. -/
def FakeMetaObject.superClassLoop (metas : List FakeMetaObject) :
    Nat → Option Nat → Option Nat → Option Bool
  | 0, _, _ => none
  | _ + 1, none, _ => some false
  | fuel + 1, some iter, target =>
    if some iter = target then some true
    else FakeMetaObject.superClassLoop metas fuel (metaAt metas iter).superClass target

/-- `QmlObjectValue::isDerivedFrom`; `base` is null when `none`. -/
def QmlObjectValue.isDerivedFrom (metas : List FakeMetaObject) (fuel : Nat)
    (v : QmlObjectValue) (base : Option Nat) : Option Bool :=
  FakeMetaObject.superClassLoop metas fuel (some v._metaObject) base

/-- `QmlObjectValue::packageName`. -/
def QmlObjectValue.packageName (v : QmlObjectValue) : String := v._packageName

/-- Modelled from the spec: `CppQmlTypes::types`, which is declared in the header of the
interpreter and not defined in this file: the materialized types by their fully qualified
name, which is the one member of `CppQmlTypes` with the type `QHash<QString, QmlObjectValue *>`
that `hasChildInPackage` iterates over. -/
def CppQmlTypes.types (t : CppQmlTypes) : List (String × Nat) := t._typesByFullyQualifiedName

/-- The `while (it.hasNext())` of `QmlObjectValue::hasChildInPackage` with the `return false`
after it. -/
def QmlObjectValue.hasChildInPackageLoop (metas : List FakeMetaObject) (t : CppQmlTypes)
    (fuel : Nat) (v : QmlObjectValue) : List (String × Nat) → Option Bool
  | [] => some false
  | it :: rest =>
    let other := (t.obj it.2)._metaObject
    -- if it has only the default no-package export, it is not really exported
    if (metaAt metas other).exports.length ≤ 1 then
      QmlObjectValue.hasChildInPackageLoop metas t fuel v rest
    else
      match FakeMetaObject.superClassLoop metas fuel (some other) (some v._metaObject) with
      | none => none
      | some true => some true
      | some false => QmlObjectValue.hasChildInPackageLoop metas t fuel v rest

/-- `QmlObjectValue::hasChildInPackage`. -/
def QmlObjectValue.hasChildInPackage (metas : List FakeMetaObject) (engine : Engine)
    (fuel : Nat) (v : QmlObjectValue) : Option Bool :=
  if v.packageName ≠ "" then some true
  else QmlObjectValue.hasChildInPackageLoop metas engine._cppQmlTypes fuel v
    engine._cppQmlTypes.types

/-! ## The statements of the specification, for comparison -/

/-- One step of the walk of a type path as the specification describes it: from the object
reached so far, the property of the segment narrowed to an object value; not found (`none`
inside) when there is no object, no property, or the property is no object value. -/
def Context.typePathStep (h : Heap) (fuel : Nat) (ctx : Context) (reached : Option Nat)
    (segment : String) : Option (Option Nat) :=
  match reached with
  | none => some none
  | some object =>
    (ObjectValue.property h fuel object segment ctx).map (fun r => Value.asObjectValue r.1)

/-- The walk of a type path as the specification describes it: it starts at the type
environment of the document and takes one step for each segment in order. The outer `none`
is a property that does not return with the fuel given. -/
def Context.typePath (h : Heap) (fuel : Nat) (ctx : Context) (doc : Option Document)
    (segments : List String) : Option (Option Nat) :=
  segments.foldl (fun reached segment =>
    reached.bind (fun r => Context.typePathStep h fuel ctx r segment))
    (some (ctx.typeEnvironment doc))

/-- The root object and the ids object of a document, as far as they exist. -/
def Document.rootAndIds (document : Option Document) : List Nat :=
  match document with
  | none => []
  | some doc => doc.rootObjectValue.toList ++ doc.idEnvironment.toList

mutual
/-- What one parent contributes to the ancestry, as the specification describes it: the
ancestry of the parent and then the root object and the ids object of the parent. -/
def QmlComponentChain.withAncestors : QmlComponentChain → List Nat
  | .mk parents document => QmlComponentChain.ancestry parents ++ Document.rootAndIds document
/-- The instantiating-component ancestry of the specification for a list of parents. -/
def QmlComponentChain.ancestry : List QmlComponentChain → List Nat
  | [] => []
  | parent :: rest => parent.withAncestors ++ QmlComponentChain.ancestry rest
end

/-- The flattened scopes as the specification lists them. -/
def ScopeChain.flattened (sc : ScopeChain) : List Nat :=
  let document := sc.qmlComponentScope.bind QmlComponentChain.document
  let root := document.bind Document.rootObjectValue
  let ids := document.bind Document.idEnvironment
  [sc.globalScope]
    ++ (if sc.jsScopes.length = 1 ∧ sc.qmlScopeObjects = [] then []
        else match sc.qmlComponentScope with
          | some scope => QmlComponentChain.ancestry scope.instantiatingComponents
          | none => [])
    ++ (root.toList.filter (fun r => !sc.qmlScopeObjects.contains r))
    ++ sc.qmlScopeObjects
    ++ ids.toList
    ++ sc.qmlTypes.toList
    ++ sc.jsScopes

/-- The stores `setProperty(o, n, v)` of a list, made on a context in the order of the
list. -/
def Context.setProperties (ctx : Context) (stores : List (Nat × String × Value)) : Context :=
  stores.foldl (fun c s => c.setProperty s.1 s.2.1 s.2.2) ctx

/-- The value that the last store for `(object, name)` in a list of stores stored; none when
the list has no store for the pair. -/
def Context.lastStored (stores : List (Nat × String × Value)) (object : Nat)
    (name : String) : Option Value :=
  (stores.reverse.find? (fun s => s.1 = object ∧ s.2.1 = name)).map (fun s => s.2.2)

/-- The criterion of the specification for `hasChildInPackage`: the package name of the
object is not empty, or a materialized type whose package name is not empty has the
meta-object of the object in its superclass chain. -/
def QmlObjectValue.HasChildInPackage (metas : List FakeMetaObject) (engine : Engine)
    (v : QmlObjectValue) : Prop :=
  v.packageName ≠ "" ∨
    ∃ it ∈ engine._cppQmlTypes.types,
      (engine._cppQmlTypes.obj it.2).packageName ≠ "" ∧
        ∃ k, superClassAt metas k (engine._cppQmlTypes.obj it.2)._metaObject
          = some v._metaObject

/-- Whether the three constructors that `convertToObject` uses are in place: the pointers
`_numberCtor`, `_booleanCtor` and `_stringCtor` of the engine are set and point to function
values of the classes `NumberCtor`, `BooleanCtor` and `StringCtor`. -/
def Engine.HasWrapperCtors (e : Engine) (h : Heap) : Prop :=
  (e._numberCtor.bind fun c => (h.obj c).asFunctionValue.map FunctionState.functionClass)
      = some .numberCtor ∧
  (e._booleanCtor.bind fun c => (h.obj c).asFunctionValue.map FunctionState.functionClass)
      = some .booleanCtor ∧
  (e._stringCtor.bind fun c => (h.obj c).asFunctionValue.map FunctionState.functionClass)
      = some .stringCtor

instance (e : Engine) (h : Heap) : Decidable (Engine.HasWrapperCtors e h) := by
  unfold Engine.HasWrapperCtors
  infer_instance

/-- The kinds of primitive values: every kind of value but object values and references. -/
def Value.isPrimitive : Value → Bool
  | .objectValue _ => false
  | .reference _ => false
  | _ => true

/-! ## The built-in objects of the engine -/

/-- Part 1 of `Engine::initializePrototypes`: the 61 statements from
`_objectPrototype = newObject(0);` to
`addFunction(_objectPrototype, "propertyIsEnumerable", booleanValue(), 1);`. -/
def Engine.initializePrototypes1 (fuel : Nat) (e : Engine) (h : Heap) :
    Option (Engine × Heap) := do
  let (_objectPrototype, h) := Engine.newObjectWith h none
  let e : Engine := { e with _objectPrototype := some _objectPrototype }
  let (_functionPrototype, h) := Engine.newObjectWith h (some _objectPrototype)
  let e : Engine := { e with _functionPrototype := some _functionPrototype }
  let (_numberPrototype, h) := Engine.newObjectWith h (some _objectPrototype)
  let e : Engine := { e with _numberPrototype := some _numberPrototype }
  let (_booleanPrototype, h) := Engine.newObjectWith h (some _objectPrototype)
  let e : Engine := { e with _booleanPrototype := some _booleanPrototype }
  let (_stringPrototype, h) := Engine.newObjectWith h (some _objectPrototype)
  let e : Engine := { e with _stringPrototype := some _stringPrototype }
  let (_arrayPrototype, h) := Engine.newObjectWith h (some _objectPrototype)
  let e : Engine := { e with _arrayPrototype := some _arrayPrototype }
  let (_datePrototype, h) := Engine.newObjectWith h (some _objectPrototype)
  let e : Engine := { e with _datePrototype := some _datePrototype }
  let (_regexpPrototype, h) := Engine.newObjectWith h (some _objectPrototype)
  let e : Engine := { e with _regexpPrototype := some _regexpPrototype }
  let (_globalObject, h) := e.newObject h
  let e : Engine := { e with _globalObject := some _globalObject }
  let h := ObjectValue.setClassName h _globalObject "Global"
  let (_objectCtor, h) := Function.new h .objectCtor
  let e : Engine := { e with _objectCtor := some _objectCtor }
  let h := ObjectValue.setPrototype h _objectCtor (some (.objectValue _functionPrototype))
  let h := ObjectValue.setProperty h _objectCtor "prototype" (.objectValue _objectPrototype)
  let (result, h) := e.newObject h
  let h := Function.setReturnValue h _objectCtor (some (.objectValue result))
  let (_functionCtor, h) := Function.new h .functionCtor
  let e : Engine := { e with _functionCtor := some _functionCtor }
  let h := ObjectValue.setPrototype h _functionCtor (some (.objectValue _functionPrototype))
  let h := ObjectValue.setProperty h _functionCtor "prototype" (.objectValue _functionPrototype)
  let (result, h) := e.newFunction h
  let h := Function.setReturnValue h _functionCtor (some (.objectValue result))
  let (_arrayCtor, h) := Function.new h .arrayCtor
  let e : Engine := { e with _arrayCtor := some _arrayCtor }
  let h := ObjectValue.setPrototype h _arrayCtor (some (.objectValue _functionPrototype))
  let h := ObjectValue.setProperty h _arrayCtor "prototype" (.objectValue _arrayPrototype)
  let (result, h) ← e.newArray fuel h
  let h := Function.setReturnValue h _arrayCtor result
  let (_stringCtor, h) := Function.new h .stringCtor
  let e : Engine := { e with _stringCtor := some _stringCtor }
  let h := ObjectValue.setPrototype h _stringCtor (some (.objectValue _functionPrototype))
  let h := ObjectValue.setProperty h _stringCtor "prototype" (.objectValue _stringPrototype)
  let h := Function.setReturnValue h _stringCtor (some .stringValue)
  let (_booleanCtor, h) := Function.new h .booleanCtor
  let e : Engine := { e with _booleanCtor := some _booleanCtor }
  let h := ObjectValue.setPrototype h _booleanCtor (some (.objectValue _functionPrototype))
  let h := ObjectValue.setProperty h _booleanCtor "prototype" (.objectValue _booleanPrototype)
  let h := Function.setReturnValue h _booleanCtor (some .booleanValue)
  let (_numberCtor, h) := Function.new h .numberCtor
  let e : Engine := { e with _numberCtor := some _numberCtor }
  let h := ObjectValue.setPrototype h _numberCtor (some (.objectValue _functionPrototype))
  let h := ObjectValue.setProperty h _numberCtor "prototype" (.objectValue _numberPrototype)
  let h := Function.setReturnValue h _numberCtor (some .numberValue)
  let (_dateCtor, h) := Function.new h .dateCtor
  let e : Engine := { e with _dateCtor := some _dateCtor }
  let h := ObjectValue.setPrototype h _dateCtor (some (.objectValue _functionPrototype))
  let h := ObjectValue.setProperty h _dateCtor "prototype" (.objectValue _datePrototype)
  let h := Function.setReturnValue h _dateCtor (some (.objectValue _datePrototype))
  let (_regexpCtor, h) := Function.new h .regExpCtor
  let e : Engine := { e with _regexpCtor := some _regexpCtor }
  let h := ObjectValue.setPrototype h _regexpCtor (some (.objectValue _functionPrototype))
  let h := ObjectValue.setProperty h _regexpCtor "prototype" (.objectValue _regexpPrototype)
  let h := Function.setReturnValue h _regexpCtor (some (.objectValue _regexpPrototype))
  let h := e.addFunction h _objectCtor "getPrototypeOf" 1
  let h := e.addFunction h _objectCtor "getOwnPropertyDescriptor" 2
  let (result, h) ← e.newArray fuel h
  let h := e.addFunctionReturning h _objectCtor "getOwnPropertyNames" result 1
  let h := e.addFunction h _objectCtor "create" 1
  let h := e.addFunction h _objectCtor "defineProperty" 3
  let h := e.addFunction h _objectCtor "defineProperties" 2
  let h := e.addFunction h _objectCtor "seal" 1
  let h := e.addFunction h _objectCtor "freeze" 1
  let h := e.addFunction h _objectCtor "preventExtensions" 1
  let h := e.addFunctionReturning h _objectCtor "isSealed" (some .booleanValue) 1
  let h := e.addFunctionReturning h _objectCtor "isFrozen" (some .booleanValue) 1
  let h := e.addFunctionReturning h _objectCtor "isExtensible" (some .booleanValue) 1
  let (result, h) ← e.newArray fuel h
  let h := e.addFunctionReturning h _objectCtor "keys" result 1
  let h := e.addFunctionReturning h _objectPrototype "toString" (some .stringValue) 0
  let h := e.addFunctionReturning h _objectPrototype "toLocaleString" (some .stringValue) 0
  let h := e.addFunction h _objectPrototype "valueOf" 0
  let h := e.addFunctionReturning h _objectPrototype "hasOwnProperty" (some .booleanValue) 1
  let h := e.addFunctionReturning h _objectPrototype "isPrototypeOf" (some .booleanValue) 1
  let h := e.addFunctionReturning h _objectPrototype "propertyIsEnumerable" (some .booleanValue) 1
  pure (e, h)

/-- Part 2 of `Engine::initializePrototypes`: the 28 statements from
`_functionPrototype->setProperty("constructor", _functionCtor);` to
`addFunction(_arrayPrototype, "reduceRight", 1);`. -/
def Engine.initializePrototypes2 (e : Engine) (h : Heap) :
    Option (Engine × Heap) := do
  let _functionPrototype ← e._functionPrototype
  let _functionCtor ← e._functionCtor
  let h := ObjectValue.setProperty h _functionPrototype "constructor" (.objectValue _functionCtor)
  let h := e.addFunctionReturning h _functionPrototype "toString" (some .stringValue) 0
  let h := e.addFunction h _functionPrototype "apply" 2
  let h := e.addFunction h _functionPrototype "call" 1
  let h := e.addFunction h _functionPrototype "bind" 1
  let _arrayCtor ← e._arrayCtor
  let h := e.addFunctionReturning h _arrayCtor "isArray" (some .booleanValue) 1
  let _arrayPrototype ← e._arrayPrototype
  let h := ObjectValue.setProperty h _arrayPrototype "constructor" (.objectValue _arrayCtor)
  let h := e.addFunctionReturning h _arrayPrototype "toString" (some .stringValue) 0
  let h := e.addFunctionReturning h _arrayPrototype "toLocalString" (some .stringValue) 0
  let h := e.addFunction h _arrayPrototype "concat" 0
  let h := e.addFunction h _arrayPrototype "join" 1
  let h := e.addFunction h _arrayPrototype "pop" 0
  let h := e.addFunction h _arrayPrototype "push" 0
  let h := e.addFunction h _arrayPrototype "reverse" 0
  let h := e.addFunction h _arrayPrototype "shift" 0
  let h := e.addFunction h _arrayPrototype "slice" 2
  let h := e.addFunction h _arrayPrototype "sort" 1
  let h := e.addFunction h _arrayPrototype "splice" 2
  let h := e.addFunction h _arrayPrototype "unshift" 0
  let h := e.addFunctionReturning h _arrayPrototype "indexOf" (some .numberValue) 1
  let h := e.addFunctionReturning h _arrayPrototype "lastIndexOf" (some .numberValue) 1
  let h := e.addFunction h _arrayPrototype "every" 1
  let h := e.addFunction h _arrayPrototype "some" 1
  let h := e.addFunction h _arrayPrototype "forEach" 1
  let h := e.addFunction h _arrayPrototype "map" 1
  let h := e.addFunction h _arrayPrototype "filter" 1
  let h := e.addFunction h _arrayPrototype "reduce" 1
  let h := e.addFunction h _arrayPrototype "reduceRight" 1
  pure (e, h)

/-- Part 3 of `Engine::initializePrototypes`: the 21 statements from
`addFunction(_stringCtor, "fromCharCode", stringValue(), 0);` to
`addFunction(_stringPrototype, "trim", stringValue(), 0);`. -/
def Engine.initializePrototypes3 (fuel : Nat) (e : Engine) (h : Heap) :
    Option (Engine × Heap) := do
  let _stringCtor ← e._stringCtor
  let h := e.addFunctionReturning h _stringCtor "fromCharCode" (some .stringValue) 0
  let _stringPrototype ← e._stringPrototype
  let h := ObjectValue.setProperty h _stringPrototype "constructor" (.objectValue _stringCtor)
  let h := e.addFunctionReturning h _stringPrototype "toString" (some .stringValue) 0
  let h := e.addFunctionReturning h _stringPrototype "valueOf" (some .stringValue) 0
  let h := e.addFunctionReturning h _stringPrototype "charAt" (some .stringValue) 1
  let h := e.addFunctionReturning h _stringPrototype "charCodeAt" (some .stringValue) 1
  let h := e.addFunctionReturning h _stringPrototype "concat" (some .stringValue) 0
  let h := e.addFunctionReturning h _stringPrototype "indexOf" (some .numberValue) 2
  let h := e.addFunctionReturning h _stringPrototype "lastIndexOf" (some .numberValue) 2
  let h := e.addFunctionReturning h _stringPrototype "localeCompare" (some .booleanValue) 1
  let (result, h) ← e.newArray fuel h
  let h := e.addFunctionReturning h _stringPrototype "match" result 1
  let h := e.addFunctionReturning h _stringPrototype "replace" (some .stringValue) 2
  let h := e.addFunctionReturning h _stringPrototype "search" (some .numberValue) 1
  let h := e.addFunctionReturning h _stringPrototype "slice" (some .stringValue) 2
  let (result, h) ← e.newArray fuel h
  let h := e.addFunctionReturning h _stringPrototype "split" result 1
  let h := e.addFunctionReturning h _stringPrototype "substring" (some .stringValue) 2
  let h := e.addFunctionReturning h _stringPrototype "toLowerCase" (some .stringValue) 0
  let h := e.addFunctionReturning h _stringPrototype "toLocaleLowerCase" (some .stringValue) 0
  let h := e.addFunctionReturning h _stringPrototype "toUpperCase" (some .stringValue) 0
  let h := e.addFunctionReturning h _stringPrototype "toLocaleUpperCase" (some .stringValue) 0
  let h := e.addFunctionReturning h _stringPrototype "trim" (some .stringValue) 0
  pure (e, h)

/-- Part 4 of `Engine::initializePrototypes`: the 17 statements from
`addFunction(_booleanCtor, "fromCharCode", 0);` to
`addFunction(_numberPrototype, "toPrecision", numberValue(), 1);`. -/
def Engine.initializePrototypes4 (e : Engine) (h : Heap) :
    Option (Engine × Heap) := do
  let _booleanCtor ← e._booleanCtor
  let h := e.addFunction h _booleanCtor "fromCharCode" 0
  let _booleanPrototype ← e._booleanPrototype
  let h := ObjectValue.setProperty h _booleanPrototype "constructor" (.objectValue _booleanCtor)
  let h := e.addFunctionReturning h _booleanPrototype "toString" (some .stringValue) 0
  let h := e.addFunctionReturning h _booleanPrototype "valueOf" (some .booleanValue) 0
  let _numberCtor ← e._numberCtor
  let h := ObjectValue.setProperty h _numberCtor "MAX_VALUE" .numberValue
  let h := ObjectValue.setProperty h _numberCtor "MIN_VALUE" .numberValue
  let h := ObjectValue.setProperty h _numberCtor "NaN" .numberValue
  let h := ObjectValue.setProperty h _numberCtor "NEGATIVE_INFINITY" .numberValue
  let h := ObjectValue.setProperty h _numberCtor "POSITIVE_INFINITY" .numberValue
  let h := e.addFunction h _numberCtor "fromCharCode" 0
  let _numberPrototype ← e._numberPrototype
  let h := ObjectValue.setProperty h _numberPrototype "constructor" (.objectValue _numberCtor)
  let h := e.addFunctionReturning h _numberPrototype "toString" (some .stringValue) 0
  let h := e.addFunctionReturning h _numberPrototype "toLocaleString" (some .stringValue) 0
  let h := e.addFunctionReturning h _numberPrototype "valueOf" (some .numberValue) 0
  let h := e.addFunctionReturning h _numberPrototype "toFixed" (some .numberValue) 1
  let h := e.addFunctionReturning h _numberPrototype "toExponential" (some .numberValue) 1
  let h := e.addFunctionReturning h _numberPrototype "toPrecision" (some .numberValue) 1
  pure (e, h)

/-- Part 5 of `Engine::initializePrototypes`: the 27 statements from
`_mathObject = newObject();` to
`addFunction(_mathObject, "tan", numberValue(), 1);`. -/
def Engine.initializePrototypes5 (e : Engine) (h : Heap) :
    Option (Engine × Heap) := do
  let (_mathObject, h) := e.newObject h
  let e : Engine := { e with _mathObject := some _mathObject }
  let h := ObjectValue.setProperty h _mathObject "E" .numberValue
  let h := ObjectValue.setProperty h _mathObject "LN10" .numberValue
  let h := ObjectValue.setProperty h _mathObject "LN2" .numberValue
  let h := ObjectValue.setProperty h _mathObject "LOG2E" .numberValue
  let h := ObjectValue.setProperty h _mathObject "LOG10E" .numberValue
  let h := ObjectValue.setProperty h _mathObject "PI" .numberValue
  let h := ObjectValue.setProperty h _mathObject "SQRT1_2" .numberValue
  let h := ObjectValue.setProperty h _mathObject "SQRT2" .numberValue
  let h := e.addFunctionReturning h _mathObject "abs" (some .numberValue) 1
  let h := e.addFunctionReturning h _mathObject "acos" (some .numberValue) 1
  let h := e.addFunctionReturning h _mathObject "asin" (some .numberValue) 1
  let h := e.addFunctionReturning h _mathObject "atan" (some .numberValue) 1
  let h := e.addFunctionReturning h _mathObject "atan2" (some .numberValue) 2
  let h := e.addFunctionReturning h _mathObject "ceil" (some .numberValue) 1
  let h := e.addFunctionReturning h _mathObject "cos" (some .numberValue) 1
  let h := e.addFunctionReturning h _mathObject "exp" (some .numberValue) 1
  let h := e.addFunctionReturning h _mathObject "floor" (some .numberValue) 1
  let h := e.addFunctionReturning h _mathObject "log" (some .numberValue) 1
  let h := e.addFunctionReturning h _mathObject "max" (some .numberValue) 0
  let h := e.addFunctionReturning h _mathObject "min" (some .numberValue) 0
  let h := e.addFunctionReturning h _mathObject "pow" (some .numberValue) 2
  let h := e.addFunctionReturning h _mathObject "random" (some .numberValue) 1
  let h := e.addFunctionReturning h _mathObject "round" (some .numberValue) 1
  let h := e.addFunctionReturning h _mathObject "sin" (some .numberValue) 1
  let h := e.addFunctionReturning h _mathObject "sqrt" (some .numberValue) 1
  let h := e.addFunctionReturning h _mathObject "tan" (some .numberValue) 1
  pure (e, h)

/-- Part 6 of `Engine::initializePrototypes`: the 44 statements from
`addFunction(_dateCtor, "parse", numberValue(), 1);` to
`addFunction(_datePrototype, "toJSON", stringValue(), 1);`. -/
def Engine.initializePrototypes6 (e : Engine) (h : Heap) :
    Option (Engine × Heap) := do
  let _dateCtor ← e._dateCtor
  let h := e.addFunctionReturning h _dateCtor "parse" (some .numberValue) 1
  let h := e.addFunctionReturning h _dateCtor "now" (some .numberValue) 0
  let _datePrototype ← e._datePrototype
  let h := ObjectValue.setProperty h _datePrototype "constructor" (.objectValue _dateCtor)
  let h := e.addFunctionReturning h _datePrototype "toString" (some .stringValue) 0
  let h := e.addFunctionReturning h _datePrototype "toDateString" (some .stringValue) 0
  let h := e.addFunctionReturning h _datePrototype "toTimeString" (some .stringValue) 0
  let h := e.addFunctionReturning h _datePrototype "toLocaleString" (some .stringValue) 0
  let h := e.addFunctionReturning h _datePrototype "toLocaleDateString" (some .stringValue) 0
  let h := e.addFunctionReturning h _datePrototype "toLocaleTimeString" (some .stringValue) 0
  let h := e.addFunctionReturning h _datePrototype "valueOf" (some .numberValue) 0
  let h := e.addFunctionReturning h _datePrototype "getTime" (some .numberValue) 0
  let h := e.addFunctionReturning h _datePrototype "getFullYear" (some .numberValue) 0
  let h := e.addFunctionReturning h _datePrototype "getUTCFullYear" (some .numberValue) 0
  let h := e.addFunctionReturning h _datePrototype "getMonth" (some .numberValue) 0
  let h := e.addFunctionReturning h _datePrototype "getUTCMonth" (some .numberValue) 0
  let h := e.addFunctionReturning h _datePrototype "getDate" (some .numberValue) 0
  let h := e.addFunctionReturning h _datePrototype "getUTCDate" (some .numberValue) 0
  let h := e.addFunctionReturning h _datePrototype "getHours" (some .numberValue) 0
  let h := e.addFunctionReturning h _datePrototype "getUTCHours" (some .numberValue) 0
  let h := e.addFunctionReturning h _datePrototype "getMinutes" (some .numberValue) 0
  let h := e.addFunctionReturning h _datePrototype "getUTCMinutes" (some .numberValue) 0
  let h := e.addFunctionReturning h _datePrototype "getSeconds" (some .numberValue) 0
  let h := e.addFunctionReturning h _datePrototype "getUTCSeconds" (some .numberValue) 0
  let h := e.addFunctionReturning h _datePrototype "getMilliseconds" (some .numberValue) 0
  let h := e.addFunctionReturning h _datePrototype "getUTCMilliseconds" (some .numberValue) 0
  let h := e.addFunctionReturning h _datePrototype "getTimezoneOffset" (some .numberValue) 0
  let h := e.addFunction h _datePrototype "setTime" 1
  let h := e.addFunction h _datePrototype "setMilliseconds" 1
  let h := e.addFunction h _datePrototype "setUTCMilliseconds" 1
  let h := e.addFunction h _datePrototype "setSeconds" 1
  let h := e.addFunction h _datePrototype "setUTCSeconds" 1
  let h := e.addFunction h _datePrototype "setMinutes" 1
  let h := e.addFunction h _datePrototype "setUTCMinutes" 1
  let h := e.addFunction h _datePrototype "setHours" 1
  let h := e.addFunction h _datePrototype "setUTCHours" 1
  let h := e.addFunction h _datePrototype "setDate" 1
  let h := e.addFunction h _datePrototype "setUTCDate" 1
  let h := e.addFunction h _datePrototype "setMonth" 1
  let h := e.addFunction h _datePrototype "setUTCMonth" 1
  let h := e.addFunction h _datePrototype "setFullYear" 1
  let h := e.addFunction h _datePrototype "setUTCFullYear" 1
  let h := e.addFunctionReturning h _datePrototype "toUTCString" (some .stringValue) 0
  let h := e.addFunctionReturning h _datePrototype "toISOString" (some .stringValue) 0
  let h := e.addFunctionReturning h _datePrototype "toJSON" (some .stringValue) 1
  pure (e, h)

/-- Part 7 of `Engine::initializePrototypes`: the 13 statements from
`_regexpPrototype->setProperty("constructor", _regexpCtor);` to
`_globalObject->setProperty("RegExp", regexpCtor());`. -/
def Engine.initializePrototypes7 (fuel : Nat) (e : Engine) (h : Heap) :
    Option (Engine × Heap) := do
  let _regexpPrototype ← e._regexpPrototype
  let _regexpCtor ← e._regexpCtor
  let h := ObjectValue.setProperty h _regexpPrototype "constructor" (.objectValue _regexpCtor)
  let (result, h) ← e.newArray fuel h
  let h := e.addFunctionReturning h _regexpPrototype "exec" result 1
  let h := e.addFunctionReturning h _regexpPrototype "test" (some .booleanValue) 1
  let h := e.addFunctionReturning h _regexpPrototype "toString" (some .stringValue) 0
  let _globalObject ← e._globalObject
  let _mathObject ← e._mathObject
  let h := ObjectValue.setProperty h _globalObject "Math" (.objectValue _mathObject)
  let _objectCtor ← e._objectCtor
  let h := ObjectValue.setProperty h _globalObject "Object" (.objectValue _objectCtor)
  let _functionCtor ← e._functionCtor
  let h := ObjectValue.setProperty h _globalObject "Function" (.objectValue _functionCtor)
  let _arrayCtor ← e._arrayCtor
  let h := ObjectValue.setProperty h _globalObject "Array" (.objectValue _arrayCtor)
  let _stringCtor ← e._stringCtor
  let h := ObjectValue.setProperty h _globalObject "String" (.objectValue _stringCtor)
  let _booleanCtor ← e._booleanCtor
  let h := ObjectValue.setProperty h _globalObject "Boolean" (.objectValue _booleanCtor)
  let _numberCtor ← e._numberCtor
  let h := ObjectValue.setProperty h _globalObject "Number" (.objectValue _numberCtor)
  let _dateCtor ← e._dateCtor
  let h := ObjectValue.setProperty h _globalObject "Date" (.objectValue _dateCtor)
  let h := ObjectValue.setProperty h _globalObject "RegExp" (.objectValue _regexpCtor)
  pure (e, h)

/-- Part 8 of `Engine::initializePrototypes`: the 18 statements from
`_qtObject = newObject(0);` to
`addFunction(_qtObject, "resolvedUrl", 1);`. -/
def Engine.initializePrototypes8 (e : Engine) (h : Heap) :
    Option (Engine × Heap) := do
  let (_qtObject, h) := Engine.newObjectWith h none
  let e : Engine := { e with _qtObject := some _qtObject }
  let h := e.addFunction h _qtObject "rgba" 4
  let h := e.addFunction h _qtObject "hsla" 4
  let h := e.addFunction h _qtObject "rect" 4
  let h := e.addFunction h _qtObject "point" 2
  let h := e.addFunction h _qtObject "size" 2
  let h := e.addFunction h _qtObject "vector3d" 3
  let h := e.addFunction h _qtObject "lighter" 1
  let h := e.addFunction h _qtObject "darker" 1
  let h := e.addFunction h _qtObject "tint" 2
  let h := e.addFunction h _qtObject "closestAngle" 2
  let h := e.addFunction h _qtObject "playSound" 1
  let h := e.addFunction h _qtObject "openUrlExternally" 1
  let h := e.addFunction h _qtObject "md5" 1
  let h := e.addFunction h _qtObject "btoa" 1
  let h := e.addFunction h _qtObject "atob" 1
  let h := e.addFunction h _qtObject "quit" 0
  let h := e.addFunction h _qtObject "resolvedUrl" 1
  pure (e, h)

/-- Part 9 of `Engine::initializePrototypes`: the 38 statements from
`ObjectValue *consoleObject = newObject(0);` to
`_qmlVector3DObject->setProperty("z", numberValue());`. -/
def Engine.initializePrototypes9 (e : Engine) (h : Heap) :
    Option (Engine × Heap) := do
  let (consoleObject, h) := Engine.newObjectWith h none
  let h := e.addFunction h consoleObject "log" 1
  let h := e.addFunction h consoleObject "debug" 1
  let _globalObject ← e._globalObject
  let h := ObjectValue.setProperty h _globalObject "console" (.objectValue consoleObject)
  let _qtObject ← e._qtObject
  let h := ObjectValue.setProperty h _globalObject "Qt" (.objectValue _qtObject)
  let (_qmlFontObject, h) := Engine.newObjectWith h none
  let e : Engine := { e with _qmlFontObject := some _qmlFontObject }
  let h := ObjectValue.setClassName h _qmlFontObject "Font"
  let h := ObjectValue.setProperty h _qmlFontObject "family" .stringValue
  let h := ObjectValue.setProperty h _qmlFontObject "weight" .undefinedValue
  let h := ObjectValue.setProperty h _qmlFontObject "capitalization" .undefinedValue
  let h := ObjectValue.setProperty h _qmlFontObject "bold" .booleanValue
  let h := ObjectValue.setProperty h _qmlFontObject "italic" .booleanValue
  let h := ObjectValue.setProperty h _qmlFontObject "underline" .booleanValue
  let h := ObjectValue.setProperty h _qmlFontObject "overline" .booleanValue
  let h := ObjectValue.setProperty h _qmlFontObject "strikeout" .booleanValue
  let h := ObjectValue.setProperty h _qmlFontObject "pointSize" .numberValue
  let h := ObjectValue.setProperty h _qmlFontObject "pixelSize" .numberValue
  let h := ObjectValue.setProperty h _qmlFontObject "letterSpacing" .numberValue
  let h := ObjectValue.setProperty h _qmlFontObject "wordSpacing" .numberValue
  let (_qmlPointObject, h) := Engine.newObjectWith h none
  let e : Engine := { e with _qmlPointObject := some _qmlPointObject }
  let h := ObjectValue.setClassName h _qmlPointObject "Point"
  let h := ObjectValue.setProperty h _qmlPointObject "x" .numberValue
  let h := ObjectValue.setProperty h _qmlPointObject "y" .numberValue
  let (_qmlSizeObject, h) := Engine.newObjectWith h none
  let e : Engine := { e with _qmlSizeObject := some _qmlSizeObject }
  let h := ObjectValue.setClassName h _qmlSizeObject "Size"
  let h := ObjectValue.setProperty h _qmlSizeObject "width" .numberValue
  let h := ObjectValue.setProperty h _qmlSizeObject "height" .numberValue
  let (_qmlRectObject, h) := Engine.newObjectWith h none
  let e : Engine := { e with _qmlRectObject := some _qmlRectObject }
  let h := ObjectValue.setClassName h _qmlRectObject "Rect"
  let h := ObjectValue.setProperty h _qmlRectObject "x" .numberValue
  let h := ObjectValue.setProperty h _qmlRectObject "y" .numberValue
  let h := ObjectValue.setProperty h _qmlRectObject "width" .numberValue
  let h := ObjectValue.setProperty h _qmlRectObject "height" .numberValue
  let (_qmlVector3DObject, h) := Engine.newObjectWith h none
  let e : Engine := { e with _qmlVector3DObject := some _qmlVector3DObject }
  let h := ObjectValue.setClassName h _qmlVector3DObject "Vector3D"
  let h := ObjectValue.setProperty h _qmlVector3DObject "x" .numberValue
  let h := ObjectValue.setProperty h _qmlVector3DObject "y" .numberValue
  let h := ObjectValue.setProperty h _qmlVector3DObject "z" .numberValue
  pure (e, h)

/-- `Engine::initializePrototypes`, its statements in the order of the source, in nine parts.
In the parts, a member pointer that a statement dereferences is read from the engine first
(with `←`, which fails on a null pointer), and `result` is the value of an argument that
allocates (`newObject()`, `newFunction()`, `newArray()`), evaluated before the call. -/
def Engine.initializePrototypes (fuel : Nat) (e : Engine) (h : Heap) :
    Option (Engine × Heap) := do
  let (e, h) ← Engine.initializePrototypes1 fuel e h
  let (e, h) ← Engine.initializePrototypes2 e h
  let (e, h) ← Engine.initializePrototypes3 fuel e h
  let (e, h) ← Engine.initializePrototypes4 e h
  let (e, h) ← Engine.initializePrototypes5 e h
  let (e, h) ← Engine.initializePrototypes6 e h
  let (e, h) ← Engine.initializePrototypes7 fuel e h
  let (e, h) ← Engine.initializePrototypes8 e h
  let (e, h) ← Engine.initializePrototypes9 e h
  pure (e, h)

/-! ## Scenarios of the engine and of the caches -/

/-- The engine and the heap as `initializePrototypes` leaves them when it starts where the
constructor `Engine::Engine` calls it: every pointer of the engine is null and the heap is
empty. -/
def Engine.initial : Engine × Heap := (Engine.initializePrototypes 0 {} {}).getD ({}, {})

/-- The object that `Engine::newObject()` creates in the initial engine, with the heap
afterwards. -/
def Engine.initialNewObject : Nat × Heap := Engine.initial.1.newObject Engine.initial.2

/-- The module document of the export scenario without module: the type `T` is exported at
version 1.0 by an `export` element that has no `module` attribute. -/
def modulelessScenarioDocument : XmlNode :=
  .element "module" []
    [.element "type" [("name", "T")]
      [.element "exports" [] [.element "export" [("type", "T"), ("version", "1.0")] []]]]

/-- The meta-objects of the export scenario without module, as the reader leaves them: `T`
has the export of the document, whose package is empty, and the export without package and
version that the reader adds. -/
def modulelessScenarioMetas : List FakeMetaObject :=
  (QmlXmlReader.call decimalToInt modulelessScenarioDocument [] []).2.metas

/-- The engine of the export scenario without module, its registry as `load` leaves it. -/
def modulelessScenarioEngine : Engine :=
  { _cppQmlTypes := (CppQmlTypes.load modulelessScenarioMetas 1 {} [0]).getD {} }

/-- The heap of the type path scenario: the type environment of the document (address 0)
imports the object 1 under the alias `Qt`; the object 1 has the member `Item`, the object 2,
whose member `width` is the number value. -/
def typeScenarioHeap : Heap :=
  { objects :=
      [{ kind := .typeEnvironment [(1, { type := .LibraryImport, name := "Qt", id := "Qt" })] },
       { _members := [("Item", .objectValue 2)] },
       { className := "Item", _members := [("width", .numberValue)] }] }

/-- The document of the type path scenario. -/
def typeScenarioDocument : Document := { fileName := "main.qml" }

/-- The context of the type path scenario, which holds the type environment of the
document. -/
def typeScenarioContext : Context := { typeEnvironments := [("main.qml", 0)] }

/-! ## The members of a `QmlObjectValue` -/

instance : Inhabited FakeMetaMethod := ⟨{ m_name := "" }⟩

/-- `FakeMetaMethod::Private`. -/
def FakeMetaMethod.Private : Nat := 0

/-- `FakeMetaMethod::Public`. -/
def FakeMetaMethod.Public : Nat := 2

/-- `FakeMetaMethod::methodName`. -/
def FakeMetaMethod.methodName (m : FakeMetaMethod) : String := m.m_name

/-- `FakeMetaMethod::methodType`. -/
def FakeMetaMethod.methodType (m : FakeMetaMethod) : Nat := m.m_methodTy

/-- `FakeMetaMethod::access`. -/
def FakeMetaMethod.access (m : FakeMetaMethod) : Nat := m.m_methodAccess

/-- `FakeMetaProperty::name`. -/
def FakeMetaProperty.name (p : FakeMetaProperty) : String := p.m_propertyName

/-- `FakeMetaProperty::typeName`. -/
def FakeMetaProperty.typeName (p : FakeMetaProperty) : String := p.m_type

/-- `FakeMetaObject::enumeratorCount`. -/
def FakeMetaObject.enumeratorCount (m : FakeMetaObject) : Nat := m.m_enums.length

/-- `FakeMetaObject::enumeratorOffset`. -/
def FakeMetaObject.enumeratorOffset (_m : FakeMetaObject) : Nat := 0

/-- `FakeMetaObject::propertyCount`. -/
def FakeMetaObject.propertyCount (m : FakeMetaObject) : Nat := m.m_props.length

/-- `FakeMetaObject::methodCount`. -/
def FakeMetaObject.methodCount (m : FakeMetaObject) : Nat := m.m_methods.length

/-- `FakeMetaObject::method`. -/
def FakeMetaObject.method (m : FakeMetaObject) (index : Nat) : FakeMetaMethod :=
  m.m_methods.getD index default

/-- `QHash<int, const Value *>::value(index)` on `_metaSignature`: null when the index has no
entry. -/
def QmlObjectValue.signatureValue : List (Nat × Nat) → Nat → Option Nat
  | [], _ => none
  | (key, value) :: rest, index =>
    if key = index then some value else QmlObjectValue.signatureValue rest index

/-- `QHash<int, const Value *>::insert(index, value)` on `_metaSignature`. -/
def QmlObjectValue.signatureInsert : List (Nat × Nat) → Nat → Nat → List (Nat × Nat)
  | [], index, value => [(index, value)]
  | (key, old) :: rest, index, value =>
    if key = index then (key, value) :: rest
    else (key, old) :: QmlObjectValue.signatureInsert rest index value

/-- `new MetaFunction(method, engine())`: a `FunctionValue` with an empty class name and no
prototype. The method that a `MetaFunction` keeps is read by none of the functions embedded
here and is left out. -/
def MetaFunction.new (h : Heap) : Nat × Heap :=
  h.new { asFunctionValue := some { functionClass := .metaFunction } }

/-- `QmlObjectValue::findOrCreateSignature`: the value returned, `*methodName`, and the object
and the heap afterwards. -/
def QmlObjectValue.findOrCreateSignature (h : Heap) (v : QmlObjectValue) (index : Nat)
    (method : FakeMetaMethod) : Nat × String × QmlObjectValue × Heap :=
  let methodName := method.methodName
  match QmlObjectValue.signatureValue v._metaSignature index with
  | some value => (value, methodName, v, h)
  | none =>
    let (value, h) := MetaFunction.new h
    (value, methodName,
      { v with _metaSignature := QmlObjectValue.signatureInsert v._metaSignature index value },
      h)

/-- The values that a `QmlObjectValue` hands to a member processor: an engine-owned value
(the number value for an enum key, the `MetaFunction` of a method, which is an object value
of the heap, a value of the property map) or the value of a meta-property. -/
inductive QmlMember where
  | value (v : Value)
  | propertyValue (p : PropertyValue)
  deriving DecidableEq, Repr

/-- The calls that `QmlObjectValue::processMembers` makes for the meta enums:
`processEnumerator(e.key(i), numberValue)` for every key of every enum. -/
def QmlObjectValue.processEnums (m : FakeMetaObject) : List (MemberKind × String × QmlMember) :=
  (List.range' m.enumeratorOffset (m.enumeratorCount - m.enumeratorOffset)).flatMap
    (fun index =>
      let e := m.enumerator index
      (List.range e.keyCount).map (fun i => (.enumerator, e.key i, .value .numberValue)))

/-- The body of the loop of `QmlObjectValue::processMembers` over the meta properties: the
call `processProperty(prop.name(), propertyValue(prop))` is added to the calls made so far. -/
def QmlObjectValue.processProperty (metas : List FakeMetaObject) (v : QmlObjectValue)
    (s : List (MemberKind × String × QmlMember) × Engine) (index : Nat) :
    List (MemberKind × String × QmlMember) × Engine :=
  let prop := (metaAt metas v._metaObject).property index
  let value := QmlObjectValue.propertyValue metas s.2 v prop
  (s.1 ++ [(.property, prop.name, .propertyValue value.1)], value.2)

/-- The name of the generated slot of a signal: `on`, `methodName.at(0).toUpper()` and
`methodName.midRef(1)`; none for the empty name, which has no character at 0. `toUpper` is
`QChar::toUpper`. -/
def QmlObjectValue.slotName (toUpper : Char → Char) (methodName : String) : Option String :=
  match methodName.data with
  | [] => none
  | c :: rest => some ("on" ++ String.mk (toUpper c :: rest))

/-- The body of the loop of `QmlObjectValue::processMembers` over the meta methods, at the
method `method` of index `index`; the state is the object, the heap and the calls made so
far. -/
def QmlObjectValue.processMethod (toUpper : Char → Char)
    (s : QmlObjectValue × Heap × List (MemberKind × String × QmlMember)) (index : Nat)
    (method : FakeMetaMethod) :
    Option (QmlObjectValue × Heap × List (MemberKind × String × QmlMember)) :=
  let r := QmlObjectValue.findOrCreateSignature s.2.1 s.1 index method
  let signature : QmlMember := .value (.objectValue r.1)
  let methodName := r.2.1
  if method.methodType = FakeMetaMethod.Slot ∧ method.access = FakeMetaMethod.Public then
    some (r.2.2.1, r.2.2.2, s.2.2 ++ [(.slot, methodName, signature)])
  else if method.methodType = FakeMetaMethod.Signal ∧ method.access ≠ FakeMetaMethod.Private
  then
    match QmlObjectValue.slotName toUpper methodName with
    | none => none
    | some slotName =>
      some (r.2.2.1, r.2.2.2,
        s.2.2 ++ [(.signal, methodName, signature), (.generatedSlot, slotName, signature)])
  else some (r.2.2.1, r.2.2.2, s.2.2)

/-- The loop of `QmlObjectValue::processMembers` over the meta methods, from the index
`index` on; `methods` are the methods `method(index)`, `method(index + 1)`, ... up to
`methodCount()`. -/
def QmlObjectValue.processMethods (toUpper : Char → Char) :
    List FakeMetaMethod → Nat → QmlObjectValue × Heap × List (MemberKind × String × QmlMember) →
      Option (QmlObjectValue × Heap × List (MemberKind × String × QmlMember))
  | [], _, s => some s
  | method :: rest, index, s =>
    match QmlObjectValue.processMethod toUpper s index method with
    | none => none
    | some s1 => QmlObjectValue.processMethods toUpper rest (index + 1) s1

/-- `QmlObjectValue::processMembers` up to the call of `ObjectValue::processMembers`: the
calls made to the processor, whose answers are not looked at, and the engine, the object and
the heap afterwards; none when the first character of an empty method name is taken. -/
def QmlObjectValue.processMembers (toUpper : Char → Char) (metas : List FakeMetaObject)
    (engine : Engine) (h : Heap) (v : QmlObjectValue) :
    Option (List (MemberKind × String × QmlMember) × Engine × QmlObjectValue × Heap) :=
  let m := metaAt metas v._metaObject
  -- process the meta enums
  let reported := QmlObjectValue.processEnums m
  -- process the meta properties
  let p := (List.range m.propertyCount).foldl (QmlObjectValue.processProperty metas v)
    (reported, engine)
  -- process the meta methods
  match QmlObjectValue.processMethods toUpper m.m_methods 0 (v, h, p.1) with
  | none => none
  | some (v1, h1, reported1) => some (reported1, p.2, v1, h1)

/-- `LookupMember::process` at a value that a `QmlObjectValue` hands in: as
`LookupMember.process`. -/
def LookupMember.processMember (_name : String) (_value : Option QmlMember) (name : String)
    (value : QmlMember) : Option QmlMember × Bool :=
  if _value.isSome then (_value, false)
  else if name = _name then (some value, false)
  else (_value, true)

/-- `ObjectValue::processMembers` of a `QmlObjectValue` with a `LookupMember` processor: the
property map is enumerated until the processor answers false. -/
def QmlObjectValue.processOwnMembers (_name : String) :
    List (String × Value) → Option QmlMember → Option QmlMember
  | [], _value => _value
  | (key, value) :: rest, _value =>
    let r := LookupMember.processMember _name _value key (.value value)
    if r.2 then QmlObjectValue.processOwnMembers _name rest r.1 else r.1

/-- The state `_value` of a `LookupMember` for `name` after the calls `reported` and after
`ObjectValue::processMembers` on the property map `members`. -/
def QmlObjectValue.slowLookup (name : String)
    (reported : List (MemberKind × String × QmlMember)) (members : List (String × Value)) :
    Option QmlMember :=
  QmlObjectValue.processOwnMembers name members
    (reported.foldl (fun _value r => (LookupMember.processMember name _value r.2.1 r.2.2).1)
      none)

/-- Write through a pointer to a `QmlObjectValue`. -/
def CppQmlTypes.store (t : CppQmlTypes) (a : Nat) (v : QmlObjectValue) : CppQmlTypes :=
  { t with objectValues := t.objectValues.set a v }

/-- `ObjectValue::lookupMember(name, context, examinePrototypes)` on the `QmlObjectValue` at
`address`, which inherits it and overrides `processMembers`: the member found (null when
`none`), and the engine and the heap afterwards. The prototype of a `QmlObjectValue` is an
object value, so the context is not used. One unit of fuel pays for one call; the outer
`none` is a lack of fuel or the first character of an empty method name. -/
def QmlObjectValue.lookupMember (toUpper : Char → Char) (metas : List FakeMetaObject) :
    Nat → Engine → Heap → Nat → String → Bool → Option (Option QmlMember × Engine × Heap)
  | 0, _, _, _, _, _ => none
  | fuel + 1, engine, h, address, name, examinePrototypes =>
    let v := engine._cppQmlTypes.obj address
    match findMember name v._members with
    | some m => some (some (.value m), engine, h)
    | none =>
      match QmlObjectValue.processMembers toUpper metas engine h v with
      | none => none
      | some (reported, engine1, v1, h1) =>
        let engine2 : Engine :=
          { engine1 with _cppQmlTypes := engine1._cppQmlTypes.store address v1 }
        match QmlObjectValue.slowLookup name reported v1._members with
        | some m => some (some m, engine2, h1)
        | none =>
          if examinePrototypes then
            match v1._prototype with
            | none => some (none, engine2, h1)
            | some prototypeObject =>
              QmlObjectValue.lookupMember toUpper metas fuel engine2 h1 prototypeObject name true
          else some (none, engine2, h1)

/-- `_registeredValues.size()`: the constructors of `ObjectValue` (the object values of the
heap and the `QmlObjectValue`s), of `Reference` and of `QmlEnumValue` register the new value
with the engine. -/
def Engine.registeredValues (engine : Engine) (h : Heap) : Nat :=
  h.objects.length + h.references.length + engine._cppQmlTypes.objectValues.length
    + engine.qmlEnumValues.length

/-- The loop of `QmlObjectValue::propertyType`: `iter` walks the superclass chain, and each
turn looks the property up in `_metaObject`, the meta-object of the value itself. One unit of
fuel pays for one test of the loop. -/
def QmlObjectValue.propertyTypeLoop (metas : List FakeMetaObject) (v : QmlObjectValue)
    (propertyName : String) : Nat → Option Nat → Option String
  | 0, _ => none
  | _ + 1, none => some ""
  | fuel + 1, some iter =>
    let propIdx := (metaAt metas v._metaObject).propertyIndex propertyName
    if propIdx ≠ -1 then some ((metaAt metas v._metaObject).property propIdx).typeName
    else QmlObjectValue.propertyTypeLoop metas v propertyName fuel (metaAt metas iter).superClass

/-- `QmlObjectValue::propertyType`. -/
def QmlObjectValue.propertyType (metas : List FakeMetaObject) (fuel : Nat) (v : QmlObjectValue)
    (propertyName : String) : Option String :=
  QmlObjectValue.propertyTypeLoop metas v propertyName fuel (some v._metaObject)

/-- Whether a member is reported through one of the callbacks for methods: `processSignal`,
`processSlot` or `processGeneratedSlot`. -/
def MemberKind.isMethod : MemberKind → Bool
  | .signal => true
  | .slot => true
  | .generatedSlot => true
  | _ => false

/-- Whether `QmlObjectValue::propertyValue` creates a `QmlEnumValue` for the property: its
type name is no registered type and is the name of an enum of the meta-object. -/
def QmlObjectValue.isEnumProperty (metas : List FakeMetaObject) (engine : Engine)
    (v : QmlObjectValue) (prop : FakeMetaProperty) : Bool :=
  (engine._cppQmlTypes.typeForImport prop.m_type).isNone
    && decide ((metaAt metas v._metaObject).enumeratorIndex prop.m_type ≠ -1)

/-- The number of properties of the meta-object of `v` for which `propertyValue` creates a
`QmlEnumValue`. -/
def QmlObjectValue.enumPropertyCount (metas : List FakeMetaObject) (engine : Engine)
    (v : QmlObjectValue) : Nat :=
  ((List.range (metaAt metas v._metaObject).propertyCount).filter
    (fun (index : Nat) => QmlObjectValue.isEnumProperty metas engine v
      ((metaAt metas v._metaObject).property index))).length

/-- The calls that the body of the loop of `QmlObjectValue::processMembers` over the meta
methods makes for the method `method`, whose signature is the object `signature`; none when
the first character of an empty name is taken. -/
def QmlObjectValue.methodReport (toUpper : Char → Char) (method : FakeMetaMethod)
    (signature : Nat) : Option (List (MemberKind × String × QmlMember)) :=
  if method.methodType = FakeMetaMethod.Slot ∧ method.access = FakeMetaMethod.Public then
    some [(.slot, method.methodName, .value (.objectValue signature))]
  else if method.methodType = FakeMetaMethod.Signal ∧ method.access ≠ FakeMetaMethod.Private
  then
    (QmlObjectValue.slotName toUpper method.methodName).map
      (fun slotName =>
        [(.signal, method.methodName, .value (.objectValue signature)),
         (.generatedSlot, slotName, .value (.objectValue signature))])
  else some []

/-- Every method of the meta-object has a non-empty name and is public. -/
def FakeMetaObject.MethodsNamed (m : FakeMetaObject) : Prop :=
  ∀ method ∈ m.m_methods, method.m_name ≠ "" ∧ method.m_methodAccess = FakeMetaMethod.Public

instance (m : FakeMetaObject) : Decidable m.MethodsNamed := by
  unfold FakeMetaObject.MethodsNamed
  infer_instance

/-- The name is free for a signal that comes after the methods `earlier`: no property of the
property map `members`, no enum key and no property of the meta-object `m` and no method of
`earlier` has the name, and the name is the generated slot name of no signal of `earlier`. -/
def QmlObjectValue.NameUnused (toUpper : Char → Char) (m : FakeMetaObject)
    (members : List (String × Value)) (earlier : List FakeMetaMethod) (name : String) : Prop :=
  findMember name members = none ∧
  (∀ e ∈ m.m_enums, name ∉ e.m_keys) ∧
  (∀ prop ∈ m.m_props, prop.m_propertyName ≠ name) ∧
  (∀ x ∈ earlier, x.m_name ≠ name ∧
    (x.methodType = FakeMetaMethod.Signal →
      QmlObjectValue.slotName toUpper x.m_name ≠ some name))

instance (toUpper : Char → Char) (m : FakeMetaObject) (members : List (String × Value))
    (earlier : List FakeMetaMethod) (name : String) :
    Decidable (QmlObjectValue.NameUnused toUpper m members earlier name) := by
  unfold QmlObjectValue.NameUnused
  infer_instance

/-! ## The profiler trace client (`QmlProfilerTraceClient`)

The enumerators of the header (`Message`, `EventType`, `QmlEventType`, `BindingType`) are
parameters of the model. A message is given decoded: the value that each `stream >>` of
`messageReceived` yields. `qint64` and `int` arithmetic wraps; an index outside an array and
a `pop` of an empty stack do not return (`none`). A `QStack` is a list whose last element is
the top, as in the `QVector` below it. -/

/-- The enumerators that `qmlprofilertraceclient.cpp` takes from its header. -/
structure QmlProfilerEnums where
  Event : Int
  RangeStart : Int
  RangeData : Int
  RangeLocation : Int
  Complete : Int
  MaximumMessage : Int
  AnimationFrame : Int
  EndTrace : Int
  StartTrace : Int
  MaximumEventType : Int
  Binding : Int
  MaximumQmlEventType : Int
  QmlBinding : Int
  deriving DecidableEq, Repr

/-- `QmlEventLocation(fileName, line, column)`. -/
structure QmlEventLocation where
  filename : String
  line : Int
  column : Int
  deriving DecidableEq, Repr

/-- The members of `QmlProfilerTraceClientPrivate`, without the back pointer `q`. The four
arrays are lists of `MaximumQmlEventType` elements; `inProgressRanges` is the bit pattern of
the `qint64`. -/
structure QmlProfilerTraceClientPrivate where
  inProgressRanges : Nat := 0
  rangeStartTimes : List (List Int) := []
  rangeDatas : List (List (List String)) := []
  rangeLocations : List (List QmlEventLocation) := []
  bindingTypes : List Int := []
  rangeCount : List Int := []
  maximumTime : Int := 0
  recording : Bool := false
  deriving DecidableEq, Repr

/-- The signals that the client emits, with their arguments; `incorrectlyNestedData` is the
warning of the range-end branch. The location of a `range` is `none` for the
default-constructed `QmlEventLocation()`. -/
inductive QmlProfilerSignal where
  | cleared
  | recordingChanged (v : Bool)
  | gap (time : Int)
  | traceFinished (time : Int)
  | frame (time frameRate animationCount : Int)
  | traceStarted (time : Int)
  | event (event time : Int)
  | complete
  | range (range bindingType startTime length : Int) (data : List String)
      (location : Option QmlEventLocation)
  | incorrectlyNestedData
  deriving DecidableEq, Repr

/-- A message as `messageReceived` decodes it: `time` and `messageType`, and what the branch
taken reads next: `event`, then `frameRate` and `animationCount`; or `range`, then
`bindingType`, `data`, or `fileName`, `line` and `column`. `bindingType` and `column` are
`none` when the stream is at its end before them. -/
structure QmlProfilerMessage where
  time : Int
  messageType : Int
  event : Int := 0
  frameRate : Int := 0
  animationCount : Int := 0
  range : Int := 0
  bindingType : Option Int := none
  data : String := ""
  fileName : String := ""
  line : Int := 0
  column : Option Int := none
  deriving DecidableEq, Repr

/-- The value of a `qint64` expression: two's complement on 64 bits. -/
def qint64 (x : Int) : Int := (x + 2 ^ 63) % 2 ^ 64 - 2 ^ 63

/-- The value of an `int` expression: two's complement on 32 bits. -/
def int32 (x : Int) : Int := (x + 2 ^ 31) % 2 ^ 32 - 2 ^ 31

/-- `GAP_TIME`. -/
def GAP_TIME : Int := 150

/-- The constructor of `QmlProfilerTraceClientPrivate`: empty stacks, counts zeroed by
`memset`. -/
def QmlProfilerTraceClientPrivate.new (k : QmlProfilerEnums) : QmlProfilerTraceClientPrivate :=
  { inProgressRanges := 0,
    rangeStartTimes := List.replicate k.MaximumQmlEventType.toNat [],
    rangeDatas := List.replicate k.MaximumQmlEventType.toNat [],
    rangeLocations := List.replicate k.MaximumQmlEventType.toNat [],
    bindingTypes := [],
    rangeCount := List.replicate k.MaximumQmlEventType.toNat 0,
    maximumTime := 0,
    recording := false }

/-- `QmlProfilerTraceClient::clearData`. -/
def QmlProfilerTraceClient.clearData (k : QmlProfilerEnums) (d : QmlProfilerTraceClientPrivate) :
    QmlProfilerTraceClientPrivate × List QmlProfilerSignal :=
  let d : QmlProfilerTraceClientPrivate :=
    { d with rangeCount := List.replicate k.MaximumQmlEventType.toNat 0 }
  let d : QmlProfilerTraceClientPrivate :=
    (List.range k.MaximumQmlEventType.toNat).foldl
      (fun d eventType =>
        { d with
          rangeDatas := d.rangeDatas.set eventType [],
          rangeLocations := d.rangeLocations.set eventType [],
          rangeStartTimes := d.rangeStartTimes.set eventType [] }) d
  ({ d with bindingTypes := [] }, [.cleared])

/-- `QmlProfilerTraceClient::setRecordingFromServer`. -/
def QmlProfilerTraceClient.setRecordingFromServer (d : QmlProfilerTraceClientPrivate)
    (v : Bool) : QmlProfilerTraceClientPrivate × List QmlProfilerSignal :=
  if v = d.recording then (d, [])
  else ({ d with recording := v }, [.recordingChanged v])

/-- The branch `messageType == Event` of `messageReceived`. -/
def QmlProfilerTraceClient.eventReceived (k : QmlProfilerEnums)
    (d : QmlProfilerTraceClientPrivate) (msg : QmlProfilerMessage) :
    QmlProfilerTraceClientPrivate × List QmlProfilerSignal :=
  let event := msg.event
  let time := msg.time
  -- stop with the first data
  let r :=
    if d.recording = true ∧ event ≠ k.StartTrace then
      QmlProfilerTraceClient.setRecordingFromServer d false
    else if d.recording = false ∧ event = k.StartTrace then
      QmlProfilerTraceClient.setRecordingFromServer d true
    else (d, [])
  let d := r.1
  if event = k.EndTrace then
    let d : QmlProfilerTraceClientPrivate := { d with maximumTime := time }
    ({ d with maximumTime := max time d.maximumTime }, r.2 ++ [.traceFinished time])
  else if event = k.AnimationFrame then
    ({ d with maximumTime := max time d.maximumTime },
      r.2 ++ [.frame time msg.frameRate msg.animationCount])
  else if event = k.StartTrace then
    ({ d with maximumTime := time }, r.2 ++ [.traceStarted time])
  else if event < k.MaximumEventType then
    ({ d with maximumTime := max time d.maximumTime }, r.2 ++ [.event event time])
  else (d, r.2)

/-- The element `range` of an array of `MaximumQmlEventType` elements: its position, none
when `range` is outside the array. -/
def QmlProfilerTraceClientPrivate.index (k : QmlProfilerEnums) (range : Int) : Option Nat :=
  if 0 ≤ range ∧ range < k.MaximumQmlEventType then some range.toNat else none

/-- The value of `static_cast<qint64>(1) << range`, as a bit pattern. -/
def QmlProfilerTraceClientPrivate.bit (range : Nat) : Nat := (1 <<< range) % 2 ^ 64

/-- The branch `messageType == RangeStart` of `messageReceived`, for an index inside the
arrays. -/
def QmlProfilerTraceClient.rangeStart (k : QmlProfilerEnums)
    (d : QmlProfilerTraceClientPrivate) (msg : QmlProfilerMessage) (range : Nat) :
    QmlProfilerTraceClientPrivate × List QmlProfilerSignal :=
  let d : QmlProfilerTraceClientPrivate :=
    { d with
      rangeStartTimes := d.rangeStartTimes.set range (d.rangeStartTimes.getD range [] ++
        [msg.time]) }
  let d : QmlProfilerTraceClientPrivate :=
    { d with
      inProgressRanges := d.inProgressRanges ||| QmlProfilerTraceClientPrivate.bit range }
  let d : QmlProfilerTraceClientPrivate :=
    { d with rangeCount := d.rangeCount.set range (int32 (d.rangeCount.getD range 0 + 1)) }
  -- read binding type
  let d : QmlProfilerTraceClientPrivate :=
    if (range : Int) = k.Binding then
      let bindingType := msg.bindingType.getD k.QmlBinding
      { d with bindingTypes := d.bindingTypes ++ [bindingType] }
    else d
  -- stop with the first data
  if d.recording then QmlProfilerTraceClient.setRecordingFromServer d false else (d, [])

/-- The loop `while (rangeDatas[range].count() < count) rangeDatas[range].push(QStringList())`
on one stack. -/
def QmlProfilerTraceClient.padDatas (datas : List (List String)) (count : Nat) :
    List (List String) :=
  datas ++ List.replicate (count - datas.length) []

/-- The branch `messageType == RangeData` of `messageReceived`, for an index inside the
arrays. -/
def QmlProfilerTraceClient.rangeData (d : QmlProfilerTraceClientPrivate)
    (msg : QmlProfilerMessage) (range : Nat) : QmlProfilerTraceClientPrivate :=
  let count := d.rangeCount.getD range 0
  if count > 0 then
    let datas := QmlProfilerTraceClient.padDatas (d.rangeDatas.getD range []) count.toNat
    let datas := datas.set (count - 1).toNat (datas.getD (count - 1).toNat [] ++ [msg.data])
    { d with rangeDatas := d.rangeDatas.set range datas }
  else d

/-- The branch `messageType == RangeLocation` of `messageReceived`, for an index inside the
arrays. -/
def QmlProfilerTraceClient.rangeLocation (d : QmlProfilerTraceClientPrivate)
    (msg : QmlProfilerMessage) (range : Nat) : QmlProfilerTraceClientPrivate :=
  let column := msg.column.getD (-1)
  if d.rangeCount.getD range 0 > 0 then
    { d with
      rangeLocations := d.rangeLocations.set range (d.rangeLocations.getD range [] ++
        [{ filename := msg.fileName, line := msg.line, column := column }]) }
  else d

/-- The last branch of `messageReceived` (the end of a range), for an index inside the
arrays; none when an empty stack is popped. -/
def QmlProfilerTraceClient.rangeEnd (k : QmlProfilerEnums)
    (d : QmlProfilerTraceClientPrivate) (msg : QmlProfilerMessage) (range : Nat) :
    Option (QmlProfilerTraceClientPrivate × List QmlProfilerSignal) :=
  let time := msg.time
  if d.rangeCount.getD range 0 > 0 then
    let d : QmlProfilerTraceClientPrivate :=
      { d with rangeCount := d.rangeCount.set range (d.rangeCount.getD range 0 - 1) }
    let d : QmlProfilerTraceClientPrivate :=
      if d.inProgressRanges &&& QmlProfilerTraceClientPrivate.bit range ≠ 0 then
        { d with
          inProgressRanges :=
            d.inProgressRanges &&& (2 ^ 64 - 1 - QmlProfilerTraceClientPrivate.bit range) }
      else d
    let d : QmlProfilerTraceClientPrivate := { d with maximumTime := max time d.maximumTime }
    let data := ((d.rangeDatas.getD range []).getLast?).getD []
    let d : QmlProfilerTraceClientPrivate :=
      { d with rangeDatas := d.rangeDatas.set range (d.rangeDatas.getD range []).dropLast }
    let location := (d.rangeLocations.getD range []).getLast?
    let d : QmlProfilerTraceClientPrivate :=
      { d with
        rangeLocations := d.rangeLocations.set range (d.rangeLocations.getD range []).dropLast }
    match (d.rangeStartTimes.getD range []).getLast? with
    | none => none
    | some startTime =>
      let d : QmlProfilerTraceClientPrivate :=
        { d with
          rangeStartTimes :=
            d.rangeStartTimes.set range (d.rangeStartTimes.getD range []).dropLast }
      let popped : Option (Int × QmlProfilerTraceClientPrivate) :=
        if (range : Int) = k.Binding then
          match d.bindingTypes.getLast? with
          | none => none
          | some bindingType => some (bindingType, { d with bindingTypes := d.bindingTypes.dropLast })
        else some (k.QmlBinding, d)
      match popped with
      | none => none
      | some (bindingType, d) =>
        let emitted : List QmlProfilerSignal :=
          [.range range bindingType startTime (qint64 (time - startTime)) data location]
        if d.rangeCount.getD range 0 = 0 then
          let count := (d.rangeDatas.getD range []).length
            + (d.rangeStartTimes.getD range []).length
            + (d.rangeLocations.getD range []).length
          if count ≠ 0 then some (d, emitted ++ [.incorrectlyNestedData])
          else some (d, emitted)
        else some (d, emitted)
  else some (d, [])

/-- `QmlProfilerTraceClient::messageReceived`: the state afterwards and the signals emitted;
none when an array is indexed outside its bounds or an empty stack is popped. -/
def QmlProfilerTraceClient.messageReceived (k : QmlProfilerEnums)
    (d : QmlProfilerTraceClientPrivate) (msg : QmlProfilerMessage) :
    Option (QmlProfilerTraceClientPrivate × List QmlProfilerSignal) :=
  let time := msg.time
  let messageType := msg.messageType
  if messageType ≥ k.MaximumMessage then some (d, [])
  else
    let gap : List QmlProfilerSignal :=
      if time > qint64 (d.maximumTime + GAP_TIME) ∧ 0 = d.inProgressRanges then [.gap time]
      else []
    if messageType = k.Event then
      let r := QmlProfilerTraceClient.eventReceived k d msg
      some (r.1, gap ++ r.2)
    else if messageType = k.Complete then some (d, gap ++ [.complete])
    else
      let range := msg.range
      if range ≥ k.MaximumQmlEventType then some (d, gap)
      else
        match QmlProfilerTraceClientPrivate.index k range with
        | none => none
        | some range =>
          if messageType = k.RangeStart then
            let r := QmlProfilerTraceClient.rangeStart k d msg range
            some (r.1, gap ++ r.2)
          else if messageType = k.RangeData then
            some (QmlProfilerTraceClient.rangeData d msg range, gap)
          else if messageType = k.RangeLocation then
            some (QmlProfilerTraceClient.rangeLocation d msg range, gap)
          else
            match QmlProfilerTraceClient.rangeEnd k d msg range with
            | none => none
            | some r => some (r.1, gap ++ r.2)

/-- A call of one of the two entry points of the client. -/
inductive QmlProfilerCall where
  | clearData
  | messageReceived (msg : QmlProfilerMessage)
  deriving DecidableEq, Repr

/-- A sequence of calls from a state: the state afterwards and the signals emitted. -/
def QmlProfilerTraceClient.run (k : QmlProfilerEnums) :
    List QmlProfilerCall → QmlProfilerTraceClientPrivate →
      Option (QmlProfilerTraceClientPrivate × List QmlProfilerSignal)
  | [], d => some (d, [])
  | .clearData :: rest, d =>
    let r := QmlProfilerTraceClient.clearData k d
    (QmlProfilerTraceClient.run k rest r.1).map (fun s => (s.1, r.2 ++ s.2))
  | .messageReceived msg :: rest, d =>
    match QmlProfilerTraceClient.messageReceived k d msg with
    | none => none
    | some r => (QmlProfilerTraceClient.run k rest r.1).map (fun s => (s.1, r.2 ++ s.2))

/-- Whether `messageReceived` reads a range from the message: the type is below
`MaximumMessage` and is neither `Event` nor `Complete`. -/
def QmlProfilerMessage.readsRange (k : QmlProfilerEnums) (msg : QmlProfilerMessage) : Bool :=
  decide (msg.messageType < k.MaximumMessage ∧ msg.messageType ≠ k.Event
    ∧ msg.messageType ≠ k.Complete)

/-- The enumerators numbered from 0 in the order `Event`, `RangeStart`, `RangeData`,
`RangeLocation`, `RangeEnd`, `Complete` for the messages, `FramePaint`, `Mouse`, `Key`,
`AnimationFrame`, `EndTrace`, `StartTrace` for the events, `Painting`, `Compiling`,
`Creating`, `Binding`, `HandlingSignal` for the ranges, and `QmlBinding` first of the binding
types. -/
def profilerScenarioEnums : QmlProfilerEnums :=
  { Event := 0, RangeStart := 1, RangeData := 2, RangeLocation := 3, Complete := 5,
    MaximumMessage := 6,
    AnimationFrame := 3, EndTrace := 4, StartTrace := 5, MaximumEventType := 6,
    Binding := 3, MaximumQmlEventType := 5,
    QmlBinding := 0 }

/-- A session: a binding range is started, given data and a location, and ended; the data
are cleared; a range of type 0 is started. -/
def profilerScenarioCalls : List QmlProfilerCall :=
  [.messageReceived { time := 10, messageType := 0, event := 5 },
   .messageReceived { time := 20, messageType := 1, range := 3, bindingType := some 1 },
   .messageReceived { time := 21, messageType := 2, range := 3, data := "width: 10" },
   .messageReceived { time := 22, messageType := 3, range := 3, fileName := "a.qml", line := 4 },
   .messageReceived { time := 30, messageType := 4, range := 3 },
   .clearData,
   .messageReceived { time := 40, messageType := 1, range := 0 }]

/-- A range start whose range index is -1. -/
def profilerScenarioNegative : QmlProfilerMessage :=
  { time := 10, messageType := 1, range := -1 }

/-- Whether the range that `messageReceived` reads from the message of a call, if it reads
one, is not negative. -/
def QmlProfilerCall.rangeNotNegative (k : QmlProfilerEnums) : QmlProfilerCall → Bool
  | .clearData => true
  | .messageReceived msg => !msg.readsRange k || decide (0 ≤ msg.range)

/-- A range start of type 0 without binding type. -/
def profilerScenarioStart : QmlProfilerMessage :=
  { time := 0, messageType := 1, range := 0 }

/-- The number of ranges of type `r` in progress after a call, from the number `n` in
progress before it, as the calls themselves tell it: `clearData` leaves none; a message of
type `RangeStart` with the range `r` starts one; a message that ends a range (its type is
none of `RangeStart`, `RangeData` and `RangeLocation`) with the range `r` ends one, if there
is one; every other call leaves the number as it is. -/
def QmlProfilerCall.openRanges (k : QmlProfilerEnums) (r : Nat) (n : Nat) :
    QmlProfilerCall → Nat
  | .clearData => 0
  | .messageReceived msg =>
    if msg.readsRange k = true ∧ msg.range = (r : Int) then
      if msg.messageType = k.RangeStart then n + 1
      else if msg.messageType = k.RangeData ∨ msg.messageType = k.RangeLocation then n
      else n - 1
    else n

/-- The nesting depth of the range type `r` after a sequence of calls from the initial
state: the number of ranges of type `r` that the calls leave in progress. -/
def QmlProfilerTraceClient.openRanges (k : QmlProfilerEnums) (r : Nat)
    (calls : List QmlProfilerCall) : Nat :=
  calls.foldl (QmlProfilerCall.openRanges k r) 0

/-- The representation invariant of the client, for the numbers `depth r` of ranges in
progress: the arrays have `MaximumQmlEventType` elements, the count of every range type `r`
is `depth r`, which is the size of the stack of start times of `r`, and the stack of binding
types has the size of the count of `Binding`. -/
def QmlProfilerTraceClientPrivate.Invariant (k : QmlProfilerEnums)
    (d : QmlProfilerTraceClientPrivate) (depth : Nat → Nat) : Prop :=
  d.rangeCount.length = k.MaximumQmlEventType.toNat ∧
  d.rangeStartTimes.length = k.MaximumQmlEventType.toNat ∧
  (∀ r, r < k.MaximumQmlEventType.toNat →
    d.rangeCount.getD r 0 = (depth r : Int) ∧
    (d.rangeStartTimes.getD r []).length = depth r) ∧
  (d.bindingTypes.length : Int) = d.rangeCount.getD k.Binding.toNat 0

/-! ## Scenarios of the members of a `QmlObjectValue` -/

/-- Two meta-objects: `Base` (address 0) declares the property `width` of type `int`, and
`Derived` (address 1) extends it and declares the property `title` of type `QString`. -/
def propertyTypeScenarioMetas : List FakeMetaObject :=
  [FakeMetaObject.addProperty {} { m_propertyName := "width", m_type := "int", m_isList := false },
   (FakeMetaObject.addProperty {}
      { m_propertyName := "title", m_type := "QString", m_isList := false }).setSuperclass 0]

/-- A type environment (address 0) with two imports: the object 1 under the alias `Qt`, whose
member `Item` is the object 3, and the object 2 without alias, whose member `Rectangle` is
the object 3. -/
def aliasScenarioHeap : Heap :=
  { objects :=
      [{ kind := .typeEnvironment
          [(1, { type := .LibraryImport, name := "Qt", id := "Qt" }),
           (2, { type := .LibraryImport, name := "QtQuick", id := "" })] },
       { _members := [("Item", .objectValue 3)] },
       { _members := [("Rectangle", .objectValue 3)] },
       { className := "Item" }] }

/-- The registration order scenario: the type `B` is exported in package `M` at versions 1.0
and 2.0, and the type `A` in package `M` at version 1.0. -/
def orderScenarioMetas : List FakeMetaObject :=
  [(({} : FakeMetaObject).addExport "B" "M" ⟨1, 0⟩).addExport "B" "M" ⟨2, 0⟩,
   ({} : FakeMetaObject).addExport "A" "M" ⟨1, 0⟩]

/-- The registry of the registration order scenario, as `load` leaves it. -/
def orderScenarioRegistry : CppQmlTypes :=
  (CppQmlTypes.load orderScenarioMetas 4 {} [0, 1]).getD {}

/-- The registry of the registration order scenario with every by-package list in the
opposite order. -/
def orderScenarioReversed : CppQmlTypes :=
  { orderScenarioRegistry with
    _typesByPackage := orderScenarioRegistry._typesByPackage.map (fun e => (e.1, e.2.reverse)) }

/-- The module document of the signal scenario: the type `Button` declares the enum `Mode`,
the property `mode` of type `Mode`, the signals `clicked` and `onClicked`, and the method
`open`. -/
def signalScenarioDocument : XmlNode :=
  .element "module" []
    [.element "type" [("name", "Button")]
      [.element "enum" [("name", "Mode")]
        [.element "enumerator" [("name", "A"), ("value", "0")] [],
         .element "enumerator" [("name", "B"), ("value", "1")] []],
       .element "property" [("name", "mode"), ("type", "Mode")] [],
       .element "signal" [("name", "clicked")] [],
       .element "signal" [("name", "onClicked")] [],
       .element "method" [("name", "open")] []]]

/-- The meta-objects of the signal scenario, as the reader leaves them. -/
def signalScenarioMetas : List FakeMetaObject :=
  (QmlXmlReader.call decimalToInt signalScenarioDocument [] []).2.metas

/-- The engine of the signal scenario, its registry as `load` leaves it: the value 0 is
`Button`. -/
def signalScenarioEngine : Engine :=
  { _cppQmlTypes := (CppQmlTypes.load signalScenarioMetas 3 {} [0]).getD {} }

/-- What the first enumeration of the members of `Button` leaves in the signal scenario: the
calls made, the engine, the value and the heap. -/
def signalScenarioMembers :
    List (MemberKind × String × QmlMember) × Engine × QmlObjectValue × Heap :=
  (QmlObjectValue.processMembers Char.toUpper signalScenarioMetas signalScenarioEngine {}
    (signalScenarioEngine._cppQmlTypes.obj 0)).getD ([], {}, {}, {})

/-- What the lookup of `mode` on `Button` returns in the signal scenario on the empty heap:
the member, the engine and the heap. -/
def signalScenarioLookup : Option QmlMember × Engine × Heap :=
  (QmlObjectValue.lookupMember Char.toUpper signalScenarioMetas 1 signalScenarioEngine {} 0
    "mode" true).getD (none, {}, {})

/-- What the same lookup returns when it is made a second time. -/
def signalScenarioLookupAgain : Option QmlMember × Engine × Heap :=
  (QmlObjectValue.lookupMember Char.toUpper signalScenarioMetas 1 signalScenarioLookup.2.1
    signalScenarioLookup.2.2 0 "mode" true).getD (none, {}, {})

/-! ## Lemmas on reference resolution -/

theorem ReferenceBody.run_frame
    {resolve : Nat → Context → Option (Option Value × Context)}
    (hres : ∀ r c v c1, resolve r c = some (v, c1) → c1 = c)
    (b : ReferenceBody) :
    ∀ (c : Context) (v : Option Value) (c1 : Context),
      b.run resolve c = some (v, c1) → c1 = c := by
  induction b with
  | ret w =>
    intro c v c1 hrun
    simp only [ReferenceBody.run, Option.some.injEq, Prod.mk.injEq] at hrun
    exact hrun.2.symm
  | lookupReference r next ih =>
    intro c v c1 hrun
    simp only [ReferenceBody.run] at hrun
    cases hr : resolve r c with
    | none => simp [hr] at hrun
    | some p =>
      obtain ⟨w, c2⟩ := p
      simp only [hr] at hrun
      have h2 : c2 = c := hres r c w c2 hr
      have h1 : c1 = c2 := ih w c2 v c1 hrun
      rw [h1, h2]

/-- The reference stack is balanced: a call of `lookupReference` that returns leaves the
context as it found it. -/
theorem Context.lookupReference_frame (h : Heap) :
    ∀ (fuel r : Nat) (c : Context) (v : Option Value) (c1 : Context),
      Context.lookupReference h fuel r c = some (v, c1) → c1 = c := by
  intro fuel
  induction fuel with
  | zero =>
    intro r c v c1 hl
    simp only [Context.lookupReference] at hl
    split at hl
    · simp only [Option.some.injEq, Prod.mk.injEq] at hl
      exact hl.2.symm
    · simp at hl
  | succ n ih =>
    intro r c v c1 hl
    simp only [Context.lookupReference] at hl
    split at hl
    · simp only [Option.some.injEq, Prod.mk.injEq] at hl
      exact hl.2.symm
    · cases hrun : (h.ref r).run (Context.lookupReference h n)
          { c with referenceStack := c.referenceStack ++ [r] } with
      | none => simp [hrun] at hl
      | some p =>
        obtain ⟨w, c2⟩ := p
        simp only [hrun, Option.some.injEq, Prod.mk.injEq] at hl
        have h2 := ReferenceBody.run_frame ih (h.ref r) _ _ _ hrun
        rw [← hl.2, h2]
        simp

theorem ReferenceBody.run_mono
    {res1 res2 : Nat → Context → Option (Option Value × Context)}
    (hres : ∀ r c x, res1 r c = some x → res2 r c = some x)
    (b : ReferenceBody) :
    ∀ (c : Context) (x : Option Value × Context),
      b.run res1 c = some x → b.run res2 c = some x := by
  induction b with
  | ret w =>
    intro c x hrun
    simpa [ReferenceBody.run] using hrun
  | lookupReference r next ih =>
    intro c x hrun
    simp only [ReferenceBody.run] at hrun ⊢
    cases hr : res1 r c with
    | none => simp [hr] at hrun
    | some p =>
      obtain ⟨w, c2⟩ := p
      simp only [hr] at hrun
      rw [hres r c _ hr]
      exact ih w c2 x hrun

/-- More fuel does not change a result of `lookupReference`. -/
theorem Context.lookupReference_succ (h : Heap) :
    ∀ (fuel r : Nat) (c : Context) (x : Option Value × Context),
      Context.lookupReference h fuel r c = some x →
      Context.lookupReference h (fuel + 1) r c = some x := by
  intro fuel
  induction fuel with
  | zero =>
    intro r c x hl
    simp only [Context.lookupReference] at hl ⊢
    split at hl
    · rename_i hc
      rw [if_pos hc]
      exact hl
    · simp at hl
  | succ n ih =>
    intro r c x hl
    rw [Context.lookupReference] at hl ⊢
    split at hl
    · rename_i hc
      rw [if_pos hc]
      exact hl
    · rename_i hc
      rw [if_neg hc]
      cases hrun : (h.ref r).run (Context.lookupReference h n)
          { c with referenceStack := c.referenceStack ++ [r] } with
      | none => simp [hrun] at hl
      | some p =>
        rw [ReferenceBody.run_mono ih (h.ref r) _ _ hrun]
        simpa [hrun] using hl

theorem Context.lookupReference_mono (h : Heap) (fuel k r : Nat) (c : Context)
    (x : Option Value × Context) (hl : Context.lookupReference h fuel r c = some x) :
    Context.lookupReference h (fuel + k) r c = some x := by
  induction k with
  | zero => exact hl
  | succ k ih => exact Context.lookupReference_succ h (fuel + k) r c x ih



theorem Context.unresolved_le (h : Heap) (stack : List Nat) :
    Context.unresolved h stack ≤ h.references.length := by
  unfold Context.unresolved
  calc ((List.range h.references.length).filter (fun a => !stack.contains a)).length
      ≤ (List.range h.references.length).length := List.length_filter_le _ _
    _ = h.references.length := List.length_range _

theorem Context.unresolved_push (h : Heap) (stack : List Nat) (r : Nat)
    (hr : r < h.references.length) (hnot : stack.contains r = false) :
    Context.unresolved h (stack ++ [r]) < Context.unresolved h stack := by
  unfold Context.unresolved
  have hfil : (List.range h.references.length).filter (fun a => !(stack ++ [r]).contains a)
      = ((List.range h.references.length).filter (fun a => !stack.contains a)).filter
          (fun a => !(a == r)) := by
    rw [List.filter_filter]
    apply List.filter_congr
    intro a _
    by_cases har : a = r
    · subst har
      simp
    · by_cases has : a ∈ stack <;> simp [har, has]
  rw [hfil, List.length_filter_lt_length_iff_exists]
  refine ⟨r, ?_, by simp⟩
  rw [List.mem_filter]
  refine ⟨List.mem_range.mpr hr, ?_⟩
  rw [hnot]
  rfl

theorem ReferenceBody.run_isSome
    {resolve : Nat → Context → Option (Option Value × Context)} (c0 : Context)
    (hsome : ∀ r, (resolve r c0).isSome)
    (hframe : ∀ r c v c1, resolve r c = some (v, c1) → c1 = c)
    (b : ReferenceBody) : (b.run resolve c0).isSome := by
  induction b with
  | ret w => simp [ReferenceBody.run]
  | lookupReference r next ih =>
    simp only [ReferenceBody.run]
    cases hr : resolve r c0 with
    | none =>
      have := hsome r
      simp [hr] at this
    | some p =>
      obtain ⟨w, c2⟩ := p
      have h2 : c2 = c0 := hframe r c0 w c2 hr
      subst h2
      exact ih w

/-- Resolution returns as soon as the fuel exceeds the number of references that are not on
the stack. -/
theorem Context.lookupReference_isSome (h : Heap) :
    ∀ (fuel r : Nat) (c : Context), Context.unresolved h c.referenceStack < fuel →
      (Context.lookupReference h fuel r c).isSome := by
  intro fuel
  induction fuel with
  | zero =>
    intro r c hlt
    exact absurd hlt (Nat.not_lt_zero _)
  | succ n ih =>
    intro r c hlt
    rw [Context.lookupReference]
    by_cases hc : c.referenceStack.contains r = true
    · rw [if_pos hc]
      rfl
    · rw [if_neg hc]
      have hrun : ((h.ref r).run (Context.lookupReference h n)
          { c with referenceStack := c.referenceStack ++ [r] }).isSome := by
        by_cases hr : r < h.references.length
        · apply ReferenceBody.run_isSome
          · intro r1
            apply ih
            have := Context.unresolved_push h c.referenceStack r hr (by simpa using hc)
            show Context.unresolved h (c.referenceStack ++ [r]) < n
            omega
          · exact Context.lookupReference_frame h n
        · have hdef : h.ref r = default := by
            unfold Heap.ref
            rw [List.getD_eq_default]
            omega
          rw [hdef]
          rfl
      cases hrun2 : (h.ref r).run (Context.lookupReference h n)
          { c with referenceStack := c.referenceStack ++ [r] } with
      | none => simp [hrun2] at hrun
      | some p => rfl

/-! ## Lemmas on member lookup -/

theorem ObjectValue.prototype_frame (h : Heap) (fuel : Nat) (o : ObjectValue) (c : Context)
    (p : Option Nat) (c1 : Context) (hp : o.prototype h fuel c = some (p, c1)) : c1 = c := by
  unfold ObjectValue.prototype at hp
  split at hp
  · simp only [Option.some.injEq, Prod.mk.injEq] at hp
    exact hp.2.symm
  · split at hp
    · rename_i r _
      cases hl : Context.lookupReference h fuel r c with
      | none => simp [hl] at hp
      | some x =>
        obtain ⟨v, c2⟩ := x
        simp only [hl, Option.some.injEq, Prod.mk.injEq] at hp
        rw [← hp.2]
        exact Context.lookupReference_frame h fuel r c v c2 hl
    · simp only [Option.some.injEq, Prod.mk.injEq] at hp
      exact hp.2.symm

theorem TypeEnvironment.lookupImports_frame (h : Heap)
    {property : Nat → Context → Option (Option Value × Context)}
    (hprop : ∀ a c v c1, property a c = some (v, c1) → c1 = c) (name : String)
    (imports : List (Nat × ImportInfo)) :
    ∀ (c : Context) (v : Option Value) (c1 : Context),
      TypeEnvironment.lookupImports h property name imports c = some (v, c1) → c1 = c := by
  induction imports with
  | nil =>
    intro c v c1 hl
    simp only [TypeEnvironment.lookupImports, Option.some.injEq, Prod.mk.injEq] at hl
    exact hl.2.symm
  | cons hd rest ih =>
    obtain ⟨imp, info⟩ := hd
    intro c v c1 hl
    simp only [TypeEnvironment.lookupImports] at hl
    split at hl
    · split at hl
      · simp only [Option.some.injEq, Prod.mk.injEq] at hl
        exact hl.2.symm
      · exact ih c v c1 hl
    · split at hl
      · split at hl
        · simp only [Option.some.injEq, Prod.mk.injEq] at hl
          exact hl.2.symm
        · exact ih c v c1 hl
      · split at hl
        · simp at hl
        · rename_i w c2 hpr
          simp only [Option.some.injEq, Prod.mk.injEq] at hl
          rw [← hl.2]
          exact hprop imp c _ c2 hpr
        · rename_i c2 hpr
          have h2 : c2 = c := hprop imp c _ c2 hpr
          rw [h2] at hl
          exact ih c v c1 hl

/-- Member lookup leaves the context as it found it. -/
theorem ObjectValue.lookupMember_frame (h : Heap) :
    ∀ (fuel address : Nat) (name : String) (c : Context) (ex : Bool) (v : Option Value)
      (c1 : Context),
      ObjectValue.lookupMember h fuel address name c ex = some (v, c1) → c1 = c := by
  intro fuel
  induction fuel with
  | zero =>
    intro address name c ex v c1 hl
    simp [ObjectValue.lookupMember] at hl
  | succ n ih =>
    intro address name c ex v c1 hl
    rw [ObjectValue.lookupMember] at hl
    split at hl
    · exact TypeEnvironment.lookupImports_frame h
        (fun a c v c1 hp => ih a name c true v c1 hp) name _ c v c1 hl
    · split at hl
      · simp only [Option.some.injEq, Prod.mk.injEq] at hl
        exact hl.2.symm
      · split at hl
        · simp only [Option.some.injEq, Prod.mk.injEq] at hl
          exact hl.2.symm
        · split at hl
          · split at hl
            · simp at hl
            · rename_i c2 hp
              simp only [Option.some.injEq, Prod.mk.injEq] at hl
              rw [← hl.2]
              exact ObjectValue.prototype_frame h n _ c _ c2 hp
            · rename_i po c2 hp
              have h2 : c2 = c := ObjectValue.prototype_frame h n _ c _ c2 hp
              split at hl
              · simp at hl
              · rename_i m c3 hm
                simp only [Option.some.injEq, Prod.mk.injEq] at hl
                rw [← hl.2, ← h2]
                exact ih po name c2 true _ c3 hm
              · rename_i c3 hm
                simp only [Option.some.injEq, Prod.mk.injEq] at hl
                rw [← hl.2, ← h2]
                exact ih po name c2 true _ c3 hm
          · simp only [Option.some.injEq, Prod.mk.injEq] at hl
            exact hl.2.symm

theorem ObjectValue.lookupMember_own (h : Heap) (fuel address : Nat) (name : String)
    (c : Context) (ex : Bool) (m : Value)
    (hkind : ∀ imports, (h.obj address).kind ≠ .typeEnvironment imports)
    (hown : findMember name (h.obj address)._members = some m) :
    ObjectValue.lookupMember h (fuel + 1) address name c ex = some (some m, c) := by
  rw [ObjectValue.lookupMember]
  split
  · rename_i imports hk
    exact absurd hk (hkind imports)
  · rw [hown]

/-! ## Scope lookup -/

theorem Context.lookupScopes_found (h : Heap) (fuel : Nat) (name : String) (ctx : Context)
    (scope : Nat) (member : Value) (post : List Nat)
    (hfound : (ObjectValue.lookupMember h fuel scope name ctx true).map Prod.fst
      = some (some member)) :
    ∀ (pre : List Nat),
      (∀ s ∈ pre, (ObjectValue.lookupMember h fuel s name ctx true).map Prod.fst = some none) →
      Context.lookupScopes h fuel name (pre ++ scope :: post) ctx
        = some ((member, some scope), ctx) := by
  intro pre
  induction pre with
  | nil =>
    intro _
    simp only [List.nil_append, Context.lookupScopes]
    cases hl : ObjectValue.lookupMember h fuel scope name ctx true with
    | none => simp [hl] at hfound
    | some x =>
      obtain ⟨v, c1⟩ := x
      have hc : c1 = ctx := ObjectValue.lookupMember_frame h fuel scope name ctx true v c1 hl
      simp only [hl, Option.map_some', Option.some.injEq] at hfound
      subst hc
      subst hfound
      rfl
  | cons s rest ih =>
    intro hpre
    simp only [List.cons_append, Context.lookupScopes]
    have hs := hpre s (List.mem_cons_self s rest)
    cases hl : ObjectValue.lookupMember h fuel s name ctx true with
    | none => simp [hl] at hs
    | some x =>
      obtain ⟨v, c1⟩ := x
      have hc : c1 = ctx := ObjectValue.lookupMember_frame h fuel s name ctx true v c1 hl
      simp only [hl, Option.map_some', Option.some.injEq] at hs
      subst hc
      subst hs
      exact ih (fun t ht => hpre t (List.mem_cons_of_mem s ht))

theorem Context.lookupScopes_none (h : Heap) (fuel : Nat) (name : String) (ctx : Context) :
    ∀ (scopes : List Nat),
      (∀ s ∈ scopes,
        (ObjectValue.lookupMember h fuel s name ctx true).map Prod.fst = some none) →
      Context.lookupScopes h fuel name scopes ctx = some ((.undefinedValue, none), ctx) := by
  intro scopes
  induction scopes with
  | nil =>
    intro _
    rfl
  | cons s rest ih =>
    intro hall
    simp only [Context.lookupScopes]
    have hs := hall s (List.mem_cons_self s rest)
    cases hl : ObjectValue.lookupMember h fuel s name ctx true with
    | none => simp [hl] at hs
    | some x =>
      obtain ⟨v, c1⟩ := x
      have hc : c1 = ctx := ObjectValue.lookupMember_frame h fuel s name ctx true v c1 hl
      simp only [hl, Option.map_some', Option.some.injEq] at hs
      subst hc
      subst hs
      exact ih (fun t ht => hall t (List.mem_cons_of_mem s ht))

theorem getElem?_split {α : Type} (l : List α) (i : Nat) (x : α) (hx : l[i]? = some x) :
    l = l.take i ++ x :: l.drop (i + 1) := by
  induction l generalizing i with
  | nil => simp at hx
  | cons a rest ih =>
    cases i with
    | zero =>
      simp only [List.getElem?_cons_zero, Option.some.injEq] at hx
      simp [hx]
    | succ k =>
      simp only [List.getElem?_cons_succ] at hx
      simp only [List.take_succ_cons, List.drop_succ_cons, List.cons_append, List.cons.injEq,
        true_and]
      exact ih k hx

theorem mem_drop_getElem? {α : Type} (l : List α) (i : Nat) (x : α) (hx : x ∈ l.drop i) :
    ∃ j, i ≤ j ∧ l[j]? = some x := by
  obtain ⟨k, hk⟩ := List.mem_iff_getElem?.mp hx
  rw [List.getElem?_drop] at hk
  exact ⟨i + k, Nat.le_add_right i k, hk⟩

/-- C1. `Context.lookup(name)` returns the member that `lookupMember` produces on the scope
with the greatest index in `ScopeChain.all()` that has such a member, and reports that scope
as owner. In particular, when the js scopes of an updated chain end with an inner scope that
holds `name = I`, with the global scope holding `name = G` and an outer js scope holding
`name = O`, the lookup returns `I` and reports the inner scope. -/
theorem Context.lookup_innermost_scope (h : Heap) (fuel : Nat) (ctx : Context) (name : String) :
    (∀ (i scope : Nat) (member : Value),
      ctx.scopeChain.all[i]? = some scope →
      (ObjectValue.lookupMember h fuel scope name ctx true).map Prod.fst = some (some member) →
      (∀ j s, i < j → ctx.scopeChain.all[j]? = some s →
        (ObjectValue.lookupMember h fuel s name ctx true).map Prod.fst = some none) →
      Context.lookup h fuel ctx name = some ((member, some scope), ctx)) ∧
    (∀ (globalScope outer inner : Nat) (G O I : Value),
      findMember name (h.obj globalScope)._members = some G →
      findMember name (h.obj outer)._members = some O →
      findMember name (h.obj inner)._members = some I →
      (∀ imports, (h.obj inner).kind ≠ .typeEnvironment imports) →
      Context.lookup h (fuel + 1)
        { ctx with scopeChain :=
            ScopeChain.update { globalScope := globalScope, jsScopes := [outer, inner] } } name
        = some ((I, some inner),
            { ctx with scopeChain :=
              ScopeChain.update { globalScope := globalScope, jsScopes := [outer, inner] } })) := by
  constructor
  · intro i scope member hscope hfound hlater
    unfold Context.lookup
    have hsplit := getElem?_split ctx.scopeChain.all i scope hscope
    rw [hsplit, List.reverse_append, List.reverse_cons, List.append_assoc, List.singleton_append]
    apply Context.lookupScopes_found h fuel name ctx scope member _ hfound
    intro s hs
    rw [List.mem_reverse] at hs
    obtain ⟨j, hj, hjs⟩ := mem_drop_getElem? _ _ _ hs
    exact hlater j s hj hjs
  · intro globalScope outer inner G O I _ _ hI hkind
    have hown := fun c => ObjectValue.lookupMember_own h fuel inner name c true I hkind hI
    simp only [Context.lookup, ScopeChain.update, List.nil_append, List.length_cons,
      List.length_nil]
    simp [Context.lookupScopes, hown]

/-- Witness for C1: the scope precedence scenario, the inner scope at index 2. -/
theorem Context.lookup_innermost_scope_witness :
    Context.lookup scopeScenarioHeap 1 scopeScenarioContext "x"
      = some ((.booleanValue, some 2), scopeScenarioContext) ∧
    Context.lookup scopeScenarioHeap 3 scopeScenarioContext "x"
      = some ((.booleanValue, some 2), scopeScenarioContext) :=
  ⟨(Context.lookup_innermost_scope scopeScenarioHeap 1 scopeScenarioContext "x").1
      2 2 .booleanValue rfl rfl (by
        intro j s hj hjs
        have hnone : scopeScenarioContext.scopeChain.all[j]? = none := by
          apply List.getElem?_eq_none
          show 3 ≤ j
          omega
        rw [hnone] at hjs
        cases hjs),
   (Context.lookup_innermost_scope scopeScenarioHeap 2 scopeScenarioContext "x").2
      0 1 2 .numberValue .stringValue .booleanValue rfl rfl rfl (by
        intro imports hk
        cases hk)⟩

/-! ## Prototype chains -/

theorem ObjectValue.processOwnMembers_none (name : String) :
    ∀ (members : List (String × Value)), findMember name members = none →
      ObjectValue.processOwnMembers name members none = none := by
  intro members
  induction members with
  | nil =>
    intro _
    rfl
  | cons hd rest ih =>
    obtain ⟨key, value⟩ := hd
    intro hf
    simp only [findMember] at hf
    split at hf
    · cases hf
    · rename_i hne
      simp only [ObjectValue.processOwnMembers, LookupMember.process, Option.isSome_none,
        Bool.false_eq_true, if_false, if_neg hne, if_true]
      exact ih hf

theorem ObjectValue.slowLookup_plain (o : ObjectValue) (name : String)
    (hkind : o.kind = .plain) (hf : findMember name o._members = none) :
    o.slowLookup name = none := by
  unfold ObjectValue.slowLookup
  rw [hkind]
  exact ObjectValue.processOwnMembers_none name o._members hf

/-- One step of `ObjectValue::lookupMember` on a plain object without the member. -/
theorem ObjectValue.lookupMember_plain_step (h : Heap) (fuel address : Nat) (name : String)
    (c : Context) (hkind : (h.obj address).kind = .plain)
    (hf : findMember name (h.obj address)._members = none) :
    ObjectValue.lookupMember h (fuel + 1) address name c true =
      match (h.obj address).prototype h fuel c with
      | none => none
      | some (none, c1) => some (none, c1)
      | some (some prototypeObject, c1) =>
        match ObjectValue.lookupMember h fuel prototypeObject name c1 true with
        | none => none
        | some (some m, c2) => some (some m, c2)
        | some (none, c2) => some (none, c2) := by
  rw [ObjectValue.lookupMember]
  simp only [hkind, hf, ObjectValue.slowLookup_plain (h.obj address) name hkind hf, if_true]

theorem ObjectValue.prototype_mono (h : Heap) (fuel k : Nat) (o : ObjectValue) (c : Context)
    (x : Option Nat × Context) (hp : o.prototype h fuel c = some x) :
    o.prototype h (fuel + k) c = some x := by
  unfold ObjectValue.prototype at hp ⊢
  split
  · rename_i a ha
    simpa [ha] using hp
  · rename_i ha
    simp only [ha] at hp
    split
    · rename_i r hr
      simp only [hr] at hp
      cases hl : Context.lookupReference h fuel r c with
      | none => simp [hl] at hp
      | some y =>
        rw [Context.lookupReference_mono h fuel k r c y hl]
        simpa [hl] using hp
    · rename_i hr
      simpa [hr] using hp

/-- What `prototype(context)` returns with the fuel of the chain, it returns with more. -/
theorem ObjectValue.prototype_of_chain (h : Heap) (f n : Nat) (hle : f ≤ n) (o : ObjectValue)
    (c : Context) (p : Option Nat) (hp : (o.prototype h f c).map Prod.fst = some p) :
    o.prototype h n c = some (p, c) := by
  cases hx : o.prototype h f c with
  | none => simp [hx] at hp
  | some x =>
    obtain ⟨p1, c1⟩ := x
    have hc := ObjectValue.prototype_frame h f o c p1 c1 hx
    simp only [hx, Option.map_some', Option.some.injEq] at hp
    subst hc
    subst hp
    have := ObjectValue.prototype_mono h f (n - f) o c1 _ hx
    rwa [Nat.add_sub_cancel' hle] at this

/-- C2. On a prototype chain of plain object values without cycle, `lookupMember` returns
(the fuel needed is that of the prototype links plus the length of the chain) and agrees
with the manual walk along the `prototype()` links that returns the first own-property-map
entry for the name, or not found. -/
theorem ObjectValue.lookupMember_eq_manualWalk (h : Heap) (name : String) (ctx : Context)
    (f : Nat) :
    ∀ (chain : List Nat) (o : Nat) (fuel : Nat),
      isPlainChain h f ctx (o :: chain) = true → f + chain.length < fuel →
      ObjectValue.lookupMember h fuel o name ctx true
        = some (manualWalk h name (o :: chain), ctx) := by
  intro chain
  induction chain with
  | nil =>
    intro o fuel hchain hfuel
    obtain ⟨n, rfl⟩ : ∃ n, fuel = n + 1 := ⟨fuel - 1, by simp at hfuel; omega⟩
    simp only [isPlainChain, Bool.and_eq_true, decide_eq_true_eq] at hchain
    obtain ⟨hkind, hproto⟩ := hchain
    cases hf : findMember name (h.obj o)._members with
    | some m =>
      rw [ObjectValue.lookupMember_own h n o name ctx true m (by rw [hkind]; simp) hf]
      simp [manualWalk, hf]
    | none =>
      rw [ObjectValue.lookupMember_plain_step h n o name ctx hkind hf,
        ObjectValue.prototype_of_chain h f n (by simp at hfuel; omega) _ ctx none hproto]
      simp [manualWalk, hf]
  | cons p rest ih =>
    intro o fuel hchain hfuel
    obtain ⟨n, rfl⟩ : ∃ n, fuel = n + 1 := ⟨fuel - 1, by simp at hfuel; omega⟩
    simp only [isPlainChain, Bool.and_eq_true, decide_eq_true_eq] at hchain
    obtain ⟨⟨hkind, hproto⟩, hrest⟩ := hchain
    simp only [List.length_cons] at hfuel
    cases hf : findMember name (h.obj o)._members with
    | some m =>
      rw [ObjectValue.lookupMember_own h n o name ctx true m (by rw [hkind]; simp) hf]
      simp [manualWalk, hf]
    | none =>
      rw [ObjectValue.lookupMember_plain_step h n o name ctx hkind hf,
        ObjectValue.prototype_of_chain h f n (by omega) _ ctx (some p) hproto]
      have hnext := ih p n hrest (by omega)
      have hwalk : manualWalk h name (o :: p :: rest) = manualWalk h name (p :: rest) := by
        rw [manualWalk, hf]
      simp only [hnext, hwalk]
      cases manualWalk h name (p :: rest) <;> rfl

/-- Witness for C2: the chain 0, 1, 2 of the chain scenario (the second link is a
reference, resolved with fuel 1), looked up for `b`. -/
theorem ObjectValue.lookupMember_eq_manualWalk_witness :
    ObjectValue.lookupMember chainScenarioHeap 4 0 "b" {} true
      = some (manualWalk chainScenarioHeap "b" [0, 1, 2], {}) :=
  ObjectValue.lookupMember_eq_manualWalk chainScenarioHeap "b" {} 1 [1, 2] 0 4
    (by decide) (by decide)

/-- C3 (what the code does). After `A.setPrototype(B)` and `B.setPrototype(A)`,
`A.prototype(context)` returns `B`, with any fuel; but `A.lookupMember(name, context)` returns
with no amount of fuel: the two objects call each other without end. -/
theorem ObjectValue.lookupMember_prototype_cycle :
    (∀ (fuel : Nat) (ctx : Context),
      (cycleScenarioHeap.obj 0).prototype cycleScenarioHeap fuel ctx = some (some 1, ctx)) ∧
    (∀ (fuel : Nat) (name : String) (ctx : Context),
      ObjectValue.lookupMember cycleScenarioHeap fuel 0 name ctx true = none) := by
  constructor
  · intro fuel ctx
    rfl
  · intro fuel name ctx
    have hboth : ∀ (n : Nat) (c : Context),
        ObjectValue.lookupMember cycleScenarioHeap n 0 name c true = none ∧
        ObjectValue.lookupMember cycleScenarioHeap n 1 name c true = none := by
      intro n
      induction n with
      | zero =>
        intro c
        exact ⟨rfl, rfl⟩
      | succ k ih =>
        intro c
        constructor
        · rw [ObjectValue.lookupMember_plain_step cycleScenarioHeap k 0 name c rfl rfl]
          have hp : (cycleScenarioHeap.obj 0).prototype cycleScenarioHeap k c
              = some (some 1, c) := rfl
          rw [hp]
          simp only [(ih c).2]
        · rw [ObjectValue.lookupMember_plain_step cycleScenarioHeap k 1 name c rfl rfl]
          have hp : (cycleScenarioHeap.obj 1).prototype cycleScenarioHeap k c
              = some (some 0, c) := rfl
          rw [hp]
          simp only [(ih c).1]
    exact (hboth fuel ctx).1

/-- C4. `Context.lookupReference(r)`: when `r` is on the reference stack the call returns no
value, whatever the body of `r` is (no fuel is needed, the body is not run); otherwise it
returns the value of the body of `r` run with `r` pushed on the stack; a call that returns
leaves the context, and so the reference stack, as it was, nested resolutions included; and
the call returns as soon as the fuel exceeds the number of references of the heap. -/
theorem Context.lookupReference_guarded (h : Heap) (ctx : Context) (r : Nat) :
    (r ∈ ctx.referenceStack →
      ∀ fuel, Context.lookupReference h fuel r ctx = some (none, ctx)) ∧
    (r ∉ ctx.referenceStack →
      ∀ fuel, Context.lookupReference h (fuel + 1) r ctx =
        ((h.ref r).run (Context.lookupReference h fuel)
          { ctx with referenceStack := ctx.referenceStack ++ [r] }).map
            (fun result => (result.1, ctx))) ∧
    (∀ fuel v ctx1, Context.lookupReference h fuel r ctx = some (v, ctx1) → ctx1 = ctx) ∧
    (∀ fuel, h.references.length < fuel → (Context.lookupReference h fuel r ctx).isSome) := by
  refine ⟨?_, ?_, ?_, ?_⟩
  · intro hmem fuel
    have hc : ctx.referenceStack.contains r = true := by simpa using hmem
    cases fuel with
    | zero => rw [Context.lookupReference, if_pos hc]
    | succ n => rw [Context.lookupReference, if_pos hc]
  · intro hmem fuel
    have hc : ¬ ctx.referenceStack.contains r = true := by simpa using hmem
    rw [Context.lookupReference, if_neg hc]
    cases hrun : (h.ref r).run (Context.lookupReference h fuel)
        { ctx with referenceStack := ctx.referenceStack ++ [r] } with
    | none => rfl
    | some p =>
      obtain ⟨w, c2⟩ := p
      have h2 := ReferenceBody.run_frame (Context.lookupReference_frame h fuel) (h.ref r)
        _ _ _ hrun
      subst h2
      simp
  · intro fuel v ctx1 hl
    exact Context.lookupReference_frame h fuel r ctx v ctx1 hl
  · intro fuel hfuel
    apply Context.lookupReference_isSome
    have := Context.unresolved_le h ctx.referenceStack
    omega

/-- Witness for C4: in the scenario of the two references that resolve each other,
reference 0 on the stack resolves to no value, and from the empty stack the inner request
for reference 0 is cut, so that reference 1 and then reference 0 yield the number value, the
stack being empty again. -/
theorem Context.lookupReference_guarded_witness :
    Context.lookupReference referenceScenarioHeap 0 0 { referenceStack := [0] }
      = some (none, { referenceStack := [0] }) ∧
    Context.lookupReference referenceScenarioHeap 3 0 {}
      = ((referenceScenarioHeap.ref 0).run (Context.lookupReference referenceScenarioHeap 2)
          { referenceStack := [0] }).map (fun result => (result.1, {})) ∧
    Context.lookupReference referenceScenarioHeap 3 0 {} = some (some .numberValue, {}) :=
  ⟨(Context.lookupReference_guarded referenceScenarioHeap { referenceStack := [0] } 0).1
      (by decide) 0,
   (Context.lookupReference_guarded referenceScenarioHeap {} 0).2.1 (by decide) 2,
   rfl⟩

/-! ## Versions -/

theorem ComponentVersion.lt_def (a b : ComponentVersion) :
    a < b ↔ (a.majorVersion < b.majorVersion
      ∨ (a.majorVersion = b.majorVersion ∧ a.minorVersion < b.minorVersion)) := Iff.rfl

theorem ComponentVersion.le_def (a b : ComponentVersion) :
    a ≤ b ↔ (a.majorVersion < b.majorVersion
      ∨ (a.majorVersion = b.majorVersion ∧ a.minorVersion ≤ b.minorVersion)) := Iff.rfl

theorem ComponentVersion.le_refl (a : ComponentVersion) : a ≤ a := by
  rw [ComponentVersion.le_def]
  omega

theorem ComponentVersion.le_of_lt {a b : ComponentVersion} (h : a < b) : a ≤ b := by
  rw [ComponentVersion.lt_def] at h
  rw [ComponentVersion.le_def]
  omega

theorem ComponentVersion.le_of_not_lt {a b : ComponentVersion} (h : ¬ a < b) : b ≤ a := by
  rw [ComponentVersion.lt_def] at h
  rw [ComponentVersion.le_def]
  omega

theorem ComponentVersion.le_trans {a b c : ComponentVersion} (h1 : a ≤ b) (h2 : b ≤ c) :
    a ≤ c := by
  rw [ComponentVersion.le_def] at h1 h2 ⊢
  omega

/-! ## Sorted maps -/

theorem QMap.value_mem {β : Type} (m : List (String × β)) (n : String) (q : β)
    (hv : QMap.value m n = some q) : (n, q) ∈ m := by
  induction m with
  | nil => simp [QMap.value] at hv
  | cons hd rest ih =>
    obtain ⟨k, v⟩ := hd
    simp only [QMap.value] at hv
    split at hv
    · rename_i hk
      simp only [Option.some.injEq] at hv
      subst hk
      subst hv
      exact List.mem_cons_self _ _
    · exact List.mem_cons_of_mem _ (ih hv)

theorem QMap.mem_value {β : Type} (m : List (String × β))
    (hs : (m.map Prod.fst).Pairwise (· < ·)) (n : String) (q : β) (hm : (n, q) ∈ m) :
    QMap.value m n = some q := by
  induction m with
  | nil => simp at hm
  | cons hd rest ih =>
    obtain ⟨k, v⟩ := hd
    simp only [List.map_cons, List.pairwise_cons] at hs
    simp only [QMap.value]
    rcases List.mem_cons.mp hm with heq | hrest
    · simp only [Prod.mk.injEq] at heq
      rw [if_pos heq.1.symm, heq.2]
    · have hlt : k < n := hs.1 n (List.mem_map.mpr ⟨(n, q), hrest, rfl⟩)
      rw [if_neg (ne_of_lt hlt)]
      exact ih hs.2 hrest

theorem QMap.value_insert {β : Type} (m : List (String × β)) (key : String) (value : β)
    (n : String) :
    QMap.value (QMap.insert m key value) n = if key = n then some value else QMap.value m n := by
  induction m with
  | nil => simp [QMap.insert, QMap.value]
  | cons hd rest ih =>
    obtain ⟨k, v⟩ := hd
    simp only [QMap.insert]
    by_cases hk : k = key
    · subst hk
      simp only [if_true, QMap.value]
      by_cases hn : k = n <;> simp [hn]
    · rw [if_neg hk]
      by_cases hlt : key < k
      · rw [if_pos hlt]
        simp only [QMap.value]
      · rw [if_neg hlt]
        simp only [QMap.value, ih]
        by_cases hn : k = n
        · subst hn
          simp [Ne.symm hk]
        · simp [hn]

theorem QMap.insert_lower_bound {β : Type} (m : List (String × β)) (key : String) (value : β)
    (x : String) (hx : ∀ k ∈ m.map Prod.fst, x < k) (hkey : x < key) :
    ∀ k ∈ (QMap.insert m key value).map Prod.fst, x < k := by
  induction m with
  | nil =>
    intro k hk
    simp only [QMap.insert, List.map_cons, List.map_nil, List.mem_singleton] at hk
    rw [hk]
    exact hkey
  | cons hd rest ih =>
    obtain ⟨k0, v0⟩ := hd
    intro k hk
    simp only [QMap.insert] at hk
    split at hk
    · exact hx k (by simpa using hk)
    · split at hk
      · simp only [List.map_cons, List.mem_cons] at hk
        rcases hk with h1 | h2 | h3
        · rw [h1]; exact hkey
        · rw [h2]; exact hx k0 (by simp)
        · exact hx k (by simp [h3])
      · simp only [List.map_cons, List.mem_cons] at hk
        rcases hk with h1 | h2
        · rw [h1]; exact hx k0 (by simp)
        · exact ih (fun k' hk' => hx k' (by simp [hk'])) k h2

theorem QMap.sorted_insert {β : Type} (m : List (String × β)) (key : String) (value : β)
    (hs : (m.map Prod.fst).Pairwise (· < ·)) :
    ((QMap.insert m key value).map Prod.fst).Pairwise (· < ·) := by
  induction m with
  | nil => simp [QMap.insert]
  | cons hd rest ih =>
    obtain ⟨k, v⟩ := hd
    simp only [List.map_cons, List.pairwise_cons] at hs
    simp only [QMap.insert]
    by_cases hk : k = key
    · rw [if_pos hk]
      simp only [List.map_cons, List.pairwise_cons]
      exact hs
    · rw [if_neg hk]
      by_cases hlt : key < k
      · rw [if_pos hlt]
        simp only [List.map_cons, List.pairwise_cons, List.mem_cons]
        refine ⟨?_, hs⟩
        intro a ha
        rcases ha with h1 | h2
        · rw [h1]; exact hlt
        · exact lt_trans hlt (hs.1 a h2)
      · rw [if_neg hlt]
        simp only [List.map_cons, List.pairwise_cons]
        have hkk : k < key := lt_of_le_of_ne (not_lt.mp hlt) hk
        exact ⟨QMap.insert_lower_bound rest key value k hs.1 hkk, ih hs.2⟩

theorem QMap.filter_key {β : Type} (m : List (String × β))
    (hs : (m.map Prod.fst).Pairwise (· < ·)) (n : String) (q : β)
    (hv : QMap.value m n = some q) :
    m.filter (fun e => decide (e.1 = n)) = [(n, q)] := by
  induction m with
  | nil => simp [QMap.value] at hv
  | cons hd rest ih =>
    obtain ⟨k, v⟩ := hd
    simp only [List.map_cons, List.pairwise_cons] at hs
    simp only [QMap.value] at hv
    split at hv
    · rename_i hk
      simp only [Option.some.injEq] at hv
      subst hk
      subst hv
      have hnone : rest.filter (fun e => decide (e.1 = k)) = [] := by
        rw [List.filter_eq_nil_iff]
        intro e he
        have hlt : k < e.1 := hs.1 e.1 (List.mem_map.mpr ⟨e, he, rfl⟩)
        simp [ne_of_gt hlt]
      simp [List.filter_cons, hnone]
    · rename_i hk
      simp only [List.filter_cons, hk, decide_False, Bool.false_eq_true, if_false]
      exact ih hs.2 hv

/-! ## Version resolution -/

theorem CppQmlTypes.importInvariant_step (t : CppQmlTypes) (version : ComponentVersion)
    (processed : List Nat) (m : List (String × Nat)) (q : Nat)
    (hinv : CppQmlTypes.ImportInvariant t version processed m) :
    CppQmlTypes.ImportInvariant t version (processed ++ [q])
      (CppQmlTypes.typesForImportStep t version m q) := by
  obtain ⟨hsorted, hentry, hall⟩ := hinv
  unfold CppQmlTypes.typesForImportStep
  by_cases hcand : (t.obj q)._componentVersion ≤ version
  · rw [if_pos hcand]
    cases hprev : QMap.value m (t.obj q).className with
    | none =>
      simp only [hprev]
      refine ⟨QMap.sorted_insert m _ _ hsorted, ?_, ?_⟩
      · intro n x hx
        rw [QMap.value_insert] at hx
        by_cases hn : (t.obj q).className = n
        · rw [if_pos hn] at hx
          simp only [Option.some.injEq] at hx
          subst hx
          refine ⟨by simp, hcand, hn, ?_⟩
          intro q1 hq1 hc1 hn1
          rcases List.mem_append.mp hq1 with hold | hnew
          · have := hall q1 hold hc1
            rw [hn1, ← hn, hprev] at this
            simp at this
          · simp only [List.mem_singleton] at hnew
            rw [hnew]
            exact ComponentVersion.le_refl _
        · rw [if_neg hn] at hx
          obtain ⟨h1, h2, h3, h4⟩ := hentry n x hx
          refine ⟨List.mem_append_left _ h1, h2, h3, ?_⟩
          intro q1 hq1 hc1 hn1
          rcases List.mem_append.mp hq1 with hold | hnew
          · exact h4 q1 hold hc1 hn1
          · simp only [List.mem_singleton] at hnew
            rw [hnew] at hn1
            exact absurd hn1 hn
      · intro q1 hq1 hc1
        rw [QMap.value_insert]
        by_cases hn : (t.obj q).className = (t.obj q1).className
        · rw [if_pos hn]
          rfl
        · rw [if_neg hn]
          rcases List.mem_append.mp hq1 with hold | hnew
          · exact hall q1 hold hc1
          · simp only [List.mem_singleton] at hnew
            rw [hnew] at hn
            exact absurd rfl hn
    | some prev =>
      simp only [hprev]
      obtain ⟨hp1, hp2, hp3, hp4⟩ := hentry _ prev hprev
      by_cases hnewer : (t.obj prev)._componentVersion < (t.obj q)._componentVersion
      · rw [if_pos hnewer]
        refine ⟨QMap.sorted_insert m _ _ hsorted, ?_, ?_⟩
        · intro n x hx
          rw [QMap.value_insert] at hx
          by_cases hn : (t.obj q).className = n
          · rw [if_pos hn] at hx
            simp only [Option.some.injEq] at hx
            subst hx
            refine ⟨by simp, hcand, hn, ?_⟩
            intro q1 hq1 hc1 hn1
            rcases List.mem_append.mp hq1 with hold | hnew
            · exact ComponentVersion.le_trans (hp4 q1 hold hc1 (by rw [hn1, hn]))
                (ComponentVersion.le_of_lt hnewer)
            · simp only [List.mem_singleton] at hnew
              rw [hnew]
              exact ComponentVersion.le_refl _
          · rw [if_neg hn] at hx
            obtain ⟨h1, h2, h3, h4⟩ := hentry n x hx
            refine ⟨List.mem_append_left _ h1, h2, h3, ?_⟩
            intro q1 hq1 hc1 hn1
            rcases List.mem_append.mp hq1 with hold | hnew
            · exact h4 q1 hold hc1 hn1
            · simp only [List.mem_singleton] at hnew
              rw [hnew] at hn1
              exact absurd hn1 hn
        · intro q1 hq1 hc1
          rw [QMap.value_insert]
          by_cases hn : (t.obj q).className = (t.obj q1).className
          · rw [if_pos hn]
            rfl
          · rw [if_neg hn]
            rcases List.mem_append.mp hq1 with hold | hnew
            · exact hall q1 hold hc1
            · simp only [List.mem_singleton] at hnew
              rw [hnew] at hn
              exact absurd rfl hn
      · rw [if_neg hnewer]
        refine ⟨hsorted, ?_, ?_⟩
        · intro n x hx
          obtain ⟨h1, h2, h3, h4⟩ := hentry n x hx
          refine ⟨List.mem_append_left _ h1, h2, h3, ?_⟩
          intro q1 hq1 hc1 hn1
          rcases List.mem_append.mp hq1 with hold | hnew
          · exact h4 q1 hold hc1 hn1
          · simp only [List.mem_singleton] at hnew
            rw [hnew] at hn1 ⊢
            rw [← hn1, hprev] at hx
            simp only [Option.some.injEq] at hx
            rw [← hx]
            exact ComponentVersion.le_of_not_lt hnewer
        · intro q1 hq1 hc1
          rcases List.mem_append.mp hq1 with hold | hnew
          · exact hall q1 hold hc1
          · simp only [List.mem_singleton] at hnew
            rw [hnew, hprev]
            rfl
  · rw [if_neg hcand]
    refine ⟨hsorted, ?_, ?_⟩
    · intro n x hx
      obtain ⟨h1, h2, h3, h4⟩ := hentry n x hx
      refine ⟨List.mem_append_left _ h1, h2, h3, ?_⟩
      intro q1 hq1 hc1 hn1
      rcases List.mem_append.mp hq1 with hold | hnew
      · exact h4 q1 hold hc1 hn1
      · simp only [List.mem_singleton] at hnew
        rw [hnew] at hc1
        exact absurd hc1 hcand
    · intro q1 hq1 hc1
      rcases List.mem_append.mp hq1 with hold | hnew
      · exact hall q1 hold hc1
      · simp only [List.mem_singleton] at hnew
        rw [hnew] at hc1
        exact absurd hc1 hcand

theorem CppQmlTypes.importInvariant_foldl (t : CppQmlTypes) (version : ComponentVersion)
    (values : List Nat) :
    ∀ (processed : List Nat) (m : List (String × Nat)),
      CppQmlTypes.ImportInvariant t version processed m →
      CppQmlTypes.ImportInvariant t version (processed ++ values)
        (values.foldl (CppQmlTypes.typesForImportStep t version) m) := by
  induction values with
  | nil =>
    intro processed m hinv
    simpa using hinv
  | cons q rest ih =>
    intro processed m hinv
    have hstep := CppQmlTypes.importInvariant_step t version processed m q hinv
    have := ih (processed ++ [q]) _ hstep
    simpa using this

/-- C5. For every registry state, package and version, `typesForImport` returns only values
of the by-package list of the package whose version is at most the requested one, exactly
one value for each class name that has such a value, and that value has the greatest
version among the values of its name with a version at most the requested one. -/
theorem CppQmlTypes.typesForImport_highest_version (t : CppQmlTypes) (packageName : String)
    (version : ComponentVersion) :
    (∀ q ∈ t.typesForImport packageName version,
      q ∈ (QHash.value t._typesByPackage packageName).getD [] ∧
      (t.obj q)._componentVersion ≤ version) ∧
    (∀ n, (∃ q ∈ (QHash.value t._typesByPackage packageName).getD [],
        (t.obj q)._componentVersion ≤ version ∧ (t.obj q).className = n) →
      ((t.typesForImport packageName version).filter
        (fun q => decide ((t.obj q).className = n))).length = 1) ∧
    (∀ q ∈ t.typesForImport packageName version,
      ∀ q1 ∈ (QHash.value t._typesByPackage packageName).getD [],
        (t.obj q1)._componentVersion ≤ version → (t.obj q1).className = (t.obj q).className →
        (t.obj q1)._componentVersion ≤ (t.obj q)._componentVersion) := by
  have hinv := CppQmlTypes.importInvariant_foldl t version
    ((QHash.value t._typesByPackage packageName).getD []) [] []
    ⟨by simp, by intro n q hq; simp [QMap.value] at hq, by intro q hq; simp at hq⟩
  rw [List.nil_append] at hinv
  obtain ⟨hsorted, hentry, hall⟩ := hinv
  have hmem : ∀ q ∈ t.typesForImport packageName version,
      QMap.value (((QHash.value t._typesByPackage packageName).getD []).foldl
        (CppQmlTypes.typesForImportStep t version) []) (t.obj q).className = some q := by
    intro q hq
    unfold CppQmlTypes.typesForImport QMap.values at hq
    obtain ⟨e, he, heq⟩ := List.mem_map.mp hq
    obtain ⟨n, x⟩ := e
    simp only at heq
    subst heq
    have hv := QMap.mem_value _ hsorted n x he
    rw [(hentry n x hv).2.2.1]
    exact hv
  refine ⟨?_, ?_, ?_⟩
  · intro q hq
    have h := hentry _ q (hmem q hq)
    exact ⟨h.1, h.2.1⟩
  · intro n hex
    obtain ⟨q, hq, hc, hn⟩ := hex
    have hsome := hall q hq hc
    rw [hn] at hsome
    obtain ⟨x, hx⟩ := Option.isSome_iff_exists.mp hsome
    unfold CppQmlTypes.typesForImport QMap.values
    rw [List.filter_map]
    have hcongr : List.filter ((fun q => decide ((t.obj q).className = n)) ∘ Prod.snd)
        (((QHash.value t._typesByPackage packageName).getD []).foldl
          (CppQmlTypes.typesForImportStep t version) [])
        = List.filter (fun e => decide (e.1 = n))
          (((QHash.value t._typesByPackage packageName).getD []).foldl
            (CppQmlTypes.typesForImportStep t version) []) := by
      apply List.filter_congr
      intro e he
      obtain ⟨k, y⟩ := e
      have hv := QMap.mem_value _ hsorted k y he
      have hk := (hentry k y hv).2.2.1
      simp only [Function.comp_apply, hk]
    rw [hcongr, QMap.filter_key _ hsorted n x hx]
    rfl
  · intro q hq q1 hq1 hc1 hn1
    exact (hentry _ q (hmem q hq)).2.2.2 q1 hq1 hc1 hn1

/-- Witness for C5: the registry of the version scenario, asked for package `M` at 1.5: the
one value returned for `T` is value 0, of version 1.0, which is registered for `M` and not
below value 0 itself. -/
theorem CppQmlTypes.typesForImport_highest_version_witness :
    (0 ∈ (QHash.value versionScenarioRegistry._typesByPackage "M").getD [] ∧
      (versionScenarioRegistry.obj 0)._componentVersion ≤ ⟨1, 5⟩) ∧
    ((versionScenarioRegistry.typesForImport "M" ⟨1, 5⟩).filter
      (fun q => decide ((versionScenarioRegistry.obj q).className = "T"))).length = 1 ∧
    (versionScenarioRegistry.obj 0)._componentVersion
      ≤ (versionScenarioRegistry.obj 0)._componentVersion :=
  ⟨(CppQmlTypes.typesForImport_highest_version versionScenarioRegistry "M" ⟨1, 5⟩).1 0
      (by decide),
   (CppQmlTypes.typesForImport_highest_version versionScenarioRegistry "M" ⟨1, 5⟩).2.1 "T"
      ⟨0, by decide, by decide, by decide⟩,
   (CppQmlTypes.typesForImport_highest_version versionScenarioRegistry "M" ⟨1, 5⟩).2.2 0
      (by decide) 0 (by decide) (by decide) rfl⟩

theorem formatPackageNameVersion_versionScenario (name : String) :
    formatPackageNameVersion "M" name ⟨1, 0⟩ ≠ formatPackageNameVersion "M" name ⟨2, 0⟩ ∧
    formatPackageNameVersion "M" name ⟨1, 0⟩
      ≠ formatPackageNameVersion "" name ComponentVersion.noVersion ∧
    formatPackageNameVersion "M" name ⟨2, 0⟩
      ≠ formatPackageNameVersion "" name ComponentVersion.noVersion := by
  have hnum1 : QString.number 1 = "1" := by decide
  have hnum2 : QString.number 2 = "2" := by decide
  have hnum0 : QString.number 0 = "0" := by decide
  have hnumn : QString.number ComponentVersion.NoVersion = "-1" := by decide
  refine ⟨?_, ?_, ?_⟩
  · intro h
    have h2 := congrArg String.data h
    simp [formatPackageNameVersion, hnum1, hnum2, hnum0, String.data_append] at h2
  · intro h
    have h2 := congrArg String.data h
    simp [formatPackageNameVersion, hnum1, hnum0, hnumn, ComponentVersion.noVersion,
      String.data_append] at h2
  · intro h
    have h2 := congrArg String.data h
    simp [formatPackageNameVersion, hnum2, hnum0, hnumn, ComponentVersion.noVersion,
      String.data_append] at h2

/-- C6. For every type name exported in package `M` at versions 1.0 and 2.0, `load` (with
any fuel, the type has no superclass) materializes the 1.0 export as value 0 and the 2.0
export as value 1, and `typesForImport("M", 1.5)` returns the 1.0 value,
`typesForImport("M", 2.0)` the 2.0 value and `typesForImport("M", 0.5)` no value. -/
theorem CppQmlTypes.typesForImport_version_scenario (name : String) (fuel : Nat) :
    ∃ t, CppQmlTypes.load [versionScenarioMeta name] fuel {} [0] = some t ∧
      t.obj 0 = { _metaObject := 0, className := name, _packageName := "M",
                  _componentVersion := ⟨1, 0⟩, _prototype := none } ∧
      t.obj 1 = { _metaObject := 0, className := name, _packageName := "M",
                  _componentVersion := ⟨2, 0⟩, _prototype := none } ∧
      t.typesForImport "M" ⟨1, 5⟩ = [0] ∧
      t.typesForImport "M" ⟨2, 0⟩ = [1] ∧
      t.typesForImport "M" ⟨0, 5⟩ = [] := by
  obtain ⟨h12, h13, h23⟩ := formatPackageNameVersion_versionScenario name
  have hload : CppQmlTypes.loadExports [versionScenarioMeta name] {} [0] =
      { objectValues := [
          { _metaObject := 0, className := name, _packageName := "M",
            _componentVersion := ⟨1, 0⟩ },
          { _metaObject := 0, className := name, _packageName := "M",
            _componentVersion := ⟨2, 0⟩ },
          { _metaObject := 0, className := name, _packageName := "",
            _componentVersion := ComponentVersion.noVersion }],
        _typesByPackage := [("M", [0, 1]), ("", [2])],
        _typesByFullyQualifiedName := [
          (formatPackageNameVersion "M" name ⟨1, 0⟩, 0),
          (formatPackageNameVersion "M" name ⟨2, 0⟩, 1),
          (formatPackageNameVersion "" name ComponentVersion.noVersion, 2)] } := by
    simp [CppQmlTypes.loadExports, metaAt, versionScenarioMeta, FakeMetaObject.addExport,
      FakeMetaObject.exports, CppQmlTypes.loadExport, QHash.contains, QHash.value,
      CppQmlTypes.newQmlObjectValue, QHash.insert, h12, h13, h23, h12.symm, h13.symm, h23.symm]
  refine ⟨CppQmlTypes.loadExports [versionScenarioMeta name] {} [0], ?_, ?_⟩
  · unfold CppQmlTypes.load
    rw [hload]
    simp [CppQmlTypes.linkExports, CppQmlTypes.linkExportsOf, metaAt, versionScenarioMeta,
      FakeMetaObject.addExport, FakeMetaObject.exports, CppQmlTypes.linkExport, QHash.value,
      FakeMetaObject.superClass, h12, h13, h23, h12.symm, h13.symm, h23.symm]
  · rw [hload]
    refine ⟨rfl, rfl, ?_, ?_, ?_⟩
    · simp [CppQmlTypes.typesForImport, QHash.value, CppQmlTypes.typesForImportStep,
        CppQmlTypes.obj, QMap.value, QMap.insert, QMap.values, ComponentVersion.le_def,
        ComponentVersion.lt_def]
    · simp [CppQmlTypes.typesForImport, QHash.value, CppQmlTypes.typesForImportStep,
        CppQmlTypes.obj, QMap.value, QMap.insert, QMap.values, ComponentVersion.le_def,
        ComponentVersion.lt_def]
    · simp [CppQmlTypes.typesForImport, QHash.value, CppQmlTypes.typesForImportStep,
        CppQmlTypes.obj, QMap.value, QMap.insert, QMap.values, ComponentVersion.le_def,
        ComponentVersion.lt_def]

/-- C7 (what the code does). With the type `Foo` materialized in package `Qt.labs`,
`typeForImport("Qt.labs.Foo")` takes the name apart at its first dot, into package `Qt` and
type name `labs.Foo`, and returns no value; the sibling `QmlXmlReader::split` takes the same
name apart at its last dot, into package `Qt.labs` and class name `Foo`, for which the
registry holds value 0. -/
theorem CppQmlTypes.typeForImport_first_dot (fuel : Nat) :
    ∃ t, CppQmlTypes.load dottedScenarioMetas fuel {} [0] = some t ∧
      QHash.value t._typesByPackage "Qt.labs" = some [0] ∧
      (t.obj 0).className = "Foo" ∧
      QmlXmlReader.split "Qt.labs.Foo" = ("Qt.labs", "Foo") ∧
      CppQmlTypes.typeForImportSplit "Qt.labs.Foo" = ("Qt", "labs.Foo") ∧
      t.typeForImport "Qt.labs.Foo" = none :=
  ⟨CppQmlTypes.loadExports dottedScenarioMetas {} [0], by rfl, by decide, by decide, by decide,
    by decide, by decide⟩

/-- C9 (counterexample). In the superclass synthesis scenario the prototype of the `UI`
value of `Derived` is not a value of package `UI`, class name `Base` and version 1.0. -/
theorem CppQmlTypes.load_synthesis_version_counterexample :
    ¬ ∃ t derived base, CppQmlTypes.load synthesisScenarioMetas 4 {} [0, 1] = some t ∧
      t.typeByQualifiedName (CppQmlTypes.qualifiedName "UI" "Derived" ⟨1, 0⟩) = some derived ∧
      (t.obj derived)._prototype = some base ∧
      (t.obj base)._packageName = "UI" ∧ (t.obj base).className = "Base" ∧
      (t.obj base)._componentVersion = ⟨1, 0⟩ := by
  rintro ⟨t, derived, base, hload, hderived, hproto, _, _, hversion⟩
  have hl : CppQmlTypes.load synthesisScenarioMetas 4 {} [0, 1]
      = some ((CppQmlTypes.load synthesisScenarioMetas 4 {} [0, 1]).getD {}) := by decide
  rw [hl] at hload
  simp only [Option.some.injEq] at hload
  subst hload
  have hd : CppQmlTypes.typeByQualifiedName
      ((CppQmlTypes.load synthesisScenarioMetas 4 {} [0, 1]).getD {})
      (CppQmlTypes.qualifiedName "UI" "Derived" ⟨1, 0⟩) = some 2 := by decide
  rw [hd] at hderived
  simp only [Option.some.injEq] at hderived
  subst hderived
  have hp : (((CppQmlTypes.load synthesisScenarioMetas 4 {} [0, 1]).getD {}).obj 2)._prototype
      = some 4 := by decide
  rw [hp] at hproto
  simp only [Option.some.injEq] at hproto
  subst hproto
  revert hversion
  decide

/-- C9 (amended). In the superclass synthesis scenario `load` returns with any fuel from 2
on, and the prototype of the `UI` value of `Derived` is a stand-in created for `Base`: it
wraps the meta-object of `Base`, its package is `UI`, its class name is `Base`, and it has
no version (the default `ComponentVersion`). -/
theorem CppQmlTypes.load_synthesis_scenario (fuel : Nat) :
    ∃ t derived base,
      CppQmlTypes.load synthesisScenarioMetas (fuel + 2) {} [0, 1] = some t ∧
      t.typeByQualifiedName (CppQmlTypes.qualifiedName "UI" "Derived" ⟨1, 0⟩) = some derived ∧
      (t.obj derived)._prototype = some base ∧
      t.obj base = { _metaObject := 0, className := "Base", _packageName := "UI",
                     _componentVersion := ComponentVersion.noVersion, _prototype := none } ∧
      QHash.value t._typesByPackage "UI" = some [derived] :=
  ⟨(CppQmlTypes.load synthesisScenarioMetas 2 {} [0, 1]).getD {}, 2, 4, by rfl, by decide,
    by decide, by decide, by decide⟩

/-! ## Lemmas on the registry state -/

theorem QHash.hashValue_insert {β : Type} (m : List (String × β)) (key : String) (value : β)
    (k : String) :
    QHash.value (QHash.insert m key value) k = if k = key then some value else QHash.value m k := by
  induction m with
  | nil =>
    simp only [QHash.insert, QHash.value]
    by_cases hk : key = k
    · simp [hk]
    · simp [hk, Ne.symm hk]
  | cons hd rest ih =>
    obtain ⟨k0, v0⟩ := hd
    simp only [QHash.insert]
    by_cases h0 : k0 = key
    · rw [if_pos h0]
      simp only [QHash.value]
      by_cases hk : k0 = k
      · simp [hk, ← h0]
      · have : ¬ k = key := fun h => hk (by rw [h0, h])
        simp [hk, this]
    · rw [if_neg h0]
      simp only [QHash.value, ih]
      by_cases hk : k0 = k
      · have : ¬ k = key := fun h => h0 (by rw [hk, h])
        simp [hk, this]
      · simp [hk]

theorem metaAt_lt_of_superClass (metas : List FakeMetaObject) (fmo s : Nat)
    (h : (metaAt metas fmo).superClass = some s) : fmo < metas.length := by
  by_contra hge
  have hdef : metaAt metas fmo = default := by
    unfold metaAt
    exact List.getD_eq_default _ _ (by omega)
  rw [hdef] at h
  cases h

theorem CppQmlTypes.obj_append_lt (t : CppQmlTypes) (x : QmlObjectValue) (a : Nat)
    (ha : a < t.objectValues.length) :
    (t.objectValues ++ [x]).getD a default = t.obj a := by
  unfold CppQmlTypes.obj
  exact List.getD_append _ _ _ _ ha

theorem CppQmlTypes.obj_append_length (t : CppQmlTypes) (x : QmlObjectValue) :
    (t.objectValues ++ [x]).getD t.objectValues.length default = x := by
  rw [List.getD_append_right _ _ _ _ (Nat.le_refl _)]
  simp

theorem CppQmlTypes.setPrototype_obj_ne (t : CppQmlTypes) (v x a : Nat) (hne : a ≠ v) :
    (t.setPrototype v x).obj a = t.obj a := by
  unfold CppQmlTypes.setPrototype CppQmlTypes.obj
  simp only [List.getD_eq_getElem?_getD]
  rw [List.getElem?_set_ne (Ne.symm hne)]

theorem CppQmlTypes.setPrototype_obj_self (t : CppQmlTypes) (v x : Nat)
    (hv : v < t.objectValues.length) :
    (t.setPrototype v x).obj v = { t.obj v with _prototype := some x } := by
  unfold CppQmlTypes.setPrototype
  show List.getD (t.objectValues.set v _) v default = _
  simp only [List.getD_eq_getElem?_getD]
  rw [List.getElem?_set_self hv]
  rfl

theorem CppQmlTypes.setPrototype_length (t : CppQmlTypes) (v x : Nat) :
    (t.setPrototype v x).objectValues.length = t.objectValues.length := by
  unfold CppQmlTypes.setPrototype
  simp

theorem CppQmlTypes.setPrototype_fields (t : CppQmlTypes) (v x a : Nat) :
    ((t.setPrototype v x).obj a)._metaObject = (t.obj a)._metaObject ∧
    ((t.setPrototype v x).obj a)._packageName = (t.obj a)._packageName ∧
    ((t.setPrototype v x).obj a).className = (t.obj a).className ∧
    ((t.setPrototype v x).obj a)._componentVersion = (t.obj a)._componentVersion := by
  by_cases hne : a = v
  · subst hne
    by_cases hv : a < t.objectValues.length
    · rw [CppQmlTypes.setPrototype_obj_self t a x hv]
      exact ⟨rfl, rfl, rfl, rfl⟩
    · have : t.setPrototype a x = t := by
        unfold CppQmlTypes.setPrototype
        rw [List.set_eq_of_length_le (by omega)]
      rw [this]
      exact ⟨rfl, rfl, rfl, rfl⟩
  · rw [CppQmlTypes.setPrototype_obj_ne t v x a hne]
    exact ⟨rfl, rfl, rfl, rfl⟩

theorem CppQmlTypes.getOrCreate_found (metas : List FakeMetaObject) (t : CppQmlTypes)
    (package : String) (fmo s x : Nat)
    (h : QHash.value t._typesByFullyQualifiedName (CppQmlTypes.superKey metas package fmo s)
      = some x) :
    CppQmlTypes.getOrCreate metas t package (metaAt metas fmo).superclassName s
      = (t, x, false) := by
  unfold CppQmlTypes.getOrCreate CppQmlTypes.typeByQualifiedName
  unfold CppQmlTypes.superKey at h
  simp only [h]

theorem CppQmlTypes.getOrCreate_created (metas : List FakeMetaObject) (t : CppQmlTypes)
    (package : String) (fmo s : Nat)
    (h : QHash.value t._typesByFullyQualifiedName (CppQmlTypes.superKey metas package fmo s)
      = none) :
    CppQmlTypes.getOrCreate metas t package (metaAt metas fmo).superclassName s
      = (CppQmlTypes.withStandIn metas t package fmo s, t.objectValues.length, true) := by
  unfold CppQmlTypes.getOrCreate CppQmlTypes.typeByQualifiedName
  unfold CppQmlTypes.superKey at h
  simp only [h]
  rfl

/-- The linking loop at a type without superclass. -/
theorem CppQmlTypes.linkChain_none (metas : List FakeMetaObject) (package : String)
    (fuel : Nat) (t : CppQmlTypes) (v fmo : Nat)
    (hs : (metaAt metas fmo).superClass = none) :
    CppQmlTypes.linkChain metas package (fuel + 1) t v fmo = some t := by
  rw [CppQmlTypes.linkChain]
  simp only [hs]

/-- The linking loop when the value of the superclass exists. -/
theorem CppQmlTypes.linkChain_found (metas : List FakeMetaObject) (package : String)
    (fuel : Nat) (t : CppQmlTypes) (v fmo s x : Nat)
    (hs : (metaAt metas fmo).superClass = some s)
    (h : QHash.value t._typesByFullyQualifiedName (CppQmlTypes.superKey metas package fmo s)
      = some x) :
    CppQmlTypes.linkChain metas package (fuel + 1) t v fmo = some (t.setPrototype v x) := by
  rw [CppQmlTypes.linkChain]
  simp only [hs, CppQmlTypes.getOrCreate_found metas t package fmo s x h]
  rfl

/-- The linking loop when the value of the superclass has to be created. -/
theorem CppQmlTypes.linkChain_created (metas : List FakeMetaObject) (package : String)
    (fuel : Nat) (t : CppQmlTypes) (v fmo s : Nat)
    (hs : (metaAt metas fmo).superClass = some s)
    (h : QHash.value t._typesByFullyQualifiedName (CppQmlTypes.superKey metas package fmo s)
      = none) :
    CppQmlTypes.linkChain metas package (fuel + 1) t v fmo
      = CppQmlTypes.linkChain metas package fuel
          ((CppQmlTypes.withStandIn metas t package fmo s).setPrototype v t.objectValues.length)
          t.objectValues.length s := by
  rw [CppQmlTypes.linkChain]
  simp only [hs, CppQmlTypes.getOrCreate_created metas t package fmo s h]
  rfl

/-! ## The linking loop returns -/

theorem filter_length_lt {α : Type} (l : List α) (p q : α → Bool)
    (hqp : ∀ x ∈ l, q x = true → p x = true) (x : α) (hx : x ∈ l) (hpx : p x = true)
    (hqx : q x = false) : (l.filter q).length < (l.filter p).length := by
  have hfil : l.filter q = (l.filter p).filter q := by
    rw [List.filter_filter]
    apply List.filter_congr
    intro a ha
    by_cases hq : q a = true
    · simp [hq, hqp a ha hq]
    · simp [hq]
  rw [hfil, List.length_filter_lt_length_iff_exists]
  exact ⟨x, List.mem_filter.mpr ⟨hx, hpx⟩, by simp [hqx]⟩

theorem CppQmlTypes.missingSupers_le (metas : List FakeMetaObject) (package : String)
    (t : CppQmlTypes) : CppQmlTypes.missingSupers metas package t ≤ metas.length := by
  unfold CppQmlTypes.missingSupers
  calc _ ≤ (List.range metas.length).length := List.length_filter_le _ _
    _ = metas.length := List.length_range _

theorem CppQmlTypes.missingSupers_created (metas : List FakeMetaObject) (package : String)
    (t : CppQmlTypes) (v fmo s : Nat) (hs : (metaAt metas fmo).superClass = some s)
    (h : QHash.value t._typesByFullyQualifiedName (CppQmlTypes.superKey metas package fmo s)
      = none) :
    CppQmlTypes.missingSupers metas package
        ((CppQmlTypes.withStandIn metas t package fmo s).setPrototype v t.objectValues.length)
      < CppQmlTypes.missingSupers metas package t := by
  unfold CppQmlTypes.missingSupers
  apply filter_length_lt _ _ _ _ fmo
    (List.mem_range.mpr (metaAt_lt_of_superClass metas fmo s hs))
  · simp only [hs, QHash.contains, h]
    rfl
  · simp only [hs, QHash.contains, CppQmlTypes.setPrototype, CppQmlTypes.withStandIn,
      QHash.hashValue_insert, if_true]
    rfl
  · intro a _ hq
    cases hsa : (metaAt metas a).superClass with
    | none => simp [hsa] at hq
    | some sa =>
      simp only [hsa, QHash.contains, CppQmlTypes.setPrototype, CppQmlTypes.withStandIn,
        QHash.hashValue_insert] at hq ⊢
      by_cases hk : CppQmlTypes.superKey metas package a sa
          = CppQmlTypes.superKey metas package fmo s
      · rw [if_pos hk] at hq
        simp at hq
      · rw [if_neg hk] at hq
        exact hq

theorem CppQmlTypes.linkChain_isSome (metas : List FakeMetaObject) (package : String) :
    ∀ (fuel : Nat) (t : CppQmlTypes) (v fmo : Nat),
      CppQmlTypes.missingSupers metas package t + 2 ≤ fuel →
      (CppQmlTypes.linkChain metas package fuel t v fmo).isSome := by
  intro fuel
  induction fuel with
  | zero =>
    intro t v fmo hle
    omega
  | succ n ih =>
    intro t v fmo hle
    cases hs : (metaAt metas fmo).superClass with
    | none =>
      rw [CppQmlTypes.linkChain_none metas package n t v fmo hs]
      rfl
    | some s =>
      cases hk : QHash.value t._typesByFullyQualifiedName
          (CppQmlTypes.superKey metas package fmo s) with
      | some x =>
        rw [CppQmlTypes.linkChain_found metas package n t v fmo s x hs hk]
        rfl
      | none =>
        rw [CppQmlTypes.linkChain_created metas package n t v fmo s hs hk]
        apply ih
        have := CppQmlTypes.missingSupers_created metas package t v fmo s hs hk
        omega

theorem CppQmlTypes.linkExport_isSome (metas : List FakeMetaObject) (fuel : Nat)
    (hfuel : metas.length + 2 ≤ fuel) (metaObject : Nat) (t : CppQmlTypes) (exp : Export) :
    (CppQmlTypes.linkExport metas fuel metaObject t exp).isSome := by
  unfold CppQmlTypes.linkExport
  split
  · rfl
  · split
    · rfl
    · apply CppQmlTypes.linkChain_isSome
      have := CppQmlTypes.missingSupers_le metas exp.package t
      omega

theorem CppQmlTypes.linkExportsOf_isSome (metas : List FakeMetaObject) (fuel : Nat)
    (hfuel : metas.length + 2 ≤ fuel) (metaObject : Nat) (exports : List Export) :
    ∀ (t : CppQmlTypes),
      (CppQmlTypes.linkExportsOf metas fuel metaObject t exports).isSome := by
  induction exports with
  | nil =>
    intro t
    rfl
  | cons exp rest ih =>
    intro t
    simp only [CppQmlTypes.linkExportsOf]
    have h1 := CppQmlTypes.linkExport_isSome metas fuel hfuel metaObject t exp
    cases hl : CppQmlTypes.linkExport metas fuel metaObject t exp with
    | none => simp [hl] at h1
    | some t1 => exact ih t1

theorem CppQmlTypes.linkExports_isSome (metas : List FakeMetaObject) (fuel : Nat)
    (hfuel : metas.length + 2 ≤ fuel) (objects : List Nat) :
    ∀ (t : CppQmlTypes), (CppQmlTypes.linkExports metas fuel t objects).isSome := by
  induction objects with
  | nil =>
    intro t
    rfl
  | cons metaObject rest ih =>
    intro t
    simp only [CppQmlTypes.linkExports]
    have h1 := CppQmlTypes.linkExportsOf_isSome metas fuel hfuel metaObject
      (metaAt metas metaObject).exports t
    cases hl : CppQmlTypes.linkExportsOf metas fuel metaObject t
        (metaAt metas metaObject).exports with
    | none => simp [hl] at h1
    | some t1 => exact ih t1

/-- With fuel for two more tests than there are meta-objects, `load` returns. -/
theorem CppQmlTypes.load_isSome (metas : List FakeMetaObject) (fuel : Nat)
    (hfuel : metas.length + 2 ≤ fuel) (t : CppQmlTypes) (objects : List Nat) :
    (CppQmlTypes.load metas fuel t objects).isSome :=
  CppQmlTypes.linkExports_isSome metas fuel hfuel objects _

/-! ## The loops of `load` over the pairs of a type and an export -/

theorem CppQmlTypes.loadPairs_append (t : CppQmlTypes) (l1 l2 : List (Nat × Export)) :
    CppQmlTypes.loadPairs t (l1 ++ l2) = CppQmlTypes.loadPairs (CppQmlTypes.loadPairs t l1) l2 := by
  unfold CppQmlTypes.loadPairs
  rw [List.foldl_append]

theorem CppQmlTypes.loadPairs_map (metaObject : Nat) (exports : List Export) :
    ∀ (t : CppQmlTypes),
      CppQmlTypes.loadPairs t (exports.map (fun exp => (metaObject, exp)))
        = exports.foldl (CppQmlTypes.loadExport metaObject) t := by
  induction exports with
  | nil =>
    intro t
    rfl
  | cons exp rest ih =>
    intro t
    simp only [List.map_cons, List.foldl_cons]
    rw [← ih]
    rfl

theorem CppQmlTypes.loadExports_eq_loadPairs (metas : List FakeMetaObject)
    (objects : List Nat) :
    ∀ (t : CppQmlTypes),
      CppQmlTypes.loadExports metas t objects
        = CppQmlTypes.loadPairs t (CppQmlTypes.exportPairs metas objects) := by
  induction objects with
  | nil =>
    intro t
    rfl
  | cons metaObject rest ih =>
    intro t
    simp only [CppQmlTypes.exportPairs, CppQmlTypes.loadPairs_append, CppQmlTypes.loadPairs_map]
    rw [← ih]
    rfl

theorem CppQmlTypes.linkPairs_append (metas : List FakeMetaObject) (fuel : Nat)
    (l1 l2 : List (Nat × Export)) :
    ∀ (t : CppQmlTypes),
      CppQmlTypes.linkPairs metas fuel t (l1 ++ l2)
        = (CppQmlTypes.linkPairs metas fuel t l1).bind
            (fun t1 => CppQmlTypes.linkPairs metas fuel t1 l2) := by
  induction l1 with
  | nil =>
    intro t
    rfl
  | cons p rest ih =>
    intro t
    simp only [List.cons_append, CppQmlTypes.linkPairs]
    cases CppQmlTypes.linkExport metas fuel p.1 t p.2 with
    | none => rfl
    | some t1 => exact ih t1

theorem CppQmlTypes.linkPairs_map (metas : List FakeMetaObject) (fuel : Nat)
    (metaObject : Nat) (exports : List Export) :
    ∀ (t : CppQmlTypes),
      CppQmlTypes.linkPairs metas fuel t (exports.map (fun exp => (metaObject, exp)))
        = CppQmlTypes.linkExportsOf metas fuel metaObject t exports := by
  induction exports with
  | nil =>
    intro t
    rfl
  | cons exp rest ih =>
    intro t
    simp only [List.map_cons, CppQmlTypes.linkPairs, CppQmlTypes.linkExportsOf]
    cases CppQmlTypes.linkExport metas fuel metaObject t exp with
    | none => rfl
    | some t1 => exact ih t1

theorem CppQmlTypes.linkExports_eq_linkPairs (metas : List FakeMetaObject) (fuel : Nat)
    (objects : List Nat) :
    ∀ (t : CppQmlTypes),
      CppQmlTypes.linkExports metas fuel t objects
        = CppQmlTypes.linkPairs metas fuel t (CppQmlTypes.exportPairs metas objects) := by
  induction objects with
  | nil =>
    intro t
    rfl
  | cons metaObject rest ih =>
    intro t
    simp only [CppQmlTypes.exportPairs, CppQmlTypes.linkExports, CppQmlTypes.linkPairs_append,
      CppQmlTypes.linkPairs_map]
    cases CppQmlTypes.linkExportsOf metas fuel metaObject t (metaAt metas metaObject).exports with
    | none => rfl
    | some t1 => exact ih t1

theorem CppQmlTypes.load_eq_pairs (metas : List FakeMetaObject) (fuel : Nat)
    (t : CppQmlTypes) (objects : List Nat) :
    CppQmlTypes.load metas fuel t objects
      = CppQmlTypes.linkPairs metas fuel
          (CppQmlTypes.loadPairs t (CppQmlTypes.exportPairs metas objects))
          (CppQmlTypes.exportPairs metas objects) := by
  unfold CppQmlTypes.load
  rw [CppQmlTypes.loadExports_eq_loadPairs, CppQmlTypes.linkExports_eq_linkPairs]

theorem CppQmlTypes.loadExport_present (metaObject : Nat) (t : CppQmlTypes) (exp : Export)
    (x : Nat)
    (h : QHash.value t._typesByFullyQualifiedName exp.packageNameVersion = some x) :
    CppQmlTypes.loadExport metaObject t exp = t := by
  unfold CppQmlTypes.loadExport QHash.contains
  simp [h]

theorem CppQmlTypes.loadExport_absent (metaObject : Nat) (t : CppQmlTypes) (exp : Export)
    (h : QHash.value t._typesByFullyQualifiedName exp.packageNameVersion = none) :
    CppQmlTypes.loadExport metaObject t exp = t.withExport metaObject exp := by
  unfold CppQmlTypes.loadExport QHash.contains
  simp [h]
  rfl

theorem CppQmlTypes.mem_keyTable_export (metas : List FakeMetaObject) (objects : List Nat)
    (p : Nat × Export) (hp : p ∈ CppQmlTypes.exportPairs metas objects) :
    (p.2.packageNameVersion, p.2.package, p.1) ∈ CppQmlTypes.keyTable metas objects := by
  unfold CppQmlTypes.keyTable
  apply List.mem_append_left
  exact List.mem_map.mpr ⟨p, hp, rfl⟩

theorem CppQmlTypes.mem_keyTable_super (metas : List FakeMetaObject) (objects : List Nat)
    (p : Nat × Export) (hp : p ∈ CppQmlTypes.exportPairs metas objects) (fmo s : Nat)
    (hs : (metaAt metas fmo).superClass = some s) :
    (CppQmlTypes.superKey metas p.2.package fmo s, p.2.package, s)
      ∈ CppQmlTypes.keyTable metas objects := by
  unfold CppQmlTypes.keyTable
  apply List.mem_append_right
  rw [List.mem_flatMap]
  refine ⟨p, hp, ?_⟩
  rw [List.mem_filterMap]
  exact ⟨fmo, List.mem_range.mpr (metaAt_lt_of_superClass metas fmo s hs), by rw [hs]; rfl⟩

/-! ## The first loop of `load` -/

theorem CppQmlTypes.withExport_obj_lt (t : CppQmlTypes) (metaObject : Nat) (exp : Export)
    (a : Nat) (ha : a < t.objectValues.length) :
    (t.withExport metaObject exp).obj a = t.obj a :=
  CppQmlTypes.obj_append_lt t _ a ha

theorem CppQmlTypes.withExport_obj_new (t : CppQmlTypes) (metaObject : Nat) (exp : Export) :
    (t.withExport metaObject exp).obj t.objectValues.length
      = { _metaObject := metaObject, className := exp.type, _packageName := exp.package,
          _componentVersion := exp.version } :=
  CppQmlTypes.obj_append_length t _

theorem CppQmlTypes.withExport_value (t : CppQmlTypes) (metaObject : Nat) (exp : Export)
    (k : String) :
    QHash.value (t.withExport metaObject exp)._typesByFullyQualifiedName k
      = if k = exp.packageNameVersion then some t.objectValues.length
        else QHash.value t._typesByFullyQualifiedName k :=
  QHash.hashValue_insert _ _ _ _

theorem CppQmlTypes.withExport_length (t : CppQmlTypes) (metaObject : Nat) (exp : Export) :
    (t.withExport metaObject exp).objectValues.length = t.objectValues.length + 1 := by
  simp [CppQmlTypes.withExport]

/-- The first loop keeps the index well formed, keeps the keys that exist, and leaves the
key of the export present. -/
theorem CppQmlTypes.loadExport_wellFormed (metaObject : Nat) (t : CppQmlTypes) (exp : Export)
    (hwf : t.WellFormed) :
    (CppQmlTypes.loadExport metaObject t exp).WellFormed ∧
    (∀ k a, QHash.value t._typesByFullyQualifiedName k = some a →
      QHash.value (CppQmlTypes.loadExport metaObject t exp)._typesByFullyQualifiedName k
        = some a) ∧
    (QHash.value (CppQmlTypes.loadExport metaObject t exp)._typesByFullyQualifiedName
      exp.packageNameVersion).isSome := by
  cases hk : QHash.value t._typesByFullyQualifiedName exp.packageNameVersion with
  | some x =>
    rw [CppQmlTypes.loadExport_present metaObject t exp x hk]
    exact ⟨hwf, fun k a h => h, by rw [hk]; rfl⟩
  | none =>
    rw [CppQmlTypes.loadExport_absent metaObject t exp hk]
    refine ⟨?_, ?_, ?_⟩
    · intro k a ha
      rw [CppQmlTypes.withExport_value] at ha
      rw [CppQmlTypes.withExport_length]
      split at ha
      · simp only [Option.some.injEq] at ha
        omega
      · have := hwf k a ha
        omega
    · intro k a ha
      rw [CppQmlTypes.withExport_value]
      by_cases hkk : k = exp.packageNameVersion
      · rw [hkk, hk] at ha
        cases ha
      · rw [if_neg hkk]
        exact ha
    · rw [CppQmlTypes.withExport_value, if_pos rfl]
      rfl

theorem CppQmlTypes.loadPairs_wellFormed (pairs : List (Nat × Export)) :
    ∀ (t : CppQmlTypes), t.WellFormed →
      (CppQmlTypes.loadPairs t pairs).WellFormed ∧
      (∀ k a, QHash.value t._typesByFullyQualifiedName k = some a →
        QHash.value (CppQmlTypes.loadPairs t pairs)._typesByFullyQualifiedName k = some a) ∧
      (∀ p ∈ pairs, (QHash.value (CppQmlTypes.loadPairs t pairs)._typesByFullyQualifiedName
        p.2.packageNameVersion).isSome) := by
  induction pairs with
  | nil =>
    intro t hwf
    exact ⟨hwf, fun k a h => h, fun p hp => by cases hp⟩
  | cons p rest ih =>
    intro t hwf
    obtain ⟨h1, h2, h3⟩ := CppQmlTypes.loadExport_wellFormed p.1 t p.2 hwf
    obtain ⟨i1, i2, i3⟩ := ih _ h1
    refine ⟨i1, fun k a h => i2 k a (h2 k a h), ?_⟩
    intro q hq
    rcases List.mem_cons.mp hq with heq | hmem
    · obtain ⟨x, hx⟩ := Option.isSome_iff_exists.mp h3
      rw [heq]
      show (QHash.value
        (CppQmlTypes.loadPairs (CppQmlTypes.loadExport p.1 t p.2) rest)._typesByFullyQualifiedName
        p.2.packageNameVersion).isSome
      rw [i2 _ x hx]
      rfl
    · exact i3 q hmem

/-- With no shared names, the first loop keeps the values in agreement with the table of
qualified names, and every value it has created is the value of an export. -/
theorem CppQmlTypes.loadExport_keysAgree (metas : List FakeMetaObject) (objects : List Nat)
    (hno : CppQmlTypes.NoSharedName metas objects) (p : Nat × Export)
    (hp : p ∈ CppQmlTypes.exportPairs metas objects) (t : CppQmlTypes) (hwf : t.WellFormed)
    (hagree : CppQmlTypes.KeysAgree metas objects t)
    (hpend : ∀ a < t.objectValues.length,
      CppQmlTypes.Pending t (CppQmlTypes.exportPairs metas objects) a) :
    CppQmlTypes.KeysAgree metas objects (CppQmlTypes.loadExport p.1 t p.2) ∧
    (∀ a < (CppQmlTypes.loadExport p.1 t p.2).objectValues.length,
      CppQmlTypes.Pending (CppQmlTypes.loadExport p.1 t p.2)
        (CppQmlTypes.exportPairs metas objects) a) := by
  cases hk : QHash.value t._typesByFullyQualifiedName p.2.packageNameVersion with
  | some x =>
    rw [CppQmlTypes.loadExport_present p.1 t p.2 x hk]
    exact ⟨hagree, hpend⟩
  | none =>
    rw [CppQmlTypes.loadExport_absent p.1 t p.2 hk]
    constructor
    · intro k a ha package metaObject hmem
      rw [CppQmlTypes.withExport_value] at ha
      by_cases hkk : k = p.2.packageNameVersion
      · rw [if_pos hkk] at ha
        simp only [Option.some.injEq] at ha
        subst ha
        rw [CppQmlTypes.withExport_obj_new]
        have hsame := hno _ (CppQmlTypes.mem_keyTable_export metas objects p hp) _ hmem
          hkk.symm
        simp only [Prod.mk.injEq] at hsame
        exact ⟨hsame.1, hsame.2⟩
      · rw [if_neg hkk] at ha
        rw [CppQmlTypes.withExport_obj_lt t p.1 p.2 a (hwf k a ha)]
        exact hagree k a ha package metaObject hmem
    · intro a ha
      rw [CppQmlTypes.withExport_length] at ha
      by_cases hlt : a < t.objectValues.length
      · obtain ⟨q, hq, hqv⟩ := hpend a hlt
        refine ⟨q, hq, ?_⟩
        rw [CppQmlTypes.withExport_value]
        by_cases hkk : q.2.packageNameVersion = p.2.packageNameVersion
        · rw [hkk, hk] at hqv
          cases hqv
        · rw [if_neg hkk]
          exact hqv
      · have haeq : a = t.objectValues.length := by omega
        refine ⟨p, hp, ?_⟩
        rw [CppQmlTypes.withExport_value, if_pos rfl, haeq]

theorem CppQmlTypes.loadPairs_keysAgree (metas : List FakeMetaObject) (objects : List Nat)
    (hno : CppQmlTypes.NoSharedName metas objects) (pairs : List (Nat × Export)) :
    ∀ (t : CppQmlTypes), (∀ p ∈ pairs, p ∈ CppQmlTypes.exportPairs metas objects) →
      t.WellFormed → CppQmlTypes.KeysAgree metas objects t →
      (∀ a < t.objectValues.length,
        CppQmlTypes.Pending t (CppQmlTypes.exportPairs metas objects) a) →
      CppQmlTypes.KeysAgree metas objects (CppQmlTypes.loadPairs t pairs) ∧
      (∀ a < (CppQmlTypes.loadPairs t pairs).objectValues.length,
        CppQmlTypes.Pending (CppQmlTypes.loadPairs t pairs)
          (CppQmlTypes.exportPairs metas objects) a) := by
  induction pairs with
  | nil =>
    intro t _ _ hagree hpend
    exact ⟨hagree, hpend⟩
  | cons p rest ih =>
    intro t hsub hwf hagree hpend
    have hp := hsub p (List.mem_cons_self _ _)
    obtain ⟨h1, h2⟩ :=
      CppQmlTypes.loadExport_keysAgree metas objects hno p hp t hwf hagree hpend
    exact ih _ (fun q hq => hsub q (List.mem_cons_of_mem _ hq))
      (CppQmlTypes.loadExport_wellFormed p.1 t p.2 hwf).1 h1 h2

/-! ## The second loop of `load` links every value -/

theorem CppQmlTypes.withStandIn_obj_lt (metas : List FakeMetaObject) (t : CppQmlTypes)
    (package : String) (fmo s a : Nat) (ha : a < t.objectValues.length) :
    (CppQmlTypes.withStandIn metas t package fmo s).obj a = t.obj a :=
  CppQmlTypes.obj_append_lt t _ a ha

theorem CppQmlTypes.withStandIn_obj_new (metas : List FakeMetaObject) (t : CppQmlTypes)
    (package : String) (fmo s : Nat) :
    (CppQmlTypes.withStandIn metas t package fmo s).obj t.objectValues.length
      = { _metaObject := s,
          className := (CppQmlTypes.exportedAs package (metaAt metas fmo).superclassName
            (metaAt metas s).exports).1,
          _packageName := package,
          _componentVersion := ComponentVersion.noVersion } :=
  CppQmlTypes.obj_append_length t _

theorem CppQmlTypes.withStandIn_value (metas : List FakeMetaObject) (t : CppQmlTypes)
    (package : String) (fmo s : Nat) (k : String) :
    QHash.value (CppQmlTypes.withStandIn metas t package fmo s)._typesByFullyQualifiedName k
      = if k = CppQmlTypes.superKey metas package fmo s then some t.objectValues.length
        else QHash.value t._typesByFullyQualifiedName k :=
  QHash.hashValue_insert _ _ _ _

theorem CppQmlTypes.withStandIn_length (metas : List FakeMetaObject) (t : CppQmlTypes)
    (package : String) (fmo s : Nat) :
    (CppQmlTypes.withStandIn metas t package fmo s).objectValues.length
      = t.objectValues.length + 1 := by
  simp [CppQmlTypes.withStandIn]

/-- A linked value stays linked in a registry that keeps the value and the package and the
type of every value. -/
theorem CppQmlTypes.Linked.mono (metas : List FakeMetaObject) (t t1 : CppQmlTypes) (a : Nat)
    (hlen : t.objectValues.length ≤ t1.objectValues.length)
    (hobj : t1.obj a = t.obj a)
    (hfields : ∀ p < t.objectValues.length,
      (t1.obj p)._packageName = (t.obj p)._packageName ∧
      (t1.obj p)._metaObject = (t.obj p)._metaObject)
    (hl : CppQmlTypes.Linked metas t a) : CppQmlTypes.Linked metas t1 a := by
  intro s hs
  rw [hobj] at hs
  obtain ⟨p, hp1, hp2, hp3, hp4⟩ := hl s hs
  refine ⟨p, by rw [hobj]; exact hp1, by omega, ?_, ?_⟩
  · rw [(hfields p hp2).1, hobj]
    exact hp3
  · rw [(hfields p hp2).2]
    exact hp4

theorem CppQmlTypes.linkChain_linked (metas : List FakeMetaObject) (objects : List Nat)
    (hno : CppQmlTypes.NoSharedName metas objects) (q : Nat × Export)
    (hq : q ∈ CppQmlTypes.exportPairs metas objects) (rest : List (Nat × Export)) :
    ∀ (fuel : Nat) (t : CppQmlTypes) (v fmo : Nat) (t1 : CppQmlTypes),
      t.WellFormed → CppQmlTypes.KeysAgree metas objects t → v < t.objectValues.length →
      (t.obj v)._packageName = q.2.package → (t.obj v)._metaObject = fmo →
      (∀ a < t.objectValues.length, a ≠ v →
        CppQmlTypes.Linked metas t a ∨ CppQmlTypes.Pending t rest a) →
      CppQmlTypes.linkChain metas q.2.package fuel t v fmo = some t1 →
      t1.WellFormed ∧ CppQmlTypes.KeysAgree metas objects t1 ∧
      (∀ a < t1.objectValues.length,
        CppQmlTypes.Linked metas t1 a ∨ CppQmlTypes.Pending t1 rest a) ∧
      (∀ k a, QHash.value t._typesByFullyQualifiedName k = some a →
        QHash.value t1._typesByFullyQualifiedName k = some a) := by
  intro fuel
  induction fuel with
  | zero =>
    intro t v fmo t1 _ _ _ _ _ _ hl
    simp [CppQmlTypes.linkChain] at hl
  | succ n ih =>
    intro t v fmo t1 hwf hagree hv hpkg hmeta hothers hl
    cases hs : (metaAt metas fmo).superClass with
    | none =>
      rw [CppQmlTypes.linkChain_none metas q.2.package n t v fmo hs] at hl
      simp only [Option.some.injEq] at hl
      subst hl
      refine ⟨hwf, hagree, ?_, fun k a h => h⟩
      intro a ha
      by_cases hav : a = v
      · left
        intro s hsa
        rw [hav, hmeta, hs] at hsa
        cases hsa
      · exact hothers a ha hav
    | some s =>
      have hentry := CppQmlTypes.mem_keyTable_super metas objects q hq fmo s hs
      cases hk : QHash.value t._typesByFullyQualifiedName
          (CppQmlTypes.superKey metas q.2.package fmo s) with
      | some x =>
        rw [CppQmlTypes.linkChain_found metas q.2.package n t v fmo s x hs hk] at hl
        simp only [Option.some.injEq] at hl
        subst hl
        have hxlt : x < t.objectValues.length := hwf _ x hk
        have hx := hagree _ x hk _ _ hentry
        have hfields : ∀ p < t.objectValues.length,
            ((t.setPrototype v x).obj p)._packageName = (t.obj p)._packageName ∧
            ((t.setPrototype v x).obj p)._metaObject = (t.obj p)._metaObject :=
          fun p _ => ⟨(CppQmlTypes.setPrototype_fields t v x p).2.1,
            (CppQmlTypes.setPrototype_fields t v x p).1⟩
        refine ⟨?_, ?_, ?_, fun k a h => h⟩
        · intro k a ha
          rw [CppQmlTypes.setPrototype_length]
          exact hwf k a ha
        · intro k a ha package metaObject hmem
          have := hagree k a ha package metaObject hmem
          rw [(CppQmlTypes.setPrototype_fields t v x a).2.1,
            (CppQmlTypes.setPrototype_fields t v x a).1]
          exact this
        · intro a ha
          rw [CppQmlTypes.setPrototype_length] at ha
          by_cases hav : a = v
          · left
            subst hav
            intro s1 hs1
            rw [(CppQmlTypes.setPrototype_fields t a x a).1, hmeta, hs] at hs1
            simp only [Option.some.injEq] at hs1
            subst hs1
            refine ⟨x, ?_, ?_, ?_, ?_⟩
            · rw [CppQmlTypes.setPrototype_obj_self t a x hv]
            · rw [CppQmlTypes.setPrototype_length]
              exact hxlt
            · rw [(hfields x hxlt).1, (hfields a hv).1, hx.1, hpkg]
            · rw [(hfields x hxlt).2, hx.2]
          · rcases hothers a ha hav with hlinked | hpending
            · left
              exact CppQmlTypes.Linked.mono metas t _ a
                (by rw [CppQmlTypes.setPrototype_length])
                (CppQmlTypes.setPrototype_obj_ne t v x a hav) hfields hlinked
            · right
              exact hpending
      | none =>
        rw [CppQmlTypes.linkChain_created metas q.2.package n t v fmo s hs hk] at hl
        have hne : t.objectValues.length ≠ v := by omega
        have hobjlt : ∀ a < t.objectValues.length, a ≠ v →
            ((CppQmlTypes.withStandIn metas t q.2.package fmo s).setPrototype v
              t.objectValues.length).obj a = t.obj a := by
          intro a ha hav
          rw [CppQmlTypes.setPrototype_obj_ne _ v _ a hav,
            CppQmlTypes.withStandIn_obj_lt metas t q.2.package fmo s a ha]
        have hobjnew : ((CppQmlTypes.withStandIn metas t q.2.package fmo s).setPrototype v
              t.objectValues.length).obj t.objectValues.length
            = { _metaObject := s,
                className := (CppQmlTypes.exportedAs q.2.package (metaAt metas fmo).superclassName
                  (metaAt metas s).exports).1,
                _packageName := q.2.package,
                _componentVersion := ComponentVersion.noVersion } := by
          rw [CppQmlTypes.setPrototype_obj_ne _ v _ _ hne, CppQmlTypes.withStandIn_obj_new]
        have hfields : ∀ p < t.objectValues.length,
            (((CppQmlTypes.withStandIn metas t q.2.package fmo s).setPrototype v
              t.objectValues.length).obj p)._packageName = (t.obj p)._packageName ∧
            (((CppQmlTypes.withStandIn metas t q.2.package fmo s).setPrototype v
              t.objectValues.length).obj p)._metaObject = (t.obj p)._metaObject := by
          intro p hp
          rw [(CppQmlTypes.setPrototype_fields _ v _ p).2.1,
            (CppQmlTypes.setPrototype_fields _ v _ p).1,
            CppQmlTypes.withStandIn_obj_lt metas t q.2.package fmo s p hp]
          exact ⟨rfl, rfl⟩
        have hlen2 : ((CppQmlTypes.withStandIn metas t q.2.package fmo s).setPrototype v
            t.objectValues.length).objectValues.length = t.objectValues.length + 1 := by
          rw [CppQmlTypes.setPrototype_length, CppQmlTypes.withStandIn_length]
        have hval2 : ∀ k, QHash.value ((CppQmlTypes.withStandIn metas t q.2.package fmo
              s).setPrototype v t.objectValues.length)._typesByFullyQualifiedName k
            = if k = CppQmlTypes.superKey metas q.2.package fmo s
              then some t.objectValues.length
              else QHash.value t._typesByFullyQualifiedName k :=
          fun k => CppQmlTypes.withStandIn_value metas t q.2.package fmo s k
        have hkeep : ∀ k a, QHash.value t._typesByFullyQualifiedName k = some a →
            QHash.value ((CppQmlTypes.withStandIn metas t q.2.package fmo
              s).setPrototype v t.objectValues.length)._typesByFullyQualifiedName k
              = some a := by
          intro k a ha
          rw [hval2]
          by_cases hkk : k = CppQmlTypes.superKey metas q.2.package fmo s
          · rw [hkk, hk] at ha
            cases ha
          · rw [if_neg hkk]
            exact ha
        have hres := ih _ t.objectValues.length s t1 ?_ ?_ (by rw [hlen2]; omega)
          (by rw [hobjnew]) (by rw [hobjnew]) ?_ hl
        · exact ⟨hres.1, hres.2.1, hres.2.2.1, fun k a h => hres.2.2.2 k a (hkeep k a h)⟩
        · intro k a ha
          rw [hval2] at ha
          rw [hlen2]
          split at ha
          · simp only [Option.some.injEq] at ha
            omega
          · have := hwf k a ha
            omega
        · intro k a ha package metaObject hmem
          rw [hval2] at ha
          by_cases hkk : k = CppQmlTypes.superKey metas q.2.package fmo s
          · rw [if_pos hkk] at ha
            simp only [Option.some.injEq] at ha
            subst ha
            rw [hobjnew]
            have hsame := hno _ hentry _ hmem hkk.symm
            simp only [Prod.mk.injEq] at hsame
            exact ⟨hsame.1, hsame.2⟩
          · rw [if_neg hkk] at ha
            have halt := hwf k a ha
            rw [(hfields a halt).1, (hfields a halt).2]
            exact hagree k a ha package metaObject hmem
        · intro a ha hane
          rw [hlen2] at ha
          have halt : a < t.objectValues.length := by omega
          by_cases hav : a = v
          · left
            subst hav
            intro s1 hs1
            rw [(hfields a halt).2, hmeta, hs] at hs1
            simp only [Option.some.injEq] at hs1
            subst hs1
            refine ⟨t.objectValues.length, ?_, by rw [hlen2]; omega, ?_, ?_⟩
            · rw [CppQmlTypes.setPrototype_obj_self _ a _
                (by rw [CppQmlTypes.withStandIn_length]; omega)]
            · rw [hobjnew, (hfields a halt).1, hpkg]
            · rw [hobjnew]
          · rcases hothers a halt hav with hlinked | hpending
            · left
              exact CppQmlTypes.Linked.mono metas t _ a (by rw [hlen2]; omega)
                (hobjlt a halt hav) hfields hlinked
            · right
              obtain ⟨r, hr, hrv⟩ := hpending
              exact ⟨r, hr, hkeep _ a hrv⟩

theorem CppQmlTypes.linkExport_linked (metas : List FakeMetaObject) (objects : List Nat)
    (hno : CppQmlTypes.NoSharedName metas objects) (fuel : Nat) (p : Nat × Export)
    (hp : p ∈ CppQmlTypes.exportPairs metas objects) (rest : List (Nat × Export))
    (t t1 : CppQmlTypes) (hwf : t.WellFormed) (hagree : CppQmlTypes.KeysAgree metas objects t)
    (hall : ∀ a < t.objectValues.length,
      CppQmlTypes.Linked metas t a ∨ CppQmlTypes.Pending t (p :: rest) a)
    (hl : CppQmlTypes.linkExport metas fuel p.1 t p.2 = some t1) :
    t1.WellFormed ∧ CppQmlTypes.KeysAgree metas objects t1 ∧
    (∀ a < t1.objectValues.length,
      CppQmlTypes.Linked metas t1 a ∨ CppQmlTypes.Pending t1 rest a) ∧
    (∀ k a, QHash.value t._typesByFullyQualifiedName k = some a →
      QHash.value t1._typesByFullyQualifiedName k = some a) := by
  have hsplit : ∀ a, CppQmlTypes.Pending t (p :: rest) a →
      QHash.value t._typesByFullyQualifiedName p.2.packageNameVersion = some a
        ∨ CppQmlTypes.Pending t rest a := by
    intro a hpend
    obtain ⟨r, hr, hrv⟩ := hpend
    rcases List.mem_cons.mp hr with heq | hmem
    · left
      rw [← heq]
      exact hrv
    · right
      exact ⟨r, hmem, hrv⟩
  unfold CppQmlTypes.linkExport at hl
  cases hk : QHash.value t._typesByFullyQualifiedName p.2.packageNameVersion with
  | none =>
    simp only [hk, Option.some.injEq] at hl
    subst hl
    refine ⟨hwf, hagree, ?_, fun k a h => h⟩
    intro a ha
    rcases hall a ha with h1 | h2
    · exact Or.inl h1
    · rcases hsplit a h2 with h3 | h4
      · rw [hk] at h3
        cases h3
      · exact Or.inr h4
  | some v =>
    have hvfields := hagree _ v hk _ _ (CppQmlTypes.mem_keyTable_export metas objects p hp)
    simp only [hk] at hl
    split at hl
    · rename_i hnone
      simp only [Option.some.injEq] at hl
      subst hl
      refine ⟨hwf, hagree, ?_, fun k a h => h⟩
      intro a ha
      rcases hall a ha with h1 | h2
      · exact Or.inl h1
      · rcases hsplit a h2 with h3 | h4
        · left
          rw [hk] at h3
          simp only [Option.some.injEq] at h3
          subst h3
          intro s hs
          rw [hvfields.2] at hs
          rw [hs] at hnone
          cases hnone
        · exact Or.inr h4
    · refine CppQmlTypes.linkChain_linked metas objects hno p hp rest fuel t v p.1 t1 hwf hagree
        (hwf _ v hk) hvfields.1 hvfields.2 ?_ hl
      intro a ha hav
      rcases hall a ha with h1 | h2
      · exact Or.inl h1
      · rcases hsplit a h2 with h3 | h4
        · rw [hk] at h3
          simp only [Option.some.injEq] at h3
          exact absurd h3.symm hav
        · exact Or.inr h4

theorem CppQmlTypes.linkPairs_linked (metas : List FakeMetaObject) (objects : List Nat)
    (hno : CppQmlTypes.NoSharedName metas objects) (fuel : Nat) (pairs : List (Nat × Export)) :
    ∀ (t t1 : CppQmlTypes), (∀ p ∈ pairs, p ∈ CppQmlTypes.exportPairs metas objects) →
      t.WellFormed → CppQmlTypes.KeysAgree metas objects t →
      (∀ a < t.objectValues.length,
        CppQmlTypes.Linked metas t a ∨ CppQmlTypes.Pending t pairs a) →
      CppQmlTypes.linkPairs metas fuel t pairs = some t1 →
      t1.WellFormed ∧ CppQmlTypes.KeysAgree metas objects t1 ∧
      (∀ a < t1.objectValues.length, CppQmlTypes.Linked metas t1 a) ∧
      (∀ k a, QHash.value t._typesByFullyQualifiedName k = some a →
        QHash.value t1._typesByFullyQualifiedName k = some a) := by
  induction pairs with
  | nil =>
    intro t t1 _ hwf hagree hall hl
    simp only [CppQmlTypes.linkPairs, Option.some.injEq] at hl
    subst hl
    refine ⟨hwf, hagree, ?_, fun k a h => h⟩
    intro a ha
    rcases hall a ha with h1 | h2
    · exact h1
    · obtain ⟨r, hr, _⟩ := h2
      cases hr
  | cons p rest ih =>
    intro t t1 hsub hwf hagree hall hl
    simp only [CppQmlTypes.linkPairs] at hl
    cases hstep : CppQmlTypes.linkExport metas fuel p.1 t p.2 with
    | none => simp [hstep] at hl
    | some t2 =>
      simp only [hstep] at hl
      obtain ⟨h1, h2, h3, h4⟩ := CppQmlTypes.linkExport_linked metas objects hno fuel p
        (hsub p (List.mem_cons_self _ _)) rest t t2 hwf hagree hall hstep
      obtain ⟨i1, i2, i3, i4⟩ := ih t2 t1 (fun r hr => hsub r (List.mem_cons_of_mem _ hr))
        h1 h2 h3 hl
      exact ⟨i1, i2, i3, fun k a h => i4 k a (h4 k a h)⟩

theorem CppQmlTypes.mem_exportPairs (metas : List FakeMetaObject) (objects : List Nat)
    (metaObject : Nat) (exp : Export) (hm : metaObject ∈ objects)
    (he : exp ∈ (metaAt metas metaObject).exports) :
    (metaObject, exp) ∈ CppQmlTypes.exportPairs metas objects := by
  induction objects with
  | nil => cases hm
  | cons m rest ih =>
    simp only [CppQmlTypes.exportPairs, List.mem_append, List.mem_map]
    rcases List.mem_cons.mp hm with heq | hmem
    · left
      exact ⟨exp, by rw [← heq]; exact he, by rw [heq]⟩
    · right
      exact ih hmem

/-- Along linked values the prototype links follow the superclass links, in one package. -/
theorem CppQmlTypes.prototypeAt_of_linked (metas : List FakeMetaObject) (t : CppQmlTypes)
    (hlinked : ∀ a < t.objectValues.length, CppQmlTypes.Linked metas t a) (v : Nat)
    (hv : v < t.objectValues.length) :
    ∀ (k s : Nat), superClassAt metas k (t.obj v)._metaObject = some s →
      ∃ p, t.prototypeAt k v = some p ∧ p < t.objectValues.length ∧
        (t.obj p)._packageName = (t.obj v)._packageName ∧ (t.obj p)._metaObject = s := by
  intro k
  induction k with
  | zero =>
    intro s hs
    simp only [superClassAt, Option.some.injEq] at hs
    exact ⟨v, rfl, hv, rfl, hs⟩
  | succ n ih =>
    intro s hs
    simp only [superClassAt] at hs
    cases hprev : superClassAt metas n (t.obj v)._metaObject with
    | none => simp [hprev] at hs
    | some s0 =>
      simp only [hprev, Option.some_bind] at hs
      obtain ⟨p0, hp0, hlt0, hpkg0, hmeta0⟩ := ih s0 hprev
      obtain ⟨p, hp1, hp2, hp3, hp4⟩ := hlinked p0 hlt0 s (by rw [hmeta0]; exact hs)
      refine ⟨p, ?_, hp2, ?_, hp4⟩
      · simp only [CppQmlTypes.prototypeAt, hp0, Option.some_bind]
        exact hp1
      · rw [hp3, hpkg0]

/-- The linking loop started at the value `v` of type `fmo`: the index stays well formed
and keeps its entries, the by-package index is not touched, the other values that existed
are not touched, and `v` gets as prototype the value filed for the superclass. -/
theorem CppQmlTypes.linkChain_frame (metas : List FakeMetaObject) (package : String) :
    ∀ (fuel : Nat) (t : CppQmlTypes) (v fmo : Nat) (t1 : CppQmlTypes),
      t.WellFormed → v < t.objectValues.length →
      CppQmlTypes.linkChain metas package fuel t v fmo = some t1 →
      t1.WellFormed ∧ t.objectValues.length ≤ t1.objectValues.length ∧
      (∀ k a, QHash.value t._typesByFullyQualifiedName k = some a →
        QHash.value t1._typesByFullyQualifiedName k = some a) ∧
      t1._typesByPackage = t._typesByPackage ∧
      (∀ a < t.objectValues.length, a ≠ v → t1.obj a = t.obj a) ∧
      ((metaAt metas fmo).superClass = none → t1 = t) ∧
      (∀ s, (metaAt metas fmo).superClass = some s →
        ∃ x, QHash.value t1._typesByFullyQualifiedName
            (CppQmlTypes.superKey metas package fmo s) = some x ∧
          t1.obj v = { t.obj v with _prototype := some x }) := by
  intro fuel
  induction fuel with
  | zero =>
    intro t v fmo t1 _ _ hl
    simp [CppQmlTypes.linkChain] at hl
  | succ n ih =>
    intro t v fmo t1 hwf hv hl
    cases hs : (metaAt metas fmo).superClass with
    | none =>
      rw [CppQmlTypes.linkChain_none metas package n t v fmo hs] at hl
      simp only [Option.some.injEq] at hl
      subst hl
      exact ⟨hwf, Nat.le_refl _, fun k a h => h, rfl, fun a _ _ => rfl, fun _ => rfl,
        fun s h => by cases h⟩
    | some s =>
      cases hk : QHash.value t._typesByFullyQualifiedName
          (CppQmlTypes.superKey metas package fmo s) with
      | some x =>
        rw [CppQmlTypes.linkChain_found metas package n t v fmo s x hs hk] at hl
        simp only [Option.some.injEq] at hl
        subst hl
        refine ⟨?_, by rw [CppQmlTypes.setPrototype_length], fun k a h => h, rfl, ?_,
          (fun h => by cases h), ?_⟩
        · intro k a ha
          rw [CppQmlTypes.setPrototype_length]
          exact hwf k a ha
        · intro a _ hav
          exact CppQmlTypes.setPrototype_obj_ne t v x a hav
        · intro s1 hs1
          simp only [Option.some.injEq] at hs1
          subst hs1
          exact ⟨x, hk, CppQmlTypes.setPrototype_obj_self t v x hv⟩
      | none =>
        rw [CppQmlTypes.linkChain_created metas package n t v fmo s hs hk] at hl
        have hne : t.objectValues.length ≠ v := by omega
        have hlen2 : ((CppQmlTypes.withStandIn metas t package fmo s).setPrototype v
            t.objectValues.length).objectValues.length = t.objectValues.length + 1 := by
          rw [CppQmlTypes.setPrototype_length, CppQmlTypes.withStandIn_length]
        have hval2 : ∀ k, QHash.value ((CppQmlTypes.withStandIn metas t package fmo
              s).setPrototype v t.objectValues.length)._typesByFullyQualifiedName k
            = if k = CppQmlTypes.superKey metas package fmo s
              then some t.objectValues.length
              else QHash.value t._typesByFullyQualifiedName k :=
          fun k => CppQmlTypes.withStandIn_value metas t package fmo s k
        have hwf2 : ((CppQmlTypes.withStandIn metas t package fmo s).setPrototype v
            t.objectValues.length).WellFormed := by
          intro k a ha
          rw [hval2] at ha
          rw [hlen2]
          split at ha
          · simp only [Option.some.injEq] at ha
            omega
          · have := hwf k a ha
            omega
        obtain ⟨i1, i2, i3, i4, i5, _, _⟩ := ih _ t.objectValues.length s t1 hwf2
          (by rw [hlen2]; omega) hl
        rw [hlen2] at i2 i5
        refine ⟨i1, by omega, ?_, ?_, ?_, (fun h => by cases h), ?_⟩
        · intro k a ha
          apply i3
          rw [hval2]
          by_cases hkk : k = CppQmlTypes.superKey metas package fmo s
          · rw [hkk, hk] at ha
            cases ha
          · rw [if_neg hkk]
            exact ha
        · rw [i4]
          rfl
        · intro a ha hav
          rw [i5 a (by omega) (by omega), CppQmlTypes.setPrototype_obj_ne _ v _ a hav,
            CppQmlTypes.withStandIn_obj_lt metas t package fmo s a ha]
        · intro s1 hs1
          simp only [Option.some.injEq] at hs1
          subst hs1
          refine ⟨t.objectValues.length, ?_, ?_⟩
          · apply i3
            rw [hval2, if_pos rfl]
          · rw [i5 v (by omega) (by omega), CppQmlTypes.setPrototype_obj_self _ v _
              (by rw [CppQmlTypes.withStandIn_length]; omega),
              CppQmlTypes.withStandIn_obj_lt metas t package fmo s v hv]

theorem CppQmlTypes.assignmentOf_persist (metas : List FakeMetaObject)
    (index index1 : List (String × Nat))
    (hkeep : ∀ k a, QHash.value index k = some a → QHash.value index1 k = some a)
    (p : Nat × Export) (v x : Nat)
    (h : CppQmlTypes.assignmentOf metas index p = some (v, x)) :
    CppQmlTypes.assignmentOf metas index1 p = some (v, x) := by
  unfold CppQmlTypes.assignmentOf at h ⊢
  cases hv : QHash.value index p.2.packageNameVersion with
  | none => simp [hv] at h
  | some v0 =>
    cases hs : (metaAt metas p.1).superClass with
    | none => simp [hv, hs] at h
    | some s =>
      simp only [hv, hs] at h
      cases hx : QHash.value index (CppQmlTypes.superKey metas p.2.package p.1 s) with
      | none => simp [hx] at h
      | some x0 =>
        simp only [hx, Option.map_some', Option.some.injEq, Prod.mk.injEq] at h
        simp only [hkeep _ v0 hv, hs, hkeep _ x0 hx, Option.map_some', h.1, h.2]

/-- One export in the second loop: the value of the export gets the prototype that the
index of the resulting registry gives for its superclass, and nothing else that existed
changes. -/
theorem CppQmlTypes.linkExport_frame (metas : List FakeMetaObject) (fuel : Nat)
    (p : Nat × Export) (t t1 : CppQmlTypes) (hwf : t.WellFormed)
    (hpresent : (QHash.value t._typesByFullyQualifiedName p.2.packageNameVersion).isSome)
    (hl : CppQmlTypes.linkExport metas fuel p.1 t p.2 = some t1) :
    t1.WellFormed ∧ t.objectValues.length ≤ t1.objectValues.length ∧
    (∀ k a, QHash.value t._typesByFullyQualifiedName k = some a →
      QHash.value t1._typesByFullyQualifiedName k = some a) ∧
    t1._typesByPackage = t._typesByPackage ∧
    (∀ a < t.objectValues.length,
      t1.obj a = { t.obj a with
        _prototype := CppQmlTypes.prototypeStep metas t1._typesByFullyQualifiedName a
          (t.obj a)._prototype p }) ∧
    (∀ s, (metaAt metas p.1).superClass = some s →
      (QHash.value t1._typesByFullyQualifiedName
        (CppQmlTypes.superKey metas p.2.package p.1 s)).isSome) := by
  obtain ⟨v, hv⟩ := Option.isSome_iff_exists.mp hpresent
  unfold CppQmlTypes.linkExport at hl
  simp only [hv] at hl
  cases hs : (metaAt metas p.1).superClass with
  | none =>
    simp only [hs, Option.isNone_none, if_true, Option.some.injEq] at hl
    subst hl
    refine ⟨hwf, Nat.le_refl _, fun k a h => h, rfl, ?_, fun s h => by cases h⟩
    intro a _
    have hnone : CppQmlTypes.assignmentOf metas t._typesByFullyQualifiedName p = none := by
      unfold CppQmlTypes.assignmentOf
      simp only [hv, hs]
    unfold CppQmlTypes.prototypeStep
    rw [hnone]
  | some s =>
    simp only [hs, Option.isNone_some, Bool.false_eq_true, if_false] at hl
    obtain ⟨h1, h2, h3, h4, h5, _, h7⟩ :=
      CppQmlTypes.linkChain_frame metas p.2.package fuel t v p.1 t1 hwf (hwf _ v hv) hl
    obtain ⟨x, hx, hobj⟩ := h7 s hs
    have hassign : CppQmlTypes.assignmentOf metas t1._typesByFullyQualifiedName p
        = some (v, x) := by
      unfold CppQmlTypes.assignmentOf
      simp only [h3 _ v hv, hs, hx, Option.map_some']
    refine ⟨h1, h2, h3, h4, ?_, ?_⟩
    · intro a ha
      unfold CppQmlTypes.prototypeStep
      rw [hassign]
      by_cases hav : v = a
      · subst hav
        simp only [if_true]
        exact hobj
      · simp only [if_neg hav]
        exact h5 a ha (Ne.symm hav)
    · intro s1 hs1
      simp only [Option.some.injEq] at hs1
      subst hs1
      rw [hx]
      rfl

theorem CppQmlTypes.assignmentOf_value (metas : List FakeMetaObject)
    (index : List (String × Nat)) (p : Nat × Export) (v x : Nat)
    (h : CppQmlTypes.assignmentOf metas index p = some (v, x)) :
    QHash.value index p.2.packageNameVersion = some v := by
  unfold CppQmlTypes.assignmentOf at h
  cases hv : QHash.value index p.2.packageNameVersion with
  | none => simp [hv] at h
  | some v0 =>
    cases hs : (metaAt metas p.1).superClass with
    | none => simp [hv, hs] at h
    | some s =>
      simp only [hv, hs] at h
      cases hx : QHash.value index (CppQmlTypes.superKey metas p.2.package p.1 s) with
      | none => simp [hx] at h
      | some x0 =>
        simp only [hx, Option.map_some', Option.some.injEq, Prod.mk.injEq] at h
        rw [h.1]

/-- The assignment of a pair does not depend on entries that the index gains later, once
the keys that the pair needs are there. -/
theorem CppQmlTypes.assignmentOf_extend (metas : List FakeMetaObject)
    (index index1 : List (String × Nat))
    (hkeep : ∀ k a, QHash.value index k = some a → QHash.value index1 k = some a)
    (p : Nat × Export)
    (hpresent : (QHash.value index p.2.packageNameVersion).isSome)
    (hsuper : ∀ s, (metaAt metas p.1).superClass = some s →
      (QHash.value index (CppQmlTypes.superKey metas p.2.package p.1 s)).isSome) :
    CppQmlTypes.assignmentOf metas index1 p = CppQmlTypes.assignmentOf metas index p := by
  cases ha : CppQmlTypes.assignmentOf metas index p with
  | some vx =>
    obtain ⟨v, x⟩ := vx
    exact CppQmlTypes.assignmentOf_persist metas index index1 hkeep p v x ha
  | none =>
    obtain ⟨v, hv⟩ := Option.isSome_iff_exists.mp hpresent
    unfold CppQmlTypes.assignmentOf at ha ⊢
    cases hs : (metaAt metas p.1).superClass with
    | none => simp only [hkeep _ v hv]
    | some s =>
      obtain ⟨x, hx⟩ := Option.isSome_iff_exists.mp (hsuper s hs)
      simp [hv, hs, hx] at ha

theorem CppQmlTypes.prototypeAfter_untouched (metas : List FakeMetaObject)
    (index : List (String × Nat)) (a : Nat) (pairs : List (Nat × Export)) :
    ∀ (current : Option Nat),
      (∀ p ∈ pairs, ∀ v x, CppQmlTypes.assignmentOf metas index p = some (v, x) → v ≠ a) →
      CppQmlTypes.prototypeAfter metas index a current pairs = current := by
  induction pairs with
  | nil =>
    intro current _
    rfl
  | cons p rest ih =>
    intro current hno
    simp only [CppQmlTypes.prototypeAfter]
    have hstep : CppQmlTypes.prototypeStep metas index a current p = current := by
      unfold CppQmlTypes.prototypeStep
      cases ha : CppQmlTypes.assignmentOf metas index p with
      | none => rfl
      | some vx =>
        obtain ⟨v, x⟩ := vx
        simp only [if_neg (hno p (List.mem_cons_self _ _) v x ha)]
    rw [hstep]
    exact ih current (fun r hr => hno r (List.mem_cons_of_mem _ hr))

theorem CppQmlTypes.prototypeAfter_cases (metas : List FakeMetaObject)
    (index : List (String × Nat)) (a : Nat) (pairs : List (Nat × Export)) :
    (∀ current, CppQmlTypes.prototypeAfter metas index a current pairs = current) ∨
    (∀ c1 c2, CppQmlTypes.prototypeAfter metas index a c1 pairs
      = CppQmlTypes.prototypeAfter metas index a c2 pairs) := by
  induction pairs with
  | nil =>
    left
    intro current
    rfl
  | cons p rest ih =>
    cases ha : CppQmlTypes.assignmentOf metas index p with
    | none =>
      have hstep : ∀ c, CppQmlTypes.prototypeStep metas index a c p = c := by
        intro c
        unfold CppQmlTypes.prototypeStep
        rw [ha]
      rcases ih with h1 | h2
      · left
        intro current
        simp only [CppQmlTypes.prototypeAfter, hstep, h1]
      · right
        intro c1 c2
        simp only [CppQmlTypes.prototypeAfter, hstep]
        exact h2 c1 c2
    | some vx =>
      obtain ⟨v, x⟩ := vx
      by_cases hva : v = a
      · right
        intro c1 c2
        have hstep : ∀ c, CppQmlTypes.prototypeStep metas index a c p = some x := by
          intro c
          unfold CppQmlTypes.prototypeStep
          rw [ha]
          simp only [if_pos hva]
        simp only [CppQmlTypes.prototypeAfter, hstep]
      · have hstep : ∀ c, CppQmlTypes.prototypeStep metas index a c p = c := by
          intro c
          unfold CppQmlTypes.prototypeStep
          rw [ha]
          simp only [if_neg hva]
        rcases ih with h1 | h2
        · left
          intro current
          simp only [CppQmlTypes.prototypeAfter, hstep, h1]
        · right
          intro c1 c2
          simp only [CppQmlTypes.prototypeAfter, hstep]
          exact h2 c1 c2

/-- Making the assignments of the pairs a second time changes no prototype. -/
theorem CppQmlTypes.prototypeAfter_idempotent (metas : List FakeMetaObject)
    (index : List (String × Nat)) (a : Nat) (pairs : List (Nat × Export))
    (current : Option Nat) :
    CppQmlTypes.prototypeAfter metas index a
        (CppQmlTypes.prototypeAfter metas index a current pairs) pairs
      = CppQmlTypes.prototypeAfter metas index a current pairs := by
  rcases CppQmlTypes.prototypeAfter_cases metas index a pairs with h1 | h2
  · rw [h1, h1]
  · exact h2 _ _

/-- The second loop of `load`: every value that existed gets the prototype that the
assignments of the pairs, read off the final index, leave; no pair assigns to a value that
is created during the loop. -/
theorem CppQmlTypes.linkPairs_frame (metas : List FakeMetaObject) (fuel : Nat)
    (pairs : List (Nat × Export)) :
    ∀ (t t1 : CppQmlTypes), t.WellFormed →
      (∀ p ∈ pairs, (QHash.value t._typesByFullyQualifiedName p.2.packageNameVersion).isSome) →
      CppQmlTypes.linkPairs metas fuel t pairs = some t1 →
      t1.WellFormed ∧ t.objectValues.length ≤ t1.objectValues.length ∧
      (∀ k a, QHash.value t._typesByFullyQualifiedName k = some a →
        QHash.value t1._typesByFullyQualifiedName k = some a) ∧
      t1._typesByPackage = t._typesByPackage ∧
      (∀ a < t.objectValues.length,
        t1.obj a = { t.obj a with
          _prototype := CppQmlTypes.prototypeAfter metas t1._typesByFullyQualifiedName a
            (t.obj a)._prototype pairs }) ∧
      (∀ p ∈ pairs, ∀ v x,
        CppQmlTypes.assignmentOf metas t1._typesByFullyQualifiedName p = some (v, x) →
        v < t.objectValues.length) ∧
      (∀ p ∈ pairs, ∀ s, (metaAt metas p.1).superClass = some s →
        (QHash.value t1._typesByFullyQualifiedName
          (CppQmlTypes.superKey metas p.2.package p.1 s)).isSome) := by
  induction pairs with
  | nil =>
    intro t t1 hwf _ hl
    simp only [CppQmlTypes.linkPairs, Option.some.injEq] at hl
    subst hl
    exact ⟨hwf, Nat.le_refl _, fun k a h => h, rfl, fun a _ => rfl,
      (fun p hp => nomatch hp), (fun p hp => nomatch hp)⟩
  | cons p rest ih =>
    intro t t1 hwf hpresent hl
    simp only [CppQmlTypes.linkPairs] at hl
    cases hstep : CppQmlTypes.linkExport metas fuel p.1 t p.2 with
    | none => simp [hstep] at hl
    | some t2 =>
      simp only [hstep] at hl
      have hp0 := hpresent p (List.mem_cons_self _ _)
      obtain ⟨e1, e2, e3, e4, e5, e6⟩ :=
        CppQmlTypes.linkExport_frame metas fuel p t t2 hwf hp0 hstep
      have hpresent2 : ∀ r ∈ rest,
          (QHash.value t2._typesByFullyQualifiedName r.2.packageNameVersion).isSome := by
        intro r hr
        obtain ⟨v, hv⟩ := Option.isSome_iff_exists.mp
          (hpresent r (List.mem_cons_of_mem _ hr))
        rw [e3 _ v hv]
        rfl
      obtain ⟨i1, i2, i3, i4, i5, _, i7⟩ := ih t2 t1 e1 hpresent2 hl
      have hp2 : (QHash.value t2._typesByFullyQualifiedName p.2.packageNameVersion).isSome := by
        obtain ⟨v, hv⟩ := Option.isSome_iff_exists.mp hp0
        rw [e3 _ v hv]
        rfl
      have hassign := CppQmlTypes.assignmentOf_extend metas _ _ i3 p hp2 e6
      refine ⟨i1, by omega, fun k a h => i3 k a (e3 k a h), by rw [i4, e4], ?_, ?_, ?_⟩
      · intro a ha
        rw [i5 a (by omega), e5 a ha]
        simp only [CppQmlTypes.prototypeAfter, CppQmlTypes.prototypeStep, hassign]
      · intro r hr v x hvx
        have hrv := CppQmlTypes.assignmentOf_value metas _ r v x hvx
        obtain ⟨v0, hv0⟩ := Option.isSome_iff_exists.mp (hpresent r hr)
        have := i3 _ v0 (e3 _ v0 hv0)
        rw [hrv] at this
        simp only [Option.some.injEq] at this
        rw [this]
        exact hwf _ v0 hv0
      · intro r hr s hs
        rcases List.mem_cons.mp hr with heq | hmem
        · rw [heq] at hs ⊢
          obtain ⟨x, hx⟩ := Option.isSome_iff_exists.mp (e6 s hs)
          rw [i3 _ x hx]
          rfl
        · exact i7 r hmem s hs

theorem CppQmlTypes.loadPairs_present (pairs : List (Nat × Export)) (t : CppQmlTypes)
    (hpresent : ∀ p ∈ pairs,
      (QHash.value t._typesByFullyQualifiedName p.2.packageNameVersion).isSome) :
    CppQmlTypes.loadPairs t pairs = t := by
  induction pairs with
  | nil => rfl
  | cons p rest ih =>
    obtain ⟨x, hx⟩ := Option.isSome_iff_exists.mp (hpresent p (List.mem_cons_self _ _))
    show CppQmlTypes.loadPairs (CppQmlTypes.loadExport p.1 t p.2) rest = t
    rw [CppQmlTypes.loadExport_present p.1 t p.2 x hx]
    exact ih (fun r hr => hpresent r (List.mem_cons_of_mem _ hr))

theorem CppQmlTypes.linkExport_stable (metas : List FakeMetaObject) (fuel : Nat)
    (p : Nat × Export) (t t1 : CppQmlTypes)
    (hsuper : ∀ s, (metaAt metas p.1).superClass = some s →
      (QHash.value t._typesByFullyQualifiedName
        (CppQmlTypes.superKey metas p.2.package p.1 s)).isSome)
    (hl : CppQmlTypes.linkExport metas fuel p.1 t p.2 = some t1) :
    t1._typesByFullyQualifiedName = t._typesByFullyQualifiedName ∧
    t1.objectValues.length = t.objectValues.length := by
  unfold CppQmlTypes.linkExport at hl
  cases hv : QHash.value t._typesByFullyQualifiedName p.2.packageNameVersion with
  | none =>
    simp only [hv, Option.some.injEq] at hl
    subst hl
    exact ⟨rfl, rfl⟩
  | some v =>
    simp only [hv] at hl
    cases hs : (metaAt metas p.1).superClass with
    | none =>
      simp only [hs, Option.isNone_none, if_true, Option.some.injEq] at hl
      subst hl
      exact ⟨rfl, rfl⟩
    | some s =>
      simp only [hs, Option.isNone_some, Bool.false_eq_true, if_false] at hl
      obtain ⟨x, hx⟩ := Option.isSome_iff_exists.mp (hsuper s hs)
      cases fuel with
      | zero => simp [CppQmlTypes.linkChain] at hl
      | succ n =>
        rw [CppQmlTypes.linkChain_found metas p.2.package n t v p.1 s x hs hx] at hl
        simp only [Option.some.injEq] at hl
        subst hl
        exact ⟨rfl, CppQmlTypes.setPrototype_length t v x⟩

theorem CppQmlTypes.linkPairs_stable (metas : List FakeMetaObject) (fuel : Nat)
    (pairs : List (Nat × Export)) :
    ∀ (t t1 : CppQmlTypes),
      (∀ p ∈ pairs, ∀ s, (metaAt metas p.1).superClass = some s →
        (QHash.value t._typesByFullyQualifiedName
          (CppQmlTypes.superKey metas p.2.package p.1 s)).isSome) →
      CppQmlTypes.linkPairs metas fuel t pairs = some t1 →
      t1._typesByFullyQualifiedName = t._typesByFullyQualifiedName ∧
      t1.objectValues.length = t.objectValues.length := by
  induction pairs with
  | nil =>
    intro t t1 _ hl
    simp only [CppQmlTypes.linkPairs, Option.some.injEq] at hl
    subst hl
    exact ⟨rfl, rfl⟩
  | cons p rest ih =>
    intro t t1 hsuper hl
    simp only [CppQmlTypes.linkPairs] at hl
    cases hstep : CppQmlTypes.linkExport metas fuel p.1 t p.2 with
    | none => simp [hstep] at hl
    | some t2 =>
      simp only [hstep] at hl
      obtain ⟨e1, e2⟩ := CppQmlTypes.linkExport_stable metas fuel p t t2
        (hsuper p (List.mem_cons_self _ _)) hstep
      obtain ⟨i1, i2⟩ := ih t2 t1
        (fun r hr s hs => by rw [e1]; exact hsuper r (List.mem_cons_of_mem _ hr) s hs) hl
      exact ⟨by rw [i1, e1], by rw [i2, e2]⟩

theorem getElem?_eq_some_getD {α : Type} (l : List α) (n : Nat) (d : α) (h : n < l.length) :
    l[n]? = some (l.getD n d) := by
  rw [List.getD_eq_getElem _ _ h]
  exact List.getElem?_eq_getElem h

/-- C10. Re-load is idempotent: from every well-formed registry (the fresh one is), with
fuel for two more tests than there are meta-objects, `load` returns a registry on which
`load` of the same list returns that same registry: the same values with the same
prototypes, the same by-package index and the same by-qualified-name index. -/
theorem CppQmlTypes.load_idempotent (metas : List FakeMetaObject) (objects : List Nat)
    (fuel : Nat) (t0 : CppQmlTypes) (hwf0 : t0.WellFormed) (hfuel : metas.length + 2 ≤ fuel) :
    ∃ t1, CppQmlTypes.load metas fuel t0 objects = some t1 ∧
      CppQmlTypes.load metas fuel t1 objects = some t1 := by
  obtain ⟨t1, ht1⟩ := Option.isSome_iff_exists.mp
    (CppQmlTypes.load_isSome metas fuel hfuel t0 objects)
  obtain ⟨t2, ht2⟩ := Option.isSome_iff_exists.mp
    (CppQmlTypes.load_isSome metas fuel hfuel t1 objects)
  refine ⟨t1, ht1, ?_⟩
  rw [ht2]
  rw [CppQmlTypes.load_eq_pairs] at ht1 ht2
  obtain ⟨hwf, _, hpresent⟩ :=
    CppQmlTypes.loadPairs_wellFormed (CppQmlTypes.exportPairs metas objects) t0 hwf0
  obtain ⟨hwf1, _, hkeep1, _, hobj1, htarget1, hsuper1⟩ :=
    CppQmlTypes.linkPairs_frame metas fuel _ _ t1 hwf hpresent ht1
  have hpresent1 : ∀ p ∈ CppQmlTypes.exportPairs metas objects,
      (QHash.value t1._typesByFullyQualifiedName p.2.packageNameVersion).isSome := by
    intro p hp
    obtain ⟨v, hv⟩ := Option.isSome_iff_exists.mp (hpresent p hp)
    rw [hkeep1 _ v hv]
    rfl
  rw [CppQmlTypes.loadPairs_present _ t1 hpresent1] at ht2
  obtain ⟨_, _, _, hpkg2, hobj2, _, _⟩ :=
    CppQmlTypes.linkPairs_frame metas fuel _ t1 t2 hwf1 hpresent1 ht2
  obtain ⟨hidx2, hlen2⟩ := CppQmlTypes.linkPairs_stable metas fuel _ t1 t2 hsuper1 ht2
  have hobj : ∀ a < t1.objectValues.length, t2.obj a = t1.obj a := by
    intro a ha
    rw [hobj2 a ha, hidx2]
    have hfix : CppQmlTypes.prototypeAfter metas t1._typesByFullyQualifiedName a
        (t1.obj a)._prototype (CppQmlTypes.exportPairs metas objects)
        = (t1.obj a)._prototype := by
      by_cases hlt : a < (CppQmlTypes.loadPairs t0
          (CppQmlTypes.exportPairs metas objects)).objectValues.length
      · rw [hobj1 a hlt]
        exact CppQmlTypes.prototypeAfter_idempotent metas _ a _ _
      · apply CppQmlTypes.prototypeAfter_untouched
        intro p hp v x hvx
        have := htarget1 p hp v x hvx
        omega
    rw [hfix]
  have hvalues : t2.objectValues = t1.objectValues := by
    apply List.ext_getElem?
    intro n
    by_cases hn : n < t1.objectValues.length
    · rw [getElem?_eq_some_getD t2.objectValues n default (by rw [hlen2]; exact hn),
        getElem?_eq_some_getD t1.objectValues n default hn]
      exact congrArg some (hobj n hn)
    · rw [List.getElem?_eq_none (by omega), List.getElem?_eq_none (by omega)]
  cases t1
  cases t2
  simp only at hvalues hpkg2 hidx2
  rw [hvalues, hpkg2, hidx2]

/-- Witness for C10: the superclass synthesis scenario, loaded twice on the fresh
registry. -/
theorem CppQmlTypes.load_idempotent_witness :
    ∃ t1, CppQmlTypes.load synthesisScenarioMetas 4 {} [0, 1] = some t1 ∧
      CppQmlTypes.load synthesisScenarioMetas 4 t1 [0, 1] = some t1 :=
  CppQmlTypes.load_idempotent synthesisScenarioMetas [0, 1] 4 {}
    (by intro k a ha; simp [QHash.value] at ha) (by decide)

/-! ## The reader of type descriptions: the loop over the content of an element -/

theorem QmlXmlReader.whileReadNextStartElement_error {α : Type}
    (body : String → List (String × String) → List XmlNode → QmlXmlReader × α →
      QmlXmlReader × α)
    (l : List XmlNode) (s : QmlXmlReader × α) (h : s.1.error.isSome = true) :
    QmlXmlReader.whileReadNextStartElement body l s = s := by
  cases l with
  | nil => rfl
  | cons node rest => simp [QmlXmlReader.whileReadNextStartElement, h]

theorem QmlXmlReader.whileReadNextStartElement_append {α : Type}
    (body : String → List (String × String) → List XmlNode → QmlXmlReader × α →
      QmlXmlReader × α)
    (l1 l2 : List XmlNode) :
    ∀ s : QmlXmlReader × α,
      QmlXmlReader.whileReadNextStartElement body (l1 ++ l2) s
        = QmlXmlReader.whileReadNextStartElement body l2
            (QmlXmlReader.whileReadNextStartElement body l1 s) := by
  induction l1 with
  | nil => intro s; rfl
  | cons node rest ih =>
    intro s
    by_cases h : s.1.error.isSome = true
    · rw [QmlXmlReader.whileReadNextStartElement_error body _ s h,
        QmlXmlReader.whileReadNextStartElement_error body _ s h,
        QmlXmlReader.whileReadNextStartElement_error body _ s h]
    · cases node with
      | element name attributes children =>
        simp only [List.cons_append, QmlXmlReader.whileReadNextStartElement, if_neg h]
        exact ih _
      | notWellFormed errorString =>
        simp only [List.cons_append, QmlXmlReader.whileReadNextStartElement, if_neg h]
        rw [QmlXmlReader.whileReadNextStartElement_error]
        rfl

/-- What holds before the loop, is kept by its body and is kept when the stream raises an
error, holds after the loop. -/
theorem QmlXmlReader.whileReadNextStartElement_invariant {α : Type}
    (I : QmlXmlReader × α → Prop)
    (body : String → List (String × String) → List XmlNode → QmlXmlReader × α →
      QmlXmlReader × α)
    (hbody : ∀ n a c s, I s → I (body n a c s))
    (hraise : ∀ s msg, I s → I (s.1.raiseError msg, s.2)) :
    ∀ (l : List XmlNode) (s : QmlXmlReader × α), I s →
      I (QmlXmlReader.whileReadNextStartElement body l s) := by
  intro l
  induction l with
  | nil => intro s hs; exact hs
  | cons node rest ih =>
    intro s hs
    by_cases h : s.1.error.isSome = true
    · rw [QmlXmlReader.whileReadNextStartElement_error body _ s h]
      exact hs
    · cases node with
      | element name attributes children =>
        simp only [QmlXmlReader.whileReadNextStartElement, if_neg h]
        exact ih _ (hbody _ _ _ _ hs)
      | notWellFormed errorString =>
        simp only [QmlXmlReader.whileReadNextStartElement, if_neg h]
        exact hraise _ _ hs

/-- Two loops over the same content whose states are related before, whose bodies keep the
relation, go the same way when the relation fixes the error of the stream. -/
theorem QmlXmlReader.whileReadNextStartElement_rel {α β : Type}
    (R : QmlXmlReader × α → QmlXmlReader × β → Prop)
    (b1 : String → List (String × String) → List XmlNode → QmlXmlReader × α →
      QmlXmlReader × α)
    (b2 : String → List (String × String) → List XmlNode → QmlXmlReader × β →
      QmlXmlReader × β)
    (herr : ∀ s t, R s t → s.1.error = t.1.error)
    (hbody : ∀ n a c s t, R s t → R (b1 n a c s) (b2 n a c t))
    (hraise : ∀ s t msg, R s t → R (s.1.raiseError msg, s.2) (t.1.raiseError msg, t.2)) :
    ∀ (l : List XmlNode) (s : QmlXmlReader × α) (t : QmlXmlReader × β), R s t →
      R (QmlXmlReader.whileReadNextStartElement b1 l s)
        (QmlXmlReader.whileReadNextStartElement b2 l t) := by
  intro l
  induction l with
  | nil => intro s t hst; exact hst
  | cons node rest ih =>
    intro s t hst
    have he := herr s t hst
    by_cases h : s.1.error.isSome = true
    · rw [QmlXmlReader.whileReadNextStartElement_error b1 _ s h,
        QmlXmlReader.whileReadNextStartElement_error b2 _ t (he ▸ h)]
      exact hst
    · have h2 : ¬ t.1.error.isSome = true := he ▸ h
      cases node with
      | element name attributes children =>
        simp only [QmlXmlReader.whileReadNextStartElement, if_neg h, if_neg h2]
        exact ih _ _ (hbody _ _ _ _ _ hst)
      | notWellFormed errorString =>
        simp only [QmlXmlReader.whileReadNextStartElement, if_neg h, if_neg h2]
        exact hraise _ _ _ hst

/-- A loop that ends without an error started without one. -/
theorem QmlXmlReader.whileReadNextStartElement_none {α : Type}
    (body : String → List (String × String) → List XmlNode → QmlXmlReader × α →
      QmlXmlReader × α)
    (l : List XmlNode) (s : QmlXmlReader × α)
    (h : (QmlXmlReader.whileReadNextStartElement body l s).1.error = none) :
    s.1.error = none := by
  by_cases hs : s.1.error.isSome = true
  · rw [QmlXmlReader.whileReadNextStartElement_error body _ s hs] at h
    exact h
  · cases he : s.1.error with
    | none => rfl
    | some e => simp [he] at hs

/-! ## The reader of type descriptions: what the functions leave as it is -/

theorem QmlXmlReader.sameTable_refl (r : QmlXmlReader) : QmlXmlReader.SameTable r r :=
  ⟨rfl, rfl⟩

theorem QmlXmlReader.sameTable_raiseError (r t : QmlXmlReader) (msg : String)
    (h : QmlXmlReader.SameTable r t) : QmlXmlReader.SameTable r (t.raiseError msg) := h

theorem QmlXmlReader.sameTable_trans (r t u : QmlXmlReader)
    (h1 : QmlXmlReader.SameTable r t) (h2 : QmlXmlReader.SameTable t u) :
    QmlXmlReader.SameTable r u :=
  ⟨h2.1.trans h1.1, h2.2.trans h1.2⟩

/-- A loop whose body keeps the table and a property of the local variables keeps them. -/
theorem QmlXmlReader.whileReadNextStartElement_frame {α : Type} (P : α → Prop)
    (body : String → List (String × String) → List XmlNode → QmlXmlReader × α →
      QmlXmlReader × α)
    (hbody : ∀ n a c s, P s.2 →
      QmlXmlReader.SameTable s.1 (body n a c s).1 ∧ P (body n a c s).2)
    (l : List XmlNode) (s : QmlXmlReader × α) (hs : P s.2) :
    QmlXmlReader.SameTable s.1 (QmlXmlReader.whileReadNextStartElement body l s).1
      ∧ P (QmlXmlReader.whileReadNextStartElement body l s).2 := by
  apply QmlXmlReader.whileReadNextStartElement_invariant
    (fun t => QmlXmlReader.SameTable s.1 t.1 ∧ P t.2) body
  · intro n a c t ht
    have := hbody n a c t ht.2
    exact ⟨QmlXmlReader.sameTable_trans _ _ _ ht.1 this.1, this.2⟩
  · intro t msg ht
    exact ht
  · exact ⟨QmlXmlReader.sameTable_refl _, hs⟩

/-- The loop over the content of an element that has no child elements keeps the table and
the local variables. -/
theorem QmlXmlReader.unexpectedChild_frame {α : Type} (tag : String) (l : List XmlNode)
    (s : QmlXmlReader × α) :
    QmlXmlReader.SameTable s.1
        (QmlXmlReader.whileReadNextStartElement (QmlXmlReader.unexpectedChild tag) l s).1
      ∧ (QmlXmlReader.whileReadNextStartElement (QmlXmlReader.unexpectedChild tag) l s).2
        = s.2 := by
  apply QmlXmlReader.whileReadNextStartElement_frame (fun a => a = s.2)
  · intro n a c t ht
    exact ⟨QmlXmlReader.sameTable_refl _, ht⟩
  · rfl

theorem QmlXmlReader.readPropertyAttributes_frame (attributes : List (String × String)) :
    ∀ (s : QmlXmlReader × PropertyLocals),
      (∀ t, QmlXmlReader.readPropertyAttributes attributes s = .ok t → t.1 = s.1)
      ∧ (∀ r, QmlXmlReader.readPropertyAttributes attributes s = .error r →
          QmlXmlReader.SameTable s.1 r) := by
  induction attributes with
  | nil =>
    intro s
    refine ⟨fun t ht => ?_, fun r hr => ?_⟩
    · simp only [QmlXmlReader.readPropertyAttributes, Except.ok.injEq] at ht
      rw [← ht]
    · simp [QmlXmlReader.readPropertyAttributes] at hr
  | cons attr rest ih =>
    intro s
    unfold QmlXmlReader.readPropertyAttributes
    split_ifs
    · exact ih _
    · exact ih _
    · exact ih _
    · exact ih _
    · refine ⟨fun t ht => ?_, fun r hr => ?_⟩
      · simp at ht
      · simp only [Except.error.injEq] at hr
        rw [← hr]
        exact QmlXmlReader.sameTable_refl _
    · exact ih _

theorem QmlXmlReader.readProperty_frame (attributes : List (String × String))
    (children : List XmlNode) (s : QmlXmlReader × FakeMetaObject) :
    QmlXmlReader.SameTable s.1 (QmlXmlReader.readProperty attributes children s).1
      ∧ FakeMetaObject.SameLinks s.2 (QmlXmlReader.readProperty attributes children s).2
      ∧ (QmlXmlReader.readProperty attributes children s).2.m_exports = s.2.m_exports := by
  unfold QmlXmlReader.readProperty
  have hattr := QmlXmlReader.readPropertyAttributes_frame attributes (s.1, {})
  split
  · rename_i r hr
    exact ⟨hattr.2 r hr, ⟨rfl, rfl, rfl⟩, rfl⟩
  · rename_i r l hr
    have hr1 : r = s.1 := hattr.1 _ hr
    subst hr1
    have hloop := fun (t : QmlXmlReader × FakeMetaObject) =>
      QmlXmlReader.unexpectedChild_frame "property" children t
    split_ifs
    · have := hloop (s.1.noValidAttr "name" "property", s.2)
      exact ⟨this.1, by rw [this.2]; exact ⟨rfl, rfl, rfl⟩, by rw [this.2]⟩
    · have := hloop (s.1.noValidAttr "type" "property", s.2)
      exact ⟨this.1, by rw [this.2]; exact ⟨rfl, rfl, rfl⟩, by rw [this.2]⟩
    · have := hloop (s.1, s.2.addProperty
          { m_propertyName := l.name, m_type := l.type, m_isList := l.isList })
      exact ⟨this.1, by rw [this.2]; exact ⟨rfl, rfl, rfl⟩, by rw [this.2]; rfl⟩

/-- A loop over the attributes whose body keeps the table keeps it. -/
theorem QmlXmlReader.foldl_frame {α : Type}
    (f : QmlXmlReader × α → String × String → QmlXmlReader × α)
    (hf : ∀ s a, QmlXmlReader.SameTable s.1 (f s a).1) (l : List (String × String)) :
    ∀ s, QmlXmlReader.SameTable s.1 (l.foldl f s).1 := by
  induction l with
  | nil => intro s; exact QmlXmlReader.sameTable_refl _
  | cons a rest ih =>
    intro s
    exact QmlXmlReader.sameTable_trans _ _ _ (hf s a) (ih _)

theorem QmlXmlReader.readEnumeratorAttr_frame (toInt : String → Option Int)
    (s : QmlXmlReader × EnumeratorLocals) (attr : String × String) :
    QmlXmlReader.SameTable s.1 (QmlXmlReader.readEnumeratorAttr toInt s attr).1 := by
  unfold QmlXmlReader.readEnumeratorAttr
  split_ifs
  · exact QmlXmlReader.sameTable_refl _
  · split <;> exact QmlXmlReader.sameTable_refl _
  · exact QmlXmlReader.sameTable_refl _

theorem QmlXmlReader.readEnumerator_frame (toInt : String → Option Int)
    (attributes : List (String × String)) (children : List XmlNode)
    (s : QmlXmlReader × FakeMetaEnum) :
    QmlXmlReader.SameTable s.1
      (QmlXmlReader.readEnumerator toInt attributes children s).1 := by
  unfold QmlXmlReader.readEnumerator
  have hattr := QmlXmlReader.foldl_frame (QmlXmlReader.readEnumeratorAttr toInt)
    (QmlXmlReader.readEnumeratorAttr_frame toInt) attributes (s.1, {})
  simp only
  split_ifs
  · exact QmlXmlReader.sameTable_trans _ _ _ hattr
      (QmlXmlReader.unexpectedChild_frame "enumerator" children _).1
  · exact QmlXmlReader.sameTable_trans _ _ _ hattr
      (QmlXmlReader.unexpectedChild_frame "enumerator" children _).1

theorem QmlXmlReader.readEnum_frame (toInt : String → Option Int)
    (attributes : List (String × String)) (children : List XmlNode)
    (s : QmlXmlReader × FakeMetaObject) :
    QmlXmlReader.SameTable s.1 (QmlXmlReader.readEnum toInt attributes children s).1
      ∧ FakeMetaObject.SameLinks s.2 (QmlXmlReader.readEnum toInt attributes children s).2
      ∧ (QmlXmlReader.readEnum toInt attributes children s).2.m_exports = s.2.m_exports := by
  unfold QmlXmlReader.readEnum
  simp only
  split_ifs
  · exact ⟨QmlXmlReader.sameTable_refl _, ⟨rfl, rfl, rfl⟩, rfl⟩
  · refine ⟨?_, ⟨rfl, rfl, rfl⟩, rfl⟩
    refine (QmlXmlReader.whileReadNextStartElement_frame (fun _ => True) _ ?_ children
      (s.1, _) trivial).1
    intro n a c t _
    refine ⟨?_, trivial⟩
    unfold QmlXmlReader.readEnumChild
    split_ifs
    · exact QmlXmlReader.readEnumerator_frame toInt a c t
    · exact QmlXmlReader.sameTable_refl _

theorem QmlXmlReader.readParam_frame (attributes : List (String × String))
    (children : List XmlNode) (s : QmlXmlReader × FakeMetaMethod) :
    QmlXmlReader.SameTable s.1 (QmlXmlReader.readParam attributes children s).1 := by
  unfold QmlXmlReader.readParam
  simp only
  split_ifs
  · exact (QmlXmlReader.unexpectedChild_frame "param" children
      (s.1.noValidAttr "type" "param", _)).1
  · exact (QmlXmlReader.unexpectedChild_frame "param" children (s.1, _)).1

theorem QmlXmlReader.readParamChild_frame (tag : String) (children : List XmlNode)
    (s : QmlXmlReader × FakeMetaMethod) :
    QmlXmlReader.SameTable s.1
      (QmlXmlReader.whileReadNextStartElement (QmlXmlReader.readParamChild tag) children
        s).1 := by
  refine (QmlXmlReader.whileReadNextStartElement_frame (fun _ => True) _ ?_ children
    s trivial).1
  intro n a c t _
  refine ⟨?_, trivial⟩
  unfold QmlXmlReader.readParamChild
  split_ifs
  · exact QmlXmlReader.readParam_frame a c t
  · exact QmlXmlReader.sameTable_refl _

theorem QmlXmlReader.readSignal_frame (attributes : List (String × String))
    (children : List XmlNode) (s : QmlXmlReader × FakeMetaObject) :
    QmlXmlReader.SameTable s.1 (QmlXmlReader.readSignal attributes children s).1
      ∧ FakeMetaObject.SameLinks s.2 (QmlXmlReader.readSignal attributes children s).2
      ∧ (QmlXmlReader.readSignal attributes children s).2.m_exports = s.2.m_exports := by
  unfold QmlXmlReader.readSignal
  simp only
  split_ifs
  · exact ⟨QmlXmlReader.sameTable_refl _, ⟨rfl, rfl, rfl⟩, rfl⟩
  · exact ⟨QmlXmlReader.readParamChild_frame "signal" children (s.1, _), ⟨rfl, rfl, rfl⟩, rfl⟩

theorem QmlXmlReader.readMethod_frame (attributes : List (String × String))
    (children : List XmlNode) (s : QmlXmlReader × FakeMetaObject) :
    QmlXmlReader.SameTable s.1 (QmlXmlReader.readMethod attributes children s).1
      ∧ FakeMetaObject.SameLinks s.2 (QmlXmlReader.readMethod attributes children s).2
      ∧ (QmlXmlReader.readMethod attributes children s).2.m_exports = s.2.m_exports := by
  unfold QmlXmlReader.readMethod
  simp only
  split_ifs
  · exact ⟨QmlXmlReader.sameTable_refl _, ⟨rfl, rfl, rfl⟩, rfl⟩
  · exact ⟨QmlXmlReader.readParamChild_frame "method" children (s.1, _), ⟨rfl, rfl, rfl⟩, rfl⟩

theorem QmlXmlReader.skipCurrentElement_frame (r : QmlXmlReader) (children : List XmlNode) :
    QmlXmlReader.SameTable r (r.skipCurrentElement children) := by
  unfold QmlXmlReader.skipCurrentElement
  split_ifs
  · exact QmlXmlReader.sameTable_refl _
  · split <;> exact QmlXmlReader.sameTable_refl _

theorem QmlXmlReader.readExportAttr_frame (toInt : String → Option Int)
    (s : QmlXmlReader × ExportLocals) (attr : String × String) :
    QmlXmlReader.SameTable s.1 (QmlXmlReader.readExportAttr toInt s attr).1 := by
  unfold QmlXmlReader.readExportAttr
  split_ifs
  · exact QmlXmlReader.sameTable_refl _
  · exact QmlXmlReader.sameTable_refl _
  · split <;> exact QmlXmlReader.sameTable_refl _
  · exact QmlXmlReader.sameTable_refl _

theorem QmlXmlReader.readExportsChild_frame (toInt : String → Option Int) (name : String)
    (attributes : List (String × String)) (children : List XmlNode)
    (s : QmlXmlReader × FakeMetaObject) :
    QmlXmlReader.SameTable s.1
        (QmlXmlReader.readExportsChild toInt name attributes children s).1
      ∧ FakeMetaObject.SameLinks s.2
        (QmlXmlReader.readExportsChild toInt name attributes children s).2 := by
  unfold QmlXmlReader.readExportsChild
  split_ifs
  · refine ⟨?_, ⟨rfl, rfl, rfl⟩⟩
    exact QmlXmlReader.sameTable_trans _ _ _
      (QmlXmlReader.foldl_frame (QmlXmlReader.readExportAttr toInt)
        (QmlXmlReader.readExportAttr_frame toInt) attributes (s.1, {}))
      (QmlXmlReader.skipCurrentElement_frame _ _)
  · exact ⟨QmlXmlReader.skipCurrentElement_frame _ _, ⟨rfl, rfl, rfl⟩⟩

theorem QmlXmlReader.sameLinks_trans (m n o : FakeMetaObject)
    (h1 : FakeMetaObject.SameLinks m n) (h2 : FakeMetaObject.SameLinks n o) :
    FakeMetaObject.SameLinks m o :=
  ⟨h2.1.trans h1.1, h2.2.1.trans h1.2.1, h2.2.2.trans h1.2.2⟩

theorem QmlXmlReader.readExports_frame (toInt : String → Option Int)
    (children : List XmlNode) (s : QmlXmlReader × FakeMetaObject) :
    QmlXmlReader.SameTable s.1 (QmlXmlReader.readExports toInt children s).1
      ∧ FakeMetaObject.SameLinks s.2 (QmlXmlReader.readExports toInt children s).2 := by
  unfold QmlXmlReader.readExports
  apply QmlXmlReader.whileReadNextStartElement_frame (fun m => FakeMetaObject.SameLinks s.2 m)
  · intro n a c t ht
    have := QmlXmlReader.readExportsChild_frame toInt n a c t
    exact ⟨this.1, QmlXmlReader.sameLinks_trans _ _ _ ht this.2⟩
  · exact ⟨rfl, rfl, rfl⟩

theorem QmlXmlReader.readTypeChild_frame (toInt : String → Option Int) (name : String)
    (attributes : List (String × String)) (children : List XmlNode)
    (s : QmlXmlReader × FakeMetaObject) :
    QmlXmlReader.SameTable s.1 (QmlXmlReader.readTypeChild toInt name attributes children s).1
      ∧ FakeMetaObject.SameLinks s.2
        (QmlXmlReader.readTypeChild toInt name attributes children s).2 := by
  unfold QmlXmlReader.readTypeChild
  split_ifs
  · exact ⟨(QmlXmlReader.readProperty_frame _ _ _).1, (QmlXmlReader.readProperty_frame _ _ _).2.1⟩
  · exact ⟨(QmlXmlReader.readEnum_frame _ _ _ _).1, (QmlXmlReader.readEnum_frame _ _ _ _).2.1⟩
  · exact ⟨(QmlXmlReader.readSignal_frame _ _ _).1, (QmlXmlReader.readSignal_frame _ _ _).2.1⟩
  · exact ⟨(QmlXmlReader.readMethod_frame _ _ _).1, (QmlXmlReader.readMethod_frame _ _ _).2.1⟩
  · exact QmlXmlReader.readExports_frame _ _ _
  · exact ⟨QmlXmlReader.sameTable_refl _, ⟨rfl, rfl, rfl⟩⟩

/-- The loop over the content of a `type` element keeps the table, and the superclass, the
superclass name and the default property of the meta-object. -/
theorem QmlXmlReader.readTypeChildren_frame (toInt : String → Option Int)
    (children : List XmlNode) (s : QmlXmlReader × FakeMetaObject) :
    QmlXmlReader.SameTable s.1
        (QmlXmlReader.whileReadNextStartElement (QmlXmlReader.readTypeChild toInt) children
          s).1
      ∧ FakeMetaObject.SameLinks s.2
        (QmlXmlReader.whileReadNextStartElement (QmlXmlReader.readTypeChild toInt) children
          s).2 := by
  apply QmlXmlReader.whileReadNextStartElement_frame (fun m => FakeMetaObject.SameLinks s.2 m)
  · intro n a c t ht
    have := QmlXmlReader.readTypeChild_frame toInt n a c t
    exact ⟨this.1, QmlXmlReader.sameLinks_trans _ _ _ ht this.2⟩
  · exact ⟨rfl, rfl, rfl⟩

/-! ## The reader of type descriptions: the attributes of a `type` element -/

theorem QmlXmlReader.readTypeAttributes_error (attributes : List (String × String)) :
    ∀ (s : QmlXmlReader × TypeLocals) (r : QmlXmlReader),
      QmlXmlReader.readTypeAttributes attributes s = .error r →
        r.error.isSome = true ∧ QmlXmlReader.SameTable s.1 r := by
  induction attributes with
  | nil => intro s r h; simp [QmlXmlReader.readTypeAttributes] at h
  | cons attr rest ih =>
    intro s r h
    unfold QmlXmlReader.readTypeAttributes at h
    dsimp only at h
    split_ifs at h
    · simp only [Except.error.injEq] at h
      rw [← h]
      exact ⟨rfl, QmlXmlReader.sameTable_refl _⟩
    all_goals
      have := ih _ _ h
      exact this

/-- The loop over the attributes of a `type` element that ends without an error: it started
without one, the reader is as before, and of the local variables `id` holds the `name`
attribute; the others but `defaultPropertyName` and `extends` are as before. -/
theorem QmlXmlReader.readTypeAttributes_ok (attributes : List (String × String)) :
    ∀ (s t : QmlXmlReader × TypeLocals),
      QmlXmlReader.readTypeAttributes attributes s = .ok t → t.1.error = none →
        t.1 = s.1 ∧ t.2.doInsert = s.2.doInsert ∧ t.2.name = s.2.name
          ∧ t.2.id = attributes.foldl
              (fun value attr => if attr.1 = "name" then attr.2 else value) s.2.id := by
  induction attributes with
  | nil =>
    intro s t h _
    simp only [QmlXmlReader.readTypeAttributes, Except.ok.injEq] at h
    subst h
    exact ⟨rfl, rfl, rfl, rfl⟩
  | cons attr rest ih =>
    intro s t h hnone
    unfold QmlXmlReader.readTypeAttributes at h
    dsimp only at h
    simp only [List.foldl_cons]
    split_ifs at h with h1 h2 h3 h4 h5 h6 h7
    all_goals
      have hrec := ih _ _ h hnone
      first
        | exact absurd (show t.1.error.isSome = true by rw [hrec.1]; rfl)
            (by rw [hnone]; decide)
        | simp_all

/-! ## The reader of type descriptions: the export records -/

theorem QmlXmlReader.readExportAttr_locals (toInt : String → Option Int)
    (attributes : List (String × String)) :
    ∀ (s : QmlXmlReader × ExportLocals),
      (attributes.foldl (QmlXmlReader.readExportAttr toInt) s).2 =
        { type := attributes.foldl
            (fun value attr => if attr.1 = "type" then attr.2 else value) s.2.type,
          package := attributes.foldl
            (fun value attr => if attr.1 = "module" then attr.2 else value) s.2.package,
          version := attributes.foldl
            (fun version attr =>
              if attr.1 = "version" then (QmlXmlReader.readVersion toInt attr.2).getD version
              else version) s.2.version } := by
  induction attributes with
  | nil => intro s; rfl
  | cons attr rest ih =>
    intro s
    simp only [List.foldl_cons]
    rw [ih]
    unfold QmlXmlReader.readExportAttr
    by_cases h1 : attr.1 = "module"
    · simp [h1]
    · by_cases h2 : attr.1 = "type"
      · simp [h2]
      · by_cases h3 : attr.1 = "version"
        · cases hv : QmlXmlReader.readVersion toInt attr.2 <;> simp [h3, hv]
        · simp [h1, h2, h3]

theorem FakeMetaObject.addExport_exports (m : FakeMetaObject) (name package : String)
    (version : ComponentVersion) :
    (m.addExport name package version).m_exports
      = m.m_exports ++ [Export.record package name version] := rfl

theorem QmlXmlReader.skipCurrentElement_error (r : QmlXmlReader) (children : List XmlNode)
    (h : r.error.isSome = true) : r.skipCurrentElement children = r := by
  simp [QmlXmlReader.skipCurrentElement, h]

theorem QmlXmlReader.skipCurrentElement_none (r : QmlXmlReader) (children : List XmlNode)
    (h : (r.skipCurrentElement children).error = none) : r.error = none := by
  cases he : r.error with
  | none => rfl
  | some e =>
    rw [QmlXmlReader.skipCurrentElement_error r children (by simp [he])] at h
    rw [he] at h
    exact h

/-- The loop of `readExports` that ends without an error has added one record for every
`export` element, in document order. -/
theorem QmlXmlReader.readExports_exports (toInt : String → Option Int)
    (children : List XmlNode) :
    ∀ (s : QmlXmlReader × FakeMetaObject),
      (QmlXmlReader.readExports toInt children s).1.error = none →
        (QmlXmlReader.readExports toInt children s).2.m_exports
          = s.2.m_exports ++ (XmlNode.exportsOf children).map (XmlNode.exportRecord toInt) := by
  unfold QmlXmlReader.readExports
  induction children with
  | nil => intro s _; simp [QmlXmlReader.whileReadNextStartElement, XmlNode.exportsOf]
  | cons node rest ih =>
    intro s h
    have hs := QmlXmlReader.whileReadNextStartElement_none _ _ _ h
    have hs1 : ¬ s.1.error.isSome = true := by simp [hs]
    cases node with
    | notWellFormed errorString =>
      simp [QmlXmlReader.whileReadNextStartElement, hs, QmlXmlReader.raiseError] at h
    | element name attributes content =>
      simp only [QmlXmlReader.whileReadNextStartElement, if_neg hs1] at h ⊢
      rw [ih _ h]
      have hchild := QmlXmlReader.whileReadNextStartElement_none _ _ _ h
      unfold QmlXmlReader.readExportsChild at hchild ⊢
      by_cases hname : name = "export"
      · simp only [hname, if_true, FakeMetaObject.addExport_exports, XmlNode.exportsOf,
          List.map_cons, List.append_assoc, List.singleton_append]
        rw [QmlXmlReader.readExportAttr_locals]
        rfl
      · rw [if_neg hname] at hchild
        have := QmlXmlReader.skipCurrentElement_none _ _ hchild
        simp [QmlXmlReader.unexpectedElement, QmlXmlReader.raiseError] at this

/-- The loop of `readType` over the content that ends without an error has added one record
for every explicit export element, in document order. -/
theorem QmlXmlReader.readTypeChildren_exports (toInt : String → Option Int)
    (children : List XmlNode) :
    ∀ (s : QmlXmlReader × FakeMetaObject),
      (QmlXmlReader.whileReadNextStartElement (QmlXmlReader.readTypeChild toInt) children
          s).1.error = none →
        (QmlXmlReader.whileReadNextStartElement (QmlXmlReader.readTypeChild toInt) children
            s).2.m_exports
          = s.2.m_exports
            ++ (XmlNode.exportElements children).map (XmlNode.exportRecord toInt) := by
  induction children with
  | nil => intro s _; simp [QmlXmlReader.whileReadNextStartElement, XmlNode.exportElements]
  | cons node rest ih =>
    intro s h
    have hs := QmlXmlReader.whileReadNextStartElement_none _ _ _ h
    have hs1 : ¬ s.1.error.isSome = true := by simp [hs]
    cases node with
    | notWellFormed errorString =>
      simp [QmlXmlReader.whileReadNextStartElement, hs, QmlXmlReader.raiseError] at h
    | element name attributes content =>
      simp only [QmlXmlReader.whileReadNextStartElement, if_neg hs1] at h ⊢
      rw [ih _ h]
      have hchild := QmlXmlReader.whileReadNextStartElement_none _ _ _ h
      unfold QmlXmlReader.readTypeChild at hchild ⊢
      by_cases h1 : name = "property"
      · subst h1
        simp [XmlNode.exportElements, (QmlXmlReader.readProperty_frame _ _ _).2.2]
      by_cases h2 : name = "enum"
      · subst h2
        simp [XmlNode.exportElements, (QmlXmlReader.readEnum_frame _ _ _ _).2.2]
      by_cases h3 : name = "signal"
      · subst h3
        simp [XmlNode.exportElements, (QmlXmlReader.readSignal_frame _ _ _).2.2]
      by_cases h4 : name = "method"
      · subst h4
        simp [XmlNode.exportElements, (QmlXmlReader.readMethod_frame _ _ _).2.2]
      by_cases h5 : name = "exports"
      · subst h5
        simp only [String.reduceEq, if_false, if_true] at hchild ⊢
        rw [QmlXmlReader.readExports_exports toInt content s hchild]
        simp [XmlNode.exportElements]
      · simp [h1, h2, h3, h4, h5, QmlXmlReader.unexpectedElement, QmlXmlReader.raiseError]
          at hchild

theorem QmlXmlReader.eq_of_sameTable (r t : QmlXmlReader) (h : QmlXmlReader.SameTable r t)
    (he : t.error = r.error) : t = r := by
  cases r
  cases t
  obtain ⟨h1, h2⟩ := h
  simp only at h1 h2 he
  subst h1 h2 he
  rfl

theorem QmlXmlReader.newMetaObject_exports (l : TypeLocals) :
    (QmlXmlReader.newMetaObject l).m_exports = [] := by
  unfold QmlXmlReader.newMetaObject
  simp only
  split_ifs <;> rfl

theorem QmlXmlReader.newMetaObject_super (l : TypeLocals) :
    (QmlXmlReader.newMetaObject l).m_super = none := by
  unfold QmlXmlReader.newMetaObject
  simp only
  split_ifs <;> rfl

/-- What `readType` has done when the stream is not in error afterwards: the loop over the
attributes has ended, with the `name` attribute in `id`, the loop over the content has ended
with some meta-object, and the meta-object has been given its last export and has been
inserted. -/
theorem QmlXmlReader.readType_of_none (toInt : String → Option Int)
    (attributes : List (String × String)) (children : List XmlNode) (r : QmlXmlReader)
    (h : (QmlXmlReader.readType toInt attributes children r).error = none) :
    ∃ l m, QmlXmlReader.readTypeAttributes attributes (r, {}) = .ok (r, l)
      ∧ l.doInsert = true
      ∧ l.id = XmlNode.attributeValue attributes "name"
      ∧ QmlXmlReader.whileReadNextStartElement (QmlXmlReader.readTypeChild toInt) children
          (r, QmlXmlReader.newMetaObject l) = (r, m)
      ∧ QmlXmlReader.readType toInt attributes children r
          = r.insert l.id (m.addExport l.id "" ComponentVersion.noVersion)
      ∧ r.error = none := by
  unfold QmlXmlReader.readType at h ⊢
  cases hattr : QmlXmlReader.readTypeAttributes attributes (r, {}) with
  | error r1 =>
    rw [hattr] at h
    have := (QmlXmlReader.readTypeAttributes_error attributes _ _ hattr).1
    simp only at h
    rw [h] at this
    exact absurd this (by decide)
  | ok t =>
    obtain ⟨r1, l⟩ := t
    rw [hattr] at h
    simp only at h ⊢
    have hloop : (QmlXmlReader.whileReadNextStartElement (QmlXmlReader.readTypeChild toInt)
        children (r1, QmlXmlReader.newMetaObject l)).1.error = none := by
      split_ifs at h
      · exact h
      · exact h
    have hr1 := QmlXmlReader.whileReadNextStartElement_none _ _ _ hloop
    have hok := QmlXmlReader.readTypeAttributes_ok attributes _ _ hattr hr1
    simp only at hok
    obtain ⟨hr, hdo, _, hid⟩ := hok
    subst hr
    have hframe := (QmlXmlReader.readTypeChildren_frame toInt children
      (r1, QmlXmlReader.newMetaObject l)).1
    have heq := QmlXmlReader.eq_of_sameTable _ _ hframe (by rw [hloop]; exact hr1.symm)
    refine ⟨l, (QmlXmlReader.whileReadNextStartElement (QmlXmlReader.readTypeChild toInt)
      children (r1, QmlXmlReader.newMetaObject l)).2, rfl, hdo, hid, ?_, ?_, hr1⟩
    · exact Prod.ext heq rfl
    · rw [hdo]
      simp only [if_true]
      rw [heq]

/-! ## The reader of type descriptions: a malformed version -/

theorem QmlXmlReader.readExportAttr_sticky (toInt : String → Option Int)
    (attributes : List (String × String)) :
    ∀ (s : QmlXmlReader × ExportLocals), s.1.error.isSome = true →
      (attributes.foldl (QmlXmlReader.readExportAttr toInt) s).1.error.isSome = true := by
  induction attributes with
  | nil => intro s h; exact h
  | cons attr rest ih =>
    intro s h
    simp only [List.foldl_cons]
    apply ih
    unfold QmlXmlReader.readExportAttr
    split_ifs
    · exact h
    · exact h
    · split
      · rfl
      · exact h
    · exact h

/-- The loop over the attributes of an `export` element with a malformed version raises an
error. -/
theorem QmlXmlReader.readExportAttr_malformed (toInt : String → Option Int)
    (versionStr : String) (hmalformed : QmlXmlReader.readVersion toInt versionStr = none)
    (attributes : List (String × String)) (hversion : ("version", versionStr) ∈ attributes) :
    ∀ (s : QmlXmlReader × ExportLocals),
      (attributes.foldl (QmlXmlReader.readExportAttr toInt) s).1.error.isSome = true := by
  induction attributes with
  | nil => simp at hversion
  | cons attr rest ih =>
    intro s
    simp only [List.foldl_cons]
    rcases List.mem_cons.mp hversion with h | h
    · apply QmlXmlReader.readExportAttr_sticky
      rw [← h]
      simp [QmlXmlReader.readExportAttr, hmalformed, QmlXmlReader.invalidAttr,
        QmlXmlReader.raiseError]
    · exact ih h _

theorem QmlXmlReader.whileReadNextStartElement_singleton {α : Type}
    (body : String → List (String × String) → List XmlNode → QmlXmlReader × α →
      QmlXmlReader × α)
    (name : String) (attributes : List (String × String)) (children : List XmlNode)
    (s : QmlXmlReader × α) (h : s.1.error = none) :
    QmlXmlReader.whileReadNextStartElement body [.element name attributes children] s
      = body name attributes children s := by
  simp [QmlXmlReader.whileReadNextStartElement, h]

theorem QmlXmlReader.whileReadNextStartElement_cons {α : Type}
    (body : String → List (String × String) → List XmlNode → QmlXmlReader × α →
      QmlXmlReader × α)
    (name : String) (attributes : List (String × String)) (children rest : List XmlNode)
    (s : QmlXmlReader × α) (h : s.1.error = none) :
    QmlXmlReader.whileReadNextStartElement body (.element name attributes children :: rest) s
      = QmlXmlReader.whileReadNextStartElement body rest (body name attributes children s) := by
  simp [QmlXmlReader.whileReadNextStartElement, h]

/-- The loop of `readType` over a content in which an `exports` element holds an `export`
element with a malformed version, when the stream is not in error before that element: the
loop ends in error with the meta-object that the `export` element leaves, and reads neither
what follows in the `exports` element nor what follows it. -/
theorem QmlXmlReader.readTypeChildren_malformed (toInt : String → Option Int)
    (before after : List XmlNode) (exportsAttributes : List (String × String))
    (exportsBefore exportsAfter : List XmlNode) (exportAttributes : List (String × String))
    (exportContent : List XmlNode) (versionStr : String)
    (hversion : ("version", versionStr) ∈ exportAttributes)
    (hmalformed : QmlXmlReader.readVersion toInt versionStr = none)
    (s : QmlXmlReader × FakeMetaObject) (r : QmlXmlReader) (m : FakeMetaObject)
    (hreached : QmlXmlReader.whileReadNextStartElement (QmlXmlReader.readTypeChild toInt)
      (before ++ [.element "exports" exportsAttributes exportsBefore]) s = (r, m))
    (hr : r.error = none) :
    QmlXmlReader.whileReadNextStartElement (QmlXmlReader.readTypeChild toInt)
        (before ++ [.element "exports" exportsAttributes
          (exportsBefore ++ .element "export" exportAttributes exportContent :: exportsAfter)]
          ++ after) s
      = QmlXmlReader.readExportsChild toInt "export" exportAttributes exportContent (r, m)
    ∧ (QmlXmlReader.readExportsChild toInt "export" exportAttributes exportContent
        (r, m)).1.error.isSome = true := by
  have hbad : (QmlXmlReader.readExportsChild toInt "export" exportAttributes exportContent
      (r, m)).1.error.isSome = true := by
    unfold QmlXmlReader.readExportsChild
    simp only [if_true]
    rw [QmlXmlReader.skipCurrentElement_error _ _
      (QmlXmlReader.readExportAttr_malformed toInt versionStr hmalformed _ hversion _)]
    exact QmlXmlReader.readExportAttr_malformed toInt versionStr hmalformed _ hversion _
  refine ⟨?_, hbad⟩
  rw [QmlXmlReader.whileReadNextStartElement_append] at hreached
  have hs1 : (QmlXmlReader.whileReadNextStartElement (QmlXmlReader.readTypeChild toInt)
      before s).1.error = none := by
    apply QmlXmlReader.whileReadNextStartElement_none _ [.element "exports" exportsAttributes
      exportsBefore]
    rw [hreached]
    exact hr
  rw [QmlXmlReader.whileReadNextStartElement_singleton _ _ _ _ _ hs1] at hreached
  rw [QmlXmlReader.whileReadNextStartElement_append,
    QmlXmlReader.whileReadNextStartElement_append,
    QmlXmlReader.whileReadNextStartElement_singleton _ _ _ _ _ hs1]
  simp only [QmlXmlReader.readTypeChild, String.reduceEq, if_false, if_true,
    QmlXmlReader.readExports] at hreached ⊢
  rw [QmlXmlReader.whileReadNextStartElement_append, hreached,
    QmlXmlReader.whileReadNextStartElement_cons _ _ _ _ _ _ hr,
    QmlXmlReader.whileReadNextStartElement_error _ _ _ hbad,
    QmlXmlReader.whileReadNextStartElement_error _ _ _ hbad]

/-! ## The reader of type descriptions: the error does not depend on the table -/

theorem QmlXmlReader.unexpectedChild_error {α β : Type} (tag : String) (l : List XmlNode)
    (s : QmlXmlReader × α) (t : QmlXmlReader × β) (h : s.1.error = t.1.error) :
    (QmlXmlReader.whileReadNextStartElement (QmlXmlReader.unexpectedChild tag) l s).1.error
      = (QmlXmlReader.whileReadNextStartElement (QmlXmlReader.unexpectedChild tag) l
          t).1.error := by
  apply QmlXmlReader.whileReadNextStartElement_rel (fun s t => s.1.error = t.1.error)
  · intro s t hst; exact hst
  · intro n a c s t _; rfl
  · intro s t msg _; rfl
  · exact h

/-- A loop over the attributes whose body takes states with the same error and the same
local variables to such states does so itself. -/
theorem QmlXmlReader.foldl_error {α : Type}
    (f : QmlXmlReader × α → String × String → QmlXmlReader × α)
    (hf : ∀ s t a, s.1.error = t.1.error → s.2 = t.2 →
      (f s a).1.error = (f t a).1.error ∧ (f s a).2 = (f t a).2)
    (l : List (String × String)) :
    ∀ s t, s.1.error = t.1.error → s.2 = t.2 →
      (l.foldl f s).1.error = (l.foldl f t).1.error ∧ (l.foldl f s).2 = (l.foldl f t).2 := by
  induction l with
  | nil => intro s t h1 h2; exact ⟨h1, h2⟩
  | cons a rest ih =>
    intro s t h1 h2
    simp only [List.foldl_cons]
    exact ih _ _ (hf s t a h1 h2).1 (hf s t a h1 h2).2

theorem QmlXmlReader.readPropertyAttributes_error (attributes : List (String × String)) :
    ∀ (s t : QmlXmlReader × PropertyLocals), s.1.error = t.1.error → s.2 = t.2 →
      (∃ s1 t1 l, QmlXmlReader.readPropertyAttributes attributes s = .ok (s1, l)
          ∧ QmlXmlReader.readPropertyAttributes attributes t = .ok (t1, l)
          ∧ s1.error = t1.error)
      ∨ (∃ s1 t1, QmlXmlReader.readPropertyAttributes attributes s = .error s1
          ∧ QmlXmlReader.readPropertyAttributes attributes t = .error t1
          ∧ s1.error = t1.error) := by
  induction attributes with
  | nil =>
    intro s t h1 h2
    left
    exact ⟨s.1, t.1, s.2, rfl, by rw [h2]; rfl, h1⟩
  | cons attr rest ih =>
    intro s t h1 h2
    unfold QmlXmlReader.readPropertyAttributes
    split_ifs
    · exact ih _ _ h1 (by rw [h2])
    · exact ih _ _ h1 (by rw [h2])
    · exact ih _ _ h1 (by rw [h2])
    · exact ih _ _ h1 (by rw [h2])
    · right
      exact ⟨_, _, rfl, rfl, rfl⟩
    · exact ih _ _ h1 h2

theorem QmlXmlReader.readProperty_error (attributes : List (String × String))
    (children : List XmlNode) (s t : QmlXmlReader × FakeMetaObject)
    (h : s.1.error = t.1.error) :
    (QmlXmlReader.readProperty attributes children s).1.error
      = (QmlXmlReader.readProperty attributes children t).1.error := by
  unfold QmlXmlReader.readProperty
  rcases QmlXmlReader.readPropertyAttributes_error attributes (s.1, {}) (t.1, {}) h rfl with
    ⟨s1, t1, l, hs, ht, he⟩ | ⟨s1, t1, hs, ht, he⟩
  · rw [hs, ht]
    simp only
    split_ifs
    · exact QmlXmlReader.unexpectedChild_error _ _ _ _ rfl
    · exact QmlXmlReader.unexpectedChild_error _ _ _ _ rfl
    · exact QmlXmlReader.unexpectedChild_error _ _ _ _ he
  · rw [hs, ht]
    exact he

theorem QmlXmlReader.readEnumeratorAttr_error (toInt : String → Option Int)
    (s t : QmlXmlReader × EnumeratorLocals) (a : String × String)
    (h1 : s.1.error = t.1.error) (h2 : s.2 = t.2) :
    (QmlXmlReader.readEnumeratorAttr toInt s a).1.error
        = (QmlXmlReader.readEnumeratorAttr toInt t a).1.error
      ∧ (QmlXmlReader.readEnumeratorAttr toInt s a).2
        = (QmlXmlReader.readEnumeratorAttr toInt t a).2 := by
  unfold QmlXmlReader.readEnumeratorAttr
  split_ifs
  · exact ⟨h1, by rw [h2]⟩
  · split
    · exact ⟨h1, by rw [h2]⟩
    · exact ⟨rfl, by rw [h2]⟩
  · exact ⟨h1, h2⟩

theorem QmlXmlReader.readEnumerator_error (toInt : String → Option Int)
    (attributes : List (String × String)) (children : List XmlNode)
    (s t : QmlXmlReader × FakeMetaEnum) (h : s.1.error = t.1.error) :
    (QmlXmlReader.readEnumerator toInt attributes children s).1.error
      = (QmlXmlReader.readEnumerator toInt attributes children t).1.error := by
  unfold QmlXmlReader.readEnumerator
  have hattr := QmlXmlReader.foldl_error (QmlXmlReader.readEnumeratorAttr toInt)
    (QmlXmlReader.readEnumeratorAttr_error toInt) attributes (s.1, {}) (t.1, {}) h rfl
  simp only
  rw [← hattr.2]
  split_ifs
  · exact QmlXmlReader.unexpectedChild_error _ _ _ _ rfl
  · exact QmlXmlReader.unexpectedChild_error _ _ _ _ hattr.1

theorem QmlXmlReader.readEnum_error (toInt : String → Option Int)
    (attributes : List (String × String)) (children : List XmlNode)
    (s t : QmlXmlReader × FakeMetaObject) (h : s.1.error = t.1.error) :
    (QmlXmlReader.readEnum toInt attributes children s).1.error
      = (QmlXmlReader.readEnum toInt attributes children t).1.error := by
  unfold QmlXmlReader.readEnum
  simp only
  split_ifs
  · rfl
  · apply QmlXmlReader.whileReadNextStartElement_rel (fun s t => s.1.error = t.1.error)
    · intro s t hst; exact hst
    · intro n a c s t hst
      unfold QmlXmlReader.readEnumChild
      split_ifs
      · exact QmlXmlReader.readEnumerator_error toInt a c s t hst
      · rfl
    · intro s t msg _; rfl
    · exact h

theorem QmlXmlReader.readParam_error (attributes : List (String × String))
    (children : List XmlNode) (s t : QmlXmlReader × FakeMetaMethod)
    (h : s.1.error = t.1.error) :
    (QmlXmlReader.readParam attributes children s).1.error
      = (QmlXmlReader.readParam attributes children t).1.error := by
  unfold QmlXmlReader.readParam
  simp only
  split_ifs
  · exact QmlXmlReader.unexpectedChild_error _ _ _ _ rfl
  · exact QmlXmlReader.unexpectedChild_error _ _ _ _ h

theorem QmlXmlReader.readParamChild_error (tag : String) (children : List XmlNode)
    (s t : QmlXmlReader × FakeMetaMethod) (h : s.1.error = t.1.error) :
    (QmlXmlReader.whileReadNextStartElement (QmlXmlReader.readParamChild tag) children
        s).1.error
      = (QmlXmlReader.whileReadNextStartElement (QmlXmlReader.readParamChild tag) children
        t).1.error := by
  apply QmlXmlReader.whileReadNextStartElement_rel (fun s t => s.1.error = t.1.error)
  · intro s t hst; exact hst
  · intro n a c s t hst
    unfold QmlXmlReader.readParamChild
    split_ifs
    · exact QmlXmlReader.readParam_error a c s t hst
    · rfl
  · intro s t msg _; rfl
  · exact h

theorem QmlXmlReader.readSignal_error (attributes : List (String × String))
    (children : List XmlNode) (s t : QmlXmlReader × FakeMetaObject)
    (h : s.1.error = t.1.error) :
    (QmlXmlReader.readSignal attributes children s).1.error
      = (QmlXmlReader.readSignal attributes children t).1.error := by
  unfold QmlXmlReader.readSignal
  simp only
  split_ifs
  · rfl
  · exact QmlXmlReader.readParamChild_error "signal" children _ _ h

theorem QmlXmlReader.readMethod_error (attributes : List (String × String))
    (children : List XmlNode) (s t : QmlXmlReader × FakeMetaObject)
    (h : s.1.error = t.1.error) :
    (QmlXmlReader.readMethod attributes children s).1.error
      = (QmlXmlReader.readMethod attributes children t).1.error := by
  unfold QmlXmlReader.readMethod
  simp only
  split_ifs
  · rfl
  · exact QmlXmlReader.readParamChild_error "method" children _ _ h

theorem QmlXmlReader.skipCurrentElement_congr (r t : QmlXmlReader) (children : List XmlNode)
    (h : r.error = t.error) :
    (r.skipCurrentElement children).error = (t.skipCurrentElement children).error := by
  unfold QmlXmlReader.skipCurrentElement
  rw [h]
  split_ifs
  · exact h
  · split
    · rfl
    · exact h

theorem QmlXmlReader.readExportAttr_error (toInt : String → Option Int)
    (s t : QmlXmlReader × ExportLocals) (a : String × String)
    (h1 : s.1.error = t.1.error) (h2 : s.2 = t.2) :
    (QmlXmlReader.readExportAttr toInt s a).1.error
        = (QmlXmlReader.readExportAttr toInt t a).1.error
      ∧ (QmlXmlReader.readExportAttr toInt s a).2
        = (QmlXmlReader.readExportAttr toInt t a).2 := by
  unfold QmlXmlReader.readExportAttr
  split_ifs
  · exact ⟨h1, by rw [h2]⟩
  · exact ⟨h1, by rw [h2]⟩
  · split
    · exact ⟨rfl, h2⟩
    · exact ⟨h1, by rw [h2]⟩
  · exact ⟨h1, h2⟩

theorem QmlXmlReader.readExports_error (toInt : String → Option Int)
    (children : List XmlNode) (s t : QmlXmlReader × FakeMetaObject)
    (h : s.1.error = t.1.error) :
    (QmlXmlReader.readExports toInt children s).1.error
      = (QmlXmlReader.readExports toInt children t).1.error := by
  unfold QmlXmlReader.readExports
  apply QmlXmlReader.whileReadNextStartElement_rel (fun s t => s.1.error = t.1.error)
  · intro s t hst; exact hst
  · intro n a c s t hst
    unfold QmlXmlReader.readExportsChild
    split_ifs
    · exact QmlXmlReader.skipCurrentElement_congr _ _ _
        (QmlXmlReader.foldl_error (QmlXmlReader.readExportAttr toInt)
          (QmlXmlReader.readExportAttr_error toInt) a (s.1, {}) (t.1, {}) hst rfl).1
    · exact QmlXmlReader.skipCurrentElement_congr _ _ _ rfl
  · intro s t msg _; rfl
  · exact h

theorem QmlXmlReader.readTypeChild_error (toInt : String → Option Int) (name : String)
    (attributes : List (String × String)) (children : List XmlNode)
    (s t : QmlXmlReader × FakeMetaObject) (h : s.1.error = t.1.error) :
    (QmlXmlReader.readTypeChild toInt name attributes children s).1.error
      = (QmlXmlReader.readTypeChild toInt name attributes children t).1.error := by
  unfold QmlXmlReader.readTypeChild
  split_ifs
  · exact QmlXmlReader.readProperty_error _ _ _ _ h
  · exact QmlXmlReader.readEnum_error _ _ _ _ _ h
  · exact QmlXmlReader.readSignal_error _ _ _ _ h
  · exact QmlXmlReader.readMethod_error _ _ _ _ h
  · exact QmlXmlReader.readExports_error _ _ _ _ h
  · rfl

theorem QmlXmlReader.readTypeAttributes_congr (attributes : List (String × String)) :
    ∀ (s t : QmlXmlReader × TypeLocals), s.1.error = t.1.error → s.2 = t.2 →
      (∃ s1 t1 l, QmlXmlReader.readTypeAttributes attributes s = .ok (s1, l)
          ∧ QmlXmlReader.readTypeAttributes attributes t = .ok (t1, l)
          ∧ s1.error = t1.error)
      ∨ (∃ s1 t1, QmlXmlReader.readTypeAttributes attributes s = .error s1
          ∧ QmlXmlReader.readTypeAttributes attributes t = .error t1
          ∧ s1.error = t1.error) := by
  induction attributes with
  | nil =>
    intro s t h1 h2
    left
    exact ⟨s.1, t.1, s.2, rfl, by rw [h2]; rfl, h1⟩
  | cons attr rest ih =>
    intro s t h1 h2
    unfold QmlXmlReader.readTypeAttributes
    dsimp only
    rw [← h2]
    split_ifs
    · right
      exact ⟨_, _, rfl, rfl, rfl⟩
    · exact ih _ _ h1 rfl
    · exact ih _ _ h1 rfl
    · exact ih _ _ rfl rfl
    · exact ih _ _ h1 rfl
    · exact ih _ _ rfl rfl
    · exact ih _ _ h1 rfl
    · exact ih _ _ h1 h2

/-- The error in which `readType` leaves the stream depends on the element and on the error
before, not on the table. -/
theorem QmlXmlReader.readType_error (toInt : String → Option Int)
    (attributes : List (String × String)) (children : List XmlNode) (r t : QmlXmlReader)
    (h : r.error = t.error) :
    (QmlXmlReader.readType toInt attributes children r).error
      = (QmlXmlReader.readType toInt attributes children t).error := by
  unfold QmlXmlReader.readType
  rcases QmlXmlReader.readTypeAttributes_congr attributes (r, {}) (t, {}) h rfl with
    ⟨s1, t1, l, hs, ht, he⟩ | ⟨s1, t1, hs, ht, he⟩
  · rw [hs, ht]
    simp only
    have hloop : (QmlXmlReader.whileReadNextStartElement (QmlXmlReader.readTypeChild toInt)
          children (s1, QmlXmlReader.newMetaObject l)).1.error
        = (QmlXmlReader.whileReadNextStartElement (QmlXmlReader.readTypeChild toInt)
          children (t1, QmlXmlReader.newMetaObject l)).1.error := by
      apply QmlXmlReader.whileReadNextStartElement_rel (fun s t => s.1.error = t.1.error)
      · intro s t hst; exact hst
      · intro n a c s t hst
        exact QmlXmlReader.readTypeChild_error toInt n a c s t hst
      · intro s t msg _; rfl
      · exact he
    split_ifs
    · exact hloop
    · exact hloop
  · rw [hs, ht]
    exact he

/-- Whether `QmlXmlReader::operator()` accepts a document, and the error message, do not
depend on the table that it is given. -/
theorem QmlXmlReader.call_error (toInt : String → Option Int) (document : XmlNode)
    (metas metas2 : List FakeMetaObject) (objects objects2 : List (String × Nat)) :
    (QmlXmlReader.call toInt document metas objects).1
        = (QmlXmlReader.call toInt document metas2 objects2).1
      ∧ (QmlXmlReader.call toInt document metas objects).2.error
        = (QmlXmlReader.call toInt document metas2 objects2).2.error := by
  have h : (QmlXmlReader.call toInt document metas objects).2.error
      = (QmlXmlReader.call toInt document metas2 objects2).2.error := by
    unfold QmlXmlReader.call
    cases document with
    | notWellFormed errorString => rfl
    | element name attributes children =>
      simp only
      split_ifs
      · unfold QmlXmlReader.readModule
        apply QmlXmlReader.whileReadNextStartElement_rel (fun s t => s.1.error = t.1.error)
        · intro s t hst; exact hst
        · intro n a c s t hst
          unfold QmlXmlReader.readModuleChild
          split_ifs
          · exact QmlXmlReader.readType_error toInt a c s.1 t.1 hst
          · rfl
        · intro s t msg _; rfl
        · rfl
      · rfl
  refine ⟨?_, h⟩
  have h1 : ∀ metas objects, (QmlXmlReader.call toInt document metas objects).1
      = !(QmlXmlReader.call toInt document metas objects).2.error.isSome := fun _ _ => rfl
  rw [h1, h1, h]

/-! ## The reader of type descriptions: parsed types have no superclass yet -/

theorem QmlXmlReader.readTypeAttributes_frame (attributes : List (String × String)) :
    ∀ (s t : QmlXmlReader × TypeLocals),
      QmlXmlReader.readTypeAttributes attributes s = .ok t →
        QmlXmlReader.SameTable s.1 t.1 := by
  induction attributes with
  | nil =>
    intro s t h
    simp only [QmlXmlReader.readTypeAttributes, Except.ok.injEq] at h
    rw [← h]
    exact QmlXmlReader.sameTable_refl _
  | cons attr rest ih =>
    intro s t h
    unfold QmlXmlReader.readTypeAttributes at h
    dsimp only at h
    split_ifs at h
    all_goals
      have := ih _ _ h
      exact this

/-- `readType` adds at most one meta-object to the memory, at its end, and that one has no
superclass; the meta-objects before are as they were. -/
theorem QmlXmlReader.readType_metas (toInt : String → Option Int)
    (attributes : List (String × String)) (children : List XmlNode) (r : QmlXmlReader) :
    (QmlXmlReader.readType toInt attributes children r).metas = r.metas
    ∨ ∃ m : FakeMetaObject, m.m_super = none
        ∧ (QmlXmlReader.readType toInt attributes children r).metas = r.metas ++ [m] := by
  unfold QmlXmlReader.readType
  cases hattr : QmlXmlReader.readTypeAttributes attributes (r, {}) with
  | error r1 =>
    left
    exact (QmlXmlReader.readTypeAttributes_error attributes _ _ hattr).2.1
  | ok t =>
    obtain ⟨r1, l⟩ := t
    have h1 := QmlXmlReader.readTypeAttributes_frame attributes _ _ hattr
    have h2 := QmlXmlReader.readTypeChildren_frame toInt children
      (r1, QmlXmlReader.newMetaObject l)
    simp only at h1 h2 ⊢
    split_ifs
    · right
      refine ⟨(QmlXmlReader.whileReadNextStartElement (QmlXmlReader.readTypeChild toInt)
          children (r1, QmlXmlReader.newMetaObject l)).2.addExport l.id ""
          ComponentVersion.noVersion, ?_, ?_⟩
      · show ((QmlXmlReader.whileReadNextStartElement (QmlXmlReader.readTypeChild toInt)
          children (r1, QmlXmlReader.newMetaObject l)).2).m_super = none
        rw [h2.2.1]
        exact QmlXmlReader.newMetaObject_super l
      · simp only [QmlXmlReader.insert]
        rw [h2.1.1, h1.1]
    · left
      rw [h2.1.1, h1.1]

theorem metaAt_append_super (metas : List FakeMetaObject) (m : FakeMetaObject)
    (hm : m.m_super = none) (h : ∀ a, (metaAt metas a).m_super = none) :
    ∀ a, (metaAt (metas ++ [m]) a).m_super = none := by
  intro a
  unfold metaAt at h ⊢
  rw [List.getD_eq_getElem?_getD]
  by_cases hlt : a < metas.length
  · rw [List.getElem?_append_left hlt]
    have := h a
    rw [List.getD_eq_getElem?_getD] at this
    exact this
  · rw [List.getElem?_append_right (Nat.le_of_not_lt hlt)]
    cases hd : a - metas.length with
    | zero => simpa using hm
    | succ n =>
      simp only [List.getElem?_cons_succ, List.getElem?_nil, Option.getD_none]
      rfl

/-- The meta-objects that `QmlXmlReader::operator()` leaves in the memory have no superclass
when those before had none: the reader sets no superclass pointer. -/
theorem QmlXmlReader.call_parsed (toInt : String → Option Int) (document : XmlNode)
    (metas : List FakeMetaObject) (objects : List (String × Nat))
    (h : ∀ a, (metaAt metas a).m_super = none) :
    ∀ a, (metaAt (QmlXmlReader.call toInt document metas objects).2.metas a).m_super
      = none := by
  unfold QmlXmlReader.call
  cases document with
  | notWellFormed errorString => exact h
  | element name attributes children =>
    simp only
    split_ifs
    · unfold QmlXmlReader.readModule
      apply QmlXmlReader.whileReadNextStartElement_invariant
        (fun s : QmlXmlReader × Unit => ∀ a, (metaAt s.1.metas a).m_super = none)
      · intro n a c s hs
        unfold QmlXmlReader.readModuleChild
        split_ifs
        · rcases QmlXmlReader.readType_metas toInt a c s.1 with hm | ⟨m, hm, hmetas⟩
          · simp only
            rw [hm]
            exact hs
          · simp only
            rw [hmetas]
            exact metaAt_append_super _ m hm hs
        · exact hs
      · intro s msg hs
        exact hs
      · exact h
    · exact h

/-- C15. A `type` element that is read without an error is inserted under its `name`
attribute, and the export list of its meta-object consists of one record for every explicit
`export` element, in document order, followed by exactly one implicit record with the empty
package, the `name` attribute as the type name and no version; its length is the number of
the explicit exports plus one. -/
theorem QmlXmlReader.readType_exports (toInt : String → Option Int)
    (attributes : List (String × String)) (children : List XmlNode) (r : QmlXmlReader)
    (h : (QmlXmlReader.readType toInt attributes children r).error = none) :
    QMap.value (QmlXmlReader.readType toInt attributes children r)._objects
        (XmlNode.attributeValue attributes "name") = some r.metas.length
      ∧ (metaAt (QmlXmlReader.readType toInt attributes children r).metas
            r.metas.length).exports
          = (XmlNode.exportElements children).map (XmlNode.exportRecord toInt)
            ++ [Export.record "" (XmlNode.attributeValue attributes "name")
                  ComponentVersion.noVersion]
      ∧ (metaAt (QmlXmlReader.readType toInt attributes children r).metas
            r.metas.length).exports.length
          = (XmlNode.exportElements children).length + 1 := by
  obtain ⟨l, m, _, _, hid, hloop, hread, _⟩ :=
    QmlXmlReader.readType_of_none toInt attributes children r h
  have hexports := QmlXmlReader.readTypeChildren_exports toInt children
    (r, QmlXmlReader.newMetaObject l) (by rw [hloop]; rw [hread] at h; exact h)
  rw [hloop] at hexports
  simp only [QmlXmlReader.newMetaObject_exports, List.nil_append] at hexports
  have hmeta : metaAt (QmlXmlReader.readType toInt attributes children r).metas r.metas.length
      = m.addExport l.id "" ComponentVersion.noVersion := by
    rw [hread]
    simp [QmlXmlReader.insert, metaAt, List.getD]
  rw [hmeta]
  refine ⟨?_, ?_, ?_⟩
  · rw [hread, ← hid]
    simp [QmlXmlReader.insert, QMap.value_insert]
  · rw [← hid]
    simp [FakeMetaObject.exports, FakeMetaObject.addExport_exports, hexports]
  · simp [FakeMetaObject.exports, FakeMetaObject.addExport_exports, hexports]

/-- Witness for C15: the `type` element `Item` with two explicit exports, read into the empty
table. -/
theorem QmlXmlReader.readType_exports_witness :
    (QmlXmlReader.readType decimalToInt [("name", "Item")] exportsScenarioContent {}).error
        = none
      ∧ (metaAt (QmlXmlReader.readType decimalToInt [("name", "Item")]
            exportsScenarioContent {}).metas 0).exports.length = 3 :=
  ⟨by decide,
    (QmlXmlReader.readType_exports decimalToInt [("name", "Item")] exportsScenarioContent {}
      (by decide)).2.2⟩

/-- C14 (amended). When an `export` element of a `type` element has a malformed
version string and the reader reaches that element without an error, the reader reports an
error and stops reading there: what follows the element in its `exports` element and in the
`type` element is not read (the result is that of the content cut off after the element), the
type itself is inserted under its `name` attribute, and its export list begins with the
records of the explicit `export` elements before the malformed one and ends with the implicit
record. -/
theorem QmlXmlReader.readType_malformed_version (toInt : String → Option Int)
    (attributes : List (String × String)) (before after : List XmlNode)
    (exportsAttributes : List (String × String)) (exportsBefore exportsAfter : List XmlNode)
    (exportAttributes : List (String × String)) (exportContent : List XmlNode)
    (versionStr : String) (r : QmlXmlReader)
    (hversion : ("version", versionStr) ∈ exportAttributes)
    (hmalformed : QmlXmlReader.readVersion toInt versionStr = none)
    (hreached : (QmlXmlReader.readType toInt attributes
      (before ++ [.element "exports" exportsAttributes exportsBefore]) r).error = none) :
    (QmlXmlReader.readType toInt attributes
        (before ++ [.element "exports" exportsAttributes
          (exportsBefore ++ .element "export" exportAttributes exportContent :: exportsAfter)]
          ++ after) r).error.isSome = true
    ∧ QmlXmlReader.readType toInt attributes
        (before ++ [.element "exports" exportsAttributes
          (exportsBefore ++ .element "export" exportAttributes exportContent :: exportsAfter)]
          ++ after) r
      = QmlXmlReader.readType toInt attributes
        (before ++ [.element "exports" exportsAttributes
          (exportsBefore ++ .element "export" exportAttributes exportContent :: [])] ++ []) r
    ∧ QMap.value (QmlXmlReader.readType toInt attributes
        (before ++ [.element "exports" exportsAttributes
          (exportsBefore ++ .element "export" exportAttributes exportContent :: exportsAfter)]
          ++ after) r)._objects (XmlNode.attributeValue attributes "name")
      = some r.metas.length
    ∧ ∃ rest, (metaAt (QmlXmlReader.readType toInt attributes
        (before ++ [.element "exports" exportsAttributes
          (exportsBefore ++ .element "export" exportAttributes exportContent :: exportsAfter)]
          ++ after) r).metas r.metas.length).exports
      = (XmlNode.exportElements
            (before ++ [.element "exports" exportsAttributes exportsBefore])).map
          (XmlNode.exportRecord toInt)
        ++ rest
        ++ [Export.record "" (XmlNode.attributeValue attributes "name")
              ComponentVersion.noVersion] := by
  obtain ⟨l, m, hattr, hdo, hid, hloop, hread, hr⟩ :=
    QmlXmlReader.readType_of_none toInt attributes _ r hreached
  have hexports := QmlXmlReader.readTypeChildren_exports toInt _
    (r, QmlXmlReader.newMetaObject l) (by rw [hloop]; exact hr)
  rw [hloop] at hexports
  simp only [QmlXmlReader.newMetaObject_exports, List.nil_append] at hexports
  have hwhole := fun exportsAfter after =>
    QmlXmlReader.readTypeChildren_malformed toInt before after exportsAttributes
      exportsBefore exportsAfter exportAttributes exportContent versionStr hversion hmalformed
      (r, QmlXmlReader.newMetaObject l) r m hloop hr
  have hframe := QmlXmlReader.readExportsChild_frame toInt "export" exportAttributes
    exportContent (r, m)
  have hread2 : ∀ exportsAfter after, QmlXmlReader.readType toInt attributes
      (before ++ [.element "exports" exportsAttributes
        (exportsBefore ++ .element "export" exportAttributes exportContent :: exportsAfter)]
        ++ after) r
      = (QmlXmlReader.readExportsChild toInt "export" exportAttributes exportContent
          (r, m)).1.insert l.id
        ((QmlXmlReader.readExportsChild toInt "export" exportAttributes exportContent
          (r, m)).2.addExport l.id "" ComponentVersion.noVersion) := by
    intro exportsAfter after
    unfold QmlXmlReader.readType
    rw [hattr]
    simp only
    rw [(hwhole exportsAfter after).1, hdo]
    simp only [if_true]
  rw [hread2 exportsAfter after, hread2 [] []]
  refine ⟨(hwhole exportsAfter after).2, rfl, ?_, ?_⟩
  · rw [← hid]
    simp only [QmlXmlReader.insert, hframe.1.1, hframe.1.2]
    simp [QMap.value_insert]
  · refine ⟨[XmlNode.exportRecord toInt exportAttributes], ?_⟩
    have hmeta : metaAt ((QmlXmlReader.readExportsChild toInt "export" exportAttributes
          exportContent (r, m)).1.insert l.id
        ((QmlXmlReader.readExportsChild toInt "export" exportAttributes exportContent
          (r, m)).2.addExport l.id "" ComponentVersion.noVersion)).metas r.metas.length
        = (QmlXmlReader.readExportsChild toInt "export" exportAttributes exportContent
          (r, m)).2.addExport l.id "" ComponentVersion.noVersion := by
      simp [QmlXmlReader.insert, metaAt, List.getD, hframe.1.1]
    rw [hmeta, ← hid, ← hexports]
    simp only [FakeMetaObject.exports, FakeMetaObject.addExport_exports,
      QmlXmlReader.readExportsChild, if_true, QmlXmlReader.readExportAttr_locals]
    rfl

/-- Witness for C14: the `type` element `Item` whose second `export` element of three has the
version `x.7`. -/
theorem QmlXmlReader.readType_malformed_version_witness :
    (QmlXmlReader.readType decimalToInt [("name", "Item")] malformedScenarioContent
        {}).error.isSome = true
    ∧ QMap.value (QmlXmlReader.readType decimalToInt [("name", "Item")]
        malformedScenarioContent {})._objects "Item" = some 0 :=
  have h := QmlXmlReader.readType_malformed_version decimalToInt [("name", "Item")]
    [.element "property" [("name", "width"), ("type", "int")] []] [] []
    [.element "export" [("module", "Qt"), ("type", "Item"), ("version", "4.7")] []]
    [.element "export" [("module", "QtQuick"), ("type", "Item"), ("version", "1")] []]
    [("module", "Qt"), ("type", "Item"), ("version", "x.7")] [] "x.7" {}
    (by decide) (by decide) (by decide)
  ⟨h.1, h.2.2.1⟩

/-- C14 (counterexample). In the `type` element `Item` the second `export` element of three
has the malformed version `x.7`. The meta-object that is inserted has a record for that
element, with no version, and has no record for the `export` element that follows it. -/
theorem QmlXmlReader.readType_malformed_version_counterexample :
    (QmlXmlReader.readType decimalToInt [("name", "Item")] malformedScenarioContent
        {}).error = some "invalid value 'x.7' for attribute version in <export>"
    ∧ (metaAt (QmlXmlReader.readType decimalToInt [("name", "Item")]
        malformedScenarioContent {}).metas 0).exports.map (fun e => e.packageNameVersion)
      = ["Qt.Item 4.7", "Qt.Item -1.-1", ".Item -1.-1"] := by
  decide

/-- C11 (what the code does). Of a module document with the well-formed `type` element `Item`
and a `type` element that has no `name` attribute, in either order, the reader registers both
types, the second one under the empty name, and reports no error. -/
theorem QmlXmlReader.call_type_without_name (toInt : String → Option Int) :
    (QmlXmlReader.call toInt namelessScenarioDocument [] []).1 = true
    ∧ (QmlXmlReader.call toInt namelessScenarioDocument [] []).2.error = none
    ∧ (QmlXmlReader.call toInt namelessScenarioDocument [] []).2._objects
        = [("", 1), ("Item", 0)]
    ∧ (QmlXmlReader.call toInt namelessFirstScenarioDocument [] []).1 = true
    ∧ (QmlXmlReader.call toInt namelessFirstScenarioDocument [] []).2.error = none
    ∧ (QmlXmlReader.call toInt namelessFirstScenarioDocument [] []).2._objects
        = [("", 0), ("Item", 1)] := by
  have h1 : (QmlXmlReader.call toInt namelessScenarioDocument [] []).2._objects
      = QMap.insert (QMap.insert [] "Item" 0) "" 1 := rfl
  have h2 : (QmlXmlReader.call toInt namelessFirstScenarioDocument [] []).2._objects
      = QMap.insert (QMap.insert [] "" 0) "Item" 1 := rfl
  refine ⟨rfl, rfl, ?_, rfl, rfl, ?_⟩
  · rw [h1]
    simp [QMap.insert]
    decide
  · rw [h2]
    simp [QMap.insert]

/-- C12 (what the code does). A `type` element whose `extends` attribute equals its own
non-empty `name` attribute, in either order of the two attributes, is inserted into the table
under that name, with itself named as the superclass, and no error is reported. -/
theorem QmlXmlReader.readType_self_extension (toInt : String → Option Int) (name : String)
    (hname : name ≠ "") (r : QmlXmlReader) :
    (QmlXmlReader.readType toInt [("name", name), ("extends", name)] [] r).error = r.error
    ∧ QMap.value (QmlXmlReader.readType toInt [("name", name), ("extends", name)] []
        r)._objects name = some r.metas.length
    ∧ (metaAt (QmlXmlReader.readType toInt [("name", name), ("extends", name)] [] r).metas
        r.metas.length).superclassName = name
    ∧ (QmlXmlReader.readType toInt [("extends", name), ("name", name)] [] r).error = r.error
    ∧ QMap.value (QmlXmlReader.readType toInt [("extends", name), ("name", name)] []
        r)._objects name = some r.metas.length
    ∧ (metaAt (QmlXmlReader.readType toInt [("extends", name), ("name", name)] [] r).metas
        r.metas.length).superclassName = name := by
  have hname2 : ¬ (name = "") := hname
  have h1 : QmlXmlReader.readType toInt [("name", name), ("extends", name)] [] r
      = r.insert name ((FakeMetaObject.setSuperclassName {} name).addExport name ""
          ComponentVersion.noVersion) := by
    simp [QmlXmlReader.readType, QmlXmlReader.readTypeAttributes, hname2,
      QmlXmlReader.whileReadNextStartElement, QmlXmlReader.newMetaObject]
  have h2 : QmlXmlReader.readType toInt [("extends", name), ("name", name)] [] r
      = r.insert name ((FakeMetaObject.setSuperclassName {} name).addExport name ""
          ComponentVersion.noVersion) := by
    simp [QmlXmlReader.readType, QmlXmlReader.readTypeAttributes, hname2,
      QmlXmlReader.whileReadNextStartElement, QmlXmlReader.newMetaObject]
  rw [h1, h2]
  have hmeta : metaAt (r.insert name ((FakeMetaObject.setSuperclassName {} name).addExport
      name "" ComponentVersion.noVersion)).metas r.metas.length
      = (FakeMetaObject.setSuperclassName {} name).addExport name ""
          ComponentVersion.noVersion := by
    simp [QmlXmlReader.insert, metaAt, List.getD]
  rw [hmeta]
  have hvalue : QMap.value (r.insert name ((FakeMetaObject.setSuperclassName {} name).addExport
      name "" ComponentVersion.noVersion))._objects name = some r.metas.length := by
    simp [QmlXmlReader.insert, QMap.value_insert]
  exact ⟨rfl, hvalue, rfl, rfl, hvalue, rfl⟩

/-- Witness for C12: the `type` element `Item` that extends `Item`, read into the empty
table. -/
theorem QmlXmlReader.readType_self_extension_witness :
    (QmlXmlReader.readType decimalToInt [("name", "Item"), ("extends", "Item")] [] {}).error
        = none
    ∧ QMap.value (QmlXmlReader.readType decimalToInt [("name", "Item"), ("extends", "Item")] []
        {})._objects "Item" = some 0 :=
  have h := QmlXmlReader.readType_self_extension decimalToInt "Item" (by decide) {}
  ⟨h.1, h.2.1⟩

/-! ## The loader of type descriptions -/

theorem CppQmlTypesLoader.loadFile_errorMsgs (toInt : String → Option Int) (s : LoadLocals)
    (xmlFile : XmlFile) :
    (s.errorMsgs ≠ [] → (CppQmlTypesLoader.loadFile toInt s xmlFile).errorMsgs ≠ [])
    ∧ (xmlFile.malformed toInt = true →
        (CppQmlTypesLoader.loadFile toInt s xmlFile).errorMsgs ≠ []) := by
  unfold CppQmlTypesLoader.loadFile XmlFile.malformed
  cases hc : xmlFile.contents with
  | error e => simp
  | ok document =>
    simp only
    rw [(QmlXmlReader.call_error toInt document s.metas [] s.newObjects []).1]
    constructor
    · intro hne
      split_ifs
      · simp
      · exact hne
    · intro hm
      rw [if_pos hm]
      simp

theorem CppQmlTypesLoader.loadFiles_errorMsgs (toInt : String → Option Int)
    (xmlFiles : List XmlFile) :
    ∀ (s : LoadLocals),
      (s.errorMsgs ≠ [] →
        (xmlFiles.foldl (CppQmlTypesLoader.loadFile toInt) s).errorMsgs ≠ [])
      ∧ ((∃ xmlFile ∈ xmlFiles, xmlFile.malformed toInt = true) →
        (xmlFiles.foldl (CppQmlTypesLoader.loadFile toInt) s).errorMsgs ≠ []) := by
  induction xmlFiles with
  | nil =>
    intro s
    exact ⟨fun h => h, fun ⟨f, hf, _⟩ => by simp at hf⟩
  | cons xmlFile rest ih =>
    intro s
    simp only [List.foldl_cons]
    have hfile := CppQmlTypesLoader.loadFile_errorMsgs toInt s xmlFile
    refine ⟨fun h => (ih _).1 (hfile.1 h), ?_⟩
    rintro ⟨f, hf, hm⟩
    rcases List.mem_cons.mp hf with h | h
    · subst h
      exact (ih _).1 (hfile.2 hm)
    · exact (ih _).2 ⟨f, h, hm⟩

/-- C13 (amended). When at least one file of the batch is malformed, the error
list that `CppQmlTypesLoader::load` returns is not empty and `builtinObjects` is as before the
call: no type of the batch is added, those of the well-formed files included. -/
theorem CppQmlTypesLoader.load_malformed (toInt : String → Option Int)
    (loader : CppQmlTypesLoader) (xmlFiles : List XmlFile) (xmlFile : XmlFile)
    (hmem : xmlFile ∈ xmlFiles) (hmalformed : xmlFile.malformed toInt = true) :
    (CppQmlTypesLoader.load toInt loader xmlFiles).1 ≠ []
    ∧ (CppQmlTypesLoader.load toInt loader xmlFiles).2.builtinObjects
        = loader.builtinObjects := by
  have h := (CppQmlTypesLoader.loadFiles_errorMsgs toInt xmlFiles
    { metas := loader.metas, newObjects := [], errorMsgs := [] }).2 ⟨xmlFile, hmem, hmalformed⟩
  unfold CppQmlTypesLoader.load
  simp only
  rw [if_neg h]
  exact ⟨h, rfl⟩

/-- Witness for C13: a batch of a well-formed file and a file whose root element is not
`module`. -/
theorem CppQmlTypesLoader.load_malformed_witness :
    (CppQmlTypesLoader.load decimalToInt {} [batchScenarioGood, batchScenarioBad]).1 ≠ []
    ∧ (CppQmlTypesLoader.load decimalToInt {}
        [batchScenarioGood, batchScenarioBad]).2.builtinObjects = [] :=
  CppQmlTypesLoader.load_malformed decimalToInt {} [batchScenarioGood, batchScenarioBad]
    batchScenarioBad (by simp) (by decide)

/-- C13 (counterexample). The file `good.xml` parses without an error and alone it adds its
type to `builtinObjects`; in a batch with the malformed file `bad.xml` the error list is not
empty and the type of `good.xml` is not added to `builtinObjects`. -/
theorem CppQmlTypesLoader.load_malformed_counterexample :
    batchScenarioGood.malformed decimalToInt = false
    ∧ batchScenarioBad.malformed decimalToInt = true
    ∧ (CppQmlTypesLoader.load decimalToInt {} [batchScenarioGood]).2.builtinObjects = [0]
    ∧ (CppQmlTypesLoader.load decimalToInt {} [batchScenarioGood, batchScenarioBad]).1
        = ["The file is not module file."]
    ∧ (CppQmlTypesLoader.load decimalToInt {}
        [batchScenarioGood, batchScenarioBad]).2.builtinObjects = [] := by
  decide

/-! ## The superclass links -/

theorem CppQmlTypesLoader.linked_default (newObjects : List (String × Nat)) :
    CppQmlTypesLoader.linked newObjects default = default := rfl

theorem CppQmlTypesLoader.linked_superclassName (newObjects : List (String × Nat))
    (m : FakeMetaObject) :
    (CppQmlTypesLoader.linked newObjects m).superclassName = m.superclassName := by
  unfold CppQmlTypesLoader.linked
  split_ifs
  · split <;> rfl
  · rfl

theorem CppQmlTypesLoader.linked_idempotent (newObjects : List (String × Nat))
    (m : FakeMetaObject) :
    CppQmlTypesLoader.linked newObjects (CppQmlTypesLoader.linked newObjects m)
      = CppQmlTypesLoader.linked newObjects m := by
  have hname := CppQmlTypesLoader.linked_superclassName newObjects m
  generalize hl : CppQmlTypesLoader.linked newObjects m = lm at hname ⊢
  unfold CppQmlTypesLoader.linked at hl ⊢
  rw [hname]
  split_ifs at hl ⊢ with h
  · cases hv : QMap.value newObjects m.superclassName with
    | none => rfl
    | some s =>
      rw [hv] at hl
      simp only at hl ⊢
      rw [← hl]
      rfl
  · rfl

theorem List.set_getD_self {α : Type} (l : List α) (d : α) :
    ∀ (a : Nat), l.set a (l.getD a d) = l := by
  induction l with
  | nil => intro a; rfl
  | cons x rest ih =>
    intro a
    cases a with
    | zero => rfl
    | succ n =>
      simp only [List.set_cons_succ, List.getD_cons_succ]
      rw [ih]

theorem metaAt_set (metas : List FakeMetaObject) (a b : Nat) (x : FakeMetaObject) :
    metaAt (metas.set a x) b
      = if a = b ∧ a < metas.length then x else metaAt metas b := by
  unfold metaAt
  simp only [List.getD_eq_getElem?_getD, List.getElem?_set]
  by_cases hab : a = b
  · subst hab
    by_cases hlt : a < metas.length
    · simp [hlt]
    · simp [hlt, List.getElem?_eq_none (Nat.le_of_not_lt hlt)]
  · simp [hab]

theorem CppQmlTypesLoader.setSuperClassesStep_eq (newObjects : List (String × Nat))
    (metas : List FakeMetaObject) (entry : String × Nat) :
    CppQmlTypesLoader.setSuperClassesStep newObjects metas entry
      = metas.set entry.2 (CppQmlTypesLoader.linked newObjects (metaAt metas entry.2)) := by
  unfold CppQmlTypesLoader.setSuperClassesStep CppQmlTypesLoader.linked
  simp only
  split_ifs
  · split
    · rfl
    · exact (List.set_getD_self metas default entry.2).symm
  · exact (List.set_getD_self metas default entry.2).symm

theorem CppQmlTypesLoader.setSuperClassesStep_metaAt (newObjects : List (String × Nat))
    (metas : List FakeMetaObject) (entry : String × Nat) (a : Nat) :
    metaAt (CppQmlTypesLoader.setSuperClassesStep newObjects metas entry) a
      = if entry.2 = a then CppQmlTypesLoader.linked newObjects (metaAt metas a)
        else metaAt metas a := by
  rw [CppQmlTypesLoader.setSuperClassesStep_eq, metaAt_set]
  by_cases h : entry.2 = a
  · subst h
    by_cases hlt : entry.2 < metas.length
    · simp [hlt]
    · have hd : metaAt metas entry.2 = default := by
        unfold metaAt
        rw [List.getD_eq_default]
        omega
      simp [hlt, hd, CppQmlTypesLoader.linked_default]
  · simp [h]

/-- What `setSuperClasses` leaves in the memory: the meta-objects that the table points to
are linked, the others are as before. -/
theorem CppQmlTypesLoader.setSuperClasses_metaAt (newObjects : List (String × Nat))
    (entries : List (String × Nat)) :
    ∀ (metas : List FakeMetaObject) (a : Nat),
      metaAt (entries.foldl (CppQmlTypesLoader.setSuperClassesStep newObjects) metas) a
        = if a ∈ entries.map Prod.snd then
            CppQmlTypesLoader.linked newObjects (metaAt metas a)
          else metaAt metas a := by
  induction entries with
  | nil => intro metas a; simp
  | cons entry rest ih =>
    intro metas a
    simp only [List.foldl_cons, List.map_cons, List.mem_cons]
    rw [ih, CppQmlTypesLoader.setSuperClassesStep_metaAt]
    by_cases h1 : entry.2 = a
    · have h1' : a = entry.2 := h1.symm
      by_cases h2 : a ∈ rest.map Prod.snd
      · simp [h1, h2, CppQmlTypesLoader.linked_idempotent]
      · simp [h1, h2]
    · have h1' : ¬ a = entry.2 := fun h => h1 h.symm
      by_cases h2 : a ∈ rest.map Prod.snd
      · simp [h1, h1', h2]
      · simp [h1, h1', h2]

theorem CppQmlTypesLoader.setSuperClasses_length (newObjects : List (String × Nat))
    (entries : List (String × Nat)) :
    ∀ (metas : List FakeMetaObject),
      (entries.foldl (CppQmlTypesLoader.setSuperClassesStep newObjects) metas).length
        = metas.length := by
  induction entries with
  | nil => intro metas; rfl
  | cons entry rest ih =>
    intro metas
    simp only [List.foldl_cons]
    rw [ih, CppQmlTypesLoader.setSuperClassesStep_eq, List.length_set]

/-- C16. `setSuperClasses` leaves the table as it is and removes no meta-object. After it, a
type of the table with a non-empty superclass name has the entry of that name as its
superclass when the table has one, and no superclass otherwise (as when it was parsed); its
other fields are as before, and a type without a superclass name is left unchanged. -/
theorem CppQmlTypesLoader.setSuperClasses_links (metas : List FakeMetaObject)
    (newObjects : List (String × Nat)) (key : String) (obj : Nat)
    (hentry : (key, obj) ∈ newObjects) (hparsed : (metaAt metas obj).superClass = none) :
    (CppQmlTypesLoader.setSuperClasses metas newObjects).length = metas.length
    ∧ ((metaAt metas obj).superclassName ≠ "" →
        ∀ superClass,
          QMap.value newObjects (metaAt metas obj).superclassName = some superClass →
          (metaAt (CppQmlTypesLoader.setSuperClasses metas newObjects) obj).superClass
              = some superClass
            ∧ metaAt (CppQmlTypesLoader.setSuperClasses metas newObjects) obj
              = (metaAt metas obj).setSuperclass superClass)
    ∧ ((metaAt metas obj).superclassName ≠ "" →
        QMap.value newObjects (metaAt metas obj).superclassName = none →
          (metaAt (CppQmlTypesLoader.setSuperClasses metas newObjects) obj).superClass = none
            ∧ metaAt (CppQmlTypesLoader.setSuperClasses metas newObjects) obj
              = metaAt metas obj)
    ∧ ((metaAt metas obj).superclassName = "" →
        metaAt (CppQmlTypesLoader.setSuperClasses metas newObjects) obj = metaAt metas obj) := by
  have hmem : obj ∈ newObjects.map Prod.snd := List.mem_map.mpr ⟨(key, obj), hentry, rfl⟩
  have h := CppQmlTypesLoader.setSuperClasses_metaAt newObjects newObjects metas obj
  rw [if_pos hmem] at h
  unfold CppQmlTypesLoader.setSuperClasses
  rw [h]
  refine ⟨CppQmlTypesLoader.setSuperClasses_length newObjects newObjects metas, ?_, ?_, ?_⟩
  · intro hname superClass hvalue
    simp [CppQmlTypesLoader.linked, hname, hvalue, FakeMetaObject.setSuperclass,
      FakeMetaObject.superClass]
  · intro hname hvalue
    simp [CppQmlTypesLoader.linked, hname, hvalue, hparsed]
  · intro hname
    simp [CppQmlTypesLoader.linked, hname]

/-- Witness for C16: in the table of `Item`, `Rectangle` that extends `Item` and `Orphan`
that extends the missing `Missing`, the superclass of `Rectangle` becomes `Item`, `Orphan`
gets no superclass and `Item` is left unchanged. -/
theorem CppQmlTypesLoader.setSuperClasses_links_witness :
    (metaAt (CppQmlTypesLoader.setSuperClasses superScenarioMetas superScenarioTable)
        1).superClass = some 0
    ∧ (metaAt (CppQmlTypesLoader.setSuperClasses superScenarioMetas superScenarioTable)
        2).superClass = none
    ∧ metaAt (CppQmlTypesLoader.setSuperClasses superScenarioMetas superScenarioTable) 0
        = metaAt superScenarioMetas 0 :=
  ⟨((CppQmlTypesLoader.setSuperClasses_links superScenarioMetas superScenarioTable
      "Rectangle" 1 (by decide) (by decide)).2.1 (by decide) 0 (by decide)).1,
   ((CppQmlTypesLoader.setSuperClasses_links superScenarioMetas superScenarioTable
      "Orphan" 2 (by decide) (by decide)).2.2.1 (by decide) (by decide)).1,
   (CppQmlTypesLoader.setSuperClasses_links superScenarioMetas superScenarioTable
      "Item" 0 (by decide) (by decide)).2.2.2 (by decide)⟩

theorem superClassAt_succ (metas : List FakeMetaObject) (k : Nat) :
    ∀ (a : Nat), superClassAt metas (k + 1) a
      = ((metaAt metas a).superClass).bind (superClassAt metas k) := by
  induction k with
  | zero =>
    intro a
    simp [superClassAt]
  | succ n ih =>
    intro a
    rw [superClassAt, ih a]
    cases hs : (metaAt metas a).superClass with
    | none => rfl
    | some s =>
      simp only [Option.some_bind]
      rw [superClassAt]

/-- C17 (amended). `setSuperClasses` does not look for cycles, so the superclass
pointers are free of cycles when the superclass names are. For a table of parsed types whose
names can be ranked so that the superclass name of every type, when the table has it, ranks
below the name of the type, following the `superClass` links from a type of the table reaches
a type without superclass after at most as many steps as the rank of its name. -/
theorem CppQmlTypesLoader.setSuperClasses_acyclic (metas : List FakeMetaObject)
    (newObjects : List (String × Nat)) (rank : String → Nat)
    (hparsed : ∀ entry ∈ newObjects, (metaAt metas entry.2).superClass = none)
    (hrank : ∀ entry ∈ newObjects, (metaAt metas entry.2).superclassName ≠ "" →
      (QMap.value newObjects (metaAt metas entry.2).superclassName).isSome = true →
        rank (metaAt metas entry.2).superclassName < rank entry.1) :
    ∀ entry ∈ newObjects, ∃ k t, k ≤ rank entry.1
      ∧ superClassAt (CppQmlTypesLoader.setSuperClasses metas newObjects) k entry.2 = some t
      ∧ (metaAt (CppQmlTypesLoader.setSuperClasses metas newObjects) t).superClass
          = none := by
  have hmeta : ∀ entry ∈ newObjects,
      metaAt (CppQmlTypesLoader.setSuperClasses metas newObjects) entry.2
        = CppQmlTypesLoader.linked newObjects (metaAt metas entry.2) := by
    intro entry hentry
    have h := CppQmlTypesLoader.setSuperClasses_metaAt newObjects newObjects metas entry.2
    rw [if_pos (List.mem_map.mpr ⟨entry, hentry, rfl⟩)] at h
    exact h
  have hmain : ∀ n, ∀ entry ∈ newObjects, rank entry.1 ≤ n → ∃ k t, k ≤ rank entry.1
      ∧ superClassAt (CppQmlTypesLoader.setSuperClasses metas newObjects) k entry.2 = some t
      ∧ (metaAt (CppQmlTypesLoader.setSuperClasses metas newObjects) t).superClass
          = none := by
    intro n
    induction n with
    | zero =>
      intro entry hentry hle
      refine ⟨0, entry.2, Nat.zero_le _, rfl, ?_⟩
      rw [hmeta entry hentry]
      unfold CppQmlTypesLoader.linked
      split_ifs with hname
      · cases hv : QMap.value newObjects (metaAt metas entry.2).superclassName with
        | none => exact hparsed entry hentry
        | some s =>
          have := hrank entry hentry hname (by rw [hv]; rfl)
          omega
      · exact hparsed entry hentry
    | succ n ih =>
      intro entry hentry hle
      by_cases hname : (metaAt metas entry.2).superclassName ≠ ""
      · cases hv : QMap.value newObjects (metaAt metas entry.2).superclassName with
        | none =>
          refine ⟨0, entry.2, Nat.zero_le _, rfl, ?_⟩
          rw [hmeta entry hentry]
          simp only [CppQmlTypesLoader.linked, hname, hv, if_true, ne_eq, not_false_eq_true]
          exact hparsed entry hentry
        | some s =>
          have hlt := hrank entry hentry hname (by rw [hv]; rfl)
          have hsmem := QMap.value_mem newObjects _ s hv
          obtain ⟨k, t, hk, hat, hnone⟩ := ih ((metaAt metas entry.2).superclassName, s)
            hsmem (by simp only; omega)
          refine ⟨k + 1, t, by simp only at hk; omega, ?_, hnone⟩
          rw [superClassAt_succ, hmeta entry hentry]
          simp only [CppQmlTypesLoader.linked, hname, hv, if_true, ne_eq, not_false_eq_true,
            FakeMetaObject.setSuperclass, FakeMetaObject.superClass, Option.some_bind]
          exact hat
      · refine ⟨0, entry.2, Nat.zero_le _, rfl, ?_⟩
        rw [hmeta entry hentry]
        simp only [CppQmlTypesLoader.linked, hname, if_false]
        exact hparsed entry hentry
  intro entry hentry
  exact hmain (rank entry.1) entry hentry (le_refl _)

/-- Witness for C17: the table of `Item`, `Rectangle` that extends `Item` and `Orphan` that
extends the missing `Missing`, with the length of the name as its rank. -/
theorem CppQmlTypesLoader.setSuperClasses_acyclic_witness :
    ∃ k t, k ≤ 9
      ∧ superClassAt (CppQmlTypesLoader.setSuperClasses superScenarioMetas superScenarioTable)
          k 1 = some t
      ∧ (metaAt (CppQmlTypesLoader.setSuperClasses superScenarioMetas superScenarioTable)
          t).superClass = none :=
  CppQmlTypesLoader.setSuperClasses_acyclic superScenarioMetas superScenarioTable
    String.length (by decide) (by decide) ("Rectangle", 1) (by decide)

/-- C17 (counterexample). The loader accepts the module document of the types `A` and `B`
that extend each other without an error, and `setSuperClasses` makes each the superclass of
the other: following the `superClass` links from `A` never reaches a type without
superclass. -/
theorem CppQmlTypesLoader.setSuperClasses_acyclic_counterexample :
    (CppQmlTypesLoader.load decimalToInt {} [mutualScenarioFile]).1 = []
    ∧ (CppQmlTypesLoader.load decimalToInt {} [mutualScenarioFile]).2.builtinObjects = [0, 1]
    ∧ ¬ ∃ k t,
        superClassAt (CppQmlTypesLoader.load decimalToInt {} [mutualScenarioFile]).2.metas
          k 0 = some t
        ∧ (metaAt (CppQmlTypesLoader.load decimalToInt {} [mutualScenarioFile]).2.metas
          t).superClass = none := by
  have hload : CppQmlTypesLoader.load decimalToInt {} [mutualScenarioFile]
      = ([], { metas := mutualScenarioLinked, builtinObjects := [0, 1] }) := by
    have htable : (QmlXmlReader.call decimalToInt mutualScenarioDocument [] []).2._objects
        = [("A", 0), ("B", 1)] := by
      have h : (QmlXmlReader.call decimalToInt mutualScenarioDocument [] []).2._objects
          = QMap.insert (QMap.insert [] "A" 0) "B" 1 := rfl
      rw [h]
      simp [QMap.insert]
      decide
    have hmetas : (QmlXmlReader.call decimalToInt mutualScenarioDocument [] []).2.metas
        = [FakeMetaObject.addExport (FakeMetaObject.setSuperclassName {} "B") "A" ""
              ComponentVersion.noVersion,
           FakeMetaObject.addExport (FakeMetaObject.setSuperclassName {} "A") "B" ""
              ComponentVersion.noVersion] := by decide
    have hok : (QmlXmlReader.call decimalToInt mutualScenarioDocument [] []).1 = true := by
      decide
    simp only [CppQmlTypesLoader.load, List.foldl_cons, List.foldl_nil,
      CppQmlTypesLoader.loadFile, mutualScenarioFile, hok, htable, hmetas]
    decide
  rw [hload]
  refine ⟨rfl, rfl, ?_⟩
  rintro ⟨k, t, hat, hnone⟩
  have hall : ∀ k, superClassAt mutualScenarioLinked k 0 = some 0
      ∨ superClassAt mutualScenarioLinked k 0 = some 1 := by
    intro k
    induction k with
    | zero => left; rfl
    | succ n ih =>
      rcases ih with h | h
      · right
        rw [superClassAt, h]
        rfl
      · left
        rw [superClassAt, h]
        rfl
  simp only at hat hnone
  rcases hall k with h | h
  · rw [h] at hat
    cases hat
    exact absurd hnone (by decide)
  · rw [h] at hat
    cases hat
    exact absurd hnone (by decide)

/-! ## Property types -/

/-- C18 (amended). `QmlObjectValue::propertyValue` maps the declared type name of a
property in this order: a loaded component type of that name; else, when the name is one of
the own enum names of the object, a new enum value of that enum, also when the name is a
built-in synonym; else the value of the built-in synonym table, which is the undefined value
for a name that the table does not have. -/
theorem QmlObjectValue.propertyValue_priority (metas : List FakeMetaObject) (engine : Engine)
    (v : QmlObjectValue) (prop : FakeMetaProperty) :
    QmlObjectValue.propertyValue metas engine v prop
      = match engine._cppQmlTypes.typeForImport prop.m_type with
        | some objectValue => (.qmlObjectValue objectValue, engine)
        | none =>
          if v.isEnum metas prop.m_type = true then
            (.qmlEnumValue engine.qmlEnumValues.length,
              { engine with
                qmlEnumValues := engine.qmlEnumValues ++
                  [(metaAt metas v._metaObject).enumerator
                    ((metaAt metas v._metaObject).enumeratorIndex prop.m_type)] })
          else (QmlObjectValue.builtinValue prop.m_type, engine) := by
  unfold QmlObjectValue.propertyValue QmlObjectValue.isEnum
  dsimp only
  cases engine._cppQmlTypes.typeForImport prop.m_type with
  | some objectValue => rfl
  | none =>
    dsimp only
    by_cases h : (metaAt metas v._metaObject).enumeratorIndex prop.m_type = -1
    · simp [h]
    · simp [h]

/-- C18 (counterexample). The type declares an enum named `int`, no component type `int` is
loaded, and `int` is a built-in synonym for the number value; the value of a property of type
`int` is a new enum value, not the number value. -/
theorem QmlObjectValue.propertyValue_priority_counterexample :
    (({} : Engine)._cppQmlTypes.typeForImport "int") = none
    ∧ QmlObjectValue.builtinValue "int" = .numberValue
    ∧ QmlObjectValue.isEnum enumScenarioMetas {} "int" = true
    ∧ (QmlObjectValue.propertyValue enumScenarioMetas {} {}
        { m_propertyName := "size", m_type := "int", m_isList := false }).1
      = .qmlEnumValue 0 := by
  decide

/-! ## Enums -/

theorem FakeMetaObject.addEnum_foldl (base : FakeMetaObject) (hbase1 : base.m_enums = [])
    (hbase2 : base.m_enumNameToIndex = []) (enums : List FakeMetaEnum) :
    (enums.foldl FakeMetaObject.addEnum base).m_enums = enums
    ∧ ∀ n,
      (∀ i, QHash.value (enums.foldl FakeMetaObject.addEnum base).m_enumNameToIndex n = some i →
        i < enums.length ∧ (enums.getD i default).name = n)
      ∧ (QHash.value (enums.foldl FakeMetaObject.addEnum base).m_enumNameToIndex n = none →
        ∀ x ∈ enums, x.name ≠ n) := by
  induction enums using List.reverseRecOn with
  | nil =>
    refine ⟨hbase1, fun n => ⟨fun i hi => ?_, fun _ x hx => by simp at hx⟩⟩
    simp [hbase2, QHash.value] at hi
  | append_singleton es e ih =>
    obtain ⟨henums, hindex⟩ := ih
    rw [List.foldl_append]
    simp only [List.foldl_cons, List.foldl_nil]
    refine ⟨?_, fun n => ?_⟩
    · simp [FakeMetaObject.addEnum, henums]
    · have hvalue : QHash.value
          ((es.foldl FakeMetaObject.addEnum base).addEnum e).m_enumNameToIndex n
          = if n = e.name then some es.length
            else QHash.value (es.foldl FakeMetaObject.addEnum base).m_enumNameToIndex n := by
        simp only [FakeMetaObject.addEnum, henums]
        exact QHash.hashValue_insert _ _ _ _
      rw [hvalue]
      by_cases hn : n = e.name
      · simp only [hn, if_true]
        refine ⟨fun i hi => ?_, fun h => by simp at h⟩
        simp only [Option.some.injEq] at hi
        subst hi
        simp [List.getD_eq_getElem?_getD]
      · simp only [hn, if_false]
        refine ⟨fun i hi => ?_, fun h x hx => ?_⟩
        · have := (hindex n).1 i hi
          refine ⟨by simp; omega, ?_⟩
          rw [List.getD_eq_getElem?_getD, List.getElem?_append_left this.1,
            ← List.getD_eq_getElem?_getD]
          exact this.2
        · rcases List.mem_append.mp hx with hx1 | hx1
          · exact (hindex n).2 h x hx1
          · simp only [List.mem_singleton] at hx1
            subst hx1
            exact fun h => hn h.symm

theorem FakeMetaEnum.any_key (fme : FakeMetaEnum) (k : String) :
    (List.range fme.keyCount).any (fun i => fme.key i == k) = true ↔ k ∈ fme.keys := by
  simp only [List.any_eq_true, List.mem_range, beq_iff_eq, FakeMetaEnum.keyCount,
    FakeMetaEnum.key, FakeMetaEnum.keys]
  constructor
  · rintro ⟨i, hi, hk⟩
    rw [List.getD_eq_getElem?_getD, List.getElem?_eq_getElem hi] at hk
    simp only [Option.getD_some] at hk
    rw [← hk]
    exact List.getElem_mem _
  · intro hk
    obtain ⟨i, hi, hget⟩ := List.getElem_of_mem hk
    refine ⟨i, hi, ?_⟩
    rw [List.getD_eq_getElem?_getD, List.getElem?_eq_getElem hi]
    simpa using hget

/-- C19. For a `QmlObjectValue` whose meta-object got its enums by `addEnum`, an enum `e`
that is the only declared enum of the name `n` makes `isEnum(n)` true and
`enumContainsKey(n, k)` true exactly for the keys `k` of `e`; for a name `m` that no declared
enum has, `isEnum(m)` and `enumContainsKey(m, k)` are false. -/
theorem QmlObjectValue.isEnum_enumContainsKey (metas : List FakeMetaObject)
    (v : QmlObjectValue) (base : FakeMetaObject) (enums : List FakeMetaEnum)
    (hbase1 : base.m_enums = []) (hbase2 : base.m_enumNameToIndex = [])
    (hmeta : metaAt metas v._metaObject = enums.foldl FakeMetaObject.addEnum base) :
    (∀ n e, enums.filter (fun x => decide (x.name = n)) = [e] →
      v.isEnum metas n = true ∧ ∀ k, v.enumContainsKey metas n k = true ↔ k ∈ e.keys)
    ∧ (∀ m, (∀ x ∈ enums, x.name ≠ m) →
      v.isEnum metas m = false ∧ ∀ k, v.enumContainsKey metas m k = false) := by
  obtain ⟨henums, hindex⟩ := FakeMetaObject.addEnum_foldl base hbase1 hbase2 enums
  constructor
  · intro n e hdeclared
    have he : e ∈ enums ∧ e.name = n := by
      have : e ∈ enums.filter (fun x => decide (x.name = n)) := by rw [hdeclared]; simp
      simpa using this
    cases hv : QHash.value (enums.foldl FakeMetaObject.addEnum base).m_enumNameToIndex n with
    | none => exact absurd he.2 ((hindex n).2 hv e he.1)
    | some i =>
      obtain ⟨hi, hname⟩ := (hindex n).1 i hv
      have hget : enums.getD i default = e := by
        have hmem : enums.getD i default ∈ enums.filter (fun x => decide (x.name = n)) := by
          rw [List.mem_filter]
          refine ⟨?_, by simpa using hname⟩
          rw [List.getD_eq_getElem?_getD, List.getElem?_eq_getElem hi]
          exact List.getElem_mem _
        rw [hdeclared] at hmem
        simpa using hmem
      have hidx : (metaAt metas v._metaObject).enumeratorIndex n = (i : Int) := by
        rw [hmeta]
        simp [FakeMetaObject.enumeratorIndex, hv]
      have hne : ((i : Int) = -1) = False := by
        simp only [eq_iff_iff, iff_false]
        omega
      have henum : (metaAt metas v._metaObject).enumerator (i : Int) = e := by
        rw [hmeta]
        simp only [FakeMetaObject.enumerator, henums, Int.toNat_ofNat]
        exact hget
      refine ⟨?_, fun k => ?_⟩
      · simp [QmlObjectValue.isEnum, hidx]
      · unfold QmlObjectValue.enumContainsKey
        simp only [hidx, hne, if_false, henum]
        exact FakeMetaEnum.any_key e k
  · intro m hm
    have hv : QHash.value (enums.foldl FakeMetaObject.addEnum base).m_enumNameToIndex m
        = none := by
      cases hv : QHash.value (enums.foldl FakeMetaObject.addEnum base).m_enumNameToIndex m with
      | none => rfl
      | some i =>
        obtain ⟨hi, hname⟩ := (hindex m).1 i hv
        have hmem : enums.getD i default ∈ enums := by
          rw [List.getD_eq_getElem?_getD, List.getElem?_eq_getElem hi]
          exact List.getElem_mem _
        exact absurd hname (hm _ hmem)
    have hidx : (metaAt metas v._metaObject).enumeratorIndex m = -1 := by
      rw [hmeta]
      simp [FakeMetaObject.enumeratorIndex, hv]
    exact ⟨by simp [QmlObjectValue.isEnum, hidx],
      fun k => by simp [QmlObjectValue.enumContainsKey, hidx]⟩

/-- Witness for C19: the type that the reader makes of a `type` element with the enum `Mode`
of the keys `A` = 0 and `B` = 1 has the enum `Mode` with the key `B` and without a key `C`,
and has no enum `Kind`. -/
theorem QmlObjectValue.isEnum_enumContainsKey_witness :
    QmlObjectValue.isEnum
        (QmlXmlReader.readType decimalToInt [("name", "T")] modeScenarioContent {}).metas {}
        "Mode" = true
    ∧ QmlObjectValue.enumContainsKey
        (QmlXmlReader.readType decimalToInt [("name", "T")] modeScenarioContent {}).metas {}
        "Mode" "B" = true
    ∧ ¬ QmlObjectValue.enumContainsKey
        (QmlXmlReader.readType decimalToInt [("name", "T")] modeScenarioContent {}).metas {}
        "Mode" "C" = true
    ∧ QmlObjectValue.isEnum
        (QmlXmlReader.readType decimalToInt [("name", "T")] modeScenarioContent {}).metas {}
        "Kind" = false :=
  have h := QmlObjectValue.isEnum_enumContainsKey
    (QmlXmlReader.readType decimalToInt [("name", "T")] modeScenarioContent {}).metas {}
    (FakeMetaObject.addExport {} "T" "" ComponentVersion.noVersion) [modeScenarioEnum]
    (by decide) (by decide) (by decide)
  ⟨(h.1 "Mode" modeScenarioEnum (by decide)).1,
   ((h.1 "Mode" modeScenarioEnum (by decide)).2 "B").mpr (by decide),
   fun hc => absurd (((h.1 "Mode" modeScenarioEnum (by decide)).2 "C").mp hc) (by decide),
   (h.2 "Kind" (by decide)).1⟩

/-! ## The default property -/

/-- C20 (what the code does). `Context::defaultPropertyName` stops at the first externally
described component type of the prototype chain and returns its default-property name, also
when that name is empty. The component type of the object 0 declares no default property and
its prototype, the object 1, declares `data`: the answer for the object 0 is the empty string,
not `data`. A script-declared object without a default property is skipped: with it in the
place of the object 0 the answer is `data`. -/
theorem Context.defaultPropertyName_component_type (fuel : Nat) (ctx : Context) :
    ((defaultScenarioHeap.obj 0).prototype defaultScenarioHeap fuel ctx).map Prod.fst
        = some (some 1)
    ∧ Context.defaultPropertyName defaultScenarioHeap (fuel + 1) ctx (some 1)
        = some ("data", ctx)
    ∧ Context.defaultPropertyName defaultScenarioHeap (fuel + 1) ctx (some 0)
        = some ("", ctx)
    ∧ Context.defaultPropertyName defaultAstScenarioHeap (fuel + 2) ctx (some 0)
        = some ("data", ctx) :=
  ⟨rfl, rfl, rfl, rfl⟩

/-! ## Type lookup, scope order, type names and the property cache -/

/-- The virtual `property` leaves the context as it found it. -/
theorem ObjectValue.property_frame (h : Heap) (fuel object : Nat) (name : String)
    (c c1 : Context) (v : Option Value)
    (hp : ObjectValue.property h fuel object name c = some (v, c1)) : c1 = c := by
  unfold ObjectValue.property at hp
  split at hp
  · split_ifs at hp
    · simp only [Option.some.injEq, Prod.mk.injEq] at hp
      exact hp.2.symm
    · exact ObjectValue.lookupMember_frame h fuel object name c true v c1 hp
  · exact ObjectValue.lookupMember_frame h fuel object name c true v c1 hp

/-- Once the walk of the specification has failed to return, it stays so. -/
theorem Context.typePath_foldl_none (h : Heap) (fuel : Nat) (ctx : Context)
    (segments : List String) :
    segments.foldl (fun reached segment =>
      reached.bind (fun r => Context.typePathStep h fuel ctx r segment)) none = none := by
  induction segments with
  | nil => rfl
  | cons s rest ih => simpa using ih

/-- Once the walk of the specification has found nothing, it stays so. -/
theorem Context.typePath_foldl_not_found (h : Heap) (fuel : Nat) (ctx : Context)
    (segments : List String) :
    segments.foldl (fun reached segment =>
      reached.bind (fun r => Context.typePathStep h fuel ctx r segment)) (some none)
      = some none := by
  induction segments with
  | nil => rfl
  | cons s rest ih => simpa [Context.typePathStep] using ih

/-- The loop of `lookupType` from any object is the walk of the specification from it. -/
theorem Context.lookupTypeLoop_eq (h : Heap) (fuel : Nat) (ctx : Context) :
    ∀ (segments : List String) (objectValue : Option Nat),
      Context.lookupTypeLoop h fuel segments objectValue ctx
        = (segments.foldl (fun reached segment =>
            reached.bind (fun r => Context.typePathStep h fuel ctx r segment))
            (some objectValue)).map (fun r => (r, ctx)) := by
  intro segments
  induction segments with
  | nil => intro objectValue; rfl
  | cons name rest ih =>
    intro objectValue
    cases objectValue with
    | none =>
      simp only [Context.lookupTypeLoop, List.foldl_cons, Option.some_bind]
      rw [show Context.typePathStep h fuel ctx none name = some none from rfl,
        Context.typePath_foldl_not_found]
      rfl
    | some object =>
      simp only [Context.lookupTypeLoop, List.foldl_cons, Option.some_bind]
      rw [show Context.typePathStep h fuel ctx (some object) name
        = (ObjectValue.property h fuel object name ctx).map (fun r => Value.asObjectValue r.1)
        from rfl]
      cases hp : ObjectValue.property h fuel object name ctx with
      | none =>
        simp only [Option.map_none']
        rw [Context.typePath_foldl_none]
        rfl
      | some r =>
        obtain ⟨v, c1⟩ := r
        have hc : c1 = ctx := ObjectValue.property_frame h fuel object name ctx c1 v hp
        subst hc
        cases v with
        | none =>
          simp only [Option.map_some', Value.asObjectValue]
          rw [Context.typePath_foldl_not_found]
          rfl
        | some value =>
          simp only [Option.map_some']
          exact ih _

/-- C21. `Context::lookupType` agrees with the walk of the specification: for every heap,
context, document and list of name segments, the call returns exactly when every property
taken on the walk returns, and then it returns the object that the walk reaches, starting at
the type environment of the document and taking the property of each segment in order,
narrowed to an object value, with the context unchanged. It returns null (not found) when
the document has no type environment, and as soon as the property of a segment is absent or
is no object value, whatever segments follow and also when none follows. -/
theorem Context.lookupType_eq_typePath (h : Heap) (fuel : Nat) (ctx : Context)
    (doc : Option Document) (segments : List String) :
    Context.lookupType h fuel ctx doc segments
      = (Context.typePath h fuel ctx doc segments).map (fun r => (r, ctx)) ∧
    (ctx.typeEnvironment doc = none →
      Context.lookupType h fuel ctx doc segments = some (none, ctx)) ∧
    (∀ (segment : String) (rest : List String) (object : Nat) (v : Option Value),
      Context.typePath h fuel ctx doc segments = some (some object) →
      (ObjectValue.property h fuel object segment ctx).map Prod.fst = some v →
      Value.asObjectValue v = none →
      Context.lookupType h fuel ctx doc (segments ++ segment :: rest) = some (none, ctx)) := by
  have heq : ∀ segs, Context.lookupType h fuel ctx doc segs
      = (Context.typePath h fuel ctx doc segs).map (fun r => (r, ctx)) :=
    fun segs => Context.lookupTypeLoop_eq h fuel ctx segs (ctx.typeEnvironment doc)
  refine ⟨heq segments, ?_, ?_⟩
  · intro hnone
    rw [heq]
    unfold Context.typePath
    rw [hnone, Context.typePath_foldl_not_found]
    rfl
  · intro segment rest object v hreach hprop hnarrow
    rw [heq]
    unfold Context.typePath at hreach ⊢
    rw [List.foldl_append, hreach, List.foldl_cons, Option.some_bind]
    have hstep : Context.typePathStep h fuel ctx (some object) segment = some none := by
      show (ObjectValue.property h fuel object segment ctx).map
        (fun r => Value.asObjectValue r.1) = some none
      cases hp : ObjectValue.property h fuel object segment ctx with
      | none => rw [hp] at hprop; exact Option.noConfusion hprop
      | some r =>
        rw [hp] at hprop
        simp only [Option.map_some', Option.some.injEq] at hprop
        rw [Option.map_some', hprop, hnarrow]
    rw [hstep, Context.typePath_foldl_not_found]
    rfl

/-- Witness for C21: in the type path scenario `Qt.Item` is the object 2, whose property
`width` is the number value, so `Qt.Item.width` is not found. -/
theorem Context.lookupType_eq_typePath_witness :
    Context.typePath typeScenarioHeap 1 typeScenarioContext (some typeScenarioDocument)
      ["Qt", "Item"] = some (some 2) ∧
    (ObjectValue.property typeScenarioHeap 1 2 "width" typeScenarioContext).map Prod.fst
      = some (some .numberValue) ∧
    Context.lookupType typeScenarioHeap 1 typeScenarioContext (some typeScenarioDocument)
      (["Qt", "Item"] ++ "width" :: []) = some (none, typeScenarioContext) :=
  ⟨by decide, by decide,
   (Context.lookupType_eq_typePath typeScenarioHeap 1 typeScenarioContext
      (some typeScenarioDocument) ["Qt", "Item"]).2.2 "width" [] 2 (some .numberValue)
      (by decide) (by decide) rfl⟩

/-- C22. When no scope of `all()` has a member of the name (the member lookup of each scope
returns null), `Context::lookup` returns the undefined value and reports no owning scope,
and leaves the context as it was. -/
theorem Context.lookup_not_found (h : Heap) (fuel : Nat) (ctx : Context) (name : String)
    (hnone : ∀ s ∈ ctx.scopeChain.all,
      (ObjectValue.lookupMember h fuel s name ctx true).map Prod.fst = some none) :
    Context.lookup h fuel ctx name = some ((.undefinedValue, none), ctx) :=
  Context.lookupScopes_none h fuel name ctx ctx.scopeChain.all.reverse
    (fun s hs => hnone s (List.mem_reverse.mp hs))

/-- Witness for C22: in the scope precedence scenario no scope has a member `y`. -/
theorem Context.lookup_not_found_witness :
    (∀ s ∈ scopeScenarioContext.scopeChain.all,
      (ObjectValue.lookupMember scopeScenarioHeap 1 s "y" scopeScenarioContext true).map
        Prod.fst = some none) ∧
    Context.lookup scopeScenarioHeap 1 scopeScenarioContext "y"
      = some ((.undefinedValue, none), scopeScenarioContext) :=
  ⟨by decide, Context.lookup_not_found scopeScenarioHeap 1 scopeScenarioContext "y" (by decide)⟩

mutual
/-- What `collect` appends to the list is what the chain contributes to the ancestry of the
specification. -/
theorem QmlComponentChain.collect_eq :
    ∀ (c : QmlComponentChain) (list : List Nat), c.collect list = list ++ c.withAncestors
  | .mk parents document, list => by
    rw [QmlComponentChain.collect.eq_def, QmlComponentChain.withAncestors.eq_def]
    simp only
    rw [QmlComponentChain.collectParents_eq parents list]
    cases document with
    | none => simp [Document.rootAndIds]
    | some doc =>
      cases hr : doc.rootObjectValue <;> cases hi : doc.idEnvironment <;>
        simp [Document.rootAndIds, hr, hi]
/-- What the loop over the parents appends to the list is their ancestry. -/
theorem QmlComponentChain.collectParents_eq :
    ∀ (parents : List QmlComponentChain) (list : List Nat),
      QmlComponentChain.collectParents parents list
        = list ++ QmlComponentChain.ancestry parents
  | [], list => by
    rw [QmlComponentChain.collectParents.eq_def, QmlComponentChain.ancestry.eq_def]
    simp
  | parent :: rest, list => by
    rw [QmlComponentChain.collectParents.eq_def, QmlComponentChain.ancestry.eq_def]
    simp only
    rw [QmlComponentChain.collect_eq parent list, QmlComponentChain.collectParents_eq rest]
    simp
end

/-- C23. After `ScopeChain::update`, `all()` is the concatenation, in this order, of the
global scope; the ancestry of the instantiating components (for each parent its own
ancestry, depth-first, then its root object and its ids object), left out when there is
exactly one js scope and no qml scope object; the root object of the component unless it is
among the qml scope objects; the qml scope objects; the ids object; the type environment;
the js scopes in their order. The other members of the scope chain are unchanged. -/
theorem ScopeChain.update_all (sc : ScopeChain) :
    sc.update.all = sc.flattened ∧
    sc.update.globalScope = sc.globalScope ∧
    sc.update.qmlScopeObjects = sc.qmlScopeObjects ∧
    sc.update.qmlTypes = sc.qmlTypes ∧
    sc.update.jsScopes = sc.jsScopes := by
  refine ⟨?_, rfl, rfl, rfl, rfl⟩
  obtain ⟨globalScope, qmlComponentScope, qmlScopeObjects, qmlTypes, jsScopes, all⟩ := sc
  by_cases h1 : jsScopes.length = 1 <;> by_cases h2 : qmlScopeObjects = [] <;>
    cases qmlTypes <;> cases qmlComponentScope with
    | none =>
      simp [ScopeChain.update, ScopeChain.flattened, h1, h2, List.isEmpty_iff]
    | some scope =>
      obtain ⟨parents, document⟩ := scope
      cases document with
      | none =>
        simp [ScopeChain.update, ScopeChain.flattened, h1, h2, List.isEmpty_iff,
          QmlComponentChain.collectParents_eq, QmlComponentChain.document,
          QmlComponentChain.instantiatingComponents]
      | some doc =>
        cases hr : doc.rootObjectValue with
        | none =>
          cases hi : doc.idEnvironment <;>
          simp [ScopeChain.update, ScopeChain.flattened, h1, h2, List.isEmpty_iff,
            QmlComponentChain.collectParents_eq, QmlComponentChain.document,
            QmlComponentChain.instantiatingComponents, hr, hi]
        | some r =>
          by_cases hc : r ∈ qmlScopeObjects <;>
          cases hi : doc.idEnvironment <;>
          simp [ScopeChain.update, ScopeChain.flattened, h1, h2, List.isEmpty_iff,
            QmlComponentChain.collectParents_eq, QmlComponentChain.document,
            QmlComponentChain.instantiatingComponents, hr, hi, hc, List.filter]

/-- C27. `typeId` names the kinds of values: `null`, `undefined`, `number`, `boolean`,
`string` for the string value and for the color value, `AnchorLine` for the anchor line
value; for an object value the class name when it is not empty, and otherwise `Function`
when the object is a function value and `object` when it is not. -/
theorem Engine.typeId_table (h : Heap) (object : Nat) :
    Engine.typeId h (some .nullValue) = "null" ∧
    Engine.typeId h (some .undefinedValue) = "undefined" ∧
    Engine.typeId h (some .numberValue) = "number" ∧
    Engine.typeId h (some .booleanValue) = "boolean" ∧
    Engine.typeId h (some .stringValue) = "string" ∧
    Engine.typeId h (some .colorValue) = "string" ∧
    Engine.typeId h (some .anchorLineValue) = "AnchorLine" ∧
    Engine.typeId h (some (.objectValue object))
      = (if (h.obj object).className ≠ "" then (h.obj object).className
         else if (h.obj object).asFunctionValue.isSome then "Function" else "object") := by
  refine ⟨rfl, rfl, rfl, rfl, rfl, rfl, rfl, ?_⟩
  simp only [Engine.typeId]
  by_cases hf : (h.obj object).asFunctionValue.isSome = true <;>
    by_cases hn : (h.obj object).className = "" <;> simp [hf, hn]

/-! ## The property cache -/

/-- The properties of the object after a store for it. -/
theorem Context.propertiesOf_insertProperty_self (ps : List (Nat × List (String × Value)))
    (object : Nat) (name : String) (value : Value) :
    Context.propertiesOf (Context.insertProperty ps object name value) object
      = QHash.insert (Context.propertiesOf ps object) name value := by
  induction ps with
  | nil => simp [Context.insertProperty, Context.propertiesOf]
  | cons hd rest ih =>
    obtain ⟨key, properties⟩ := hd
    by_cases hk : key = object
    · simp [Context.insertProperty, Context.propertiesOf, hk]
    · simp [Context.insertProperty, Context.propertiesOf, hk, ih]

/-- The properties of another object after a store. -/
theorem Context.propertiesOf_insertProperty_other (ps : List (Nat × List (String × Value)))
    (object other : Nat) (name : String) (value : Value) (hne : other ≠ object) :
    Context.propertiesOf (Context.insertProperty ps object name value) other
      = Context.propertiesOf ps other := by
  induction ps with
  | nil => simp [Context.insertProperty, Context.propertiesOf, Ne.symm hne]
  | cons hd rest ih =>
    obtain ⟨key, properties⟩ := hd
    by_cases hk : key = object
    · subst hk
      simp [Context.insertProperty, Context.propertiesOf, Ne.symm hne]
    · by_cases hko : key = other
      · subst hko
        simp [Context.insertProperty, Context.propertiesOf, hk]
      · simp [Context.insertProperty, Context.propertiesOf, hk, hko, ih]

/-- What `property` answers after one store. -/
theorem Context.property_setProperty (ctx : Context) (object : Nat) (name : String)
    (value : Value) (other : Nat) (otherName : String) :
    (ctx.setProperty object name value).property other otherName
      = if other = object ∧ otherName = name then value else ctx.property other otherName := by
  unfold Context.property Context.setProperty
  by_cases ho : other = object
  · subst ho
    simp only [Context.propertiesOf_insertProperty_self, QHash.hashValue_insert, true_and]
    by_cases hn : otherName = name <;> simp [hn]
  · simp only [Context.propertiesOf_insertProperty_other _ _ _ _ _ ho, ho, false_and,
      if_false]

/-- The last store of a list with one more store at its end. -/
theorem Context.lastStored_append (stores : List (Nat × String × Value))
    (s : Nat × String × Value) (object : Nat) (name : String) :
    Context.lastStored (stores ++ [s]) object name
      = if s.1 = object ∧ s.2.1 = name then some s.2.2
        else Context.lastStored stores object name := by
  unfold Context.lastStored
  rw [List.reverse_append, List.reverse_singleton, List.singleton_append, List.find?_cons]
  by_cases hs : s.1 = object ∧ s.2.1 = name
  · simp [hs]
  · simp [hs]

/-- What `property` answers after a list of stores on a context: the value of the last
store for the pair, and what the context answered before when there is none. -/
theorem Context.property_setProperties (ctx : Context) (object : Nat) (name : String) :
    ∀ stores : List (Nat × String × Value),
      (ctx.setProperties stores).property object name
        = (Context.lastStored stores object name).getD (ctx.property object name) := by
  intro stores
  induction stores using List.reverseRecOn with
  | nil => rfl
  | append_singleton rest s ih =>
    rw [Context.lastStored_append]
    unfold Context.setProperties at ih ⊢
    rw [List.foldl_append, List.foldl_cons, List.foldl_nil, Context.property_setProperty, ih]
    by_cases hs : s.1 = object ∧ s.2.1 = name
    · rw [if_pos hs, if_pos ⟨hs.1.symm, hs.2.symm⟩]
      rfl
    · rw [if_neg hs, if_neg (fun hc => hs ⟨hc.1.symm, hc.2.symm⟩)]

/-- C28. `Context::property(o, n)` after `setProperty(o, n, v)` is `v`; a store leaves the
answer for every other pair of object and name unchanged; and on a context that starts
without stored properties, after any list of stores the answer is the value stored last for
the pair, and the undefined value when the list has no store for the pair. -/
theorem Context.property_cache (ctx : Context) (o : Nat) (n : String) (v : Value) :
    (ctx.setProperty o n v).property o n = v ∧
    (∀ (o' : Nat) (n' : String), (o', n') ≠ (o, n) →
      (ctx.setProperty o n v).property o' n' = ctx.property o' n') ∧
    (∀ stores : List (Nat × String × Value),
      (Context.setProperties { ctx with properties := [] } stores).property o n
        = (Context.lastStored stores o n).getD .undefinedValue) := by
  refine ⟨?_, ?_, ?_⟩
  · rw [Context.property_setProperty]
    simp
  · intro o' n' hne
    rw [Context.property_setProperty, if_neg]
    rintro ⟨h1, h2⟩
    exact hne (by rw [h1, h2])
  · intro stores
    rw [Context.property_setProperties]
    rfl

/-- Witness for C28: a store for `(1, "a")` on a context that holds the string value for
`(0, "a")` leaves the answer for `(0, "a")` as it was. -/
theorem Context.property_cache_witness :
    ((0, "a") : Nat × String) ≠ (1, "a") ∧
    ((({} : Context).setProperty 0 "a" .stringValue).setProperty 1 "a" .numberValue).property
        0 "a"
      = (({} : Context).setProperty 0 "a" .stringValue).property 0 "a" ∧
    (({} : Context).setProperty 0 "a" .stringValue).property 0 "a" = .stringValue :=
  ⟨by decide,
   (Context.property_cache (({} : Context).setProperty 0 "a" .stringValue) 1 "a"
      .numberValue).2.1 0 "a" (by decide),
   by decide⟩

/-! ## Derivation and the package relation -/

/-- The loop over the superclasses from a meta-object whose chain ends within `n` links
returns with any fuel above `n`, and answers whether the target is on the chain. -/
theorem FakeMetaObject.superClassLoop_spec (metas : List FakeMetaObject) (target : Nat) :
    ∀ (n fuel a : Nat), n < fuel → superClassAt metas n a = none →
      ∃ b, FakeMetaObject.superClassLoop metas fuel (some a) (some target) = some b ∧
        (b = true ↔ ∃ k, superClassAt metas k a = some target) := by
  intro n
  induction n with
  | zero =>
    intro fuel a _ hend
    simp [superClassAt] at hend
  | succ n ih =>
    intro fuel a hlt hend
    obtain ⟨f, rfl⟩ : ∃ f, fuel = f + 1 := ⟨fuel - 1, by omega⟩
    rw [superClassAt_succ] at hend
    by_cases hat : a = target
    · subst hat
      exact ⟨true, by simp [FakeMetaObject.superClassLoop], by
        simp only [true_iff]
        exact ⟨0, rfl⟩⟩
    · have hstep : FakeMetaObject.superClassLoop metas (f + 1) (some a) (some target)
          = FakeMetaObject.superClassLoop metas f (metaAt metas a).superClass (some target) := by
        simp [FakeMetaObject.superClassLoop, hat]
      rw [hstep]
      cases hs : (metaAt metas a).superClass with
      | none =>
        obtain ⟨g, rfl⟩ : ∃ g, f = g + 1 := ⟨f - 1, by omega⟩
        refine ⟨false, by simp [FakeMetaObject.superClassLoop], ?_⟩
        simp only [Bool.false_eq_true, false_iff, not_exists]
        intro k
        cases k with
        | zero => simpa [superClassAt] using hat
        | succ k => rw [superClassAt_succ, hs]; simp
      | some s =>
        rw [hs, Option.some_bind] at hend
        obtain ⟨b, hb, hiff⟩ := ih f s (by omega) hend
        refine ⟨b, hb, ?_⟩
        rw [hiff]
        constructor
        · rintro ⟨k, hk⟩
          exact ⟨k + 1, by rw [superClassAt_succ, hs, Option.some_bind]; exact hk⟩
        · rintro ⟨k, hk⟩
          cases k with
          | zero => exact absurd (by simpa [superClassAt] using hk) hat
          | succ k =>
            rw [superClassAt_succ, hs, Option.some_bind] at hk
            exact ⟨k, hk⟩

/-- C29. For a `QmlObjectValue` whose superclass chain ends (after at most `n` links, so it
has no cycle), `isDerivedFrom(base)` returns with any fuel above `n`, and it is true exactly
when `base` is the meta-object of the value or is reached from it along `superClass` links.
In the superclass synthesis scenario the value of `Derived` in `UI` is derived from the
meta-object of `Base`, and the value of `Base` in `Core` is not derived from the meta-object
of `Derived`. -/
theorem QmlObjectValue.isDerivedFrom_iff :
    (∀ (metas : List FakeMetaObject) (v : QmlObjectValue) (base n fuel : Nat), n < fuel →
      superClassAt metas n v._metaObject = none →
      ∃ b, QmlObjectValue.isDerivedFrom metas fuel v (some base) = some b ∧
        (b = true ↔ ∃ k, superClassAt metas k v._metaObject = some base)) ∧
    (∃ t derived base,
      CppQmlTypes.load synthesisScenarioMetas 2 {} [0, 1] = some t ∧
      t.typeByQualifiedName (CppQmlTypes.qualifiedName "UI" "Derived" ⟨1, 0⟩) = some derived ∧
      t.typeByQualifiedName (CppQmlTypes.qualifiedName "Core" "Base" ⟨1, 0⟩) = some base ∧
      QmlObjectValue.isDerivedFrom synthesisScenarioMetas 3 (t.obj derived)
        (some (t.obj base)._metaObject) = some true ∧
      QmlObjectValue.isDerivedFrom synthesisScenarioMetas 3 (t.obj base)
        (some (t.obj derived)._metaObject) = some false) :=
  ⟨fun metas v base n fuel hlt hend =>
      FakeMetaObject.superClassLoop_spec metas base n fuel v._metaObject hlt hend,
    (CppQmlTypes.load synthesisScenarioMetas 2 {} [0, 1]).getD {}, 2, 0, by rfl, by decide,
    by decide, by decide, by decide⟩

/-- Witness for C29: the chain of `Derived` in the superclass synthesis scenario ends after
two links. -/
theorem QmlObjectValue.isDerivedFrom_iff_witness :
    superClassAt synthesisScenarioMetas 2 1 = none ∧
    ∃ b, QmlObjectValue.isDerivedFrom synthesisScenarioMetas 3 { _metaObject := 1 } (some 0)
        = some b ∧
      (b = true ↔ ∃ k, superClassAt synthesisScenarioMetas k 1 = some 0) :=
  ⟨by decide,
   QmlObjectValue.isDerivedFrom_iff.1 synthesisScenarioMetas { _metaObject := 1 } 0 2 3
     (by decide) (by decide)⟩

/-- The loop of `hasChildInPackage` over types whose superclass chains end within `n` links
returns with any fuel above `n`, and answers whether one of the types has more than one
export and the meta-object of the value on its chain. -/
theorem QmlObjectValue.hasChildInPackageLoop_spec (metas : List FakeMetaObject)
    (t : CppQmlTypes) (v : QmlObjectValue) (n fuel : Nat) (hlt : n < fuel) :
    ∀ types : List (String × Nat),
      (∀ it ∈ types, superClassAt metas n (t.obj it.2)._metaObject = none) →
      ∃ b, QmlObjectValue.hasChildInPackageLoop metas t fuel v types = some b ∧
        (b = true ↔ ∃ it ∈ types,
          1 < (metaAt metas (t.obj it.2)._metaObject).exports.length ∧
          ∃ k, superClassAt metas k (t.obj it.2)._metaObject = some v._metaObject) := by
  intro types
  induction types with
  | nil =>
    intro _
    exact ⟨false, rfl, by simp⟩
  | cons it rest ih =>
    intro hend
    obtain ⟨b, hb, hiff⟩ := ih (fun x hx => hend x (List.mem_cons_of_mem _ hx))
    by_cases hex : (metaAt metas (t.obj it.2)._metaObject).exports.length ≤ 1
    · refine ⟨b, by
        simp only [QmlObjectValue.hasChildInPackageLoop, hex, if_true]; exact hb, ?_⟩
      rw [hiff]
      constructor
      · rintro ⟨x, hx, h1, h2⟩
        exact ⟨x, List.mem_cons_of_mem _ hx, h1, h2⟩
      · rintro ⟨x, hx, h1, h2⟩
        rcases List.mem_cons.mp hx with rfl | hx
        · omega
        · exact ⟨x, hx, h1, h2⟩
    · obtain ⟨c, hc, hciff⟩ := FakeMetaObject.superClassLoop_spec metas v._metaObject n fuel
        (t.obj it.2)._metaObject hlt (hend it (List.mem_cons_self _ _))
      cases c with
      | true =>
        refine ⟨true, by
          simp only [QmlObjectValue.hasChildInPackageLoop, hex, if_false, hc], ?_⟩
        simp only [true_iff]
        exact ⟨it, List.mem_cons_self _ _, by omega, hciff.mp rfl⟩
      | false =>
        refine ⟨b, by
          simp only [QmlObjectValue.hasChildInPackageLoop, hex, if_false, hc]; exact hb, ?_⟩
        rw [hiff]
        constructor
        · rintro ⟨x, hx, h1, h2⟩
          exact ⟨x, List.mem_cons_of_mem _ hx, h1, h2⟩
        · rintro ⟨x, hx, h1, h2⟩
          rcases List.mem_cons.mp hx with rfl | hx
          · exact absurd (hciff.mpr h2) (by simp)
          · exact ⟨x, hx, h1, h2⟩

/-- C30 (what the code does). When the superclass chains of the materialized types end
(within `n` links), `hasChildInPackage` returns with any fuel above `n`, and it is true
exactly when the package name of the value is not empty or a materialized type whose
meta-object has more than one export has the meta-object of the value on its superclass
chain; whether that type is in a package is not looked at. In the export scenario without
module the type `T` has two exports, both without package: `hasChildInPackage` is true for
its value, though neither that value nor any materialized type is in a package. -/
theorem QmlObjectValue.hasChildInPackage_exports :
    (∀ (metas : List FakeMetaObject) (engine : Engine) (v : QmlObjectValue) (n fuel : Nat),
      n < fuel →
      (∀ it ∈ engine._cppQmlTypes.types,
        superClassAt metas n (engine._cppQmlTypes.obj it.2)._metaObject = none) →
      ∃ b, QmlObjectValue.hasChildInPackage metas engine fuel v = some b ∧
        (b = true ↔ (v.packageName ≠ "" ∨
          ∃ it ∈ engine._cppQmlTypes.types,
            1 < (metaAt metas (engine._cppQmlTypes.obj it.2)._metaObject).exports.length ∧
            ∃ k, superClassAt metas k (engine._cppQmlTypes.obj it.2)._metaObject
              = some v._metaObject))) ∧
    (QmlObjectValue.hasChildInPackage modulelessScenarioMetas modulelessScenarioEngine 2
        (modulelessScenarioEngine._cppQmlTypes.obj 1) = some true ∧
      ¬ QmlObjectValue.HasChildInPackage modulelessScenarioMetas modulelessScenarioEngine
        (modulelessScenarioEngine._cppQmlTypes.obj 1)) := by
  refine ⟨?_, by decide, ?_⟩
  · intro metas engine v n fuel hlt hend
    by_cases hp : v.packageName ≠ ""
    · exact ⟨true, by unfold QmlObjectValue.hasChildInPackage; rw [if_pos hp], by simp [hp]⟩
    · obtain ⟨b, hb, hiff⟩ := QmlObjectValue.hasChildInPackageLoop_spec metas
        engine._cppQmlTypes v n fuel hlt engine._cppQmlTypes.types hend
      refine ⟨b, by unfold QmlObjectValue.hasChildInPackage; rw [if_neg hp]; exact hb, ?_⟩
      rw [hiff]
      simp only [hp, false_or]
  · rintro (hp | ⟨it, hit, hpkg, _⟩)
    · exact hp (by decide)
    · have htypes : modulelessScenarioEngine._cppQmlTypes.types
          = [(".T 1.0", 0), (".T -1.-1", 1)] := by decide
      rw [htypes] at hit
      simp only [List.mem_cons, List.mem_singleton, List.not_mem_nil, or_false] at hit
      rcases hit with rfl | rfl
      · exact hpkg (by decide)
      · exact hpkg (by decide)

/-- Witness for C30: the export scenario without module, in which the chain of `T` ends
after one link. -/
theorem QmlObjectValue.hasChildInPackage_exports_witness :
    (∀ it ∈ modulelessScenarioEngine._cppQmlTypes.types,
      superClassAt modulelessScenarioMetas 1
        (modulelessScenarioEngine._cppQmlTypes.obj it.2)._metaObject = none) ∧
    ∃ b, QmlObjectValue.hasChildInPackage modulelessScenarioMetas modulelessScenarioEngine 2
        (modulelessScenarioEngine._cppQmlTypes.obj 1) = some b ∧
      (b = true ↔ ((modulelessScenarioEngine._cppQmlTypes.obj 1).packageName ≠ "" ∨
        ∃ it ∈ modulelessScenarioEngine._cppQmlTypes.types,
          1 < (metaAt modulelessScenarioMetas
            (modulelessScenarioEngine._cppQmlTypes.obj it.2)._metaObject).exports.length ∧
          ∃ k, superClassAt modulelessScenarioMetas k
              (modulelessScenarioEngine._cppQmlTypes.obj it.2)._metaObject
            = some (modulelessScenarioEngine._cppQmlTypes.obj 1)._metaObject)) :=
  ⟨by decide,
   QmlObjectValue.hasChildInPackage_exports.1 modulelessScenarioMetas modulelessScenarioEngine
     (modulelessScenarioEngine._cppQmlTypes.obj 1) 1 2 (by decide) (by decide)⟩

/-! ## Conversions -/

/-- Reading through a pointer after a write through a pointer. -/
theorem Heap.obj_modify (h : Heap) (a b : Nat) (f : ObjectValue → ObjectValue) :
    (h.modify a f).obj b = if a = b ∧ a < h.objects.length then f (h.obj a) else h.obj b := by
  unfold Heap.modify Heap.obj
  simp only [List.getD_eq_getElem?_getD, List.getElem?_set]
  by_cases hab : a = b
  · subst hab
    by_cases hlt : a < h.objects.length
    · simp [hlt]
    · simp [hlt, List.getElem?_eq_none (Nat.le_of_not_lt hlt)]
  · simp [hab]

/-- A write through a pointer creates no object. -/
theorem Heap.length_modify (h : Heap) (a : Nat) (f : ObjectValue → ObjectValue) :
    (h.modify a f).objects.length = h.objects.length := by
  simp [Heap.modify]

/-- The new object is at the address returned. -/
theorem Heap.obj_new_self (h : Heap) (o : ObjectValue) :
    (h.new o).2.obj (h.new o).1 = o := by
  simp [Heap.new, Heap.obj]

/-- The objects that existed are where they were. -/
theorem Heap.obj_new_of_lt (h : Heap) (o : ObjectValue) (a : Nat) (ha : a < h.objects.length) :
    (h.new o).2.obj a = h.obj a := by
  simp [Heap.new, Heap.obj, List.getD_eq_getElem?_getD, List.getElem?_append_left ha]

/-- A pointer to a function value points into the heap. -/
theorem Heap.lt_of_asFunctionValue (h : Heap) (a : Nat) (f : FunctionState)
    (hf : (h.obj a).asFunctionValue = some f) : a < h.objects.length := by
  by_contra hlt
  have hd : h.obj a = default := by
    simp [Heap.obj, List.getD_eq_getElem?_getD, List.getElem?_eq_none (Nat.le_of_not_lt hlt)]
  rw [hd] at hf
  exact Option.noConfusion hf

/-- `Engine::newObject()` returns the next free address and leaves the objects that existed
as they were. -/
theorem Engine.newObject_spec (e : Engine) (h : Heap) :
    (e.newObject h).1 = h.objects.length ∧
    (e.newObject h).2.objects.length = h.objects.length + 1 ∧
    (∀ a, a < h.objects.length → (e.newObject h).2.obj a = h.obj a) ∧
    (e.newObject h).2.obj h.objects.length
      = { _prototype := e._objectPrototype.map Value.objectValue } := by
  have hnew : (e.newObject h) = (h.objects.length,
      (h.new {}).2.modify h.objects.length
        (fun o => { o with _prototype := e._objectPrototype.map Value.objectValue })) := rfl
  rw [hnew]
  refine ⟨rfl, ?_, ?_, ?_⟩
  · simp [Heap.length_modify, Heap.new]
  · intro a ha
    simp only [Heap.obj_modify]
    rw [if_neg (by omega)]
    exact Heap.obj_new_of_lt h {} a ha
  · rw [Heap.obj_modify, if_pos ⟨rfl, by simp [Heap.new]⟩]
    have hself := Heap.obj_new_self h {}
    simp only [Heap.new] at hself ⊢
    rw [hself]

/-- The stores of properties of `Function.initialize` change neither the class name nor the
prototype of an object, and create no object. -/
theorem Function.initialize_properties (object : Nat) (properties : List (String × Value)) :
    ∀ h : Heap,
      ((properties.foldl (fun h p => ObjectValue.setProperty h object p.1 p.2) h).obj
          object).className = (h.obj object).className ∧
      ((properties.foldl (fun h p => ObjectValue.setProperty h object p.1 p.2) h).obj
          object)._prototype = (h.obj object)._prototype := by
  induction properties with
  | nil => intro h; exact ⟨rfl, rfl⟩
  | cons p rest ih =>
    intro h
    simp only [List.foldl_cons]
    obtain ⟨h1, h2⟩ := ih (ObjectValue.setProperty h object p.1 p.2)
    rw [h1, h2]
    unfold ObjectValue.setProperty
    rw [Heap.obj_modify]
    split_ifs <;> exact ⟨rfl, rfl⟩

/-- `Function.initialize` on an object of the heap returns that object, with the class name
and the prototype given. -/
theorem Function.initialize_spec (h : Heap) (object : Nat) (className : String)
    (prototype : Option Nat) (properties : List (String × Value))
    (ho : object < h.objects.length) :
    ∃ h1, Function.initialize h (some object) className prototype properties
        = some (some (.objectValue object), h1) ∧
      (h1.obj object).className = className ∧
      (h1.obj object)._prototype = prototype.map Value.objectValue := by
  refine ⟨_, rfl, ?_, ?_⟩
  · rw [(Function.initialize_properties object properties _).1]
    unfold ObjectValue.setPrototype ObjectValue.setClassName
    rw [Heap.obj_modify, if_pos ⟨rfl, by rw [Heap.length_modify]; exact ho⟩,
      Heap.obj_modify, if_pos ⟨rfl, ho⟩]
  · rw [(Function.initialize_properties object properties _).2]
    unfold ObjectValue.setPrototype ObjectValue.setClassName
    rw [Heap.obj_modify, if_pos ⟨rfl, by rw [Heap.length_modify]; exact ho⟩]

/-- `construct` on one of the three wrapper constructors returns a new object, whose class
name and prototype are those of the constructor's class. -/
theorem FunctionValue.construct_wrapper (e : Engine) (convertToString convertToNumber : Conversion)
    (h : Heap) (function : Nat) (f : FunctionState) (actuals : List Value)
    (hf : (h.obj function).asFunctionValue = some f) :
    (f.functionClass = .numberCtor →
      ∃ h1, FunctionValue.construct e convertToString convertToNumber h function actuals
          = some (some (.objectValue h.objects.length), h1) ∧
        (h1.obj h.objects.length).className = "Number" ∧
        (h1.obj h.objects.length)._prototype = e._numberPrototype.map Value.objectValue) ∧
    (f.functionClass = .booleanCtor →
      ∃ h1, FunctionValue.construct e convertToString convertToNumber h function actuals
          = some (some (.objectValue h.objects.length), h1) ∧
        (h1.obj h.objects.length).className = "Boolean" ∧
        (h1.obj h.objects.length)._prototype = e._booleanPrototype.map Value.objectValue) ∧
    (f.functionClass = .stringCtor →
      ∃ h1, FunctionValue.construct e convertToString convertToNumber h function actuals
          = some (some (.objectValue h.objects.length), h1) ∧
        (h1.obj h.objects.length).className = "String" ∧
        (h1.obj h.objects.length)._prototype = e._stringPrototype.map Value.objectValue) := by
  obtain ⟨hn1, hn2, hn3, _⟩ := Engine.newObject_spec e h
  have hlt : function < h.objects.length := Heap.lt_of_asFunctionValue h function f hf
  have hf1 : ((e.newObject h).2.obj function).asFunctionValue = some f := by
    rw [hn3 function hlt]; exact hf
  have hlen : h.objects.length < (e.newObject h).2.objects.length := by omega
  refine ⟨?_, ?_, ?_⟩
  · intro hc
    obtain ⟨h1, hi, hcn, hp⟩ := Function.initialize_spec (e.newObject h).2 h.objects.length
      "Number" e._numberPrototype [] hlen
    refine ⟨h1, ?_, hcn, hp⟩
    rw [← hi, ← hn1]
    simp [FunctionValue.construct, FunctionValue.invoke, hf1, hc,
      Activation.setCalledAsConstructor, Activation.setThisObject, Activation.setArguments]
  · intro hc
    obtain ⟨h1, hi, hcn, hp⟩ := Function.initialize_spec (e.newObject h).2 h.objects.length
      "Boolean" e._booleanPrototype [] hlen
    refine ⟨h1, ?_, hcn, hp⟩
    rw [← hi, ← hn1]
    simp [FunctionValue.construct, FunctionValue.invoke, hf1, hc,
      Activation.setCalledAsConstructor, Activation.setThisObject, Activation.setArguments]
  · intro hc
    obtain ⟨h1, hi, hcn, hp⟩ := Function.initialize_spec (e.newObject h).2 h.objects.length
      "String" e._stringPrototype [("length", .numberValue)] hlen
    refine ⟨h1, ?_, hcn, hp⟩
    rw [← hi, ← hn1]
    simp [FunctionValue.construct, FunctionValue.invoke, hf1, hc,
      Activation.setCalledAsConstructor, Activation.setThisObject, Activation.setArguments]

/-- With the wrapper constructors in place, `convertToObject` of the number, the boolean and
the string value returns a new object whose class name and prototype are those that the
constructor sets. -/
theorem Engine.convertToObject_wrapper (e : Engine) (h : Heap) (fuel : Nat)
    (hw : e.HasWrapperCtors h) :
    (∃ h1, e.convertToObject fuel h (some .numberValue)
        = some (some (.objectValue h.objects.length), h1) ∧
      (h1.obj h.objects.length).className = "Number" ∧
      (h1.obj h.objects.length)._prototype = e._numberPrototype.map Value.objectValue) ∧
    (∃ h1, e.convertToObject fuel h (some .booleanValue)
        = some (some (.objectValue h.objects.length), h1) ∧
      (h1.obj h.objects.length).className = "Boolean" ∧
      (h1.obj h.objects.length)._prototype = e._booleanPrototype.map Value.objectValue) ∧
    (∃ h1, e.convertToObject fuel h (some .stringValue)
        = some (some (.objectValue h.objects.length), h1) ∧
      (h1.obj h.objects.length).className = "String" ∧
      (h1.obj h.objects.length)._prototype = e._stringPrototype.map Value.objectValue) := by
  obtain ⟨hn, hb, hs⟩ := hw
  refine ⟨?_, ?_, ?_⟩
  · cases hc : e._numberCtor with
    | none => rw [hc] at hn; exact Option.noConfusion hn
    | some c =>
      rw [hc, Option.some_bind] at hn
      cases hf : (h.obj c).asFunctionValue with
      | none => rw [hf] at hn; exact Option.noConfusion hn
      | some f =>
        rw [hf] at hn
        have hcls : f.functionClass = .numberCtor := by simpa using hn
        simp only [Engine.convertToObject, hc]
        exact (FunctionValue.construct_wrapper e _ _ h c f _ hf).1 hcls
  · cases hc : e._booleanCtor with
    | none => rw [hc] at hb; exact Option.noConfusion hb
    | some c =>
      rw [hc, Option.some_bind] at hb
      cases hf : (h.obj c).asFunctionValue with
      | none => rw [hf] at hb; exact Option.noConfusion hb
      | some f =>
        rw [hf] at hb
        have hcls : f.functionClass = .booleanCtor := by simpa using hb
        simp only [Engine.convertToObject, hc]
        exact (FunctionValue.construct_wrapper e _ _ h c f _ hf).2.1 hcls
  · cases hc : e._stringCtor with
    | none => rw [hc] at hs; exact Option.noConfusion hs
    | some c =>
      rw [hc, Option.some_bind] at hs
      cases hf : (h.obj c).asFunctionValue with
      | none => rw [hf] at hs; exact Option.noConfusion hs
      | some f =>
        rw [hf] at hs
        have hcls : f.functionClass = .stringCtor := by simpa using hs
        simp only [Engine.convertToObject, hc]
        exact (FunctionValue.construct_wrapper e _ _ h c f _ hf).2.2 hcls

/-- A function value called as a constructor converts nothing: `construct` does not depend on
the conversions of the engine. -/
theorem FunctionValue.construct_conversions (e : Engine)
    (convertToString convertToNumber convertToString1 convertToNumber1 : Conversion)
    (h : Heap) (function : Nat) (actuals : List Value) :
    FunctionValue.construct e convertToString convertToNumber h function actuals
      = FunctionValue.construct e convertToString1 convertToNumber1 h function actuals := by
  simp only [FunctionValue.construct, FunctionValue.invoke, Activation.setCalledAsConstructor,
    Activation.setThisObject, Activation.setArguments, Bool.not_true, Bool.false_eq_true,
    if_false]

/-- `Engine::newArray` returns the same for every fuel. -/
theorem Engine.newArray_fuel (e : Engine) (fuel : Nat) (h : Heap) :
    e.newArray fuel h = e.newArray 0 h := by
  unfold Engine.newArray
  cases e._arrayCtor with
  | none => rfl
  | some arrayCtor => exact FunctionValue.construct_conversions e _ _ _ _ h arrayCtor []

/-- `Engine::initializePrototypes` returns the same for every fuel: the only calls that take
fuel are those of `newArray`. -/
theorem Engine.initializePrototypes_fuel (fuel : Nat) (e : Engine) (h : Heap) :
    Engine.initializePrototypes fuel e h = Engine.initializePrototypes 0 e h := by
  have h1 : ∀ e h,
      Engine.initializePrototypes1 fuel e h = Engine.initializePrototypes1 0 e h := by
    intro e h
    unfold Engine.initializePrototypes1
    simp only [Engine.newArray_fuel _ fuel]
  have h3 : ∀ e h,
      Engine.initializePrototypes3 fuel e h = Engine.initializePrototypes3 0 e h := by
    intro e h
    unfold Engine.initializePrototypes3
    simp only [Engine.newArray_fuel _ fuel]
  have h7 : ∀ e h,
      Engine.initializePrototypes7 fuel e h = Engine.initializePrototypes7 0 e h := by
    intro e h
    unfold Engine.initializePrototypes7
    simp only [Engine.newArray_fuel _ fuel]
  unfold Engine.initializePrototypes
  simp only [h1, h3, h7]

/-- `initializePrototypes` returns from the state in which the constructor of the engine
calls it, and leaves the three wrapper constructors in place. -/
theorem Engine.initial_hasWrapperCtors :
    (Engine.initializePrototypes 0 {} {}).isSome = true ∧
    Engine.initial.1.HasWrapperCtors Engine.initial.2 := by
  set_option maxRecDepth 1000000 in decide!

/-- `initializePrototypes` returns for every fuel, with the initial engine and heap. -/
theorem Engine.initializePrototypes_initial (fuel : Nat) :
    Engine.initializePrototypes fuel {} {} = some Engine.initial := by
  rw [Engine.initializePrototypes_fuel]
  obtain ⟨x, hx⟩ := Option.isSome_iff_exists.mp Engine.initial_hasWrapperCtors.1
  unfold Engine.initial
  rw [hx]
  rfl

/-- In the initial engine, the `toString` member of a new object, looked up with the null
context, is the function that `initializePrototypes` adds to the Object prototype: a
`Function` whose declared return value is the string value. -/
theorem Engine.initialNewObject_toString :
    ObjectValue.lookupMemberNullContext Engine.initialNewObject.2 2 Engine.initialNewObject.1
      "toString" true = some (some (.objectValue 35)) ∧
    (Engine.initialNewObject.2.obj 35).asFunctionValue
      = some { functionClass := .function, _returnValue := some .stringValue } ∧
    (Engine.initialNewObject.2.obj Engine.initialNewObject.1)._members = [] ∧
    (Engine.initialNewObject.2.obj Engine.initialNewObject.1)._prototype
      = Engine.initial.1._objectPrototype.map Value.objectValue := by
  set_option maxRecDepth 1000000 in decide!

/-- C24. With the wrapper constructors in place, `convertToObject` is idempotent on the
primitive values (null, undefined, number, boolean, string, color and anchor line): the
conversion returns, and converting its result again returns the same result and leaves the
heap as the first conversion left it. -/
theorem Engine.convertToObject_idempotent (e : Engine) (h : Heap) (fuel : Nat) (v : Value)
    (hw : e.HasWrapperCtors h) (hv : v.isPrimitive = true) :
    ∃ r h1, e.convertToObject fuel h (some v) = some (r, h1) ∧
      e.convertToObject fuel h1 r = some (r, h1) := by
  obtain ⟨⟨hn, hpn, _⟩, ⟨hb, hpb, _⟩, ⟨hs, hps, _⟩⟩ :=
    Engine.convertToObject_wrapper e h fuel hw
  cases v with
  | nullValue => exact ⟨some .nullValue, h, rfl, rfl⟩
  | undefinedValue => exact ⟨some .nullValue, h, rfl, rfl⟩
  | numberValue => exact ⟨_, hn, hpn, rfl⟩
  | booleanValue => exact ⟨_, hb, hpb, rfl⟩
  | stringValue => exact ⟨_, hs, hps, rfl⟩
  | colorValue => exact ⟨none, h, rfl, rfl⟩
  | anchorLineValue => exact ⟨none, h, rfl, rfl⟩
  | objectValue a => exact absurd hv (by simp [Value.isPrimitive])
  | reference a => exact absurd hv (by simp [Value.isPrimitive])

/-- Witness for C24: the number value in the initial engine. -/
theorem Engine.convertToObject_idempotent_witness :
    Engine.initial.1.HasWrapperCtors Engine.initial.2 ∧ Value.numberValue.isPrimitive = true ∧
    ∃ r h1, Engine.initial.1.convertToObject 1 Engine.initial.2 (some .numberValue)
        = some (r, h1) ∧
      Engine.initial.1.convertToObject 1 h1 r = some (r, h1) :=
  ⟨Engine.initial_hasWrapperCtors.2, rfl,
   Engine.convertToObject_idempotent Engine.initial.1 Engine.initial.2 1 .numberValue
     Engine.initial_hasWrapperCtors.2 rfl⟩

/-- C25. With the wrapper constructors in place, `convertToObject` of the number, the boolean
and the string value returns: the result is a new object (the wrapper that the matching
constructor builds when called as a constructor), whose prototype is `numberPrototype`,
`booleanPrototype` and `stringPrototype` of the engine and whose class name is `Number`,
`Boolean` and `String`. -/
theorem Engine.convertToObject_prototype (e : Engine) (h : Heap) (fuel : Nat)
    (hw : e.HasWrapperCtors h) :
    (∃ h1, e.convertToObject fuel h (some .numberValue)
        = some (some (.objectValue h.objects.length), h1) ∧
      (h1.obj h.objects.length).className = "Number" ∧
      (h1.obj h.objects.length)._prototype = e._numberPrototype.map Value.objectValue) ∧
    (∃ h1, e.convertToObject fuel h (some .booleanValue)
        = some (some (.objectValue h.objects.length), h1) ∧
      (h1.obj h.objects.length).className = "Boolean" ∧
      (h1.obj h.objects.length)._prototype = e._booleanPrototype.map Value.objectValue) ∧
    (∃ h1, e.convertToObject fuel h (some .stringValue)
        = some (some (.objectValue h.objects.length), h1) ∧
      (h1.obj h.objects.length).className = "String" ∧
      (h1.obj h.objects.length)._prototype = e._stringPrototype.map Value.objectValue) :=
  Engine.convertToObject_wrapper e h fuel hw

/-- Witness for C25: the initial engine, in which the prototypes are the objects 2, 3 and
4. -/
theorem Engine.convertToObject_prototype_witness :
    Engine.initial.1.HasWrapperCtors Engine.initial.2 ∧
    ∃ h1, Engine.initial.1.convertToObject 0 Engine.initial.2 (some .numberValue)
        = some (some (.objectValue Engine.initial.2.objects.length), h1) ∧
      (h1.obj Engine.initial.2.objects.length).className = "Number" ∧
      (h1.obj Engine.initial.2.objects.length)._prototype
        = Engine.initial.1._numberPrototype.map Value.objectValue :=
  ⟨Engine.initial_hasWrapperCtors.2,
   (Engine.convertToObject_prototype Engine.initial.1 Engine.initial.2 0
     Engine.initial_hasWrapperCtors.2).1⟩

/-- What `convertToString` does at an object value, by what the lookup of its `toString`
member returns. -/
theorem Engine.convertToString_objectValue (e : Engine) (h : Heap) (fuel object : Nat) :
    e.convertToString fuel h (some (.objectValue object))
      = ConvertTo.visitObject e
          (match fuel with
            | 0 => fun _ _ => none
            | f + 1 => e.convertTo f true)
          (match fuel with
            | 0 => fun _ _ => none
            | f + 1 => e.convertTo f false)
          fuel "toString" Value.asStringValue h object := by
  cases fuel <;> rfl

/-- With the null context, the lookup of a member that the object does not have itself does
not return when the prototype of the object is a reference: `ObjectValue::prototype` calls
`lookupReference` through the null pointer. Then `convertToString` of the object does not
return either. -/
theorem Engine.convertToString_referencePrototype (e : Engine) (h : Heap) (fuel object : Nat)
    (reference : Nat) (hk : (h.obj object).kind = .plain)
    (hm : findMember "toString" (h.obj object)._members = none)
    (hp : (h.obj object)._prototype = some (.reference reference)) :
    ObjectValue.lookupMemberNullContext h fuel object "toString" true = none ∧
    e.convertToString fuel h (some (.objectValue object)) = none := by
  have hs : (h.obj object).slowLookup "toString" = none := by
    have hgen : ∀ l : List (String × Value), findMember "toString" l = none →
        ObjectValue.processOwnMembers "toString" l none = none := by
      intro l
      induction l with
      | nil => intro _; rfl
      | cons kv rest ih =>
        obtain ⟨key, value⟩ := kv
        intro hf
        unfold findMember at hf
        by_cases hkey : key = "toString"
        · rw [if_pos hkey] at hf
          exact Option.noConfusion hf
        · rw [if_neg hkey] at hf
          have hne : ¬ "toString" = key := fun hh => hkey hh.symm
          simp only [ObjectValue.processOwnMembers, LookupMember.process, Option.isSome_none,
            Bool.false_eq_true, if_false, hkey, if_true]
          exact ih hf
    unfold ObjectValue.slowLookup
    rw [hk]
    exact hgen _ hm
  have hl : ObjectValue.lookupMemberNullContext h fuel object "toString" true = none := by
    cases fuel with
    | zero => rfl
    | succ f =>
      simp [ObjectValue.lookupMemberNullContext, hk, hm, hs, ObjectValue.prototypeNullContext,
        hp, Value.asObjectValue, Value.asReference]
  refine ⟨hl, ?_⟩
  rw [Engine.convertToString_objectValue]
  simp [ConvertTo.visitObject, hl]

/-- Reading `_metaSignature` after an insertion. -/
theorem QmlObjectValue.signatureValue_insert (l : List (Nat × Nat)) (index value j : Nat) :
    QmlObjectValue.signatureValue (QmlObjectValue.signatureInsert l index value) j
      = if j = index then some value else QmlObjectValue.signatureValue l j := by
  induction l with
  | nil =>
    simp only [QmlObjectValue.signatureInsert, QmlObjectValue.signatureValue]
    by_cases hk : index = j
    · simp [hk]
    · simp [hk, Ne.symm hk]
  | cons hd rest ih =>
    obtain ⟨k0, v0⟩ := hd
    simp only [QmlObjectValue.signatureInsert]
    by_cases h0 : k0 = index
    · rw [if_pos h0]
      simp only [QmlObjectValue.signatureValue]
      by_cases hk : k0 = j
      · simp [hk, ← h0]
      · have : ¬ j = index := fun h => hk (by rw [h0, h])
        simp [hk, this]
    · rw [if_neg h0]
      simp only [QmlObjectValue.signatureValue, ih]
      by_cases hk : k0 = j
      · have : ¬ j = index := fun h => h0 (by rw [hk, h])
        simp [hk, this]
      · simp [hk]

/-- A call of `findOrCreateSignature` for an index that has a signature returns it and
changes nothing. -/
theorem QmlObjectValue.findOrCreateSignature_found (h : Heap) (v : QmlObjectValue)
    (index a : Nat) (method : FakeMetaMethod)
    (hc : QmlObjectValue.signatureValue v._metaSignature index = some a) :
    QmlObjectValue.findOrCreateSignature h v index method = (a, method.methodName, v, h) := by
  unfold QmlObjectValue.findOrCreateSignature
  simp only [hc]

/-- A call of `findOrCreateSignature` for an index that has no signature creates a
`MetaFunction` at the next free address and enters it in `_metaSignature`. -/
theorem QmlObjectValue.findOrCreateSignature_created (h : Heap) (v : QmlObjectValue)
    (index : Nat) (method : FakeMetaMethod)
    (hc : QmlObjectValue.signatureValue v._metaSignature index = none) :
    QmlObjectValue.findOrCreateSignature h v index method
      = (h.objects.length, method.methodName,
          { v with
            _metaSignature :=
              QmlObjectValue.signatureInsert v._metaSignature index h.objects.length },
          (MetaFunction.new h).2) := by
  unfold QmlObjectValue.findOrCreateSignature
  simp only [hc]
  rfl

/-- What a call of `findOrCreateSignature` leaves: the value returned is the signature of
the index, the signatures that existed are kept, at most one object is created, and the
object differs in `_metaSignature` only. -/
theorem QmlObjectValue.findOrCreateSignature_spec (h : Heap) (v : QmlObjectValue)
    (index : Nat) (method : FakeMetaMethod) :
    QmlObjectValue.signatureValue
        (QmlObjectValue.findOrCreateSignature h v index method).2.2.1._metaSignature index
      = some (QmlObjectValue.findOrCreateSignature h v index method).1 ∧
    (∀ j a, QmlObjectValue.signatureValue v._metaSignature j = some a →
      QmlObjectValue.signatureValue
        (QmlObjectValue.findOrCreateSignature h v index method).2.2.1._metaSignature j
        = some a) ∧
    h.objects.length ≤ (QmlObjectValue.findOrCreateSignature h v index method).2.2.2.objects.length ∧
    (QmlObjectValue.findOrCreateSignature h v index method).2.2.2.objects.length
      ≤ h.objects.length + 1 ∧
    (QmlObjectValue.findOrCreateSignature h v index method).2.2.2.references = h.references ∧
    (QmlObjectValue.findOrCreateSignature h v index method).2.2.1
      = { v with
          _metaSignature :=
            (QmlObjectValue.findOrCreateSignature h v index method).2.2.1._metaSignature } ∧
    (QmlObjectValue.findOrCreateSignature h v index method).2.1 = method.methodName := by
  cases hc : QmlObjectValue.signatureValue v._metaSignature index with
  | some a =>
    rw [QmlObjectValue.findOrCreateSignature_found h v index a method hc]
    exact ⟨hc, fun j a h => h, Nat.le_refl _, Nat.le_succ _, rfl, rfl, rfl⟩
  | none =>
    rw [QmlObjectValue.findOrCreateSignature_created h v index method hc]
    refine ⟨?_, ?_, ?_, ?_, rfl, rfl, rfl⟩
    · simp only [QmlObjectValue.signatureValue_insert, if_true]
    · intro j a hj
      simp only [QmlObjectValue.signatureValue_insert]
      by_cases hji : j = index
      · rw [hji, hc] at hj
        exact Option.noConfusion hj
      · rw [if_neg hji]
        exact hj
    · simp [MetaFunction.new, Heap.new]
    · simp [MetaFunction.new, Heap.new]

/-- The body of the loop over the meta methods finds or creates the signature and reports
the method with it. -/
theorem QmlObjectValue.processMethod_eq (toUpper : Char → Char) (v : QmlObjectValue)
    (h : Heap) (reported : List (MemberKind × String × QmlMember)) (index : Nat)
    (method : FakeMetaMethod) :
    QmlObjectValue.processMethod toUpper (v, h, reported) index method
      = (QmlObjectValue.methodReport toUpper method
          (QmlObjectValue.findOrCreateSignature h v index method).1).map
        (fun calls =>
          ((QmlObjectValue.findOrCreateSignature h v index method).2.2.1,
            (QmlObjectValue.findOrCreateSignature h v index method).2.2.2,
            reported ++ calls)) := by
  have hname := (QmlObjectValue.findOrCreateSignature_spec h v index method).2.2.2.2.2.2
  unfold QmlObjectValue.processMethod QmlObjectValue.methodReport
  simp only [hname]
  split_ifs
  · rfl
  · cases QmlObjectValue.slotName toUpper method.methodName with
    | none => rfl
    | some slotName => rfl
  · simp

/-- The calls made for a method are calls for methods. -/
theorem QmlObjectValue.methodReport_isMethod (toUpper : Char → Char) (method : FakeMetaMethod)
    (signature : Nat) (calls : List (MemberKind × String × QmlMember))
    (hr : QmlObjectValue.methodReport toUpper method signature = some calls) :
    ∀ r ∈ calls, r.1.isMethod = true := by
  unfold QmlObjectValue.methodReport at hr
  split_ifs at hr
  · simp only [Option.some.injEq] at hr
    subst hr
    intro r hr
    simp only [List.mem_singleton] at hr
    subst hr
    rfl
  · cases hs : QmlObjectValue.slotName toUpper method.methodName with
    | none => rw [hs] at hr; exact Option.noConfusion hr
    | some slotName =>
      rw [hs] at hr
      simp only [Option.map_some', Option.some.injEq] at hr
      subst hr
      intro r hr
      simp only [List.mem_cons, List.mem_singleton, List.not_mem_nil, or_false] at hr
      rcases hr with rfl | rfl <;> rfl
  · simp only [Option.some.injEq] at hr
    subst hr
    intro r hr
    cases hr

/-- The loop over the meta methods: the calls that it adds are calls for methods; the
signatures that existed are kept; at most one object is created for each method; the value
differs in `_metaSignature` only; and the same loop from any state that has the signatures
left behind adds the same calls and changes nothing. -/
theorem QmlObjectValue.processMethods_spec (toUpper : Char → Char) :
    ∀ (methods : List FakeMetaMethod) (index : Nat) (v : QmlObjectValue) (h : Heap)
      (reported : List (MemberKind × String × QmlMember)) (v1 : QmlObjectValue) (h1 : Heap)
      (reported1 : List (MemberKind × String × QmlMember)),
      QmlObjectValue.processMethods toUpper methods index (v, h, reported)
        = some (v1, h1, reported1) →
      ∃ calls, reported1 = reported ++ calls ∧ (∀ r ∈ calls, r.1.isMethod = true) ∧
        (∀ j a, QmlObjectValue.signatureValue v._metaSignature j = some a →
          QmlObjectValue.signatureValue v1._metaSignature j = some a) ∧
        h.objects.length ≤ h1.objects.length ∧
        h1.objects.length ≤ h.objects.length + methods.length ∧
        h1.references = h.references ∧
        v1 = { v with _metaSignature := v1._metaSignature } ∧
        ∀ (vF : QmlObjectValue) (hF : Heap) (reportedF : List (MemberKind × String × QmlMember)),
          (∀ j a, QmlObjectValue.signatureValue v1._metaSignature j = some a →
            QmlObjectValue.signatureValue vF._metaSignature j = some a) →
          QmlObjectValue.processMethods toUpper methods index (vF, hF, reportedF)
            = some (vF, hF, reportedF ++ calls) := by
  intro methods
  induction methods with
  | nil =>
    intro index v h reported v1 h1 reported1 hp
    simp only [QmlObjectValue.processMethods, Option.some.injEq, Prod.mk.injEq] at hp
    obtain ⟨rfl, rfl, rfl⟩ := hp
    exact ⟨[], by simp, by simp, fun j a hj => hj, Nat.le_refl _, by simp, rfl, rfl,
      fun vF hF reportedF _ => by simp [QmlObjectValue.processMethods]⟩
  | cons method rest ih =>
    intro index v h reported v1 h1 reported1 hp
    simp only [QmlObjectValue.processMethods] at hp
    rw [QmlObjectValue.processMethod_eq] at hp
    obtain ⟨s1, s2, s3, s4, s5, s6, _⟩ :=
      QmlObjectValue.findOrCreateSignature_spec h v index method
    cases hrep : QmlObjectValue.methodReport toUpper method
        (QmlObjectValue.findOrCreateSignature h v index method).1 with
    | none => rw [hrep] at hp; simp at hp
    | some calls0 =>
      rw [hrep] at hp
      simp only [Option.map_some'] at hp
      obtain ⟨calls1, e1, e2, e3, e4, e5, e6, e7, e8⟩ := ih _ _ _ _ _ _ _ hp
      refine ⟨calls0 ++ calls1, by rw [e1, List.append_assoc], ?_,
        fun j a hj => e3 j a (s2 j a hj), by omega, by
          simp only [List.length_cons]; omega, by rw [e6, s5], ?_, ?_⟩
      · intro r hr
        rcases List.mem_append.mp hr with h0 | h1
        · exact QmlObjectValue.methodReport_isMethod toUpper method _ calls0 hrep r h0
        · exact e2 r h1
      · rw [e7, s6]
      · intro vF hF reportedF hF1
        have hcached : QmlObjectValue.signatureValue vF._metaSignature index
            = some (QmlObjectValue.findOrCreateSignature h v index method).1 :=
          hF1 _ _ (e3 _ _ s1)
        simp only [QmlObjectValue.processMethods]
        rw [QmlObjectValue.processMethod_eq,
          QmlObjectValue.findOrCreateSignature_found hF vF index _ method hcached]
        simp only [hrep, Option.map_some']
        rw [e8 vF hF (reportedF ++ calls0) hF1, List.append_assoc]

/-- The calls that `processMembers` makes for the enums and for the properties are no calls
for methods. -/
theorem QmlObjectValue.processProperties_isMethod (metas : List FakeMetaObject)
    (v : QmlObjectValue) (indices : List Nat) :
    ∀ (s : List (MemberKind × String × QmlMember) × Engine),
      (∀ r ∈ s.1, r.1.isMethod = false) →
      ∀ r ∈ (indices.foldl (QmlObjectValue.processProperty metas v) s).1,
        r.1.isMethod = false := by
  induction indices with
  | nil => intro s hs; exact hs
  | cons index rest ih =>
    intro s hs
    simp only [List.foldl_cons]
    apply ih
    intro r hr
    simp only [QmlObjectValue.processProperty, List.mem_append, List.mem_singleton] at hr
    rcases hr with h0 | h1
    · exact hs r h0
    · rw [h1]
      rfl

/-- The calls for the enums are calls of `processEnumerator`. -/
theorem QmlObjectValue.processEnums_isMethod (m : FakeMetaObject) :
    ∀ r ∈ QmlObjectValue.processEnums m, r.1.isMethod = false := by
  intro r hr
  simp only [QmlObjectValue.processEnums, List.mem_flatMap, List.mem_map] at hr
  obtain ⟨_, _, _, _, heq⟩ := hr
  rw [← heq]
  rfl

/-- Enumerating the members a second time gives the signatures of the first time and
creates nothing on the heap. -/
theorem QmlObjectValue.processMembers_twice (toUpper : Char → Char)
    (metas : List FakeMetaObject) (engine : Engine) (h : Heap) (v : QmlObjectValue)
    (reported : List (MemberKind × String × QmlMember)) (engine1 : Engine)
    (v1 : QmlObjectValue) (h1 : Heap)
    (hp : QmlObjectValue.processMembers toUpper metas engine h v
      = some (reported, engine1, v1, h1)) :
    h.objects.length ≤ h1.objects.length ∧
    h1.objects.length ≤ h.objects.length + (metaAt metas v._metaObject).methodCount ∧
    h1.references = h.references ∧
    v1 = { v with _metaSignature := v1._metaSignature } ∧
    (∀ j a, QmlObjectValue.signatureValue v._metaSignature j = some a →
      QmlObjectValue.signatureValue v1._metaSignature j = some a) ∧
    ∀ engineF : Engine, ∃ reported2 engine2,
      QmlObjectValue.processMembers toUpper metas engineF h1 v1
        = some (reported2, engine2, v1, h1) ∧
      reported2.filter (fun r => r.1.isMethod) = reported.filter (fun r => r.1.isMethod) := by
  unfold QmlObjectValue.processMembers at hp
  simp only [] at hp
  cases hm : QmlObjectValue.processMethods toUpper (metaAt metas v._metaObject).m_methods 0
      (v, h, ((List.range (metaAt metas v._metaObject).propertyCount).foldl
        (QmlObjectValue.processProperty metas v)
        (QmlObjectValue.processEnums (metaAt metas v._metaObject), engine)).1) with
  | none => rw [hm] at hp; exact Option.noConfusion hp
  | some s =>
    obtain ⟨va, ha, ra⟩ := s
    rw [hm] at hp
    simp only [Option.some.injEq, Prod.mk.injEq] at hp
    obtain ⟨rfl, _, rfl, rfl⟩ := hp
    obtain ⟨calls, e1, e2, e3, e4, e5, e6, e7, e8⟩ :=
      QmlObjectValue.processMethods_spec toUpper _ _ _ _ _ _ _ _ hm
    have hmeta : va._metaObject = v._metaObject := by rw [e7]
    refine ⟨e4, e5, e6, e7, e3, ?_⟩
    intro engineF
    have hsecond := e8 va ha
      ((List.range (metaAt metas v._metaObject).propertyCount).foldl
        (QmlObjectValue.processProperty metas va)
        (QmlObjectValue.processEnums (metaAt metas v._metaObject), engineF)).1
      (fun j a hj => hj)
    refine ⟨((List.range (metaAt metas v._metaObject).propertyCount).foldl
        (QmlObjectValue.processProperty metas va)
        (QmlObjectValue.processEnums (metaAt metas v._metaObject), engineF)).1 ++ calls,
      ((List.range (metaAt metas v._metaObject).propertyCount).foldl
        (QmlObjectValue.processProperty metas va)
        (QmlObjectValue.processEnums (metaAt metas v._metaObject), engineF)).2, by
      unfold QmlObjectValue.processMembers
      simp only [hmeta, hsecond], ?_⟩
    have hno : ∀ (w : QmlObjectValue) (e : Engine),
        ((List.range (metaAt metas v._metaObject).propertyCount).foldl
          (QmlObjectValue.processProperty metas w)
          (QmlObjectValue.processEnums (metaAt metas v._metaObject), e)).1.filter
            (fun r => r.1.isMethod) = [] := by
      intro w e
      rw [List.filter_eq_nil_iff]
      intro r hr
      rw [QmlObjectValue.processProperties_isMethod metas w _ _
        (QmlObjectValue.processEnums_isMethod _) r hr]
      simp
    rw [e1, List.filter_append, List.filter_append, hno, hno]

/-- C31. `findOrCreateSignature` creates the signature of a method index on the first call
and caches it: a call for an index without signature creates one `MetaFunction`, at the
next free address; after any call the value returned is the signature entered for the index;
every call keeps the signatures entered before; and a call for an index that has a signature
returns that signature and changes neither the value nor the heap. So when the members of a
`QmlObjectValue` have been enumerated, at most one object for each meta-method has been
created, and a second enumeration (with any engine) returns, reports the methods with the
same names and signature values in the same order, and leaves the value and the heap as the
first one left them. -/
theorem QmlObjectValue.findOrCreateSignature_once :
    (∀ (h : Heap) (v : QmlObjectValue) (index : Nat) (method : FakeMetaMethod),
      (QmlObjectValue.signatureValue v._metaSignature index = none →
        (QmlObjectValue.findOrCreateSignature h v index method).1 = h.objects.length ∧
        (QmlObjectValue.findOrCreateSignature h v index method).2.2.2.objects.length
          = h.objects.length + 1 ∧
        ((QmlObjectValue.findOrCreateSignature h v index method).2.2.2.obj
          h.objects.length).asFunctionValue = some { functionClass := .metaFunction }) ∧
      QmlObjectValue.signatureValue
          (QmlObjectValue.findOrCreateSignature h v index method).2.2.1._metaSignature index
        = some (QmlObjectValue.findOrCreateSignature h v index method).1 ∧
      (∀ j a, QmlObjectValue.signatureValue v._metaSignature j = some a →
        QmlObjectValue.signatureValue
          (QmlObjectValue.findOrCreateSignature h v index method).2.2.1._metaSignature j
          = some a) ∧
      (∀ a, QmlObjectValue.signatureValue v._metaSignature index = some a →
        QmlObjectValue.findOrCreateSignature h v index method
          = (a, method.methodName, v, h))) ∧
    (∀ (toUpper : Char → Char) (metas : List FakeMetaObject) (engine : Engine) (h : Heap)
      (v : QmlObjectValue) (reported : List (MemberKind × String × QmlMember))
      (engine1 : Engine) (v1 : QmlObjectValue) (h1 : Heap),
      QmlObjectValue.processMembers toUpper metas engine h v
        = some (reported, engine1, v1, h1) →
      h1.objects.length ≤ h.objects.length + (metaAt metas v._metaObject).methodCount ∧
      ∀ engineF : Engine, ∃ reported2 engine2,
        QmlObjectValue.processMembers toUpper metas engineF h1 v1
          = some (reported2, engine2, v1, h1) ∧
        reported2.filter (fun r => r.1.isMethod)
          = reported.filter (fun r => r.1.isMethod)) := by
  refine ⟨?_, ?_⟩
  · intro h v index method
    obtain ⟨s1, s2, _⟩ := QmlObjectValue.findOrCreateSignature_spec h v index method
    refine ⟨?_, s1, s2,
      fun a ha => QmlObjectValue.findOrCreateSignature_found h v index a method ha⟩
    intro hnone
    rw [QmlObjectValue.findOrCreateSignature_created h v index method hnone]
    refine ⟨rfl, by simp [MetaFunction.new, Heap.new], ?_⟩
    have hself := Heap.obj_new_self h { asFunctionValue := some { functionClass := .metaFunction } }
    simp only [MetaFunction.new, Heap.new] at hself ⊢
    rw [hself]
  · intro toUpper metas engine h v reported engine1 v1 h1 hp
    obtain ⟨_, e2, _, _, _, e6⟩ :=
      QmlObjectValue.processMembers_twice toUpper metas engine h v reported engine1 v1 h1 hp
    exact ⟨e2, e6⟩

/-- Witness for C31: the members of `Button` in the signal scenario, enumerated on the empty
heap; the three methods get the objects 0, 1 and 2. -/
theorem QmlObjectValue.findOrCreateSignature_once_witness :
    QmlObjectValue.processMembers Char.toUpper signalScenarioMetas signalScenarioEngine {}
        (signalScenarioEngine._cppQmlTypes.obj 0)
      = some (signalScenarioMembers.1, signalScenarioMembers.2.1, signalScenarioMembers.2.2.1,
          signalScenarioMembers.2.2.2) ∧
    signalScenarioMembers.1.filter (fun r => r.1.isMethod)
      = [(.signal, "clicked", .value (.objectValue 0)),
         (.generatedSlot, "onClicked", .value (.objectValue 0)),
         (.signal, "onClicked", .value (.objectValue 1)),
         (.generatedSlot, "onOnClicked", .value (.objectValue 1)),
         (.slot, "open", .value (.objectValue 2))] ∧
    signalScenarioMembers.2.2.2.objects.length
      ≤ ({} : Heap).objects.length
        + (metaAt signalScenarioMetas
            (signalScenarioEngine._cppQmlTypes.obj 0)._metaObject).methodCount ∧
    ∃ reported2 engine2,
      QmlObjectValue.processMembers Char.toUpper signalScenarioMetas signalScenarioMembers.2.1
          signalScenarioMembers.2.2.2 signalScenarioMembers.2.2.1
        = some (reported2, engine2, signalScenarioMembers.2.2.1, signalScenarioMembers.2.2.2) ∧
      reported2.filter (fun r => r.1.isMethod)
        = signalScenarioMembers.1.filter (fun r => r.1.isMethod) :=
  ⟨by rfl, by decide,
   (QmlObjectValue.findOrCreateSignature_once.2 Char.toUpper signalScenarioMetas
      signalScenarioEngine {} (signalScenarioEngine._cppQmlTypes.obj 0) _ _ _ _ (by rfl)).1,
   (QmlObjectValue.findOrCreateSignature_once.2 Char.toUpper signalScenarioMetas
      signalScenarioEngine {} (signalScenarioEngine._cppQmlTypes.obj 0) _ _ _ _ (by rfl)).2
      signalScenarioMembers.2.1⟩

/-! ## Qualified names and the order of registration -/

/-- The first loop of `load` leaves the values that exist as they are. -/
theorem CppQmlTypes.loadPairs_obj_lt (pairs : List (Nat × Export)) :
    ∀ (t : CppQmlTypes),
      t.objectValues.length ≤ (CppQmlTypes.loadPairs t pairs).objectValues.length ∧
      ∀ a < t.objectValues.length, (CppQmlTypes.loadPairs t pairs).obj a = t.obj a := by
  induction pairs with
  | nil => intro t; exact ⟨Nat.le_refl _, fun a _ => rfl⟩
  | cons p rest ih =>
    intro t
    show t.objectValues.length
        ≤ (CppQmlTypes.loadPairs (CppQmlTypes.loadExport p.1 t p.2) rest).objectValues.length ∧
      ∀ a < t.objectValues.length,
        (CppQmlTypes.loadPairs (CppQmlTypes.loadExport p.1 t p.2) rest).obj a = t.obj a
    obtain ⟨i1, i2⟩ := ih (CppQmlTypes.loadExport p.1 t p.2)
    cases hk : QHash.value t._typesByFullyQualifiedName p.2.packageNameVersion with
    | some x =>
      rw [CppQmlTypes.loadExport_present p.1 t p.2 x hk] at i1 i2 ⊢
      exact ⟨i1, i2⟩
    | none =>
      rw [CppQmlTypes.loadExport_absent p.1 t p.2 hk] at i1 i2 ⊢
      rw [CppQmlTypes.withExport_length] at i1 i2
      refine ⟨by omega, ?_⟩
      intro a ha
      rw [i2 a (by omega)]
      exact CppQmlTypes.withExport_obj_lt t p.1 p.2 a ha

/-- C32. The key that `FakeMetaObject::addExport` stores with an export (its
`packageNameVersion`) is `CppQmlTypes::qualifiedName(package, name, version)`, for every
package, name and version. Hence, when `load` is run with enough fuel on a well-formed
registry, it returns, and every export with such a key that the first loop materializes (its
key is absent from the index when the loop reaches it) is returned afterwards by
`typeByQualifiedName(qualifiedName(package, name, version))`: the value found is in the
store and has the package, the name and the version of the export, and its meta-object. -/
theorem CppQmlTypes.typeByQualifiedName_export :
    (∀ (m : FakeMetaObject) (name package : String) (version : ComponentVersion),
      (m.addExport name package version).exports
        = m.exports ++
          [{ type := name, package := package, version := version,
             packageNameVersion := CppQmlTypes.qualifiedName package name version }]) ∧
    (∀ (metas : List FakeMetaObject) (fuel : Nat) (t : CppQmlTypes) (objects : List Nat)
      (pre post : List (Nat × Export)) (m : Nat) (exp : Export),
      metas.length + 2 ≤ fuel → t.WellFormed →
      CppQmlTypes.exportPairs metas objects = pre ++ (m, exp) :: post →
      exp.packageNameVersion = formatPackageNameVersion exp.package exp.type exp.version →
      (CppQmlTypes.loadPairs t pre).typeByQualifiedName exp.packageNameVersion = none →
      ∃ t1 a, CppQmlTypes.load metas fuel t objects = some t1 ∧
        t1.typeByQualifiedName (CppQmlTypes.qualifiedName exp.package exp.type exp.version)
          = some a ∧
        a < t1.objectValues.length ∧
        (t1.obj a)._packageName = exp.package ∧ (t1.obj a).className = exp.type ∧
        (t1.obj a)._componentVersion = exp.version ∧ (t1.obj a)._metaObject = m) := by
  refine ⟨fun m name package version => rfl, ?_⟩
  intro metas fuel t objects pre post m exp hfuel hwf hpairs hkey habsent
  obtain ⟨t1, hload⟩ := Option.isSome_iff_exists.mp
    (CppQmlTypes.load_isSome metas fuel hfuel t objects)
  have hq : CppQmlTypes.qualifiedName exp.package exp.type exp.version
      = exp.packageNameVersion := by rw [hkey]; rfl
  rw [hq]
  -- the first loop up to the export, at the export, and after it
  obtain ⟨w0, _, _⟩ := CppQmlTypes.loadPairs_wellFormed pre t hwf
  have hstep : CppQmlTypes.loadExport m (CppQmlTypes.loadPairs t pre) exp
      = (CppQmlTypes.loadPairs t pre).withExport m exp :=
    CppQmlTypes.loadExport_absent m _ exp habsent
  obtain ⟨w1, _, _⟩ := CppQmlTypes.loadExport_wellFormed m _ exp w0
  rw [hstep] at w1
  have hval1 : QHash.value ((CppQmlTypes.loadPairs t pre).withExport m exp)._typesByFullyQualifiedName
      exp.packageNameVersion = some (CppQmlTypes.loadPairs t pre).objectValues.length := by
    rw [CppQmlTypes.withExport_value, if_pos rfl]
  have hsplit : CppQmlTypes.loadPairs t (CppQmlTypes.exportPairs metas objects)
      = CppQmlTypes.loadPairs ((CppQmlTypes.loadPairs t pre).withExport m exp) post := by
    rw [hpairs, CppQmlTypes.loadPairs_append, ← hstep]
    rfl
  obtain ⟨w2, k2, _⟩ := CppQmlTypes.loadPairs_wellFormed post _ w1
  obtain ⟨l2, o2⟩ := CppQmlTypes.loadPairs_obj_lt post
    ((CppQmlTypes.loadPairs t pre).withExport m exp)
  rw [CppQmlTypes.withExport_length] at l2 o2
  obtain ⟨_, _, hpresent⟩ := CppQmlTypes.loadPairs_wellFormed
    (CppQmlTypes.exportPairs metas objects) t hwf
  -- the second loop
  rw [CppQmlTypes.load_eq_pairs] at hload
  obtain ⟨w3, l3, k3, _, o3, _, _⟩ := CppQmlTypes.linkPairs_frame metas fuel
    (CppQmlTypes.exportPairs metas objects) _ t1
    (by rw [hsplit]; exact w2) hpresent hload
  rw [hsplit] at l3 k3 o3
  refine ⟨t1, (CppQmlTypes.loadPairs t pre).objectValues.length,
    by rw [CppQmlTypes.load_eq_pairs]; exact hload, k3 _ _ (k2 _ _ hval1), by omega, ?_⟩
  rw [o3 _ (by omega), o2 _ (by omega), CppQmlTypes.withExport_obj_new]
  exact ⟨rfl, rfl, rfl, rfl⟩

/-- Witness for C32: in the superclass synthesis scenario, loaded on the fresh registry, the
export of `Derived` in `UI` 1.0 comes after the two exports of `Base`, and the first loop
materializes it. -/
theorem CppQmlTypes.typeByQualifiedName_export_witness :
    CppQmlTypes.exportPairs synthesisScenarioMetas [0, 1]
      = CppQmlTypes.exportPairs synthesisScenarioMetas [0]
        ++ (1, { package := "UI", type := "Derived", version := ⟨1, 0⟩,
                 packageNameVersion := "UI.Derived 1.0" })
          :: [(1, { package := "", type := "Derived", version := ComponentVersion.noVersion,
                    packageNameVersion := ".Derived -1.-1" })] ∧
    (CppQmlTypes.loadPairs {} (CppQmlTypes.exportPairs synthesisScenarioMetas [0])).typeByQualifiedName
      "UI.Derived 1.0" = none ∧
    ∃ t1 a, CppQmlTypes.load synthesisScenarioMetas 4 {} [0, 1] = some t1 ∧
      t1.typeByQualifiedName (CppQmlTypes.qualifiedName "UI" "Derived" ⟨1, 0⟩) = some a ∧
      a < t1.objectValues.length ∧
      (t1.obj a)._packageName = "UI" ∧ (t1.obj a).className = "Derived" ∧
      (t1.obj a)._componentVersion = ⟨1, 0⟩ ∧ (t1.obj a)._metaObject = 1 :=
  ⟨by decide, by decide,
   CppQmlTypes.typeByQualifiedName_export.2 synthesisScenarioMetas 4 {} [0, 1]
     (CppQmlTypes.exportPairs synthesisScenarioMetas [0])
     [(1, { package := "", type := "Derived", version := ComponentVersion.noVersion,
            packageNameVersion := ".Derived -1.-1" })]
     1 { package := "UI", type := "Derived", version := ⟨1, 0⟩,
         packageNameVersion := "UI.Derived 1.0" }
     (by decide) (by intro k a ha; simp [QHash.value] at ha) (by decide) (by decide)
     (by decide)⟩

/-- The order of the versions is antisymmetric. -/
theorem ComponentVersion.le_antisymm {a b : ComponentVersion} (h1 : a ≤ b) (h2 : b ≤ a) :
    a = b := by
  rw [ComponentVersion.le_def] at h1 h2
  cases a
  cases b
  simp only [ComponentVersion.mk.injEq] at *
  omega

/-- An entry that the loop of `typesForImport` leaves for one list of values is an entry that
it leaves for every list with the same values, when no two of them have the same class name
and version. -/
theorem CppQmlTypes.importInvariant_mem (t1 t2 : CppQmlTypes) (version : ComponentVersion)
    (l1 l2 : List Nat) (m1 m2 : List (String × Nat))
    (h1 : CppQmlTypes.ImportInvariant t1 version l1 m1)
    (h2 : CppQmlTypes.ImportInvariant t2 version l2 m2)
    (hmem : ∀ q, q ∈ l1 ↔ q ∈ l2) (hobj : ∀ q ∈ l1, t2.obj q = t1.obj q)
    (hd : ∀ a ∈ l1, ∀ b ∈ l1, (t1.obj a).className = (t1.obj b).className →
      (t1.obj a)._componentVersion = (t1.obj b)._componentVersion → a = b) :
    ∀ e ∈ m1, e ∈ m2 := by
  intro e he
  obtain ⟨n, q⟩ := e
  obtain ⟨s1, e1, _⟩ := h1
  obtain ⟨_, e2, a2⟩ := h2
  obtain ⟨hq, hv, hn, hmax⟩ := e1 n q (QMap.mem_value m1 s1 n q he)
  have hsome := a2 q ((hmem q).mp hq) (by rw [hobj q hq]; exact hv)
  rw [hobj q hq, hn] at hsome
  obtain ⟨x, hx⟩ := Option.isSome_iff_exists.mp hsome
  obtain ⟨hxl, hxv, hxn, hxmax⟩ := e2 n x hx
  have hx1 : x ∈ l1 := (hmem x).mpr hxl
  rw [hobj x hx1] at hxv hxn
  have hle1 : (t1.obj x)._componentVersion ≤ (t1.obj q)._componentVersion :=
    hmax x hx1 hxv hxn
  have hle2 : (t1.obj q)._componentVersion ≤ (t1.obj x)._componentVersion := by
    have := hxmax q ((hmem q).mp hq) (by rw [hobj q hq]; exact hv) (by rw [hobj q hq]; exact hn)
    rw [hobj q hq, hobj x hx1] at this
    exact this
  have hqx : q = x := hd q hq x hx1 (by rw [hn, hxn]) (ComponentVersion.le_antisymm hle2 hle1)
  rw [hqx]
  exact QMap.value_mem m2 n x hx

/-- C33. `typesForImport` does not depend on the order of registration: for two registries
whose by-package lists for the package are permutations of each other and point to the same
values, no two of which have the same class name and version, `typesForImport(package,
version)` returns the same list for every version, and the class names of that list are in
strictly ascending order. -/
theorem CppQmlTypes.typesForImport_order_independent (t1 t2 : CppQmlTypes)
    (packageName : String) (version : ComponentVersion)
    (hperm : ((QHash.value t1._typesByPackage packageName).getD []).Perm
      ((QHash.value t2._typesByPackage packageName).getD []))
    (hobj : ∀ q ∈ (QHash.value t1._typesByPackage packageName).getD [], t2.obj q = t1.obj q)
    (hdistinct : ((QHash.value t1._typesByPackage packageName).getD []).Pairwise
      (fun a b => ((t1.obj a).className, (t1.obj a)._componentVersion)
        ≠ ((t1.obj b).className, (t1.obj b)._componentVersion))) :
    t1.typesForImport packageName version = t2.typesForImport packageName version ∧
    ((t1.typesForImport packageName version).map (fun q => (t1.obj q).className)).Pairwise
      (· < ·) := by
  have hinit : ∀ t : CppQmlTypes, CppQmlTypes.ImportInvariant t version [] [] := fun t =>
    ⟨by simp, by intro n q hq; simp [QMap.value] at hq, by intro q hq; simp at hq⟩
  have hinv1 := CppQmlTypes.importInvariant_foldl t1 version
    ((QHash.value t1._typesByPackage packageName).getD []) [] [] (hinit t1)
  have hinv2 := CppQmlTypes.importInvariant_foldl t2 version
    ((QHash.value t2._typesByPackage packageName).getD []) [] [] (hinit t2)
  rw [List.nil_append] at hinv1 hinv2
  have hmem : ∀ q, q ∈ (QHash.value t1._typesByPackage packageName).getD []
      ↔ q ∈ (QHash.value t2._typesByPackage packageName).getD [] := fun q => hperm.mem_iff
  have hd : ∀ a ∈ (QHash.value t1._typesByPackage packageName).getD [],
      ∀ b ∈ (QHash.value t1._typesByPackage packageName).getD [],
      (t1.obj a).className = (t1.obj b).className →
      (t1.obj a)._componentVersion = (t1.obj b)._componentVersion → a = b := by
    intro a ha b hb hn hv
    by_contra hne
    exact List.Pairwise.forall (fun x y hxy => Ne.symm hxy) hdistinct ha hb hne
      (by rw [hn, hv])
  have hsub1 := CppQmlTypes.importInvariant_mem t1 t2 version _ _ _ _ hinv1 hinv2 hmem hobj hd
  have hsub2 := CppQmlTypes.importInvariant_mem t2 t1 version _ _ _ _ hinv2 hinv1
    (fun q => (hmem q).symm) (fun q hq => (hobj q ((hmem q).mpr hq)).symm)
    (by
      intro a ha b hb hn hv
      have ha1 := (hmem a).mpr ha
      have hb1 := (hmem b).mpr hb
      rw [hobj a ha1, hobj b hb1] at hn hv
      exact hd a ha1 b hb1 hn hv)
  have hsorted : ∀ m : List (String × Nat), (m.map Prod.fst).Pairwise (· < ·) →
      m.Pairwise (fun a b => a.1 < b.1) := fun m hm => List.pairwise_map.mp hm
  have hnodup : ∀ m : List (String × Nat), (m.map Prod.fst).Pairwise (· < ·) → m.Nodup :=
    fun m hm => (hsorted m hm).imp (fun hab heq => by rw [heq] at hab; exact lt_irrefl _ hab)
  haveI : IsAntisymm (String × Nat) (fun a b => a.1 < b.1) :=
    ⟨fun a b hab hba => absurd hab (lt_asymm hba)⟩
  have heq : ((QHash.value t1._typesByPackage packageName).getD []).foldl
        (CppQmlTypes.typesForImportStep t1 version) []
      = ((QHash.value t2._typesByPackage packageName).getD []).foldl
        (CppQmlTypes.typesForImportStep t2 version) [] :=
    List.eq_of_perm_of_sorted
      ((List.perm_ext_iff_of_nodup (hnodup _ hinv1.1) (hnodup _ hinv2.1)).mpr
        (fun e => ⟨hsub1 e, hsub2 e⟩))
      (hsorted _ hinv1.1) (hsorted _ hinv2.1)
  refine ⟨by unfold CppQmlTypes.typesForImport; rw [heq], ?_⟩
  unfold CppQmlTypes.typesForImport QMap.values
  rw [List.map_map]
  have hnames : List.map ((fun q => (t1.obj q).className) ∘ Prod.snd)
      (((QHash.value t1._typesByPackage packageName).getD []).foldl
        (CppQmlTypes.typesForImportStep t1 version) [])
      = List.map Prod.fst
        (((QHash.value t1._typesByPackage packageName).getD []).foldl
          (CppQmlTypes.typesForImportStep t1 version) []) := by
    apply List.map_congr_left
    intro e he
    obtain ⟨n, q⟩ := e
    exact (hinv1.2.1 n q (QMap.mem_value _ hinv1.1 n q he)).2.2.1
  rw [hnames]
  exact hinv1.1

/-- Witness for C33: the registry of the registration order scenario and the same registry
with the by-package lists reversed; for `M` at 2.0 both give `A` 1.0 and then `B` 2.0. -/
theorem CppQmlTypes.typesForImport_order_independent_witness :
    ((QHash.value orderScenarioRegistry._typesByPackage "M").getD []).Perm
      ((QHash.value orderScenarioReversed._typesByPackage "M").getD []) ∧
    (QHash.value orderScenarioRegistry._typesByPackage "M").getD [] = [0, 1, 2] ∧
    (QHash.value orderScenarioReversed._typesByPackage "M").getD [] = [2, 1, 0] ∧
    orderScenarioRegistry.typesForImport "M" ⟨2, 0⟩ = [2, 1] ∧
    orderScenarioRegistry.typesForImport "M" ⟨2, 0⟩
      = orderScenarioReversed.typesForImport "M" ⟨2, 0⟩ ∧
    ((orderScenarioRegistry.typesForImport "M" ⟨2, 0⟩).map
      (fun q => (orderScenarioRegistry.obj q).className)).Pairwise (· < ·) :=
  ⟨by decide, by decide, by decide, by decide!,
   CppQmlTypes.typesForImport_order_independent orderScenarioRegistry orderScenarioReversed
     "M" ⟨2, 0⟩ (by decide) (by decide) (by decide)⟩

/-! ## The values that a member lookup registers -/

/-- Whether `propertyValue` creates a `QmlEnumValue` depends on the registry of the engine
only. -/
theorem QmlObjectValue.isEnumProperty_congr (metas : List FakeMetaObject)
    (engine engine1 : Engine) (v : QmlObjectValue) (prop : FakeMetaProperty)
    (h : engine1._cppQmlTypes = engine._cppQmlTypes) :
    QmlObjectValue.isEnumProperty metas engine1 v prop
      = QmlObjectValue.isEnumProperty metas engine v prop := by
  unfold QmlObjectValue.isEnumProperty
  rw [h]

/-- `propertyValue` leaves the registry as it is, and registers one `QmlEnumValue` when the
type of the property is an enum of the meta-object and no registered type. -/
theorem QmlObjectValue.propertyValue_engine (metas : List FakeMetaObject) (engine : Engine)
    (v : QmlObjectValue) (prop : FakeMetaProperty) :
    (QmlObjectValue.propertyValue metas engine v prop).2._cppQmlTypes = engine._cppQmlTypes ∧
    (QmlObjectValue.propertyValue metas engine v prop).2.qmlEnumValues.length
      = engine.qmlEnumValues.length
        + (if QmlObjectValue.isEnumProperty metas engine v prop = true then 1 else 0) := by
  unfold QmlObjectValue.propertyValue QmlObjectValue.isEnumProperty
  cases ht : engine._cppQmlTypes.typeForImport prop.m_type with
  | some objectValue =>
    simp only [ht]
    simp
  | none =>
    simp only [ht, Option.isNone_none, Bool.true_and, decide_eq_true_eq]
    split_ifs <;> first | exact ⟨rfl, rfl⟩ | exact ⟨rfl, by simp⟩

/-- The loop of `processMembers` over the meta properties leaves the registry as it is, and
registers one `QmlEnumValue` for each property whose type is an enum of the meta-object and
no registered type. -/
theorem QmlObjectValue.processProperties_engine (metas : List FakeMetaObject)
    (v : QmlObjectValue) (indices : List Nat) :
    ∀ (s : List (MemberKind × String × QmlMember) × Engine),
      (indices.foldl (QmlObjectValue.processProperty metas v) s).2._cppQmlTypes
        = s.2._cppQmlTypes ∧
      (indices.foldl (QmlObjectValue.processProperty metas v) s).2.qmlEnumValues.length
        = s.2.qmlEnumValues.length
          + (indices.filter (fun (index : Nat) => QmlObjectValue.isEnumProperty metas s.2 v
              ((metaAt metas v._metaObject).property index))).length := by
  induction indices with
  | nil => intro s; exact ⟨rfl, rfl⟩
  | cons index rest ih =>
    intro s
    simp only [List.foldl_cons]
    obtain ⟨i1, i2⟩ := ih (QmlObjectValue.processProperty metas v s index)
    obtain ⟨p1, p2⟩ := QmlObjectValue.propertyValue_engine metas s.2 v
      ((metaAt metas v._metaObject).property index)
    have hreg : (QmlObjectValue.processProperty metas v s index).2._cppQmlTypes
        = s.2._cppQmlTypes := p1
    have hlen : (QmlObjectValue.processProperty metas v s index).2.qmlEnumValues.length
        = s.2.qmlEnumValues.length
          + (if QmlObjectValue.isEnumProperty metas s.2 v
              ((metaAt metas v._metaObject).property index) = true then 1 else 0) := p2
    have hcongr : rest.filter (fun (index1 : Nat) => QmlObjectValue.isEnumProperty metas
          (QmlObjectValue.processProperty metas v s index).2 v
          ((metaAt metas v._metaObject).property index1))
        = rest.filter (fun (index1 : Nat) => QmlObjectValue.isEnumProperty metas s.2 v
          ((metaAt metas v._metaObject).property index1)) := by
      apply List.filter_congr
      intro x _
      exact QmlObjectValue.isEnumProperty_congr metas _ _ v _ hreg
    refine ⟨by rw [i1, hreg], ?_⟩
    rw [i2, hlen, hcongr, List.filter_cons]
    split_ifs
    · rw [List.length_cons]
      omega
    · omega

/-- An enumeration of the members leaves the registry as it is and registers one
`QmlEnumValue` for each property whose type is an enum of the meta-object. -/
theorem QmlObjectValue.processMembers_engine (toUpper : Char → Char)
    (metas : List FakeMetaObject) (engine : Engine) (h : Heap) (v : QmlObjectValue)
    (reported : List (MemberKind × String × QmlMember)) (engine1 : Engine)
    (v1 : QmlObjectValue) (h1 : Heap)
    (hp : QmlObjectValue.processMembers toUpper metas engine h v
      = some (reported, engine1, v1, h1)) :
    engine1._cppQmlTypes = engine._cppQmlTypes ∧
    engine1.qmlEnumValues.length
      = engine.qmlEnumValues.length + QmlObjectValue.enumPropertyCount metas engine v := by
  unfold QmlObjectValue.processMembers at hp
  simp only [] at hp
  cases hm : QmlObjectValue.processMethods toUpper (metaAt metas v._metaObject).m_methods 0
      (v, h, ((List.range (metaAt metas v._metaObject).propertyCount).foldl
        (QmlObjectValue.processProperty metas v)
        (QmlObjectValue.processEnums (metaAt metas v._metaObject), engine)).1) with
  | none => rw [hm] at hp; exact Option.noConfusion hp
  | some s =>
    obtain ⟨va, ha, ra⟩ := s
    rw [hm] at hp
    simp only [Option.some.injEq, Prod.mk.injEq] at hp
    obtain ⟨_, he, _, _⟩ := hp
    rw [← he]
    exact QmlObjectValue.processProperties_engine metas v _ _

/-- A member lookup on a `QmlObjectValue` takes no value out of the registry of values, and
when the name is not in the property map of the value, it registers at least one new
`QmlEnumValue` for each property of the value whose type is an enum of its meta-object. -/
theorem QmlObjectValue.lookupMember_grows (toUpper : Char → Char)
    (metas : List FakeMetaObject) (name : String) :
    ∀ (fuel : Nat) (engine : Engine) (h : Heap) (address : Nat) (examinePrototypes : Bool)
      (r : Option QmlMember) (engine1 : Engine) (h1 : Heap),
      QmlObjectValue.lookupMember toUpper metas fuel engine h address name examinePrototypes
        = some (r, engine1, h1) →
      engine.registeredValues h ≤ engine1.registeredValues h1 ∧
      (findMember name (engine._cppQmlTypes.obj address)._members = none →
        engine.registeredValues h
            + QmlObjectValue.enumPropertyCount metas engine (engine._cppQmlTypes.obj address)
          ≤ engine1.registeredValues h1) := by
  intro fuel
  induction fuel with
  | zero =>
    intro engine h address examinePrototypes r engine1 h1 hl
    simp [QmlObjectValue.lookupMember] at hl
  | succ n ih =>
    intro engine h address examinePrototypes r engine1 h1 hl
    unfold QmlObjectValue.lookupMember at hl
    simp only [] at hl
    cases hf : findMember name (engine._cppQmlTypes.obj address)._members with
    | some m =>
      rw [hf] at hl
      simp only [Option.some.injEq, Prod.mk.injEq] at hl
      obtain ⟨_, rfl, rfl⟩ := hl
      exact ⟨Nat.le_refl _, fun hnone => Option.noConfusion hnone⟩
    | none =>
      rw [hf] at hl
      simp only [] at hl
      cases hp : QmlObjectValue.processMembers toUpper metas engine h
          (engine._cppQmlTypes.obj address) with
      | none => rw [hp] at hl; exact Option.noConfusion hl
      | some s =>
        obtain ⟨reported, engineA, vA, hA⟩ := s
        rw [hp] at hl
        simp only [] at hl
        obtain ⟨g1, g2⟩ := QmlObjectValue.processMembers_engine toUpper metas engine h _ _ _ _ _ hp
        obtain ⟨t1, _, t3, _⟩ :=
          QmlObjectValue.processMembers_twice toUpper metas engine h _ _ _ _ _ hp
        have hstep : engine.registeredValues h
            + QmlObjectValue.enumPropertyCount metas engine (engine._cppQmlTypes.obj address)
            ≤ Engine.registeredValues
                { engineA with _cppQmlTypes := engineA._cppQmlTypes.store address vA } hA := by
          simp only [Engine.registeredValues, CppQmlTypes.store, List.length_set]
          rw [g1, g2, t3]
          omega
        have hdone : ∀ x : Option QmlMember,
            some (x, ({ engineA with _cppQmlTypes := engineA._cppQmlTypes.store address vA } :
              Engine), hA) = some (r, engine1, h1) →
            engine.registeredValues h ≤ engine1.registeredValues h1 ∧
            (none = (none : Option Value) →
              engine.registeredValues h
                + QmlObjectValue.enumPropertyCount metas engine
                    (engine._cppQmlTypes.obj address)
                ≤ engine1.registeredValues h1) := by
          intro x hx
          simp only [Option.some.injEq, Prod.mk.injEq] at hx
          obtain ⟨_, rfl, rfl⟩ := hx
          exact ⟨by omega, fun _ => hstep⟩
        cases hs : QmlObjectValue.slowLookup name reported vA._members with
        | some m =>
          rw [hs] at hl
          exact hdone _ hl
        | none =>
          rw [hs] at hl
          simp only [] at hl
          cases examinePrototypes with
          | false =>
            simp only [Bool.false_eq_true, if_false] at hl
            exact hdone _ hl
          | true =>
            simp only [if_true] at hl
            cases hproto : vA._prototype with
            | none =>
              rw [hproto] at hl
              exact hdone _ hl
            | some prototypeObject =>
              rw [hproto] at hl
              simp only [] at hl
              obtain ⟨i1, _⟩ := ih _ _ _ _ _ _ _ hl
              exact ⟨by omega, fun _ => by omega⟩

/-- C34 (what the code does). A member lookup on a `QmlObjectValue` that returns takes no
value out of the registry of values of the engine, and when the name is not in the property
map of the value, the lookup enumerates the members and registers at least one new
`QmlEnumValue` for each property of the value whose type is an enum of its meta-object and
no registered type, on every call; the signatures are cached, the enum values are not. In
the signal scenario, where `Button` has the property `mode` of the enum type `Mode`, 5 values
are registered after `lookupMember("mode")` and 6 after the second, identical call. -/
theorem QmlObjectValue.lookupMember_registers :
    (∀ (toUpper : Char → Char) (metas : List FakeMetaObject) (name : String) (fuel : Nat)
      (engine : Engine) (h : Heap) (address : Nat) (examinePrototypes : Bool)
      (r : Option QmlMember) (engine1 : Engine) (h1 : Heap),
      QmlObjectValue.lookupMember toUpper metas fuel engine h address name examinePrototypes
        = some (r, engine1, h1) →
      findMember name (engine._cppQmlTypes.obj address)._members = none →
      engine.registeredValues h
          + QmlObjectValue.enumPropertyCount metas engine (engine._cppQmlTypes.obj address)
        ≤ engine1.registeredValues h1) ∧
    ((QmlObjectValue.lookupMember Char.toUpper signalScenarioMetas 1 signalScenarioEngine {} 0
        "mode" true).map (fun r => (r.1, r.2.1.registeredValues r.2.2))
      = some (some (.propertyValue (.qmlEnumValue 0)), 5) ∧
    (QmlObjectValue.lookupMember Char.toUpper signalScenarioMetas 1 signalScenarioLookup.2.1
        signalScenarioLookup.2.2 0 "mode" true).map
          (fun r => (r.1, r.2.1.registeredValues r.2.2))
      = some (some (.propertyValue (.qmlEnumValue 1)), 6)) :=
  ⟨fun toUpper metas name fuel engine h address examinePrototypes r engine1 h1 hl hnone =>
      (QmlObjectValue.lookupMember_grows toUpper metas name fuel engine h address
        examinePrototypes r engine1 h1 hl).2 hnone,
    by decide, by decide⟩

/-- Witness for C34: the second lookup of `mode` in the signal scenario, from the engine and
the heap that the first lookup left, with 5 values registered: one property of `Button` has
an enum type, and the lookup leaves 6 values registered. -/
theorem QmlObjectValue.lookupMember_registers_witness :
    QmlObjectValue.lookupMember Char.toUpper signalScenarioMetas 1 signalScenarioLookup.2.1
        signalScenarioLookup.2.2 0 "mode" true
      = some (signalScenarioLookupAgain.1, signalScenarioLookupAgain.2.1,
          signalScenarioLookupAgain.2.2) ∧
    findMember "mode" (signalScenarioLookup.2.1._cppQmlTypes.obj 0)._members = none ∧
    signalScenarioLookup.2.1.registeredValues signalScenarioLookup.2.2 = 5 ∧
    QmlObjectValue.enumPropertyCount signalScenarioMetas signalScenarioLookup.2.1
      (signalScenarioLookup.2.1._cppQmlTypes.obj 0) = 1 ∧
    signalScenarioLookupAgain.2.1.registeredValues signalScenarioLookupAgain.2.2 = 6 ∧
    signalScenarioLookup.2.1.registeredValues signalScenarioLookup.2.2
        + QmlObjectValue.enumPropertyCount signalScenarioMetas signalScenarioLookup.2.1
            (signalScenarioLookup.2.1._cppQmlTypes.obj 0)
      ≤ signalScenarioLookupAgain.2.1.registeredValues signalScenarioLookupAgain.2.2 :=
  ⟨by rfl, by decide, by decide, by decide, by decide,
   QmlObjectValue.lookupMember_registers.1 Char.toUpper signalScenarioMetas "mode" 1
     signalScenarioLookup.2.1 signalScenarioLookup.2.2 0 true _ _ _ (by rfl) (by decide)⟩

/-! ## The methods that the reader of type descriptions adds -/

/-- The loop over the content of a `signal` or `method` element keeps the name and the
access of the method. -/
theorem QmlXmlReader.readParams_method (tag : String) (children : List XmlNode)
    (s : QmlXmlReader × FakeMetaMethod) :
    (QmlXmlReader.whileReadNextStartElement (QmlXmlReader.readParamChild tag) children
        s).2.m_name = s.2.m_name ∧
    (QmlXmlReader.whileReadNextStartElement (QmlXmlReader.readParamChild tag) children
        s).2.m_methodAccess = s.2.m_methodAccess := by
  refine (QmlXmlReader.whileReadNextStartElement_frame
    (fun m => m.m_name = s.2.m_name ∧ m.m_methodAccess = s.2.m_methodAccess) _ ?_ children
    s ⟨rfl, rfl⟩).2
  intro n a c t ht
  unfold QmlXmlReader.readParamChild
  split_ifs
  · refine ⟨QmlXmlReader.readParam_frame a c t, ?_⟩
    unfold QmlXmlReader.readParam
    simp only
    rw [(QmlXmlReader.unexpectedChild_frame "param" c _).2]
    exact ht
  · exact ⟨QmlXmlReader.sameTable_refl _, ht⟩

/-- Adding a named public method keeps the methods named. -/
theorem FakeMetaObject.methodsNamed_addMethod (m : FakeMetaObject) (method : FakeMetaMethod)
    (hm : m.MethodsNamed) (hn : method.m_name ≠ "")
    (ha : method.m_methodAccess = FakeMetaMethod.Public) :
    (m.addMethod method).MethodsNamed := by
  intro x hx
  simp only [FakeMetaObject.addMethod, List.mem_append, List.mem_singleton] at hx
  rcases hx with h0 | h1
  · exact hm x h0
  · rw [h1]
    exact ⟨hn, ha⟩

/-- `readSignal` and `readMethod` add no method without a name. -/
theorem QmlXmlReader.readSignal_methodsNamed (attributes : List (String × String))
    (children : List XmlNode) (s : QmlXmlReader × FakeMetaObject) (hs : s.2.MethodsNamed) :
    (QmlXmlReader.readSignal attributes children s).2.MethodsNamed ∧
    (QmlXmlReader.readMethod attributes children s).2.MethodsNamed := by
  constructor
  · unfold QmlXmlReader.readSignal
    simp only
    split_ifs with hname
    · exact hs
    · obtain ⟨h1, h2⟩ := QmlXmlReader.readParams_method "signal" children
        (s.1, FakeMetaMethod.setMethodType
          { m_name := attributes.foldl QmlXmlReader.readNameAttr "" } FakeMetaMethod.Signal)
      exact FakeMetaObject.methodsNamed_addMethod _ _ hs (by rw [h1]; exact hname)
        (by rw [h2]; rfl)
  · unfold QmlXmlReader.readMethod
    simp only
    split_ifs with hname
    · exact hs
    · obtain ⟨h1, h2⟩ := QmlXmlReader.readParams_method "method" children
        (s.1, FakeMetaMethod.setMethodType
          { m_name := (attributes.foldl QmlXmlReader.readNameTypeAttr ("", "")).1,
            m_returnType := (attributes.foldl QmlXmlReader.readNameTypeAttr ("", "")).2 }
          FakeMetaMethod.Slot)
      exact FakeMetaObject.methodsNamed_addMethod _ _ hs (by rw [h1]; exact hname)
        (by rw [h2]; rfl)

/-- `readProperty`, `readEnum` and `readExports` leave the methods as they are. -/
theorem QmlXmlReader.readProperty_methods (toInt : String → Option Int)
    (attributes : List (String × String)) (children : List XmlNode)
    (s : QmlXmlReader × FakeMetaObject) :
    (QmlXmlReader.readProperty attributes children s).2.m_methods = s.2.m_methods ∧
    (QmlXmlReader.readEnum toInt attributes children s).2.m_methods = s.2.m_methods ∧
    (QmlXmlReader.readExports toInt children s).2.m_methods = s.2.m_methods := by
  refine ⟨?_, ?_, ?_⟩
  · unfold QmlXmlReader.readProperty
    split
    · rfl
    · rw [(QmlXmlReader.unexpectedChild_frame "property" children _).2]
      split_ifs <;> rfl
  · unfold QmlXmlReader.readEnum
    simp only
    split_ifs <;> rfl
  · unfold QmlXmlReader.readExports
    refine (QmlXmlReader.whileReadNextStartElement_frame
      (fun m => m.m_methods = s.2.m_methods) _ ?_ children s rfl).2
    intro n a c t ht
    refine ⟨(QmlXmlReader.readExportsChild_frame toInt n a c t).1, ?_⟩
    unfold QmlXmlReader.readExportsChild
    split_ifs
    · exact ht
    · exact ht

/-- The loop over the content of a `type` element keeps the methods named. -/
theorem QmlXmlReader.readTypeChildren_methodsNamed (toInt : String → Option Int)
    (children : List XmlNode) (s : QmlXmlReader × FakeMetaObject) (hs : s.2.MethodsNamed) :
    (QmlXmlReader.whileReadNextStartElement (QmlXmlReader.readTypeChild toInt) children
      s).2.MethodsNamed := by
  refine (QmlXmlReader.whileReadNextStartElement_frame
    (fun m => m.MethodsNamed) _ ?_ children s hs).2
  intro n a c t ht
  refine ⟨(QmlXmlReader.readTypeChild_frame toInt n a c t).1, ?_⟩
  obtain ⟨p1, p2, p3⟩ := QmlXmlReader.readProperty_methods toInt a c t
  unfold QmlXmlReader.readTypeChild
  split_ifs
  · intro x hx; rw [p1] at hx; exact ht x hx
  · intro x hx; rw [p2] at hx; exact ht x hx
  · exact (QmlXmlReader.readSignal_methodsNamed a c t ht).1
  · exact (QmlXmlReader.readSignal_methodsNamed a c t ht).2
  · intro x hx; rw [p3] at hx; exact ht x hx
  · exact ht

/-- `readType` adds at most one meta-object to the memory, at its end, whose methods are
named; the meta-objects before are as they were. -/
theorem QmlXmlReader.readType_methodsNamed (toInt : String → Option Int)
    (attributes : List (String × String)) (children : List XmlNode) (r : QmlXmlReader) :
    (QmlXmlReader.readType toInt attributes children r).metas = r.metas
    ∨ ∃ m : FakeMetaObject, m.MethodsNamed
        ∧ (QmlXmlReader.readType toInt attributes children r).metas = r.metas ++ [m] := by
  unfold QmlXmlReader.readType
  cases hattr : QmlXmlReader.readTypeAttributes attributes (r, {}) with
  | error r1 =>
    left
    exact (QmlXmlReader.readTypeAttributes_error attributes _ _ hattr).2.1
  | ok t =>
    obtain ⟨r1, l⟩ := t
    have h1 := QmlXmlReader.readTypeAttributes_frame attributes _ _ hattr
    have h2 := QmlXmlReader.readTypeChildren_frame toInt children
      (r1, QmlXmlReader.newMetaObject l)
    have h3 := QmlXmlReader.readTypeChildren_methodsNamed toInt children
      (r1, QmlXmlReader.newMetaObject l) (by
        intro x hx
        unfold QmlXmlReader.newMetaObject at hx
        simp only at hx
        split_ifs at hx <;> cases hx)
    simp only at h1 h2 h3 ⊢
    split_ifs
    · right
      refine ⟨(QmlXmlReader.whileReadNextStartElement (QmlXmlReader.readTypeChild toInt)
          children (r1, QmlXmlReader.newMetaObject l)).2.addExport l.id ""
          ComponentVersion.noVersion, h3, ?_⟩
      simp only [QmlXmlReader.insert]
      rw [h2.1.1, h1.1]
    · left
      rw [h2.1.1, h1.1]

/-- When the methods of the meta-objects of a memory are named, they are so when one more
such meta-object is added. -/
theorem metaAt_append_methodsNamed (metas : List FakeMetaObject) (m : FakeMetaObject)
    (hm : m.MethodsNamed) (h : ∀ a, (metaAt metas a).MethodsNamed) :
    ∀ a, (metaAt (metas ++ [m]) a).MethodsNamed := by
  intro a
  unfold metaAt at h ⊢
  rw [List.getD_eq_getElem?_getD]
  by_cases hlt : a < metas.length
  · rw [List.getElem?_append_left hlt]
    have := h a
    rw [List.getD_eq_getElem?_getD] at this
    exact this
  · rw [List.getElem?_append_right (Nat.le_of_not_lt hlt)]
    cases hd : a - metas.length with
    | zero => simpa using hm
    | succ n =>
      simp only [List.getElem?_cons_succ, List.getElem?_nil, Option.getD_none]
      intro x hx
      cases hx

/-- The methods of the meta-objects that `QmlXmlReader::operator()` leaves in the memory are
named when those of the meta-objects before were. -/
theorem QmlXmlReader.call_methodsNamed (toInt : String → Option Int) (document : XmlNode)
    (metas : List FakeMetaObject) (objects : List (String × Nat))
    (h : ∀ a, (metaAt metas a).MethodsNamed) :
    ∀ a, (metaAt (QmlXmlReader.call toInt document metas objects).2.metas a).MethodsNamed := by
  unfold QmlXmlReader.call
  cases document with
  | notWellFormed errorString => exact h
  | element name attributes children =>
    simp only
    split_ifs
    · unfold QmlXmlReader.readModule
      apply QmlXmlReader.whileReadNextStartElement_invariant
        (fun s : QmlXmlReader × Unit => ∀ a, (metaAt s.1.metas a).MethodsNamed)
      · intro n a c s hs
        unfold QmlXmlReader.readModuleChild
        split_ifs
        · rcases QmlXmlReader.readType_methodsNamed toInt a c s.1 with hm | ⟨m, hm, hmetas⟩
          · simp only
            rw [hm]
            exact hs
          · simp only
            rw [hmetas]
            exact metaAt_append_methodsNamed _ m hm hs
        · exact hs
      · intro s msg hs
        exact hs
      · exact h
    · exact h

/-! ## Signals and their generated slots -/

/-- A method with a non-empty name has a generated slot name, which is not the name of the
method. -/
theorem QmlObjectValue.slotName_of_named (toUpper : Char → Char) (methodName : String)
    (hn : methodName ≠ "") :
    ∃ slot, QmlObjectValue.slotName toUpper methodName = some slot ∧ slot ≠ methodName := by
  unfold QmlObjectValue.slotName
  cases hd : methodName.data with
  | nil =>
    exfalso
    apply hn
    exact String.ext hd
  | cons c rest =>
    refine ⟨_, rfl, ?_⟩
    intro heq
    have hlen := congrArg (fun s : String => s.data.length) heq
    simp only [String.data_append, List.length_append, hd, List.length_cons] at hlen
    have hon : "on".data.length = 2 := by decide
    omega

/-- The loop over the meta methods distributes over a concatenation of the methods. -/
theorem QmlObjectValue.processMethods_append (toUpper : Char → Char)
    (l2 : List FakeMetaMethod) :
    ∀ (l1 : List FakeMetaMethod) (index : Nat)
      (s : QmlObjectValue × Heap × List (MemberKind × String × QmlMember)),
      QmlObjectValue.processMethods toUpper (l1 ++ l2) index s
        = (QmlObjectValue.processMethods toUpper l1 index s).bind
            (fun s1 => QmlObjectValue.processMethods toUpper l2 (index + l1.length) s1) := by
  intro l1
  induction l1 with
  | nil => intro index s; simp [QmlObjectValue.processMethods]
  | cons method rest ih =>
    intro index s
    simp only [List.cons_append, QmlObjectValue.processMethods, List.length_cons]
    cases QmlObjectValue.processMethod toUpper s index method with
    | none => rfl
    | some s1 =>
      show QmlObjectValue.processMethods toUpper (rest ++ l2) (index + 1) s1 = _
      rw [ih, show index + 1 + rest.length = index + (rest.length + 1) by omega]

/-- The loop over meta methods that all have a name returns, and every call that it adds
has the name of one of the methods or, for a signal, of its generated slot. -/
theorem QmlObjectValue.processMethods_named (toUpper : Char → Char) :
    ∀ (methods : List FakeMetaMethod), (∀ x ∈ methods, x.m_name ≠ "") →
      ∀ (index : Nat) (v : QmlObjectValue) (h : Heap)
        (reported : List (MemberKind × String × QmlMember)),
        ∃ v1 h1 calls,
          QmlObjectValue.processMethods toUpper methods index (v, h, reported)
            = some (v1, h1, reported ++ calls) ∧
          ∀ r ∈ calls, ∃ x ∈ methods, r.2.1 = x.m_name ∨
            (x.methodType = FakeMetaMethod.Signal ∧
              QmlObjectValue.slotName toUpper x.m_name = some r.2.1) := by
  intro methods
  induction methods with
  | nil =>
    intro _ index v h reported
    exact ⟨v, h, [], by simp [QmlObjectValue.processMethods], by simp⟩
  | cons method rest ih =>
    intro hnamed index v h reported
    obtain ⟨slot, hslot, _⟩ := QmlObjectValue.slotName_of_named toUpper method.m_name
      (hnamed method (List.mem_cons_self _ _))
    have hrep : ∃ calls0, QmlObjectValue.methodReport toUpper method
          (QmlObjectValue.findOrCreateSignature h v index method).1 = some calls0 ∧
        ∀ r ∈ calls0, r.2.1 = method.m_name ∨
          (method.methodType = FakeMetaMethod.Signal ∧
            QmlObjectValue.slotName toUpper method.m_name = some r.2.1) := by
      unfold QmlObjectValue.methodReport
      split_ifs with h1 h2
      · exact ⟨_, rfl, fun r hr => by
          simp only [List.mem_singleton] at hr
          rw [hr]
          exact Or.inl rfl⟩
      · refine ⟨_, by rw [show method.methodName = method.m_name from rfl, hslot]; rfl, ?_⟩
        intro r hr
        simp only [List.mem_cons, List.mem_singleton, List.not_mem_nil, or_false] at hr
        rcases hr with rfl | rfl
        · exact Or.inl rfl
        · exact Or.inr ⟨h2.1, hslot⟩
      · exact ⟨[], rfl, fun r hr => by cases hr⟩
    obtain ⟨calls0, hc0, hn0⟩ := hrep
    obtain ⟨v1, h1, calls1, hc1, hn1⟩ := ih
      (fun x hx => hnamed x (List.mem_cons_of_mem _ hx)) (index + 1)
      (QmlObjectValue.findOrCreateSignature h v index method).2.2.1
      (QmlObjectValue.findOrCreateSignature h v index method).2.2.2 (reported ++ calls0)
    refine ⟨v1, h1, calls0 ++ calls1, ?_, ?_⟩
    · simp only [QmlObjectValue.processMethods]
      rw [QmlObjectValue.processMethod_eq, hc0]
      simp only [Option.map_some']
      rw [hc1, List.append_assoc]
    · intro r hr
      rcases List.mem_append.mp hr with h0 | h1
      · exact ⟨method, List.mem_cons_self _ _, hn0 r h0⟩
      · obtain ⟨x, hx, hxn⟩ := hn1 r h1
        exact ⟨x, List.mem_cons_of_mem _ hx, hxn⟩

/-- The calls that `processMembers` makes for the enums have the names of enum keys, and
those for the properties the names of properties of the meta-object. -/
theorem QmlObjectValue.processProperties_names (metas : List FakeMetaObject)
    (v : QmlObjectValue) (engine : Engine) :
    ∀ r ∈ ((List.range (metaAt metas v._metaObject).propertyCount).foldl
        (QmlObjectValue.processProperty metas v)
        (QmlObjectValue.processEnums (metaAt metas v._metaObject), engine)).1,
      (∃ e ∈ (metaAt metas v._metaObject).m_enums, r.2.1 ∈ e.m_keys) ∨
      (∃ prop ∈ (metaAt metas v._metaObject).m_props, r.2.1 = prop.m_propertyName) := by
  have hfold : ∀ (indices : List Nat) (s : List (MemberKind × String × QmlMember) × Engine),
      (∀ index ∈ indices, index < (metaAt metas v._metaObject).m_props.length) →
      (∀ r ∈ s.1, (∃ e ∈ (metaAt metas v._metaObject).m_enums, r.2.1 ∈ e.m_keys) ∨
        (∃ prop ∈ (metaAt metas v._metaObject).m_props, r.2.1 = prop.m_propertyName)) →
      ∀ r ∈ (indices.foldl (QmlObjectValue.processProperty metas v) s).1,
        (∃ e ∈ (metaAt metas v._metaObject).m_enums, r.2.1 ∈ e.m_keys) ∨
        (∃ prop ∈ (metaAt metas v._metaObject).m_props, r.2.1 = prop.m_propertyName) := by
    intro indices
    induction indices with
    | nil => intro s _ hs; exact hs
    | cons index rest ih =>
      intro s hlt hs
      simp only [List.foldl_cons]
      apply ih _ (fun i hi => hlt i (List.mem_cons_of_mem _ hi))
      intro r hr
      simp only [QmlObjectValue.processProperty, List.mem_append, List.mem_singleton] at hr
      rcases hr with h0 | h1
      · exact hs r h0
      · right
        have hi := hlt index (List.mem_cons_self _ _)
        refine ⟨(metaAt metas v._metaObject).m_props[index], List.getElem_mem _, ?_⟩
        rw [h1]
        simp [FakeMetaProperty.name, FakeMetaObject.property, List.getD_eq_getElem?_getD,
          List.getElem?_eq_getElem hi]
  apply hfold
  · intro index hi
    exact List.mem_range.mp hi
  · intro r hr
    left
    simp only [QmlObjectValue.processEnums, List.mem_flatMap, List.mem_map, List.mem_range',
      List.mem_range] at hr
    obtain ⟨index, ⟨k, hk, hindex⟩, i, hi, heq⟩ := hr
    simp only [FakeMetaObject.enumeratorOffset, FakeMetaObject.enumeratorCount,
      Nat.sub_zero] at hk hindex
    have hlt : index < (metaAt metas v._metaObject).m_enums.length := by omega
    refine ⟨(metaAt metas v._metaObject).m_enums[index], List.getElem_mem _, ?_⟩
    rw [← heq]
    have he : (metaAt metas v._metaObject).enumerator (index : Int)
        = (metaAt metas v._metaObject).m_enums[index] := by
      simp [FakeMetaObject.enumerator, List.getD_eq_getElem?_getD, List.getElem?_eq_getElem hlt]
    rw [he] at hi ⊢
    simp only [FakeMetaEnum.keyCount] at hi
    simp only [FakeMetaEnum.key, List.getD_eq_getElem?_getD, List.getElem?_eq_getElem hi,
      Option.getD_some]
    exact List.getElem_mem _

/-- A `LookupMember` that has a value keeps it. -/
theorem LookupMember.processMember_found (name : String) (x : QmlMember)
    (l : List (MemberKind × String × QmlMember)) :
    l.foldl (fun _value r => (LookupMember.processMember name _value r.2.1 r.2.2).1) (some x)
      = some x := by
  induction l with
  | nil => rfl
  | cons r rest ih =>
    simp only [List.foldl_cons]
    rw [show (LookupMember.processMember name (some x) r.2.1 r.2.2).1 = some x from rfl]
    exact ih

/-- The slow lookup finds the first call with the name. -/
theorem QmlObjectValue.slowLookup_first (name : String) (kind : MemberKind) (x : QmlMember)
    (before after : List (MemberKind × String × QmlMember)) (members : List (String × Value))
    (hb : ∀ r ∈ before, r.2.1 ≠ name) :
    QmlObjectValue.slowLookup name (before ++ (kind, name, x) :: after) members = some x := by
  unfold QmlObjectValue.slowLookup
  have hbefore : before.foldl
      (fun _value r => (LookupMember.processMember name _value r.2.1 r.2.2).1) none
      = none := by
    induction before with
    | nil => rfl
    | cons r rest ih =>
      simp only [List.foldl_cons]
      have hne : ¬ r.2.1 = name := hb r (List.mem_cons_self _ _)
      rw [show (LookupMember.processMember name none r.2.1 r.2.2).1 = none by
        simp [LookupMember.processMember, hne]]
      exact ih (fun q hq => hb q (List.mem_cons_of_mem _ hq))
  rw [List.foldl_append, hbefore, List.foldl_cons]
  rw [show (LookupMember.processMember name none name x).1 = some x by
    simp [LookupMember.processMember]]
  rw [LookupMember.processMember_found]
  cases members with
  | nil => rfl
  | cons hd rest =>
    obtain ⟨key, value⟩ := hd
    rfl

/-- A lookup of a name that the property map does not have and that the enumeration of the
members reports returns what the slow lookup finds, with the signatures stored. -/
theorem QmlObjectValue.lookupMember_slow (toUpper : Char → Char)
    (metas : List FakeMetaObject) (fuel : Nat) (engine : Engine) (h : Heap) (address : Nat)
    (name : String) (examinePrototypes : Bool)
    (reported : List (MemberKind × String × QmlMember)) (engine1 : Engine)
    (v1 : QmlObjectValue) (h1 : Heap) (x : QmlMember)
    (hf : findMember name (engine._cppQmlTypes.obj address)._members = none)
    (hp : QmlObjectValue.processMembers toUpper metas engine h
      (engine._cppQmlTypes.obj address) = some (reported, engine1, v1, h1))
    (hs : QmlObjectValue.slowLookup name reported v1._members = some x) :
    QmlObjectValue.lookupMember toUpper metas (fuel + 1) engine h address name
        examinePrototypes
      = some (some x,
          { engine1 with _cppQmlTypes := engine1._cppQmlTypes.store address v1 }, h1) := by
  unfold QmlObjectValue.lookupMember
  simp only [hf, hp, hs]

/-- Enumerating the members of a value whose methods are named, one of which is a signal:
the enumeration returns; the signal and its generated slot are reported one after the other
with the signature of the signal's index; and every call before them has the name of an enum
key, of a property, of an earlier method or of the generated slot of an earlier signal. -/
theorem QmlObjectValue.processMembers_signal (toUpper : Char → Char)
    (metas : List FakeMetaObject) (engine : Engine) (h : Heap) (v : QmlObjectValue)
    (pre post : List FakeMetaMethod) (method : FakeMetaMethod) (slot : String)
    (hnamed : (metaAt metas v._metaObject).MethodsNamed)
    (hmethods : (metaAt metas v._metaObject).m_methods = pre ++ method :: post)
    (hsignal : method.methodType = FakeMetaMethod.Signal)
    (hslot : QmlObjectValue.slotName toUpper method.methodName = some slot) :
    ∃ before after engine1 v1 h1 signature,
      QmlObjectValue.processMembers toUpper metas engine h v
        = some (before ++ (.signal, method.methodName, .value (.objectValue signature))
            :: (.generatedSlot, slot, .value (.objectValue signature)) :: after,
          engine1, v1, h1) ∧
      QmlObjectValue.signatureValue v1._metaSignature pre.length = some signature ∧
      (∀ r ∈ before,
        (∃ e ∈ (metaAt metas v._metaObject).m_enums, r.2.1 ∈ e.m_keys) ∨
        (∃ prop ∈ (metaAt metas v._metaObject).m_props, r.2.1 = prop.m_propertyName) ∨
        (∃ x ∈ pre, r.2.1 = x.m_name ∨
          (x.methodType = FakeMetaMethod.Signal ∧
            QmlObjectValue.slotName toUpper x.m_name = some r.2.1))) := by
  have hn : ∀ x ∈ pre ++ method :: post, x.m_name ≠ "" := by
    intro x hx
    rw [← hmethods] at hx
    exact (hnamed x hx).1
  have hacc : method.access = FakeMetaMethod.Public :=
    (hnamed method (by rw [hmethods]; simp)).2
  -- the methods before the signal
  obtain ⟨vp, hp, callsPre, hpre, hnpre⟩ := QmlObjectValue.processMethods_named toUpper pre
    (fun x hx => hn x (List.mem_append_left _ hx)) 0 v h
    ((List.range (metaAt metas v._metaObject).propertyCount).foldl
      (QmlObjectValue.processProperty metas v)
      (QmlObjectValue.processEnums (metaAt metas v._metaObject), engine)).1
  -- the signal
  have hreport : QmlObjectValue.methodReport toUpper method
      (QmlObjectValue.findOrCreateSignature hp vp pre.length method).1
      = some [(.signal, method.methodName, .value (.objectValue
            (QmlObjectValue.findOrCreateSignature hp vp pre.length method).1)),
          (.generatedSlot, slot, .value (.objectValue
            (QmlObjectValue.findOrCreateSignature hp vp pre.length method).1))] := by
    unfold QmlObjectValue.methodReport
    rw [if_neg (fun hh => by
        have h1 := hh.1
        rw [hsignal] at h1
        exact absurd h1 (by decide)),
      if_pos ⟨hsignal, by rw [hacc]; decide⟩, hslot]
    rfl
  obtain ⟨s1, _, _⟩ := QmlObjectValue.findOrCreateSignature_spec hp vp pre.length method
  -- the methods after the signal
  obtain ⟨va, ha, callsPost, hpost, _⟩ := QmlObjectValue.processMethods_named toUpper post
    (fun x hx => hn x (List.mem_append_right _ (List.mem_cons_of_mem _ hx))) (pre.length + 1)
    (QmlObjectValue.findOrCreateSignature hp vp pre.length method).2.2.1
    (QmlObjectValue.findOrCreateSignature hp vp pre.length method).2.2.2
    ((((List.range (metaAt metas v._metaObject).propertyCount).foldl
      (QmlObjectValue.processProperty metas v)
      (QmlObjectValue.processEnums (metaAt metas v._metaObject), engine)).1 ++ callsPre) ++
      [(.signal, method.methodName, .value (.objectValue
          (QmlObjectValue.findOrCreateSignature hp vp pre.length method).1)),
        (.generatedSlot, slot, .value (.objectValue
          (QmlObjectValue.findOrCreateSignature hp vp pre.length method).1))])
  obtain ⟨_, _, _, e3, _⟩ := QmlObjectValue.processMethods_spec toUpper _ _ _ _ _ _ _ _ hpost
  have hall : QmlObjectValue.processMethods toUpper (pre ++ method :: post) 0
      (v, h, ((List.range (metaAt metas v._metaObject).propertyCount).foldl
        (QmlObjectValue.processProperty metas v)
        (QmlObjectValue.processEnums (metaAt metas v._metaObject), engine)).1)
      = some (va, ha,
        (((List.range (metaAt metas v._metaObject).propertyCount).foldl
          (QmlObjectValue.processProperty metas v)
          (QmlObjectValue.processEnums (metaAt metas v._metaObject), engine)).1 ++ callsPre) ++
        (.signal, method.methodName, .value (.objectValue
            (QmlObjectValue.findOrCreateSignature hp vp pre.length method).1))
          :: (.generatedSlot, slot, .value (.objectValue
            (QmlObjectValue.findOrCreateSignature hp vp pre.length method).1))
          :: callsPost) := by
    rw [QmlObjectValue.processMethods_append, hpre, Option.some_bind, Nat.zero_add]
    simp only [QmlObjectValue.processMethods]
    rw [QmlObjectValue.processMethod_eq, hreport]
    simp only [Option.map_some']
    rw [hpost]
    simp
  refine ⟨((List.range (metaAt metas v._metaObject).propertyCount).foldl
      (QmlObjectValue.processProperty metas v)
      (QmlObjectValue.processEnums (metaAt metas v._metaObject), engine)).1 ++ callsPre,
    callsPost,
    ((List.range (metaAt metas v._metaObject).propertyCount).foldl
      (QmlObjectValue.processProperty metas v)
      (QmlObjectValue.processEnums (metaAt metas v._metaObject), engine)).2,
    va, ha, (QmlObjectValue.findOrCreateSignature hp vp pre.length method).1, ?_,
    e3 _ _ s1, ?_⟩
  · unfold QmlObjectValue.processMembers
    simp only [hmethods, hall]
  · intro r hr
    rcases List.mem_append.mp hr with h0 | h1
    · rcases QmlObjectValue.processProperties_names metas v engine r h0 with he | hprop
      · exact Or.inl he
      · exact Or.inr (Or.inl hprop)
    · exact Or.inr (Or.inr (hnpre r h1))

/-- Reading through a pointer to a `QmlObjectValue` after a write through it. -/
theorem CppQmlTypes.obj_store (t : CppQmlTypes) (a : Nat) (v : QmlObjectValue)
    (ha : a < t.objectValues.length) : (t.store a v).obj a = v := by
  simp [CppQmlTypes.store, CppQmlTypes.obj, List.getD_eq_getElem?_getD, ha]

/-- No call before the signal has a name that is free for the signal. -/
theorem QmlObjectValue.nameUnused_before (toUpper : Char → Char) (m : FakeMetaObject)
    (members : List (String × Value)) (pre : List FakeMetaMethod) (name : String)
    (hfree : QmlObjectValue.NameUnused toUpper m members pre name)
    (before : List (MemberKind × String × QmlMember))
    (hnames : ∀ r ∈ before,
      (∃ e ∈ m.m_enums, r.2.1 ∈ e.m_keys) ∨
      (∃ prop ∈ m.m_props, r.2.1 = prop.m_propertyName) ∨
      (∃ x ∈ pre, r.2.1 = x.m_name ∨
        (x.methodType = FakeMetaMethod.Signal ∧
          QmlObjectValue.slotName toUpper x.m_name = some r.2.1))) :
    ∀ r ∈ before, r.2.1 ≠ name := by
  obtain ⟨_, f2, f3, f4⟩ := hfree
  intro r hr heq
  rcases hnames r hr with ⟨e, he, hk⟩ | ⟨prop, hp, hn⟩ | ⟨x, hx, hn | ⟨hs, hn⟩⟩
  · exact f2 e he (heq ▸ hk)
  · exact f3 prop hp (by rw [← hn, heq])
  · exact (f4 x hx).1 (by rw [← hn, heq])
  · exact (f4 x hx).2 hs (by rw [hn, heq])

/-- The lookups of a signal and of its generated slot on a value of the registry whose
methods are named return the signature of the signal, when both names are free: made one
after the other, and made from the same engine and heap. -/
theorem QmlObjectValue.lookupMember_signal_slot (toUpper : Char → Char)
    (metas : List FakeMetaObject) (fuel : Nat) (engine : Engine) (h : Heap) (address : Nat)
    (pre post : List FakeMetaMethod) (method : FakeMetaMethod) (slot : String)
    (examinePrototypes : Bool)
    (haddress : address < engine._cppQmlTypes.objectValues.length)
    (hnamed : (metaAt metas (engine._cppQmlTypes.obj address)._metaObject).MethodsNamed)
    (hmethods : (metaAt metas (engine._cppQmlTypes.obj address)._metaObject).m_methods
      = pre ++ method :: post)
    (hsignal : method.methodType = FakeMetaMethod.Signal)
    (hslot : QmlObjectValue.slotName toUpper method.methodName = some slot)
    (hfree : QmlObjectValue.NameUnused toUpper
      (metaAt metas (engine._cppQmlTypes.obj address)._metaObject)
      (engine._cppQmlTypes.obj address)._members pre method.methodName)
    (hfreeSlot : QmlObjectValue.NameUnused toUpper
      (metaAt metas (engine._cppQmlTypes.obj address)._metaObject)
      (engine._cppQmlTypes.obj address)._members pre slot) :
    ∃ signature engine1 h1 engine2 h2,
      QmlObjectValue.lookupMember toUpper metas (fuel + 1) engine h address method.methodName
          examinePrototypes
        = some (some (.value (.objectValue signature)), engine1, h1) ∧
      QmlObjectValue.lookupMember toUpper metas (fuel + 1) engine1 h1 address slot
          examinePrototypes
        = some (some (.value (.objectValue signature)), engine2, h2) ∧
      QmlObjectValue.lookupMember toUpper metas (fuel + 1) engine h address slot
          examinePrototypes
        = some (some (.value (.objectValue signature)), engine1, h1) := by
  have hne : slot ≠ method.methodName := by
    obtain ⟨slot1, hs1, hne1⟩ := QmlObjectValue.slotName_of_named toUpper method.m_name
      (hnamed method (by rw [hmethods]; simp)).1
    have : slot1 = slot := by
      have h2 : QmlObjectValue.slotName toUpper method.m_name = some slot := hslot
      rw [hs1] at h2
      exact Option.some.inj h2
    rw [← this]
    exact hne1
  -- the first enumeration
  obtain ⟨before, after, engineA, vA, hA, signature, hpm, hcache, hnames⟩ :=
    QmlObjectValue.processMembers_signal toUpper metas engine h
      (engine._cppQmlTypes.obj address) pre post method slot hnamed hmethods hsignal hslot
  obtain ⟨g1, _⟩ := QmlObjectValue.processMembers_engine toUpper metas engine h _ _ _ _ _ hpm
  obtain ⟨_, _, _, hvA, _, _⟩ :=
    QmlObjectValue.processMembers_twice toUpper metas engine h _ _ _ _ _ hpm
  have hb1 := QmlObjectValue.nameUnused_before toUpper _ _ pre _ hfree before hnames
  have hb2 := QmlObjectValue.nameUnused_before toUpper _ _ pre _ hfreeSlot before hnames
  have hlook1 := QmlObjectValue.slowLookup_first method.methodName .signal
    (.value (.objectValue signature)) before
    ((.generatedSlot, slot, .value (.objectValue signature)) :: after) vA._members hb1
  have hslow : ∀ (bf af : List (MemberKind × String × QmlMember)) (sig : Nat)
      (members : List (String × Value)), (∀ r ∈ bf, r.2.1 ≠ slot) →
      QmlObjectValue.slowLookup slot
        (bf ++ (.signal, method.methodName, .value (.objectValue sig))
          :: (.generatedSlot, slot, .value (.objectValue sig)) :: af) members
        = some (.value (.objectValue sig)) := by
    intro bf af sig members hbf
    have := QmlObjectValue.slowLookup_first slot .generatedSlot (.value (.objectValue sig))
      (bf ++ [(.signal, method.methodName, .value (.objectValue sig))]) af members (by
        intro r hr
        rcases List.mem_append.mp hr with h0 | h1
        · exact hbf r h0
        · simp only [List.mem_singleton] at h1
          rw [h1]
          exact fun hh => hne hh.symm)
    rw [List.append_assoc] at this
    exact this
  have hfirst := QmlObjectValue.lookupMember_slow toUpper metas fuel engine h address
    method.methodName examinePrototypes _ engineA vA hA _ hfree.1 hpm hlook1
  have hsame := QmlObjectValue.lookupMember_slow toUpper metas fuel engine h address
    slot examinePrototypes _ engineA vA hA _ hfreeSlot.1 hpm
    (hslow before after signature vA._members hb2)
  -- the second enumeration, from the engine and the heap that the first lookup left
  have hobj : CppQmlTypes.obj
      ({ engineA with _cppQmlTypes := engineA._cppQmlTypes.store address vA } :
        Engine)._cppQmlTypes address = vA :=
    CppQmlTypes.obj_store _ address vA (by rw [g1]; exact haddress)
  have hmeta : vA._metaObject = (engine._cppQmlTypes.obj address)._metaObject := by rw [hvA]
  have hmembers : vA._members = (engine._cppQmlTypes.obj address)._members := by rw [hvA]
  obtain ⟨before2, after2, engineB, vB, hB, signature2, hpm2, hcache2, hnames2⟩ :=
    QmlObjectValue.processMembers_signal toUpper metas
      ({ engineA with _cppQmlTypes := engineA._cppQmlTypes.store address vA } : Engine) hA
      vA pre post method slot (by rw [hmeta]; exact hnamed) (by rw [hmeta]; exact hmethods)
      hsignal hslot
  obtain ⟨_, _, _, _, hkeep, _⟩ :=
    QmlObjectValue.processMembers_twice toUpper metas _ hA vA _ _ _ _ hpm2
  have hsig : signature2 = signature := by
    have := hkeep _ _ hcache
    rw [hcache2] at this
    exact Option.some.inj this
  rw [hsig] at hpm2
  rw [hmeta] at hnames2
  have hb3 := QmlObjectValue.nameUnused_before toUpper _ _ pre _ hfreeSlot before2 hnames2
  have hsecond := QmlObjectValue.lookupMember_slow toUpper metas fuel
    ({ engineA with _cppQmlTypes := engineA._cppQmlTypes.store address vA } : Engine) hA
    address slot examinePrototypes _ engineB vB hB _
    (by rw [hobj, hmembers]; exact hfreeSlot.1) (by rw [hobj]; exact hpm2)
    (hslow before2 after2 signature vB._members hb3)
  exact ⟨signature, _, _, _, _, hfirst, hsecond, hsame⟩

/-- C35 (amended). In the meta-objects that `QmlXmlReader::operator()` leaves in a memory
whose methods were named (as in the empty memory), every method has a non-empty name, so the
first character of the name of a signal can be taken and the generated slot name exists. For
a value of the registry whose meta-object has named methods and declares a signal `s`, the
lookups of `s` and of its generated slot name (`on`, the upper case of the first character of
`s`, and the rest of `s`) return the same signature value, made one after the other or from
the same engine and heap, provided that no property of the value's property map, no enum
key, no property of the meta-object and no earlier method has either name, and that neither
name is the generated slot name of an earlier signal. -/
theorem QmlObjectValue.lookupMember_generatedSlot :
    (∀ (toInt : String → Option Int) (document : XmlNode) (metas : List FakeMetaObject)
      (objects : List (String × Nat)), (∀ a, (metaAt metas a).MethodsNamed) →
      ∀ a, ∀ method ∈ (metaAt (QmlXmlReader.call toInt document metas objects).2.metas
          a).m_methods,
        method.methodName ≠ "" ∧
        ∀ toUpper : Char → Char,
          (QmlObjectValue.slotName toUpper method.methodName).isSome = true) ∧
    (∀ (toUpper : Char → Char) (metas : List FakeMetaObject) (fuel : Nat) (engine : Engine)
      (h : Heap) (address : Nat) (pre post : List FakeMetaMethod) (method : FakeMetaMethod)
      (slot : String) (examinePrototypes : Bool),
      address < engine._cppQmlTypes.objectValues.length →
      (metaAt metas (engine._cppQmlTypes.obj address)._metaObject).MethodsNamed →
      (metaAt metas (engine._cppQmlTypes.obj address)._metaObject).m_methods
        = pre ++ method :: post →
      method.methodType = FakeMetaMethod.Signal →
      QmlObjectValue.slotName toUpper method.methodName = some slot →
      QmlObjectValue.NameUnused toUpper
        (metaAt metas (engine._cppQmlTypes.obj address)._metaObject)
        (engine._cppQmlTypes.obj address)._members pre method.methodName →
      QmlObjectValue.NameUnused toUpper
        (metaAt metas (engine._cppQmlTypes.obj address)._metaObject)
        (engine._cppQmlTypes.obj address)._members pre slot →
      ∃ signature engine1 h1 engine2 h2,
        QmlObjectValue.lookupMember toUpper metas (fuel + 1) engine h address
            method.methodName examinePrototypes
          = some (some (.value (.objectValue signature)), engine1, h1) ∧
        QmlObjectValue.lookupMember toUpper metas (fuel + 1) engine1 h1 address slot
            examinePrototypes
          = some (some (.value (.objectValue signature)), engine2, h2) ∧
        QmlObjectValue.lookupMember toUpper metas (fuel + 1) engine h address slot
            examinePrototypes
          = some (some (.value (.objectValue signature)), engine1, h1)) := by
  refine ⟨?_, ?_⟩
  · intro toInt document metas objects hbefore a method hm
    have hn := (QmlXmlReader.call_methodsNamed toInt document metas objects hbefore a method
      hm).1
    refine ⟨hn, fun toUpper => ?_⟩
    obtain ⟨slot, hs, _⟩ := QmlObjectValue.slotName_of_named toUpper method.m_name hn
    rw [show method.methodName = method.m_name from rfl, hs]
    rfl
  · intro toUpper metas fuel engine h address pre post method slot examinePrototypes
      haddress hnamed hmethods hsignal hslot hfree hfreeSlot
    exact QmlObjectValue.lookupMember_signal_slot toUpper metas fuel engine h address pre post
      method slot examinePrototypes haddress hnamed hmethods hsignal hslot hfree hfreeSlot

/-- Witness for C35: the signal `clicked` of `Button` in the signal scenario, the first of
its methods; the lookups of `clicked` and of `onClicked` return the same signature. -/
theorem QmlObjectValue.lookupMember_generatedSlot_witness :
    0 < signalScenarioEngine._cppQmlTypes.objectValues.length ∧
    (metaAt signalScenarioMetas
      (signalScenarioEngine._cppQmlTypes.obj 0)._metaObject).MethodsNamed ∧
    (metaAt signalScenarioMetas (signalScenarioEngine._cppQmlTypes.obj 0)._metaObject).m_methods
      = [] ++ ({ m_name := "clicked", m_methodTy := FakeMetaMethod.Signal } : FakeMetaMethod)
        :: [{ m_name := "onClicked", m_methodTy := FakeMetaMethod.Signal },
            { m_name := "open", m_methodTy := FakeMetaMethod.Slot }] ∧
    QmlObjectValue.slotName Char.toUpper "clicked" = some "onClicked" ∧
    QmlObjectValue.NameUnused Char.toUpper
      (metaAt signalScenarioMetas (signalScenarioEngine._cppQmlTypes.obj 0)._metaObject)
      (signalScenarioEngine._cppQmlTypes.obj 0)._members [] "clicked" ∧
    QmlObjectValue.NameUnused Char.toUpper
      (metaAt signalScenarioMetas (signalScenarioEngine._cppQmlTypes.obj 0)._metaObject)
      (signalScenarioEngine._cppQmlTypes.obj 0)._members [] "onClicked" ∧
    ∃ signature engine1 h1 engine2 h2,
      QmlObjectValue.lookupMember Char.toUpper signalScenarioMetas (0 + 1)
          signalScenarioEngine {} 0 "clicked" true
        = some (some (.value (.objectValue signature)), engine1, h1) ∧
      QmlObjectValue.lookupMember Char.toUpper signalScenarioMetas (0 + 1) engine1 h1 0
          "onClicked" true
        = some (some (.value (.objectValue signature)), engine2, h2) ∧
      QmlObjectValue.lookupMember Char.toUpper signalScenarioMetas (0 + 1)
          signalScenarioEngine {} 0 "onClicked" true
        = some (some (.value (.objectValue signature)), engine1, h1) :=
  ⟨by decide, by decide, by decide, by decide, by decide, by decide,
   QmlObjectValue.lookupMember_generatedSlot.2 Char.toUpper signalScenarioMetas 0
     signalScenarioEngine {} 0 []
     [{ m_name := "onClicked", m_methodTy := FakeMetaMethod.Signal },
      { m_name := "open", m_methodTy := FakeMetaMethod.Slot }]
     { m_name := "clicked", m_methodTy := FakeMetaMethod.Signal } "onClicked" true
     (by decide) (by decide) (by decide) (by decide) (by decide) (by decide) (by decide)⟩

/-- C35 (counterexample). In the signal scenario the reader builds the meta-object of
`Button` with the signals `clicked` and `onClicked`. For the signal `onClicked`, whose
generated slot name is `onOnClicked`, no property of the property map, no enum key, no
property of the meta-object and no earlier method has either name; but `onClicked` is also
the generated slot name of the earlier signal `clicked`, so the lookup of `onClicked` returns
the signature of `clicked` (the object 0) and the lookup of `onOnClicked` returns the
signature of `onClicked` (the object 1), made from the same engine and heap or one after the
other. -/
theorem QmlObjectValue.lookupMember_generatedSlot_counterexample :
    signalScenarioMetas
      = (QmlXmlReader.call decimalToInt signalScenarioDocument [] []).2.metas ∧
    (metaAt signalScenarioMetas (signalScenarioEngine._cppQmlTypes.obj 0)._metaObject).m_methods
      = [{ m_name := "clicked", m_methodTy := FakeMetaMethod.Signal }]
        ++ ({ m_name := "onClicked", m_methodTy := FakeMetaMethod.Signal } : FakeMetaMethod)
        :: [{ m_name := "open", m_methodTy := FakeMetaMethod.Slot }] ∧
    QmlObjectValue.slotName Char.toUpper "onClicked" = some "onOnClicked" ∧
    (∀ name ∈ ["onClicked", "onOnClicked"],
      findMember name (signalScenarioEngine._cppQmlTypes.obj 0)._members = none ∧
      (∀ e ∈ (metaAt signalScenarioMetas
          (signalScenarioEngine._cppQmlTypes.obj 0)._metaObject).m_enums, name ∉ e.m_keys) ∧
      (∀ prop ∈ (metaAt signalScenarioMetas
          (signalScenarioEngine._cppQmlTypes.obj 0)._metaObject).m_props,
        prop.m_propertyName ≠ name) ∧
      (∀ x ∈ [({ m_name := "clicked", m_methodTy := FakeMetaMethod.Signal } : FakeMetaMethod)],
        x.m_name ≠ name)) ∧
    (QmlObjectValue.lookupMember Char.toUpper signalScenarioMetas 1 signalScenarioEngine {} 0
      "onClicked" true).map Prod.fst = some (some (.value (.objectValue 0))) ∧
    (QmlObjectValue.lookupMember Char.toUpper signalScenarioMetas 1 signalScenarioEngine {} 0
      "onOnClicked" true).map Prod.fst = some (some (.value (.objectValue 1))) ∧
    ((QmlObjectValue.lookupMember Char.toUpper signalScenarioMetas 1 signalScenarioEngine {} 0
      "onClicked" true).bind
        (fun r => QmlObjectValue.lookupMember Char.toUpper signalScenarioMetas 1 r.2.1 r.2.2 0
          "onOnClicked" true)).map Prod.fst = some (some (.value (.objectValue 1))) := by
  decide

/-! ## Property types and import aliases -/

/-- The loop of `propertyType` from a meta-object whose chain ends within `n` links returns
with any fuel above `n`: the type of the property of that name in the meta-object of the
value itself, or the empty string when that meta-object has no property of that name. -/
theorem QmlObjectValue.propertyTypeLoop_spec (metas : List FakeMetaObject)
    (v : QmlObjectValue) (propertyName : String) :
    ∀ (n fuel iter : Nat), n < fuel → superClassAt metas n iter = none →
      QmlObjectValue.propertyTypeLoop metas v propertyName fuel (some iter)
        = some (if (metaAt metas v._metaObject).propertyIndex propertyName ≠ -1 then
            ((metaAt metas v._metaObject).property
              ((metaAt metas v._metaObject).propertyIndex propertyName)).typeName
          else "") := by
  intro n
  induction n with
  | zero =>
    intro fuel iter _ hend
    simp [superClassAt] at hend
  | succ n ih =>
    intro fuel iter hlt hend
    obtain ⟨f, rfl⟩ : ∃ f, fuel = f + 1 := ⟨fuel - 1, by omega⟩
    rw [superClassAt_succ] at hend
    unfold QmlObjectValue.propertyTypeLoop
    simp only []
    by_cases hidx : (metaAt metas v._metaObject).propertyIndex propertyName ≠ -1
    · rw [if_pos hidx, if_pos hidx]
    · rw [if_neg hidx, if_neg hidx]
      cases hs : (metaAt metas iter).superClass with
      | none =>
        obtain ⟨g, rfl⟩ : ∃ g, f = g + 1 := ⟨f - 1, by omega⟩
        rfl
      | some s =>
        rw [hs, Option.some_bind] at hend
        rw [ih f s (by omega) hend, if_neg hidx]

/-- C36. For a `QmlObjectValue` whose superclass chain ends (after at most `n` links, so it
has no cycle), `propertyType(name)` returns with any fuel above `n`: the declared type name
of the property when the value's own meta-object declares a property of that name, and the
empty string otherwise. The properties of the superclasses are never looked at: in the
scenario `Derived` extends `Base`, which declares `width` of type `int`; the type of `title`
of `Derived` is `QString`, and the type of `width` of `Derived` is the empty string. -/
theorem QmlObjectValue.propertyType_own :
    (∀ (metas : List FakeMetaObject) (v : QmlObjectValue) (name : String) (n fuel : Nat),
      n < fuel → superClassAt metas n v._metaObject = none →
      QmlObjectValue.propertyType metas fuel v name
        = some (if (metaAt metas v._metaObject).propertyIndex name ≠ -1 then
            ((metaAt metas v._metaObject).property
              ((metaAt metas v._metaObject).propertyIndex name)).typeName
          else "")) ∧
    QmlObjectValue.propertyType propertyTypeScenarioMetas 3 { _metaObject := 1 } "title"
      = some "QString" ∧
    QmlObjectValue.propertyType propertyTypeScenarioMetas 3 { _metaObject := 0 } "width"
      = some "int" ∧
    QmlObjectValue.propertyType propertyTypeScenarioMetas 3 { _metaObject := 1 } "width"
      = some "" :=
  ⟨fun metas v name n fuel hlt hend =>
      QmlObjectValue.propertyTypeLoop_spec metas v name n fuel v._metaObject hlt hend,
    by decide, by decide, by decide⟩

/-- Witness for C36: the chain of `Derived` in the scenario ends after two links. -/
theorem QmlObjectValue.propertyType_own_witness :
    superClassAt propertyTypeScenarioMetas 2 1 = none ∧
    QmlObjectValue.propertyType propertyTypeScenarioMetas 3 { _metaObject := 1 } "width"
      = some (if (metaAt propertyTypeScenarioMetas 1).propertyIndex "width" ≠ -1 then
          ((metaAt propertyTypeScenarioMetas 1).property
            ((metaAt propertyTypeScenarioMetas 1).propertyIndex "width")).typeName
        else "") :=
  ⟨by decide,
   QmlObjectValue.propertyType_own.1 propertyTypeScenarioMetas { _metaObject := 1 } "width" 2 3
     (by decide) (by decide)⟩

/-- An import with an alias that is not the name looked up adds nothing to the loop of
`TypeEnvironment::lookupMember`: the loop gives what it gives without that import. -/
theorem TypeEnvironment.lookupImports_skip (h : Heap)
    (property : Nat → Context → Option (Option Value × Context)) (name : String)
    (imp : Nat) (info : ImportInfo) (post : List (Nat × ImportInfo))
    (hid : info.id ≠ "") (hne : info.id ≠ name) :
    ∀ (pre : List (Nat × ImportInfo)) (ctx : Context),
      TypeEnvironment.lookupImports h property name (pre ++ (imp, info) :: post) ctx
        = TypeEnvironment.lookupImports h property name (pre ++ post) ctx := by
  intro pre
  induction pre with
  | nil =>
    intro ctx
    simp only [List.nil_append, TypeEnvironment.lookupImports]
    rw [if_pos hid, if_neg hne]
  | cons hd rest ih =>
    intro ctx
    obtain ⟨imp1, info1⟩ := hd
    simp only [List.cons_append, TypeEnvironment.lookupImports]
    split_ifs
    · rfl
    · exact ih ctx
    · rfl
    · exact ih ctx
    · cases property imp1 ctx with
      | none => rfl
      | some r =>
        obtain ⟨v, ctx1⟩ := r
        cases v with
        | none => exact ih ctx1
        | some v => rfl

/-- When every import has an alias, the loop of `TypeEnvironment::lookupMember` returns the
first import whose alias is the name, and null when there is none. -/
theorem TypeEnvironment.lookupImports_aliased (h : Heap)
    (property : Nat → Context → Option (Option Value × Context)) (name : String)
    (ctx : Context) :
    ∀ (imports : List (Nat × ImportInfo)), (∀ p ∈ imports, p.2.id ≠ "") →
      TypeEnvironment.lookupImports h property name imports ctx
        = some ((imports.find? (fun p => decide (p.2.id = name))).map
            (fun p => Value.objectValue p.1), ctx) := by
  intro imports
  induction imports with
  | nil => intro _; rfl
  | cons hd rest ih =>
    intro hall
    obtain ⟨imp, info⟩ := hd
    have hid : info.id ≠ "" := hall (imp, info) (List.mem_cons_self _ _)
    simp only [TypeEnvironment.lookupImports]
    rw [if_pos hid]
    by_cases hn : info.id = name
    · rw [if_pos hn]
      simp [List.find?, hn]
    · rw [if_neg hn, ih (fun p hp => hall p (List.mem_cons_of_mem _ hp))]
      simp [List.find?, hn]

/-- C37. In the loop of `TypeEnvironment::lookupMember`, an import with a non-empty id that
is not the name looked up is passed over: the lookup gives what it gives without that import,
whatever members the imported object has. When every import of a type environment has a
non-empty id, `lookupMember(name)` returns the first import whose id is the name, and null
(not found) when no id is the name. In the scenario the object imported as `Qt` has a member
`Item`: `Item` is not found, `Qt` is the imported object, and `Rectangle` is found in the
second import, which has no id. -/
theorem TypeEnvironment.lookupMember_alias :
    (∀ (h : Heap) (property : Nat → Context → Option (Option Value × Context))
      (name : String) (imp : Nat) (info : ImportInfo) (pre post : List (Nat × ImportInfo))
      (ctx : Context), info.id ≠ "" → info.id ≠ name →
      TypeEnvironment.lookupImports h property name (pre ++ (imp, info) :: post) ctx
        = TypeEnvironment.lookupImports h property name (pre ++ post) ctx) ∧
    (∀ (h : Heap) (fuel address : Nat) (imports : List (Nat × ImportInfo)) (name : String)
      (ctx : Context) (examinePrototypes : Bool),
      (h.obj address).kind = .typeEnvironment imports → (∀ p ∈ imports, p.2.id ≠ "") →
      ObjectValue.lookupMember h (fuel + 1) address name ctx examinePrototypes
          = some ((imports.find? (fun p => decide (p.2.id = name))).map
              (fun p => Value.objectValue p.1), ctx) ∧
        ((∀ p ∈ imports, p.2.id ≠ name) →
          ObjectValue.lookupMember h (fuel + 1) address name ctx examinePrototypes
            = some (none, ctx))) ∧
    ((ObjectValue.lookupMember aliasScenarioHeap 2 0 "Item" {} true).map Prod.fst
        = some none ∧
      (ObjectValue.lookupMember aliasScenarioHeap 2 1 "Item" {} true).map Prod.fst
        = some (some (.objectValue 3)) ∧
      (ObjectValue.lookupMember aliasScenarioHeap 2 0 "Qt" {} true).map Prod.fst
        = some (some (.objectValue 1)) ∧
      (ObjectValue.lookupMember aliasScenarioHeap 2 0 "Rectangle" {} true).map Prod.fst
        = some (some (.objectValue 3))) := by
  refine ⟨?_, ?_, by decide⟩
  · intro h property name imp info pre post ctx hid hne
    exact TypeEnvironment.lookupImports_skip h property name imp info post hid hne pre ctx
  · intro h fuel address imports name ctx examinePrototypes hkind hall
    have hl : ObjectValue.lookupMember h (fuel + 1) address name ctx examinePrototypes
        = some ((imports.find? (fun p => decide (p.2.id = name))).map
            (fun p => Value.objectValue p.1), ctx) := by
      rw [ObjectValue.lookupMember, hkind]
      exact TypeEnvironment.lookupImports_aliased h _ name ctx imports hall
    refine ⟨hl, ?_⟩
    intro hnone
    rw [hl]
    have hf : imports.find? (fun p => decide (p.2.id = name)) = none := by
      rw [List.find?_eq_none]
      intro p hp
      simpa using hnone p hp
    rw [hf]
    rfl

/-- Witness for C37: in the type path scenario the only import has the id `Qt`, and the
imported object has a member `Item`, which the type environment does not find. -/
theorem TypeEnvironment.lookupMember_alias_witness :
    (typeScenarioHeap.obj 0).kind
      = .typeEnvironment [(1, { type := .LibraryImport, name := "Qt", id := "Qt" })] ∧
    (∀ p ∈ [((1 : Nat), ({ type := .LibraryImport, name := "Qt", id := "Qt" } : ImportInfo))],
      p.2.id ≠ "") ∧
    (∀ p ∈ [((1 : Nat), ({ type := .LibraryImport, name := "Qt", id := "Qt" } : ImportInfo))],
      p.2.id ≠ "Item") ∧
    findMember "Item" (typeScenarioHeap.obj 1)._members = some (.objectValue 2) ∧
    ObjectValue.lookupMember typeScenarioHeap (0 + 1) 0 "Item" typeScenarioContext true
      = some (none, typeScenarioContext) :=
  ⟨rfl, by decide, by decide, by decide,
   (TypeEnvironment.lookupMember_alias.2.1 typeScenarioHeap 0 0 _ "Item" typeScenarioContext
      true rfl (by decide)).2 (by decide)⟩

/-! ## The profiler trace client -/

/-- Reading an element of a list after a write. -/
theorem List.getD_set_eq {α : Type} (l : List α) (a b : Nat) (x d : α) :
    (l.set a x).getD b d = if a = b ∧ a < l.length then x else l.getD b d := by
  simp only [List.getD_eq_getElem?_getD, List.getElem?_set]
  by_cases hab : a = b
  · subst hab
    by_cases hlt : a < l.length
    · simp [hlt]
    · simp [hlt, List.getElem?_eq_none (Nat.le_of_not_lt hlt)]
  · simp [hab]

/-- An `int` expression whose value fits in 32 bits has that value. -/
theorem int32_of_bounds (x : Int) (h0 : -2 ^ 31 ≤ x) (h1 : x < 2 ^ 31) : int32 x = x := by
  unfold int32
  omega

/-- An `int` sum depends on the `int` value of its operand only, and an `int` value is kept
by the conversion to `int`. -/
theorem int32_add (a b : Int) : int32 (int32 a + b) = int32 (a + b) ∧ int32 (int32 a) = int32 a := by
  unfold int32
  constructor <;> omega

/-- The invariant depends on the counts, the start times and the binding types only, and on
the depths of the range types only. -/
theorem QmlProfilerTraceClientPrivate.Invariant.congr (k : QmlProfilerEnums)
    (d d1 : QmlProfilerTraceClientPrivate) (depth depth1 : Nat → Nat)
    (hinv : QmlProfilerTraceClientPrivate.Invariant k d depth)
    (hd : ∀ r, r < k.MaximumQmlEventType.toNat → depth1 r = depth r)
    (hc : d1.rangeCount = d.rangeCount) (hs : d1.rangeStartTimes = d.rangeStartTimes)
    (hb : d1.bindingTypes = d.bindingTypes) :
    QmlProfilerTraceClientPrivate.Invariant k d1 depth1 := by
  obtain ⟨h1, h2, h3, h4⟩ := hinv
  refine ⟨by rw [hc]; exact h1, by rw [hs]; exact h2, ?_, by rw [hb, hc]; exact h4⟩
  intro r hr
  rw [hc, hs, hd r hr]
  exact h3 r hr

/-- `setRecordingFromServer` changes `recording` only. -/
theorem QmlProfilerTraceClient.setRecordingFromServer_frame (d : QmlProfilerTraceClientPrivate)
    (v : Bool) :
    (QmlProfilerTraceClient.setRecordingFromServer d v).1.rangeCount = d.rangeCount ∧
    (QmlProfilerTraceClient.setRecordingFromServer d v).1.rangeStartTimes = d.rangeStartTimes ∧
    (QmlProfilerTraceClient.setRecordingFromServer d v).1.bindingTypes = d.bindingTypes ∧
    (QmlProfilerTraceClient.setRecordingFromServer d v).1.rangeDatas = d.rangeDatas ∧
    (QmlProfilerTraceClient.setRecordingFromServer d v).1.rangeLocations = d.rangeLocations := by
  unfold QmlProfilerTraceClient.setRecordingFromServer
  split_ifs <;> exact ⟨rfl, rfl, rfl, rfl, rfl⟩

/-- The event branch leaves the per-range arrays and the binding types as they were. -/
theorem QmlProfilerTraceClient.eventReceived_frame (k : QmlProfilerEnums)
    (d : QmlProfilerTraceClientPrivate) (msg : QmlProfilerMessage) :
    (QmlProfilerTraceClient.eventReceived k d msg).1.rangeCount = d.rangeCount ∧
    (QmlProfilerTraceClient.eventReceived k d msg).1.rangeStartTimes = d.rangeStartTimes ∧
    (QmlProfilerTraceClient.eventReceived k d msg).1.bindingTypes = d.bindingTypes := by
  have hf := QmlProfilerTraceClient.setRecordingFromServer_frame d false
  have ht := QmlProfilerTraceClient.setRecordingFromServer_frame d true
  unfold QmlProfilerTraceClient.eventReceived
  simp only []
  split_ifs <;> simp only [hf, ht, and_self]

/-- The fields that the range-start branch leaves. -/
theorem QmlProfilerTraceClient.rangeStart_fields (k : QmlProfilerEnums)
    (d : QmlProfilerTraceClientPrivate) (msg : QmlProfilerMessage) (range : Nat) :
    (QmlProfilerTraceClient.rangeStart k d msg range).1.rangeCount
      = d.rangeCount.set range (int32 (d.rangeCount.getD range 0 + 1)) ∧
    (QmlProfilerTraceClient.rangeStart k d msg range).1.rangeStartTimes
      = d.rangeStartTimes.set range (d.rangeStartTimes.getD range [] ++ [msg.time]) ∧
    (QmlProfilerTraceClient.rangeStart k d msg range).1.bindingTypes
      = if (range : Int) = k.Binding then
          d.bindingTypes ++ [msg.bindingType.getD k.QmlBinding]
        else d.bindingTypes := by
  unfold QmlProfilerTraceClient.rangeStart
  simp only []
  split_ifs <;>
    simp only [(QmlProfilerTraceClient.setRecordingFromServer_frame _ false).1,
      (QmlProfilerTraceClient.setRecordingFromServer_frame _ false).2.1,
      (QmlProfilerTraceClient.setRecordingFromServer_frame _ false).2.2.1, and_self]

/-- The range-data and range-location branches leave the counts, the start times and the
binding types as they were. -/
theorem QmlProfilerTraceClient.rangeData_frame (d : QmlProfilerTraceClientPrivate)
    (msg : QmlProfilerMessage) (range : Nat) :
    ((QmlProfilerTraceClient.rangeData d msg range).rangeCount = d.rangeCount ∧
      (QmlProfilerTraceClient.rangeData d msg range).rangeStartTimes = d.rangeStartTimes ∧
      (QmlProfilerTraceClient.rangeData d msg range).bindingTypes = d.bindingTypes) ∧
    ((QmlProfilerTraceClient.rangeLocation d msg range).rangeCount = d.rangeCount ∧
      (QmlProfilerTraceClient.rangeLocation d msg range).rangeStartTimes = d.rangeStartTimes ∧
      (QmlProfilerTraceClient.rangeLocation d msg range).bindingTypes = d.bindingTypes) := by
  unfold QmlProfilerTraceClient.rangeData QmlProfilerTraceClient.rangeLocation
  simp only []
  constructor <;> split_ifs <;> exact ⟨rfl, rfl, rfl⟩

/-- The range-start branch keeps the invariant, with one more range of its type in
progress, while the count fits in an `int`. -/
theorem QmlProfilerTraceClient.rangeStart_invariant (k : QmlProfilerEnums)
    (d : QmlProfilerTraceClientPrivate) (msg : QmlProfilerMessage) (range : Nat)
    (depth : Nat → Nat)
    (hinv : QmlProfilerTraceClientPrivate.Invariant k d depth) (hn : depth range + 1 < 2 ^ 31)
    (hB : 0 ≤ k.Binding) (hr : range < k.MaximumQmlEventType.toNat) :
    QmlProfilerTraceClientPrivate.Invariant k
      (QmlProfilerTraceClient.rangeStart k d msg range).1
      (fun r => if r = range then depth r + 1 else depth r) := by
  obtain ⟨h1, h2, h3, h4⟩ := hinv
  obtain ⟨hc, hs, hb⟩ := QmlProfilerTraceClient.rangeStart_fields k d msg range
  obtain ⟨p0, s0⟩ := h3 range hr
  have hwrap : int32 (d.rangeCount.getD range 0 + 1) = d.rangeCount.getD range 0 + 1 :=
    int32_of_bounds _ (by omega) (by omega)
  refine ⟨by rw [hc, List.length_set]; exact h1, by rw [hs, List.length_set]; exact h2, ?_, ?_⟩
  · intro r hr1
    obtain ⟨p, s⟩ := h3 r hr1
    rw [hc, hs, List.getD_set_eq, List.getD_set_eq, hwrap]
    by_cases heq : range = r
    · subst heq
      rw [if_pos ⟨rfl, by omega⟩, if_pos ⟨rfl, by omega⟩]
      beta_reduce
      rw [if_pos rfl]
      refine ⟨by push_cast; omega, ?_⟩
      rw [List.length_append, List.length_singleton, s]
    · have hne : ¬ r = range := fun hh => heq hh.symm
      rw [if_neg (fun hh => heq hh.1), if_neg (fun hh => heq hh.1)]
      beta_reduce
      rw [if_neg hne]
      exact ⟨p, s⟩
  · rw [hb, hc, List.getD_set_eq, hwrap]
    by_cases heq : (range : Int) = k.Binding
    · have ht : k.Binding.toNat = range := by omega
      rw [if_pos heq, if_pos ⟨ht.symm, by omega⟩, List.length_append, List.length_singleton,
        ← ht]
      push_cast
      omega
    · have ht : ¬ range = k.Binding.toNat := by omega
      rw [if_neg heq, if_neg (fun hh => ht hh.1)]
      exact h4

/-- The range-end branch returns and keeps the invariant, with one range of its type less
in progress if there was one: with a positive count, neither the stack of start times nor,
for `Binding`, the stack of binding types is empty. -/
theorem QmlProfilerTraceClient.rangeEnd_invariant (k : QmlProfilerEnums)
    (d : QmlProfilerTraceClientPrivate) (msg : QmlProfilerMessage) (range : Nat)
    (depth : Nat → Nat)
    (hinv : QmlProfilerTraceClientPrivate.Invariant k d depth)
    (hB : 0 ≤ k.Binding) (hr : range < k.MaximumQmlEventType.toNat) :
    ∃ r, QmlProfilerTraceClient.rangeEnd k d msg range = some r ∧
      QmlProfilerTraceClientPrivate.Invariant k r.1
        (fun r => if r = range then depth r - 1 else depth r) := by
  obtain ⟨h1, h2, h3, h4⟩ := hinv
  obtain ⟨p0, s0⟩ := h3 range hr
  unfold QmlProfilerTraceClient.rangeEnd
  by_cases hpos : d.rangeCount.getD range 0 > 0
  swap
  · rw [if_neg hpos]
    refine ⟨_, rfl, QmlProfilerTraceClientPrivate.Invariant.congr k d _ depth _
      ⟨h1, h2, h3, h4⟩ ?_ rfl rfl rfl⟩
    intro r _
    by_cases heq : r = range
    · subst heq
      rw [if_pos rfl]
      omega
    · rw [if_neg heq]
  rw [if_pos hpos]
  have hlen : 0 < (d.rangeStartTimes.getD range []).length := by omega
  have hne : d.rangeStartTimes.getD range [] ≠ [] := List.length_pos.mp hlen
  obtain ⟨startTime, hlast⟩ : ∃ x, (d.rangeStartTimes.getD range []).getLast? = some x :=
    ⟨_, List.getLast?_eq_getLast _ hne⟩
  -- the state after the pops of the start time and of the binding type
  have key : ∀ (d2 : QmlProfilerTraceClientPrivate),
      d2.rangeCount = d.rangeCount.set range (d.rangeCount.getD range 0 - 1) →
      d2.rangeStartTimes
        = d.rangeStartTimes.set range (d.rangeStartTimes.getD range []).dropLast →
      d2.bindingTypes
        = (if (range : Int) = k.Binding then d.bindingTypes.dropLast else d.bindingTypes) →
      QmlProfilerTraceClientPrivate.Invariant k d2
        (fun r => if r = range then depth r - 1 else depth r) := by
    intro d2 hc hs hb
    refine ⟨by rw [hc, List.length_set]; exact h1, by rw [hs, List.length_set]; exact h2,
      ?_, ?_⟩
    · intro r hr1
      obtain ⟨p, s⟩ := h3 r hr1
      rw [hc, hs, List.getD_set_eq, List.getD_set_eq]
      by_cases heq : range = r
      · subst heq
        rw [if_pos ⟨rfl, by omega⟩, if_pos ⟨rfl, by omega⟩]
        beta_reduce
        rw [if_pos rfl]
        refine ⟨by omega, ?_⟩
        rw [List.length_dropLast, s]
      · have hne : ¬ r = range := fun hh => heq hh.symm
        rw [if_neg (fun hh => heq hh.1), if_neg (fun hh => heq hh.1)]
        beta_reduce
        rw [if_neg hne]
        exact ⟨p, s⟩
    · rw [hb, hc, List.getD_set_eq]
      by_cases heq : (range : Int) = k.Binding
      · have ht : k.Binding.toNat = range := by omega
        rw [if_pos heq, List.length_dropLast, if_pos ⟨ht.symm, by omega⟩]
        rw [ht] at h4
        omega
      · have ht : ¬ range = k.Binding.toNat := by omega
        rw [if_neg heq, if_neg (fun hh => ht hh.1)]
        exact h4
  by_cases heq : (range : Int) = k.Binding
  · have ht : k.Binding.toNat = range := by omega
    have hbne : d.bindingTypes ≠ [] := by
      intro hnil
      rw [hnil, ht] at h4
      simp only [List.length_nil, Nat.cast_zero] at h4
      omega
    obtain ⟨b, hbl⟩ : ∃ x, d.bindingTypes.getLast? = some x :=
      ⟨_, List.getLast?_eq_getLast _ hbne⟩
    by_cases hbit : d.inProgressRanges &&& QmlProfilerTraceClientPrivate.bit range ≠ 0
    · simp only [if_pos hbit, hlast, if_pos heq, hbl]
      split_ifs <;> exact ⟨_, rfl, key _ rfl rfl (by rw [if_pos heq])⟩
    · simp only [if_neg hbit, hlast, if_pos heq, hbl]
      split_ifs <;> exact ⟨_, rfl, key _ rfl rfl (by rw [if_pos heq])⟩
  · by_cases hbit : d.inProgressRanges &&& QmlProfilerTraceClientPrivate.bit range ≠ 0
    · simp only [if_pos hbit, hlast, if_neg heq]
      split_ifs <;> exact ⟨_, rfl, key _ rfl rfl (by rw [if_neg heq])⟩
    · simp only [if_neg hbit, hlast, if_neg heq]
      split_ifs <;> exact ⟨_, rfl, key _ rfl rfl (by rw [if_neg heq])⟩

/-- The loop of `clearData` over the event types in `l` empties the stacks of these event
types and leaves the counts and the binding types as they were. -/
theorem QmlProfilerTraceClient.clearData_loop (l : List Nat) :
    ∀ d : QmlProfilerTraceClientPrivate,
      (l.foldl (fun (d : QmlProfilerTraceClientPrivate) eventType =>
          ({ d with
            rangeDatas := d.rangeDatas.set eventType [],
            rangeLocations := d.rangeLocations.set eventType [],
            rangeStartTimes := d.rangeStartTimes.set eventType [] } :
            QmlProfilerTraceClientPrivate)) d).rangeCount = d.rangeCount ∧
      (l.foldl (fun (d : QmlProfilerTraceClientPrivate) eventType =>
          ({ d with
            rangeDatas := d.rangeDatas.set eventType [],
            rangeLocations := d.rangeLocations.set eventType [],
            rangeStartTimes := d.rangeStartTimes.set eventType [] } :
            QmlProfilerTraceClientPrivate)) d).rangeStartTimes.length
        = d.rangeStartTimes.length ∧
      ∀ r, (l.foldl (fun (d : QmlProfilerTraceClientPrivate) eventType =>
          ({ d with
            rangeDatas := d.rangeDatas.set eventType [],
            rangeLocations := d.rangeLocations.set eventType [],
            rangeStartTimes := d.rangeStartTimes.set eventType [] } :
            QmlProfilerTraceClientPrivate)) d).rangeStartTimes.getD r []
        = if r ∈ l then [] else d.rangeStartTimes.getD r [] := by
  induction l with
  | nil => intro d; exact ⟨rfl, rfl, fun r => by simp⟩
  | cons e rest ih =>
    intro d
    simp only [List.foldl_cons]
    obtain ⟨h1, h2, h3⟩ := ih
      ({ d with
        rangeDatas := d.rangeDatas.set e [],
        rangeLocations := d.rangeLocations.set e [],
        rangeStartTimes := d.rangeStartTimes.set e [] } : QmlProfilerTraceClientPrivate)
    refine ⟨h1, by rw [h2, List.length_set], ?_⟩
    intro r
    rw [h3 r]
    simp only [List.getD_set_eq, List.mem_cons]
    by_cases hr : r ∈ rest
    · simp [hr]
    · by_cases hre : r = e
      · subst hre
        by_cases hlt : r < d.rangeStartTimes.length
        · simp [hlt]
        · simp [hr, hlt, List.getD_eq_getElem?_getD,
            List.getElem?_eq_none (Nat.le_of_not_lt hlt)]
      · have hne : ¬ e = r := fun hh => hre hh.symm
        simp [hr, hre, hne]

/-- `clearData` returns to the invariant of the initial state, with no range in
progress. -/
theorem QmlProfilerTraceClient.clearData_invariant (k : QmlProfilerEnums)
    (d : QmlProfilerTraceClientPrivate) (depth : Nat → Nat)
    (hinv : QmlProfilerTraceClientPrivate.Invariant k d depth) :
    QmlProfilerTraceClientPrivate.Invariant k (QmlProfilerTraceClient.clearData k d).1
      (fun _ => 0) := by
  obtain ⟨h1, h2, h3, h4⟩ := hinv
  obtain ⟨hc, hl, hg⟩ := QmlProfilerTraceClient.clearData_loop
    (List.range k.MaximumQmlEventType.toNat)
    ({ d with rangeCount := List.replicate k.MaximumQmlEventType.toNat 0 } :
      QmlProfilerTraceClientPrivate)
  have hzero : ∀ r, (List.replicate k.MaximumQmlEventType.toNat (0 : Int)).getD r 0 = 0 := by
    intro r
    rw [List.getD_eq_getElem?_getD, List.getElem?_replicate]
    split_ifs <;> rfl
  have e1 : (QmlProfilerTraceClient.clearData k d).1.rangeCount
      = List.replicate k.MaximumQmlEventType.toNat 0 := hc
  have e2 : (QmlProfilerTraceClient.clearData k d).1.rangeStartTimes.length
      = d.rangeStartTimes.length := hl
  have e3 : ∀ r, (QmlProfilerTraceClient.clearData k d).1.rangeStartTimes.getD r []
      = if r ∈ List.range k.MaximumQmlEventType.toNat then []
        else d.rangeStartTimes.getD r [] := hg
  have e4 : (QmlProfilerTraceClient.clearData k d).1.bindingTypes = [] := rfl
  refine ⟨?_, ?_, ?_, ?_⟩
  · rw [e1, List.length_replicate]
  · rw [e2]
    exact h2
  · intro r hr
    rw [e1, e3 r, if_pos (List.mem_range.mpr hr)]
    simp only [hzero]
    exact ⟨rfl, rfl⟩
  · rw [e1, e4]
    simp only [hzero]
    rfl

/-- The initial state has the invariant, with no range in progress. -/
theorem QmlProfilerTraceClientPrivate.new_invariant (k : QmlProfilerEnums) :
    QmlProfilerTraceClientPrivate.Invariant k (QmlProfilerTraceClientPrivate.new k)
      (fun _ => 0) := by
  have hzero : ∀ r, (List.replicate k.MaximumQmlEventType.toNat (0 : Int)).getD r 0 = 0 := by
    intro r
    rw [List.getD_eq_getElem?_getD, List.getElem?_replicate]
    split_ifs <;> rfl
  have hnil : ∀ r, (List.replicate k.MaximumQmlEventType.toNat ([] : List Int)).getD r [] = [] := by
    intro r
    rw [List.getD_eq_getElem?_getD, List.getElem?_replicate]
    split_ifs <;> rfl
  refine ⟨List.length_replicate _ _, List.length_replicate _ _, ?_, ?_⟩
  · intro r _
    show (List.replicate _ (0 : Int)).getD r 0 = _ ∧ _
    simp only [QmlProfilerTraceClientPrivate.new, hzero, hnil]
    exact ⟨rfl, rfl⟩
  · simp only [QmlProfilerTraceClientPrivate.new, hzero]
    rfl

/-- The number of ranges in progress after a message from which a range that is not negative
is read. -/
theorem QmlProfilerCall.openRanges_message (k : QmlProfilerEnums) (r n : Nat)
    (msg : QmlProfilerMessage) (hreads : msg.readsRange k = true) (hnonneg : 0 ≤ msg.range) :
    QmlProfilerCall.openRanges k r n (.messageReceived msg)
      = if r = msg.range.toNat then
          (if msg.messageType = k.RangeStart then n + 1
           else if msg.messageType = k.RangeData ∨ msg.messageType = k.RangeLocation then n
           else n - 1)
        else n := by
  simp only [QmlProfilerCall.openRanges]
  by_cases heq : r = msg.range.toNat
  · have hc : msg.readsRange k = true ∧ msg.range = (r : Int) := ⟨hreads, by omega⟩
    rw [if_pos hc, if_pos heq]
  · have hc : ¬ (msg.readsRange k = true ∧ msg.range = (r : Int)) := fun hh => heq (by omega)
    rw [if_neg hc, if_neg heq]

/-- The number of ranges in progress after a message from which no range is read, or a range
outside the range types. -/
theorem QmlProfilerCall.openRanges_other (k : QmlProfilerEnums) (r n : Nat)
    (msg : QmlProfilerMessage) (hr : r < k.MaximumQmlEventType.toNat)
    (hno : msg.readsRange k = false ∨ msg.range ≥ k.MaximumQmlEventType) :
    QmlProfilerCall.openRanges k r n (.messageReceived msg) = n := by
  simp only [QmlProfilerCall.openRanges]
  rw [if_neg]
  rintro ⟨h1, h2⟩
  rcases hno with hno | hno
  · rw [h1] at hno
    exact Bool.noConfusion hno
  · omega

/-- `messageReceived` returns and keeps the invariant, with the ranges in progress that the
message leaves, when the range that it reads is not negative and the counts fit in an
`int`. -/
theorem QmlProfilerTraceClient.messageReceived_invariant (k : QmlProfilerEnums)
    (d : QmlProfilerTraceClientPrivate) (msg : QmlProfilerMessage) (depth : Nat → Nat)
    (hinv : QmlProfilerTraceClientPrivate.Invariant k d depth)
    (hn : ∀ r, r < k.MaximumQmlEventType.toNat →
      QmlProfilerCall.openRanges k r (depth r) (.messageReceived msg) < 2 ^ 31)
    (hB : 0 ≤ k.Binding)
    (hrange : (QmlProfilerCall.messageReceived msg).rangeNotNegative k = true) :
    ∃ r, QmlProfilerTraceClient.messageReceived k d msg = some r ∧
      QmlProfilerTraceClientPrivate.Invariant k r.1
        (fun r => QmlProfilerCall.openRanges k r (depth r) (.messageReceived msg)) := by
  have hsame : ∀ (d1 : QmlProfilerTraceClientPrivate) (signals : List QmlProfilerSignal),
      (msg.readsRange k = false ∨ msg.range ≥ k.MaximumQmlEventType) →
      d1.rangeCount = d.rangeCount → d1.rangeStartTimes = d.rangeStartTimes →
      d1.bindingTypes = d.bindingTypes →
      ∃ r, some (d1, signals) = some r ∧
      QmlProfilerTraceClientPrivate.Invariant k r.1
        (fun r => QmlProfilerCall.openRanges k r (depth r) (.messageReceived msg)) :=
    fun d1 signals hno e1 e2 e3 => ⟨_, rfl,
      QmlProfilerTraceClientPrivate.Invariant.congr k d d1 depth _ hinv
        (fun r hr => QmlProfilerCall.openRanges_other k r (depth r) msg hr hno) e1 e2 e3⟩
  have hreads : ∀ p : Prop, (¬ (msg.messageType < k.MaximumMessage ∧ msg.messageType ≠ k.Event
      ∧ msg.messageType ≠ k.Complete)) → (msg.readsRange k = false ∨ p) := by
    intro p hp
    left
    simp only [QmlProfilerMessage.readsRange, decide_eq_false_iff_not]
    exact hp
  unfold QmlProfilerTraceClient.messageReceived
  simp only []
  by_cases hmax : msg.messageType ≥ k.MaximumMessage
  · rw [if_pos hmax]
    exact hsame _ _ (hreads _ (fun hh => by omega)) rfl rfl rfl
  rw [if_neg hmax]
  by_cases hev : msg.messageType = k.Event
  · rw [if_pos hev]
    obtain ⟨e1, e2, e3⟩ := QmlProfilerTraceClient.eventReceived_frame k d msg
    exact hsame _ _ (hreads _ (fun hh => hh.2.1 hev)) e1 e2 e3
  rw [if_neg hev]
  by_cases hco : msg.messageType = k.Complete
  · rw [if_pos hco]
    exact hsame _ _ (hreads _ (fun hh => hh.2.2 hco)) rfl rfl rfl
  rw [if_neg hco]
  by_cases hhi : msg.range ≥ k.MaximumQmlEventType
  · rw [if_pos hhi]
    exact hsame _ _ (Or.inr hhi) rfl rfl rfl
  rw [if_neg hhi]
  have hrd : msg.readsRange k = true := by
    simp only [QmlProfilerMessage.readsRange, decide_eq_true_eq]
    exact ⟨by omega, hev, hco⟩
  have hnonneg : 0 ≤ msg.range := by
    simp only [QmlProfilerCall.rangeNotNegative, hrd, Bool.not_true, Bool.false_or,
      decide_eq_true_eq] at hrange
    exact hrange
  have hidx : QmlProfilerTraceClientPrivate.index k msg.range = some msg.range.toNat := by
    unfold QmlProfilerTraceClientPrivate.index
    rw [if_pos ⟨hnonneg, by omega⟩]
  have hr : msg.range.toNat < k.MaximumQmlEventType.toNat := by omega
  have hstep := fun r => QmlProfilerCall.openRanges_message k r (depth r) msg hrd hnonneg
  simp only [hidx]
  by_cases hst : msg.messageType = k.RangeStart
  · rw [if_pos hst]
    have hfit := hn _ hr
    rw [hstep, if_pos rfl, if_pos hst] at hfit
    refine ⟨_, rfl, QmlProfilerTraceClientPrivate.Invariant.congr k _ _ _ _
      (QmlProfilerTraceClient.rangeStart_invariant k d msg _ depth hinv hfit hB hr)
      ?_ rfl rfl rfl⟩
    intro r _
    rw [hstep, if_pos hst]
  rw [if_neg hst]
  by_cases hda : msg.messageType = k.RangeData
  · rw [if_pos hda]
    obtain ⟨e1, e2, e3⟩ := (QmlProfilerTraceClient.rangeData_frame d msg msg.range.toNat).1
    refine ⟨_, rfl, QmlProfilerTraceClientPrivate.Invariant.congr k d _ depth _ hinv
      ?_ e1 e2 e3⟩
    intro r _
    rw [hstep, if_neg hst, if_pos (Or.inl hda), ite_self]
  rw [if_neg hda]
  by_cases hlo : msg.messageType = k.RangeLocation
  · rw [if_pos hlo]
    obtain ⟨e1, e2, e3⟩ := (QmlProfilerTraceClient.rangeData_frame d msg msg.range.toNat).2
    refine ⟨_, rfl, QmlProfilerTraceClientPrivate.Invariant.congr k d _ depth _ hinv
      ?_ e1 e2 e3⟩
    intro r _
    rw [hstep, if_neg hst, if_pos (Or.inr hlo), ite_self]
  rw [if_neg hlo]
  obtain ⟨r, hre, hri⟩ := QmlProfilerTraceClient.rangeEnd_invariant k d msg _ depth hinv hB hr
  rw [hre]
  refine ⟨_, rfl, QmlProfilerTraceClientPrivate.Invariant.congr k r.1 _ _ _ hri ?_
    rfl rfl rfl⟩
  intro i _
  have hdl : ¬ (msg.messageType = k.RangeData ∨ msg.messageType = k.RangeLocation) :=
    fun hh => hh.elim hda hlo
  rw [hstep, if_neg hst, if_neg hdl]

/-- A sequence of calls returns and keeps the invariant, with the ranges in progress that
the calls leave, when no count leaves the range of an `int` on the way. -/
theorem QmlProfilerTraceClient.run_invariant (k : QmlProfilerEnums) (hB : 0 ≤ k.Binding) :
    ∀ (calls : List QmlProfilerCall) (d : QmlProfilerTraceClientPrivate) (depth : Nat → Nat),
      QmlProfilerTraceClientPrivate.Invariant k d depth →
      (∀ n, n ≤ calls.length → ∀ r, r < k.MaximumQmlEventType.toNat →
        (calls.take n).foldl (QmlProfilerCall.openRanges k r) (depth r) < 2 ^ 31) →
      (∀ c ∈ calls, c.rangeNotNegative k = true) →
      ∃ r, QmlProfilerTraceClient.run k calls d = some r ∧
        QmlProfilerTraceClientPrivate.Invariant k r.1
          (fun r => calls.foldl (QmlProfilerCall.openRanges k r) (depth r)) := by
  intro calls
  induction calls with
  | nil => intro d depth hinv _ _; exact ⟨_, rfl, hinv⟩
  | cons c rest ih =>
    intro d depth hinv hfit hrange
    have hrest : ∀ n, n ≤ rest.length → ∀ r, r < k.MaximumQmlEventType.toNat →
        (rest.take n).foldl (QmlProfilerCall.openRanges k r)
          (QmlProfilerCall.openRanges k r (depth r) c) < 2 ^ 31 := by
      intro n hn r hr
      have h := hfit (n + 1) (by simp only [List.length_cons]; omega) r hr
      simpa only [List.take_succ_cons, List.foldl_cons] using h
    cases c with
    | clearData =>
      have h0 := QmlProfilerTraceClient.clearData_invariant k d depth hinv
      obtain ⟨r, hr, hri⟩ := ih _ _ h0 hrest
        (fun c hc => hrange c (List.mem_cons_of_mem _ hc))
      simp only [QmlProfilerTraceClient.run, hr, Option.map_some']
      exact ⟨_, rfl, hri⟩
    | messageReceived msg =>
      have hone : ∀ r, r < k.MaximumQmlEventType.toNat →
          QmlProfilerCall.openRanges k r (depth r) (.messageReceived msg) < 2 ^ 31 := by
        intro r hr
        have h := hrest 0 (Nat.zero_le _) r hr
        simpa only [List.take_zero, List.foldl_nil] using h
      obtain ⟨r1, hr1, hi1⟩ := QmlProfilerTraceClient.messageReceived_invariant k d msg depth
        hinv hone hB (hrange _ (List.mem_cons_self _ _))
      obtain ⟨r, hr, hri⟩ := ih r1.1 _ hi1 hrest
        (fun c hc => hrange c (List.mem_cons_of_mem _ hc))
      simp only [QmlProfilerTraceClient.run, hr1, hr, Option.map_some']
      exact ⟨_, rfl, hri⟩

/-- The message `profilerScenarioStart` takes the range-start branch for the range type
0. -/
theorem QmlProfilerTraceClient.messageReceived_scenarioStart
    (d : QmlProfilerTraceClientPrivate) :
    ∃ signals, QmlProfilerTraceClient.messageReceived profilerScenarioEnums d
        profilerScenarioStart
      = some ((QmlProfilerTraceClient.rangeStart profilerScenarioEnums d
          profilerScenarioStart 0).1, signals) := by
  unfold QmlProfilerTraceClient.messageReceived
  simp only []
  rw [if_neg (by decide), if_neg (by decide), if_neg (by decide), if_neg (by decide)]
  have hidx : QmlProfilerTraceClientPrivate.index profilerScenarioEnums
      profilerScenarioStart.range = some 0 := by decide
  simp only [hidx]
  rw [if_pos (by decide)]
  exact ⟨_, rfl⟩

/-- After `n` range starts of type 0 the count of the type is the `int` value of the count
before them plus `n`. -/
theorem QmlProfilerTraceClient.run_scenarioStart (n : Nat) :
    ∀ d : QmlProfilerTraceClientPrivate, 0 < d.rangeCount.length →
      int32 (d.rangeCount.getD 0 0) = d.rangeCount.getD 0 0 →
      ∃ r, QmlProfilerTraceClient.run profilerScenarioEnums
          (List.replicate n (.messageReceived profilerScenarioStart)) d = some r ∧
        r.1.rangeCount.getD 0 0 = int32 (d.rangeCount.getD 0 0 + n) := by
  induction n with
  | zero =>
    intro d _ hd
    refine ⟨_, rfl, ?_⟩
    simp only [Nat.cast_zero, add_zero, hd]
  | succ n ih =>
    intro d hlen hd
    obtain ⟨signals, hm⟩ := QmlProfilerTraceClient.messageReceived_scenarioStart d
    obtain ⟨hc, _, _⟩ := QmlProfilerTraceClient.rangeStart_fields profilerScenarioEnums d
      profilerScenarioStart 0
    have hget : (QmlProfilerTraceClient.rangeStart profilerScenarioEnums d
        profilerScenarioStart 0).1.rangeCount.getD 0 0 = int32 (d.rangeCount.getD 0 0 + 1) := by
      rw [hc, List.getD_set_eq, if_pos ⟨rfl, hlen⟩]
    obtain ⟨r, hr, hcount⟩ := ih
      (QmlProfilerTraceClient.rangeStart profilerScenarioEnums d profilerScenarioStart 0).1
      (by rw [hc, List.length_set]; exact hlen)
      (by rw [hget]; exact (int32_add _ 0).2)
    simp only [List.replicate_succ, QmlProfilerTraceClient.run, hm, hr, Option.map_some']
    refine ⟨_, rfl, ?_⟩
    rw [hcount, hget, (int32_add _ _).1]
    congr 1
    push_cast
    omega

/-- C38 (amended). From the initial state, every sequence of calls of `clearData` and
`messageReceived` in which no message carries a negative range index and in which, after
every call, fewer than 2^31 ranges of each type are in progress, returns, for any
enumerators in which `Binding` is one of the range types. In the state reached, for every
range type `r` the count `rangeCount[r]` is not negative, is the number of ranges of type
`r` in progress and is the size of `rangeStartTimes[r]`, and the size of `bindingTypes` is
`rangeCount[Binding]`; hence the range-end branch returns for every message and every range
type, without popping an empty stack of start times or of binding types. -/
theorem QmlProfilerTraceClient.rangeCount_stack_sizes (k : QmlProfilerEnums)
    (calls : List QmlProfilerCall)
    (hB : 0 ≤ k.Binding ∧ k.Binding < k.MaximumQmlEventType)
    (hrange : ∀ c ∈ calls, c.rangeNotNegative k = true)
    (hdepth : ∀ n ≤ calls.length, ∀ r < k.MaximumQmlEventType.toNat,
      QmlProfilerTraceClient.openRanges k r (calls.take n) < 2 ^ 31) :
    ∃ d signals,
      QmlProfilerTraceClient.run k calls (QmlProfilerTraceClientPrivate.new k)
        = some (d, signals) ∧
      (∀ r : Nat, (r : Int) < k.MaximumQmlEventType →
        0 ≤ d.rangeCount.getD r 0 ∧
        d.rangeCount.getD r 0 = (QmlProfilerTraceClient.openRanges k r calls : Int) ∧
        ((d.rangeStartTimes.getD r []).length : Int) = d.rangeCount.getD r 0 ∧
        ∀ msg, (QmlProfilerTraceClient.rangeEnd k d msg r).isSome = true) ∧
      (d.bindingTypes.length : Int) = d.rangeCount.getD k.Binding.toNat 0 := by
  obtain ⟨r, hr, hinv⟩ := QmlProfilerTraceClient.run_invariant k hB.1 calls
    (QmlProfilerTraceClientPrivate.new k) (fun _ => 0)
    (QmlProfilerTraceClientPrivate.new_invariant k) hdepth hrange
  refine ⟨r.1, r.2, hr, ?_, hinv.2.2.2⟩
  intro i hi
  have hlt : i < k.MaximumQmlEventType.toNat := by omega
  obtain ⟨p, s⟩ := hinv.2.2.1 i hlt
  refine ⟨by rw [p]; exact Int.natCast_nonneg _, p, by rw [p, s], ?_⟩
  intro msg
  obtain ⟨e, he, _⟩ := QmlProfilerTraceClient.rangeEnd_invariant k r.1 msg i _ hinv hB.1 hlt
  rw [he]
  rfl

/-- Witness for C38: the session of the scenario, which ends with one range of type 0 in
progress. -/
theorem QmlProfilerTraceClient.rangeCount_stack_sizes_witness :
    (0 ≤ profilerScenarioEnums.Binding
      ∧ profilerScenarioEnums.Binding < profilerScenarioEnums.MaximumQmlEventType) ∧
    (∀ c ∈ profilerScenarioCalls, c.rangeNotNegative profilerScenarioEnums = true) ∧
    (∀ n ≤ profilerScenarioCalls.length,
      ∀ r < profilerScenarioEnums.MaximumQmlEventType.toNat,
        QmlProfilerTraceClient.openRanges profilerScenarioEnums r
          (profilerScenarioCalls.take n) < 2 ^ 31) ∧
    ∃ d signals,
      QmlProfilerTraceClient.run profilerScenarioEnums profilerScenarioCalls
        (QmlProfilerTraceClientPrivate.new profilerScenarioEnums) = some (d, signals) ∧
      (∀ r : Nat, (r : Int) < profilerScenarioEnums.MaximumQmlEventType →
        0 ≤ d.rangeCount.getD r 0 ∧
        d.rangeCount.getD r 0
          = (QmlProfilerTraceClient.openRanges profilerScenarioEnums r
              profilerScenarioCalls : Int) ∧
        ((d.rangeStartTimes.getD r []).length : Int) = d.rangeCount.getD r 0 ∧
        ∀ msg, (QmlProfilerTraceClient.rangeEnd profilerScenarioEnums d msg r).isSome = true) ∧
      (d.bindingTypes.length : Int) = d.rangeCount.getD profilerScenarioEnums.Binding.toNat 0 :=
  ⟨by decide, by decide, by decide,
   QmlProfilerTraceClient.rangeCount_stack_sizes profilerScenarioEnums profilerScenarioCalls
     (by decide) (by decide) (by decide)⟩

/-- C38 (counterexample). With the enumerators of the scenario, 2^31 range starts of type 0
from the initial state are a sequence of `messageReceived` calls whose range index, 0, is
in [0, `MaximumQmlEventType`), and they leave `rangeCount[0]` negative: the `int` count has
wrapped to -2^31. -/
theorem QmlProfilerTraceClient.rangeCount_stack_sizes_counterexample :
    (∀ c ∈ List.replicate (2 ^ 31) (QmlProfilerCall.messageReceived profilerScenarioStart),
      c.rangeNotNegative profilerScenarioEnums = true) ∧
    profilerScenarioStart.range < profilerScenarioEnums.MaximumQmlEventType ∧
    ∃ d signals,
      QmlProfilerTraceClient.run profilerScenarioEnums
        (List.replicate (2 ^ 31) (QmlProfilerCall.messageReceived profilerScenarioStart))
        (QmlProfilerTraceClientPrivate.new profilerScenarioEnums) = some (d, signals) ∧
      d.rangeCount.getD 0 0 = -2147483648 ∧
      ¬ 0 ≤ d.rangeCount.getD 0 0 := by
  refine ⟨?_, by decide, ?_⟩
  · intro c hc
    rw [(List.mem_replicate.mp hc).2]
    decide
  · obtain ⟨r, hr, hcount⟩ := QmlProfilerTraceClient.run_scenarioStart (2 ^ 31)
      (QmlProfilerTraceClientPrivate.new profilerScenarioEnums) (by decide) (by decide)
    have hzero : (QmlProfilerTraceClientPrivate.new profilerScenarioEnums).rangeCount.getD 0 0
        = 0 := by decide
    have hval : r.1.rangeCount.getD 0 0 = -2147483648 := by
      rw [hcount, hzero]
      unfold int32
      norm_num
    exact ⟨r.1, r.2, hr, hval, by rw [hval]; decide⟩

/-- C39 (what the code does). For a message from which `messageReceived` reads a range (the
type is below `MaximumMessage` and is neither `Event` nor `Complete`), only the upper bound
of the range index is tested. With an index of `MaximumQmlEventType` or more the call
returns and leaves the state unchanged. With an index below `MaximumQmlEventType` the
per-range arrays are indexed with it, also when it is negative: then the index is outside
the arrays and the call does not return in the model, for every state and whichever of the
four range branches is taken. -/
theorem QmlProfilerTraceClient.messageReceived_range_index (k : QmlProfilerEnums)
    (d : QmlProfilerTraceClientPrivate) (msg : QmlProfilerMessage)
    (hreads : msg.readsRange k = true) :
    (k.MaximumQmlEventType ≤ msg.range →
      ∃ signals, QmlProfilerTraceClient.messageReceived k d msg = some (d, signals)) ∧
    (msg.range < k.MaximumQmlEventType → msg.range < 0 →
      QmlProfilerTraceClient.messageReceived k d msg = none) := by
  simp only [QmlProfilerMessage.readsRange, decide_eq_true_eq] at hreads
  obtain ⟨hmax, hev, hco⟩ := hreads
  unfold QmlProfilerTraceClient.messageReceived
  simp only []
  rw [if_neg (by omega), if_neg hev, if_neg hco]
  constructor
  · intro hhi
    rw [if_pos hhi]
    exact ⟨_, rfl⟩
  · intro hlo hneg
    rw [if_neg (by omega)]
    have hidx : QmlProfilerTraceClientPrivate.index k msg.range = none := by
      unfold QmlProfilerTraceClientPrivate.index
      rw [if_neg (fun hh => by omega)]
    simp only [hidx]

/-- Witness for C39: a range start with the range index -1, received in the initial state. -/
theorem QmlProfilerTraceClient.messageReceived_range_index_witness :
    profilerScenarioNegative.readsRange profilerScenarioEnums = true ∧
    profilerScenarioNegative.range < profilerScenarioEnums.MaximumQmlEventType ∧
    profilerScenarioNegative.range < 0 ∧
    QmlProfilerTraceClient.messageReceived profilerScenarioEnums
      (QmlProfilerTraceClientPrivate.new profilerScenarioEnums) profilerScenarioNegative
      = none :=
  ⟨by decide, by decide, by decide,
   (QmlProfilerTraceClient.messageReceived_range_index profilerScenarioEnums
      (QmlProfilerTraceClientPrivate.new profilerScenarioEnums) profilerScenarioNegative
      (by decide)).2 (by decide) (by decide)⟩

end QmlJS
